import Mathlib

/-!
Packed integer set (`src/datastructure/intset.c`).

A byte-level embedding of the intset: the header fields `encoding` and `length`
are 32-bit unsigned numbers, `contents` is the byte buffer that follows the
header.  Elements are stored little-endian in two's complement (the
`memrevNNifbe` helpers make the stored form little-endian on every host, so
they are the identity on the logical value here).

Unsigned 32-bit arithmetic of the source is written with an explicit
`% 2 ^ 32`.  Reading a byte outside the buffer yields `0` and writing outside
the buffer is dropped; on well-formed sets with room for the new element neither
happens.
-/

namespace Intset

/-! ## Definitions -/

/-- One byte of the `contents` buffer. -/
abbrev Byte := Fin 256

/-- Modulus of `uint32_t` arithmetic. -/
def U32 : Nat := 2 ^ 32

def INT16_MIN : Int := -32768

def INT16_MAX : Int := 32767

def INT32_MIN : Int := -2147483648

def INT32_MAX : Int := 2147483647

def INT64_MIN : Int := -9223372036854775808

def INT64_MAX : Int := 9223372036854775807

/-- Encoding tag of 16-bit elements, `sizeof(int16_t)`. -/
def INTSET_ENC_INT16 : Nat := 2

/-- Encoding tag of 32-bit elements, `sizeof(int32_t)`. -/
def INTSET_ENC_INT32 : Nat := 4

/-- Encoding tag of 64-bit elements, `sizeof(int64_t)`. -/
def INTSET_ENC_INT64 : Nat := 8

/-- The `intset` struct: `uint32_t encoding; uint32_t length; int8_t contents[]`. -/
structure intset where
  encoding : Nat
  length : Nat
  contents : List Byte
deriving DecidableEq, Repr

/-- A value of type `int64_t`. -/
def isInt64 (v : Int) : Prop := INT64_MIN ≤ v ∧ v ≤ INT64_MAX

instance (v : Int) : Decidable (isInt64 v) := by unfold isInt64; infer_instance

/-- Return the required encoding for the provided value. -/
def _intsetValueEncoding (v : Int) : Nat :=
  if v < INT32_MIN ∨ v > INT32_MAX then INTSET_ENC_INT64
  else if v < INT16_MIN ∨ v > INT16_MAX then INTSET_ENC_INT32
  else INTSET_ENC_INT16

/-- The `w` bytes starting at byte offset `off`, as `memcpy(&v, buf + off, w)` reads them. -/
def loadBytes (c : List Byte) (off w : Nat) : List Byte :=
  (List.range w).map (fun k => c.getD (off + k) 0)

/-- Sequential byte store at byte offset `off`. -/
def storeBytes : List Byte → Nat → List Byte → List Byte
  | c, _, [] => c
  | c, off, b :: bs => storeBytes (c.set off b) (off + 1) bs

/-- The unsigned number a little-endian byte string denotes. -/
def leToNat : List Byte → Nat
  | [] => 0
  | b :: bs => b.val + 256 * leToNat bs

/-- The `w` little-endian bytes of the unsigned number `u` (high bytes dropped). -/
def natToLE : Nat → Nat → List Byte
  | 0, _ => []
  | w + 1, u => ⟨u % 256, Nat.mod_lt _ (by decide)⟩ :: natToLE w (u / 256)

/-- Two's complement reading of a `w`-byte unsigned number. -/
def toSigned (w : Nat) (u : Nat) : Int :=
  if u < 2 ^ (8 * w - 1) then (u : Int) else (u : Int) - 2 ^ (8 * w)

/-- Conversion of an `int64_t` to the `w`-byte integer type (keeps the low bytes). -/
def toUnsigned (w : Nat) (v : Int) : Nat := (v % 2 ^ (8 * w)).toNat

/-- Element width selected by the `if (enc == INT64) .. else if (enc == INT32) .. else`
chain shared by `_intsetGetEncoded`, `_intsetSet` and `intsetMoveTail`. -/
def encWidth (enc : Nat) : Nat :=
  if enc = INTSET_ENC_INT64 then 8 else if enc = INTSET_ENC_INT32 then 4 else 2

/-- Return the value at pos, given an encoding (a `uint8_t` argument). -/
def _intsetGetEncoded (is : intset) (pos : Nat) (enc : Nat) : Int :=
  toSigned (encWidth enc) (leToNat (loadBytes is.contents (pos * encWidth enc) (encWidth enc)))

/-- Return the value at pos, using the configured encoding. -/
def _intsetGet (is : intset) (pos : Nat) : Int :=
  _intsetGetEncoded is pos (is.encoding % 256)

/-- Set the value at pos, using the configured encoding. -/
def _intsetSet (is : intset) (pos : Nat) (value : Int) : intset :=
  let w := encWidth is.encoding
  { is with contents := storeBytes is.contents (pos * w) (natToLE w (toUnsigned w value)) }

/-- Create an empty intset. -/
def intsetNew : intset :=
  { encoding := INTSET_ENC_INT16, length := 0, contents := [] }

/-- Modelled from the spec: `zrealloc` (declared in `zmalloc.h`, not part of the
sources at hand) applied to the contents buffer.  The buffer is "an owned growable
buffer with explicit length": it becomes `size` bytes long, the bytes already there
are kept and the bytes gained are taken to be zero. -/
def zrealloc (c : List Byte) (size : Nat) : List Byte :=
  c.take size ++ List.replicate (size - c.length) 0

/-- Resize the intset: the buffer becomes `len * encoding` bytes (32-bit product). -/
def intsetResize (is : intset) (len : Nat) : intset :=
  let size := (len * is.encoding) % U32
  { is with contents := zrealloc is.contents size }

/-- Conversion of a `uint32_t` to `int`. -/
def toInt32 (u : Nat) : Int := if u < 2 ^ 31 then (u : Int) else (u : Int) - 2 ^ 32

/-- The `while (max >= min)` loop of `intsetSearch` on the state
`(min, max, mid, cur)`; `none` when the iteration budget runs out. -/
def intsetSearchLoop (is : intset) (value : Int) :
    Nat → Int → Int → Int → Int → Option (Int × Int × Int × Int)
  | 0, min, max, mid, cur => if max ≥ min then none else some (min, max, mid, cur)
  | fuel + 1, min, max, mid, cur =>
    if max ≥ min then
      let mid' : Int := ((min % 2 ^ 32 + max % 2 ^ 32) % 2 ^ 32) / 2
      let cur' := _intsetGet is mid'.toNat
      if value > cur' then intsetSearchLoop is value fuel (mid' + 1) max mid' cur'
      else if value < cur' then intsetSearchLoop is value fuel min (mid' - 1) mid' cur'
      else some (min, max, mid', cur')
    else some (min, max, mid, cur)

/-- Search for the position of "value".  Returns `(1, pos)` when the value was
found at `pos`, `(0, pos)` when it is absent and `pos` is where it can be
inserted.  The loop gets `length + 1` iterations, which always suffice
(`intsetSearch_loop_returns`). -/
def intsetSearch (is : intset) (value : Int) : Nat × Nat :=
  let max : Int := toInt32 ((is.length + U32 - 1) % U32)
  if is.length = 0 then (0, 0)
  else if value > _intsetGet is max.toNat then (0, is.length)
  else if value < _intsetGet is 0 then (0, 0)
  else
    match intsetSearchLoop is value (is.length + 1) 0 max (-1) (-1) with
    | some (min, _, mid, cur) =>
      if value = cur then (1, (mid % 2 ^ 32).toNat) else (0, (min % 2 ^ 32).toNat)
    | none => (0, 0)

/-- The `while(length--)` loop of `intsetUpgradeAndAdd`: element `length`, read at
the old width, is rewritten at the new width at `length + prepend`, back to front. -/
def intsetUpgradeLoop (curenc prepend : Nat) : Nat → intset → intset
  | 0, is => is
  | length + 1, is =>
    intsetUpgradeLoop curenc prepend length
      (_intsetSet is (length + prepend) (_intsetGetEncoded is length curenc))

/-- Upgrades the intset to a larger encoding and inserts the given integer. -/
def intsetUpgradeAndAdd (is : intset) (value : Int) : intset :=
  let curenc := is.encoding % 256
  let newenc := _intsetValueEncoding value
  let length := is.length
  let prepend := if value < 0 then 1 else 0
  let is := { is with encoding := newenc }
  let is := intsetResize is ((is.length + 1) % U32)
  let is := intsetUpgradeLoop curenc prepend length is
  let is := if prepend = 1 then _intsetSet is 0 value else _intsetSet is is.length value
  { is with length := (is.length + 1) % U32 }

/-- The buffer after `memmove(dst, src, n)` between two of its own offsets. -/
def memmove (c : List Byte) (dst src n : Nat) : List Byte :=
  storeBytes c dst (loadBytes c src n)

/-- Move the elements from index `from` to the end so that they start at index `to`. -/
def intsetMoveTail (is : intset) («from» «to» : Nat) : intset :=
  let bytes := (is.length + U32 - «from») % U32
  let w := encWidth is.encoding
  let bytes := (bytes * w) % U32
  { is with contents := memmove is.contents («to» * w) («from» * w) bytes }

/-- Insert an integer in the intset; the second component is `*success`. -/
def intsetAdd (is : intset) (value : Int) : intset × Nat :=
  let valenc := _intsetValueEncoding value
  if valenc > is.encoding then
    (intsetUpgradeAndAdd is value, 1)
  else
    let r := intsetSearch is value
    if r.1 ≠ 0 then (is, 0)
    else
      let pos := r.2
      let is := intsetResize is ((is.length + 1) % U32)
      let is := if pos < is.length then intsetMoveTail is pos ((pos + 1) % U32) else is
      let is := _intsetSet is pos value
      ({ is with length := (is.length + 1) % U32 }, 1)

/-- Delete integer from intset; the second component is `*success`. -/
def intsetRemove (is : intset) (value : Int) : intset × Nat :=
  let valenc := _intsetValueEncoding value
  let r := intsetSearch is value
  if valenc ≤ is.encoding ∧ r.1 ≠ 0 then
    let pos := r.2
    let len := is.length
    let is := if pos < (len + U32 - 1) % U32 then intsetMoveTail is ((pos + 1) % U32) pos else is
    let is := intsetResize is ((len + U32 - 1) % U32)
    ({ is with length := (len + U32 - 1) % U32 }, 1)
  else (is, 0)

/-- Determine whether a value belongs to this set. -/
def intsetFind (is : intset) (value : Int) : Nat :=
  if _intsetValueEncoding value ≤ is.encoding ∧ (intsetSearch is value).1 ≠ 0 then 1 else 0

/-- Return intset length. -/
def intsetLen (is : intset) : Nat := is.length

/-- Get the value at the given position.  The result is the return value (0 when the
position is out of range, 1 when in range) and the content of `*value` afterwards,
`value` being its content before the call. -/
def intsetGet (is : intset) (pos : Nat) (value : Int) : Nat × Int :=
  if pos < is.length then (1, _intsetGet is pos) else (0, value)

/-- Modelled from the spec: `sizeof(intset)`, the struct being declared in `intset.h`,
which is not part of the sources at hand.  The header is "a 4-byte little-endian encoding
tag" and "a 4-byte little-endian element count"; the contents are a flexible array. -/
def sizeofIntset : Nat := 8

/-- Modulus of `size_t` arithmetic (64-bit). -/
def SIZE_T : Nat := 2 ^ 64

/-- Return intset blob size in bytes: `length * encoding` is a 32-bit product, the sum
with `sizeof(intset)` is a `size_t`. -/
def intsetBlobLen (is : intset) : Nat :=
  (sizeofIntset + (is.length * is.encoding) % U32) % SIZE_T

/-- The stored elements, in buffer order: positions `0 .. length-1` read with `_intsetGet`. -/
def elems (is : intset) : List Int :=
  (List.range is.length).map (_intsetGet is)

/-- The value `v` is representable in the signed `w`-byte integer type. -/
def fitsWidth (w : Nat) (v : Int) : Prop := -(2 ^ (8 * w - 1) : Int) ≤ v ∧ v < 2 ^ (8 * w - 1)

instance (w : Nat) (v : Int) : Decidable (fitsWidth w v) := by unfold fitsWidth; infer_instance

/-- An encoding tag the intset uses. -/
def validEnc (enc : Nat) : Prop := enc = 2 ∨ enc = 4 ∨ enc = 8

instance (enc : Nat) : Decidable (validEnc enc) := by unfold validEnc; infer_instance

/-- The element at index `pos` of a buffer of `w`-byte elements. -/
def getAt (c : List Byte) (w pos : Nat) : Int :=
  toSigned w (leToNat (loadBytes c (pos * w) w))

/-- The buffer after storing `v` as the `w`-byte element at index `pos`. -/
def setAt (c : List Byte) (w pos : Nat) (v : Int) : List Byte :=
  storeBytes c (pos * w) (natToLE w (toUnsigned w v))

/-- The elements read at positions `0 .. length-1` are strictly ascending. -/
def Ascending (is : intset) : Prop :=
  ∀ i j : Nat, i < j → j < is.length → _intsetGet is i < _intsetGet is j

/-- Well-formed intset: the encoding tag is one of the three widths, the buffer holds
exactly `length` elements of that width, its byte size is a `uint32_t`, and the stored
elements are strictly ascending. -/
def WF (is : intset) : Prop :=
  validEnc is.encoding ∧ is.contents.length = is.length * is.encoding ∧
  is.length * is.encoding < U32 ∧ (elems is).Pairwise (· < ·)

instance (is : intset) : Decidable (WF is) := by unfold WF; infer_instance

/-- The byte size of the buffer that holds one more element, at the wider of the set's
encoding and the encoding of `v`, is representable in the `uint32_t` in which
`intsetResize` computes it. -/
def hasRoom (is : intset) (v : Int) : Prop :=
  (is.length + 1) * max is.encoding (_intsetValueEncoding v) < U32

instance (is : intset) (v : Int) : Decidable (hasRoom is v) := by
  unfold hasRoom; infer_instance

/-- One mutation of a set: `intsetAdd` or `intsetRemove` of a value. -/
inductive Op where
  | add (v : Int)
  | remove (v : Int)
deriving DecidableEq, Repr

/-- The value an operation adds or removes. -/
def Op.value : Op → Int
  | Op.add v => v
  | Op.remove v => v

/-- The set after one operation (the success flag is dropped, as with `success == NULL`). -/
def applyOp (is : intset) : Op → intset
  | Op.add v => (intsetAdd is v).1
  | Op.remove v => (intsetRemove is v).1

/-- The set reached from `intsetNew()` by a sequence of adds and removes. -/
def runOps (ops : List Op) : intset := ops.foldl applyOp intsetNew

/-- Adds the values one by one to a new set and counts the adds that reported success,
as the "Large number of random adds" block of `intsetTest` does with `inserts`. -/
def addAll (vs : List Int) : intset × Nat :=
  vs.foldl (fun acc v => ((intsetAdd acc.1 v).1, acc.2 + (intsetAdd acc.1 v).2)) (intsetNew, 0)

/-- The narrowest of the three encodings that represents every value of the list
(16-bit for the empty list). -/
def minEncoding (l : List Int) : Nat :=
  l.foldr (fun x acc => max (_intsetValueEncoding x) acc) INTSET_ENC_INT16

/-- A sequence of operations that only adds. -/
def addOnly (ops : List Op) : Prop := ∀ op ∈ ops, ∃ v, op = Op.add v

/-- Return random member.  `r` is what `rand()` returned, a non-negative `int`; it is
converted to `uint32_t` for the modulus with `length`, and the remainder is the `int`
position read.  For an empty set the modulus is a division by zero: `none`. -/
def intsetRandom (is : intset) (r : Nat) : Option Int :=
  if is.length = 0 then none
  else some (_intsetGet is (toInt32 ((r % U32) % is.length)).toNat)

/-- Writes the values `vs` with `_intsetSet` at the positions `pos`, `pos + 1`, ... -/
def setAll : intset → Nat → List Int → intset
  | is, _, [] => is
  | is, pos, v :: vs => setAll (_intsetSet is pos v) (pos + 1) vs

/-- The mathematical finite set of integers an intset stands for. -/
def toFinset (is : intset) : Finset Int := (elems is).toFinset

/-- Insertion into a mathematical finite set of integers, as the specification of
`intsetAdd`. -/
def specAdd (s : Finset Int) (v : Int) : Finset Int := insert v s

/-- Deletion from a mathematical finite set of integers, as the specification of
`intsetRemove`. -/
def specRemove (s : Finset Int) (v : Int) : Finset Int := s.erase v

/-- The `n` consecutive values `base`, `base + 1`, ... -/
def consecutive (base : Int) (n : Nat) : List Int :=
  (List.range n).map (fun (i : Nat) => base + (i : Int))

/-- The set reached from `intsetNew()` by adding the `2^29 - 1` values `2^32`,
`2^32 + 1`, ... one by one: 64-bit elements in a buffer of `4294967288` bytes.  One more
element makes `(length + 1) * 8` equal to `2^32`. -/
def wrapSet64 : intset := runOps ((consecutive 4294967296 536870911).map Op.add)

/-- The set reached from `intsetNew()` by adding the `2^29 - 1` values `65536`, `65537`,
... one by one: 32-bit elements.  One more element at the 64-bit width makes
`(length + 1) * 8` equal to `2^32`. -/
def wrapSet32 : intset := runOps ((consecutive 65536 536870911).map Op.add)

end Intset

/-!
Doubly linked list (`src/datastructure/adlist.c`).

A pointer-level embedding: the heap maps addresses to `listNode` and `list` objects,
`0` is `NULL`, and every function of the source is a function on the heap in the
`Option` monad, `none` standing for the dereference of a pointer that is NULL or not
live.  What `zmalloc` returns is an argument of the functions that allocate.  `len` is an
`unsigned long`, written with an explicit `% 2 ^ 64`.
-/

namespace Adlist

/-! ## Definitions of the linked list -/

/-- A pointer: a machine address, `0` being `NULL`. -/
abbrev Ptr := Nat

/-- The null pointer. -/
def NULL : Ptr := 0

/-- Number of values of a machine word: pointers and `unsigned long` are below it. -/
def WORD : Nat := 2 ^ 64

def LONG_MIN : Int := -9223372036854775808

def LONG_MAX : Int := 9223372036854775807

/-- The `listNode` struct. -/
structure listNode where
  prev : Ptr
  next : Ptr
  value : Ptr
deriving DecidableEq, Repr

/-- The `listIter` struct. -/
structure listIter where
  next : Ptr
  direction : Int
deriving DecidableEq, Repr

/-- The `list` struct; `dup`, `free` and `match` are function pointers. -/
structure list where
  head : Ptr
  tail : Ptr
  dup : Ptr
  free : Ptr
  «match» : Ptr
  len : Nat
deriving DecidableEq, Repr

/-- Directions for iterators. -/
def AL_START_HEAD : Int := 0

def AL_START_TAIL : Int := 1

/-- The heap: the live `listNode` and `list` objects by address, and the calls made so
far through a `free` method, latest first, as (function pointer, argument). -/
structure Mem where
  nodes : Ptr → Option listNode
  lists : Ptr → Option list
  freed : List (Ptr × Ptr)

/-- Read of the node `*p`; `none` for `NULL` and for an address that holds no live node. -/
def getNode (m : Mem) (p : Ptr) : Option listNode := if p = NULL then none else m.nodes p

/-- Store of a whole node at `p`. -/
def putNode (m : Mem) (p : Ptr) (nd : listNode) : Mem :=
  { m with nodes := fun q => if q = p then some nd else m.nodes q }

/-- Read of the list `*l`; `none` for `NULL` and for an address that holds no live list. -/
def getList (m : Mem) (l : Ptr) : Option list := if l = NULL then none else m.lists l

/-- Store of a whole list struct at `l`. -/
def putList (m : Mem) (l : Ptr) (L : list) : Mem :=
  { m with lists := fun q => if q = l then some L else m.lists q }

/-- The assignment `p->prev = x`. -/
def setPrev (m : Mem) (p x : Ptr) : Option Mem :=
  (getNode m p).map (fun nd => putNode m p { nd with prev := x })

/-- The assignment `p->next = x`. -/
def setNext (m : Mem) (p x : Ptr) : Option Mem :=
  (getNode m p).map (fun nd => putNode m p { nd with next := x })

/-- The assignment `p->value = x`. -/
def setValue (m : Mem) (p x : Ptr) : Option Mem :=
  (getNode m p).map (fun nd => putNode m p { nd with value := x })

/-- The assignment `l->head = x`. -/
def setHead (m : Mem) (l x : Ptr) : Option Mem :=
  (getList m l).map (fun L => putList m l { L with head := x })

/-- The assignment `l->tail = x`. -/
def setTail (m : Mem) (l x : Ptr) : Option Mem :=
  (getList m l).map (fun L => putList m l { L with tail := x })

/-- The assignment `l->len = n`, an `unsigned long`. -/
def setLen (m : Mem) (l : Ptr) (n : Nat) : Option Mem :=
  (getList m l).map (fun L => putList m l { L with len := n % WORD })

/-- The assignment `l->dup = f`. -/
def setDup (m : Mem) (l f : Ptr) : Option Mem :=
  (getList m l).map (fun L => putList m l { L with dup := f })

/-- The assignment `l->free = f`. -/
def setFree (m : Mem) (l f : Ptr) : Option Mem :=
  (getList m l).map (fun L => putList m l { L with free := f })

/-- The assignment `l->match = f`. -/
def setMatch (m : Mem) (l f : Ptr) : Option Mem :=
  (getList m l).map (fun L => putList m l { L with «match» := f })

/-- Modelled from the spec: `zmalloc(sizeof(listNode))` (declared in `zmalloc.h`, not part
of the sources at hand) having returned the non-null address `p`: a node object becomes
live there ("fixed-size node allocation"); its fields are taken to be zero. -/
def allocNode (m : Mem) (p : Ptr) : Mem := putNode m p { prev := 0, next := 0, value := 0 }

/-- The heap without the node at `p`. -/
def dropNode (m : Mem) (p : Ptr) : Mem :=
  { m with nodes := fun q => if q = p then none else m.nodes q }

/-- The heap without the list struct at `l`. -/
def dropList (m : Mem) (l : Ptr) : Mem :=
  { m with lists := fun q => if q = l then none else m.lists q }

/-- Modelled from the spec: `zfree(p)` of a node (declared in `zmalloc.h`, not part of the
sources at hand); the node must be live and is no longer afterwards. -/
def freeNode (m : Mem) (p : Ptr) : Option Mem :=
  (getNode m p).map (fun _ => dropNode m p)

/-- Modelled from the spec: `zfree(l)` of a list struct; the list must be live and is no
longer afterwards. -/
def freeList (m : Mem) (l : Ptr) : Option Mem :=
  (getList m l).map (fun _ => dropList m l)

/-- The statement `if (list->free) list->free(value)`, `f` being `list->free`: the call is
recorded; the value's storage is not part of the heap modelled here. -/
def freeValue (m : Mem) (f v : Ptr) : Mem :=
  if f = NULL then m else { m with freed := (f, v) :: m.freed }

/-- Create a new list; `p` is what `zmalloc` returned.  On error, NULL is returned. -/
def listCreate (m : Mem) (p : Ptr) : Mem × Ptr :=
  if p = NULL then (m, NULL)
  else (putList m p { head := NULL, tail := NULL, len := 0, dup := NULL, free := NULL,
                      «match» := NULL }, p)

/-- The `while(len--)` loop of `listEmpty`. -/
def listEmptyLoop (l : Ptr) : Nat → Mem → Ptr → Option Mem
  | 0, m, _ => some m
  | len + 1, m, current => do
    let nd ← getNode m current
    let L ← getList m l
    let m := freeValue m L.free nd.value
    let m ← freeNode m current
    listEmptyLoop l len m nd.next

/-- Remove all the elements from the list without destroying the list itself. -/
def listEmpty (m : Mem) (l : Ptr) : Option Mem := do
  let L ← getList m l
  let m ← listEmptyLoop l L.len m L.head
  let m ← setTail m l NULL
  let m ← setHead m l NULL
  setLen m l 0

/-- Free the whole list. -/
def listRelease (m : Mem) (l : Ptr) : Option Mem := do
  let m ← listEmpty m l
  freeList m l

/-- Add a new node to the list, to head, containing the specified value; `node` is what
`zmalloc` returned.  On error, NULL is returned and the memory is unaltered; on success
the list pointer passed in is returned. -/
def listAddNodeHead (m : Mem) (l : Ptr) (value : Ptr) (node : Ptr) : Option (Mem × Ptr) :=
  if node = NULL then some (m, NULL)
  else do
    let m := allocNode m node
    let m ← setValue m node value
    let L ← getList m l
    let m ← if L.len = 0 then do
        let m ← setTail m l node
        let m ← setHead m l node
        let m ← setNext m node NULL
        setPrev m node NULL
      else do
        let m ← setPrev m node NULL
        let m ← setNext m node L.head
        let m ← setPrev m L.head node
        setHead m l node
    let L ← getList m l
    let m ← setLen m l (L.len + 1)
    pure (m, l)

/-- Add a new node to the list, to tail, containing the specified value; `node` is what
`zmalloc` returned. -/
def listAddNodeTail (m : Mem) (l : Ptr) (value : Ptr) (node : Ptr) : Option (Mem × Ptr) :=
  if node = NULL then some (m, NULL)
  else do
    let m := allocNode m node
    let m ← setValue m node value
    let L ← getList m l
    let m ← if L.len = 0 then do
        let m ← setTail m l node
        let m ← setHead m l node
        let m ← setNext m node NULL
        setPrev m node NULL
      else do
        let m ← setPrev m node L.tail
        let m ← setNext m node NULL
        let m ← setNext m L.tail node
        setTail m l node
    let L ← getList m l
    let m ← setLen m l (L.len + 1)
    pure (m, l)

/-- Insert a new node holding `value` after (`after` non-zero) or before `old_node`;
`node` is what `zmalloc` returned. -/
def listInsertNode (m : Mem) (l : Ptr) (old_node : Ptr) (value : Ptr) (after : Int)
    (node : Ptr) : Option (Mem × Ptr) :=
  if node = NULL then some (m, NULL)
  else do
    let m := allocNode m node
    let m ← setValue m node value
    let m ← if after ≠ 0 then do
        let m ← setPrev m node old_node
        let old ← getNode m old_node
        let m ← setNext m node old.next
        let L ← getList m l
        if L.tail = old_node then setTail m l node else pure m
      else do
        let m ← setNext m node old_node
        let old ← getNode m old_node
        let m ← setPrev m node old.prev
        let L ← getList m l
        if L.head = old_node then setHead m l node else pure m
    let nd ← getNode m node
    let m ← if nd.prev ≠ NULL then setNext m nd.prev node else pure m
    let nd ← getNode m node
    let m ← if nd.next ≠ NULL then setPrev m nd.next node else pure m
    let L ← getList m l
    let m ← setLen m l (L.len + 1)
    pure (m, l)

/-- Remove the specified node from the specified list. -/
def listDelNode (m : Mem) (l : Ptr) (node : Ptr) : Option Mem := do
  let nd ← getNode m node
  let m ← if nd.prev ≠ NULL then setNext m nd.prev nd.next else setHead m l nd.next
  let nd ← getNode m node
  let m ← if nd.next ≠ NULL then setPrev m nd.next nd.prev else setTail m l nd.prev
  let L ← getList m l
  let nd ← getNode m node
  let m := freeValue m L.free nd.value
  let m ← freeNode m node
  let L ← getList m l
  setLen m l (L.len + WORD - 1)

/-- Create an iterator in the list private iterator structure. -/
def listRewind (m : Mem) (l : Ptr) : Option listIter := do
  let L ← getList m l
  pure { next := L.head, direction := AL_START_HEAD }

def listRewindTail (m : Mem) (l : Ptr) : Option listIter := do
  let L ← getList m l
  pure { next := L.tail, direction := AL_START_TAIL }

/-- Return the next element of an iterator: the iterator afterwards and the node
returned (NULL when there are no more elements). -/
def listNext (m : Mem) (iter : listIter) : Option (listIter × Ptr) :=
  let current := iter.next
  if current ≠ NULL then do
    let nd ← getNode m current
    pure ({ iter with next := if iter.direction = AL_START_HEAD then nd.next else nd.prev },
      current)
  else pure (iter, current)

/-- The loop `while(index-- && n) n = n->next`. -/
def walkNext (m : Mem) : Nat → Ptr → Option Ptr
  | 0, n => some n
  | index + 1, n => if n = NULL then some n else do
    let nd ← getNode m n
    walkNext m index nd.next

/-- The loop `while(index-- && n) n = n->prev`. -/
def walkPrev (m : Mem) : Nat → Ptr → Option Ptr
  | 0, n => some n
  | index + 1, n => if n = NULL then some n else do
    let nd ← getNode m n
    walkPrev m index nd.prev

/-- Conversion to `long` of a mathematical integer (two's complement wrap-around, which
is what signed overflow is taken to do). -/
def wrapLong (x : Int) : Int := (x + 2 ^ 63) % 2 ^ 64 - 2 ^ 63

/-- Return the element at the specified zero-based index, negative integers counting
from the tail; NULL when out of range. -/
def listIndex (m : Mem) (l : Ptr) (index : Int) : Option Ptr := do
  let L ← getList m l
  if index < 0 then
    walkPrev m (wrapLong (wrapLong (-index) - 1)).toNat L.tail
  else
    walkNext m index.toNat L.head

/-- Rotate the list removing the tail node and inserting it to the head. -/
def listRotate (m : Mem) (l : Ptr) : Option Mem := do
  let L ← getList m l
  let tail := L.tail
  if L.len ≤ 1 then pure m
  else do
    let t ← getNode m tail
    let m ← setTail m l t.prev
    let L ← getList m l
    let m ← setNext m L.tail NULL
    let L ← getList m l
    let m ← setPrev m L.head tail
    let m ← setPrev m tail NULL
    let L ← getList m l
    let m ← setNext m tail L.head
    setHead m l tail

/-- Add all the elements of the list `o` at the end of the list `l`; `o` remains empty
but otherwise valid. -/
def listJoin (m : Mem) (l o : Ptr) : Option Mem := do
  let O ← getList m o
  let L ← getList m l
  let m ← if O.head ≠ NULL then setPrev m O.head L.tail else pure m
  let L ← getList m l
  let O ← getList m o
  let m ← if L.tail ≠ NULL then setNext m L.tail O.head else setHead m l O.head
  let O ← getList m o
  let m ← if O.tail ≠ NULL then setTail m l O.tail else pure m
  let L ← getList m l
  let O ← getList m o
  let m ← setLen m l (L.len + O.len)
  let m ← setTail m o NULL
  let m ← setHead m o NULL
  setLen m o 0

/-- One round of the `while((node = listNext(&iter)) != NULL)` loop of `listDup` up to
the call of `listAddNodeTail`: either the function returns (left: the memory and the
pointer returned), or a value is to be appended (right: the iterator and the value).
`callDup f v` is what the `dup` method `f` returns on `v`. -/
def listDupValue (callDup : Ptr → Ptr → Ptr) (copy : Ptr) (m : Mem) (iter : listIter) :
    Option ((Mem × Ptr) ⊕ (listIter × Ptr)) := do
  let (iter, node) ← listNext m iter
  if node = NULL then pure (Sum.inl (m, copy))
  else do
    let C ← getList m copy
    let nd ← getNode m node
    if C.dup ≠ NULL then
      let value := callDup C.dup nd.value
      if value = NULL then do
        let m ← listRelease m copy
        pure (Sum.inl (m, NULL))
      else pure (Sum.inr (iter, value))
    else pure (Sum.inr (iter, nd.value))

/-- The `while((node = listNext(&iter)) != NULL)` loop of `listDup`.  The list of
addresses holds what the successive `zmalloc` calls of `listAddNodeTail` return, an
exhausted list standing for NULL. -/
def listDupLoop (callDup : Ptr → Ptr → Ptr) (copy : Ptr) :
    List Ptr → Mem → listIter → Option (Mem × Ptr)
  | [], m, iter =>
    match listDupValue callDup copy m iter with
    | none => none
    | some (Sum.inl r) => some r
    | some (Sum.inr (_, value)) =>
      match listAddNodeTail m copy value NULL with
      | none => none
      | some (m, _) => (listRelease m copy).map (fun m => (m, NULL))
  | a :: rest, m, iter =>
    match listDupValue callDup copy m iter with
    | none => none
    | some (Sum.inl r) => some r
    | some (Sum.inr (iter, value)) =>
      match listAddNodeTail m copy value a with
      | none => none
      | some (m, r) =>
        if r = NULL then (listRelease m copy).map (fun m => (m, NULL))
        else listDupLoop callDup copy rest m iter

/-- Duplicate the whole list.  On out of memory NULL is returned; on success a copy of
the original list.  `copy` is what the `zmalloc` of `listCreate` returned. -/
def listDup (callDup : Ptr → Ptr → Ptr) (m : Mem) (orig : Ptr) (copy : Ptr)
    (allocs : List Ptr) : Option (Mem × Ptr) :=
  let (m, copy) := listCreate m copy
  if copy = NULL then some (m, NULL)
  else do
    let O ← getList m orig
    let m ← setDup m copy O.dup
    let O ← getList m orig
    let m ← setFree m copy O.free
    let O ← getList m orig
    let m ← setMatch m copy O.«match»
    let iter ← listRewind m orig
    listDupLoop callDup copy allocs m iter

/-- The first address of `ps`, or `d` when there is none. -/
def firstD : List Ptr → Ptr → Ptr
  | [], d => d
  | p :: _, _ => p

/-- The last address of `ps`, or `d` when there is none. -/
def lastD : List Ptr → Ptr → Ptr
  | [], d => d
  | p :: ps, _ => lastD ps p

/-- The doubly linked segment on the nodes `ps`: each is live and non-null, its `prev` is
the node before it (`prev` for the first) and its `next` the node after it (`nxt` for the
last). -/
def dllsegB (m : Mem) : Ptr → List Ptr → Ptr → Bool
  | _, [], _ => true
  | prev, p :: ps, nxt =>
    (p != NULL) &&
    (match m.nodes p with
      | some nd => nd.prev == prev && nd.next == firstD ps nxt
      | none => false) &&
    dllsegB m p ps nxt

/-- The doubly linked segment, as a proposition. -/
def dllseg (m : Mem) (prev : Ptr) (ps : List Ptr) (nxt : Ptr) : Prop :=
  dllsegB m prev ps nxt = true

instance (m : Mem) (prev : Ptr) (ps : List Ptr) (nxt : Ptr) : Decidable (dllseg m prev ps nxt) := by
  unfold dllseg; infer_instance

/-- Well-formed list at `l` whose nodes are, from head to tail, `ps`. -/
def listRepB (m : Mem) (l : Ptr) (ps : List Ptr) : Bool :=
  (l != NULL) &&
  (match m.lists l with
    | some L =>
      L.head == firstD ps NULL && L.tail == lastD ps NULL && L.len == ps.length
    | none => false) &&
  decide ps.Nodup && ps.all (fun p => decide (p < WORD)) && dllsegB m NULL ps NULL

/-- Well-formed list at `l` with nodes `ps`, as a proposition. -/
def ListRep (m : Mem) (l : Ptr) (ps : List Ptr) : Prop := listRepB m l ps = true

instance (m : Mem) (l : Ptr) (ps : List Ptr) : Decidable (ListRep m l ps) := by
  unfold ListRep; infer_instance

/-- The value pointer stored in the node at `p` (NULL when there is no node). -/
def valueAt (m : Mem) (p : Ptr) : Ptr :=
  match m.nodes p with
  | some nd => nd.value
  | none => NULL

/-- The value sequence of the nodes `ps`. -/
def values (m : Mem) (ps : List Ptr) : List Ptr := ps.map (valueAt m)

/-- The usage pattern of `listNext` with removal of the element just returned:
`while ((node = listNext(iter)) != NULL) { if (del node) listDelNode(list, node); }`.
The result is the memory after the loop and the nodes returned by `listNext`, in order;
`none` when a pointer is invalid or the loop has not ended within `fuel` rounds. -/
def iterateDeleting (del : Ptr → Bool) (l : Ptr) :
    Nat → Mem → listIter → Option (Mem × List Ptr)
  | 0, _, _ => none
  | fuel + 1, m, iter => do
    let (iter, node) ← listNext m iter
    if node = NULL then pure (m, [])
    else do
      let m ← if del node then listDelNode m l node else pure m
      let (m, rest) ← iterateDeleting del l fuel m iter
      pure (m, node :: rest)

/-- The value `listDup` stores in the copy for an original value `v` when the `dup`
method of the copy is `d`: `dup(v)` when a method is set, the same pointer otherwise. -/
def copiedValue (callDup : Ptr → Ptr → Ptr) (d v : Ptr) : Ptr :=
  if d ≠ NULL then callDup d v else v

/-! ## Example heaps -/

/-- An example heap: the list at address 100 with the nodes 10, 20, 30 holding the values
1, 2, 3, and the methods 7 (`dup`), 8 (`free`), 9 (`match`). -/
def heap3 : Mem :=
  { nodes := fun p =>
      if p = 10 then some ⟨0, 20, 1⟩
      else if p = 20 then some ⟨10, 30, 2⟩
      else if p = 30 then some ⟨20, 0, 3⟩
      else none,
    lists := fun l => if l = 100 then some ⟨10, 30, 7, 8, 9, 3⟩ else none,
    freed := [] }

/-- An example heap with two lists: the list of `heap3` at address 100 and the list at
address 200 with the nodes 50, 60 holding the values 5, 6. -/
def heap5 : Mem :=
  { nodes := fun p =>
      if p = 10 then some ⟨0, 20, 1⟩
      else if p = 20 then some ⟨10, 30, 2⟩
      else if p = 30 then some ⟨20, 0, 3⟩
      else if p = 50 then some ⟨0, 60, 5⟩
      else if p = 60 then some ⟨50, 0, 6⟩
      else none,
    lists := fun l =>
      if l = 100 then some ⟨10, 30, 7, 8, 9, 3⟩
      else if l = 200 then some ⟨50, 60, 0, 0, 0, 2⟩
      else none,
    freed := [] }

/-- An example `dup` method: the copy of the value `v` is at address `v + 100`. -/
def dupPlus100 (_ v : Ptr) : Ptr := v + 100

/-- An example `dup` method that fails on the value 2: it returns NULL there and `v + 100`
elsewhere. -/
def dupFailsOn2 (_ v : Ptr) : Ptr := if v = 2 then NULL else v + 100

/-- The test `listSearchKey` makes on a node value `v`: `list->match(v, key)` is non-zero
when a `match` method `f` is set, `key == v` otherwise.  `callMatch f v key` is what the
`match` method `f` returns on `(v, key)`. -/
def keyMatches (callMatch : Ptr → Ptr → Ptr → Int) (f key v : Ptr) : Bool :=
  if f ≠ NULL then decide (callMatch f v key ≠ 0) else decide (key = v)

/-- The `while((node = listNext(&iter)) != NULL)` loop of `listSearchKey`; `none` when a
pointer is invalid or the loop has not ended within `fuel` rounds. -/
def listSearchKeyLoop (callMatch : Ptr → Ptr → Ptr → Int) (l key : Ptr) :
    Nat → Mem → listIter → Option Ptr
  | 0, _, _ => none
  | fuel + 1, m, iter => do
    let (iter, node) ← listNext m iter
    if node = NULL then pure NULL
    else do
      let L ← getList m l
      let nd ← getNode m node
      if L.«match» ≠ NULL then
        if callMatch L.«match» nd.value key ≠ 0 then pure node
        else listSearchKeyLoop callMatch l key fuel m iter
      else
        if key = nd.value then pure node
        else listSearchKeyLoop callMatch l key fuel m iter

/-- Search the list for a node matching a given key: the first matching node, or NULL.
The loop gets `fuel` rounds. -/
def listSearchKey (callMatch : Ptr → Ptr → Ptr → Int) (fuel : Nat) (m : Mem) (l key : Ptr) :
    Option Ptr := do
  let iter ← listRewind m l
  listSearchKeyLoop callMatch l key fuel m iter

/-- An example `match` method: two values match when they are equal modulo 10. -/
def matchMod10 (_ v key : Ptr) : Int := if v % 10 = key % 10 then 1 else 0

/-- The nodes reached from `p` by following `next` until NULL; `none` when a node on the
way is not live or NULL is not reached within `fuel` nodes. -/
def nextChain (m : Mem) : Nat → Ptr → Option (List Ptr)
  | 0, p => if p = NULL then some [] else none
  | fuel + 1, p =>
    if p = NULL then some []
    else do
      let nd ← getNode m p
      let rest ← nextChain m fuel nd.next
      pure (p :: rest)

/-- The nodes of the list at `l`: those reached from `head` by `next`, `len` at most. -/
def listNodes (m : Mem) (l : Ptr) : List Ptr :=
  match getList m l with
  | some L => (nextChain m L.len L.head).getD []
  | none => []

/-- The field `prev` of the node at `p`, NULL is read for a node that is not live. -/
def prevAt (m : Mem) (p : Ptr) : Ptr :=
  match m.nodes p with
  | some nd => nd.prev
  | none => NULL

/-- The field `next` of the node at `p`, NULL is read for a node that is not live. -/
def nextAt (m : Mem) (p : Ptr) : Ptr :=
  match m.nodes p with
  | some nd => nd.next
  | none => NULL

/-- The well-formedness of the list at `l` in terms of its links: following `next` from
`head` reaches NULL after exactly `len` nodes, the last of which is `tail`; `head` is NULL
iff `tail` is NULL iff `len` is 0; `head->prev` and `tail->next` are NULL; for nodes `a`,
`b` of the list `a->next = b` iff `b->prev = a`; the nodes are at machine addresses. -/
def wellLinkedB (m : Mem) (l : Ptr) : Bool :=
  match getList m l with
  | none => false
  | some L =>
    match nextChain m L.len L.head with
    | none => false
    | some ps =>
      decide (ps.length = L.len) &&
      decide (L.head = NULL ↔ L.tail = NULL) && decide (L.tail = NULL ↔ L.len = 0) &&
      decide (L.head ≠ NULL → prevAt m L.head = NULL) &&
      decide (L.tail ≠ NULL → nextAt m L.tail = NULL) &&
      decide (lastD ps NULL = L.tail) &&
      ps.all (fun a => ps.all (fun b => decide (nextAt m a = b ↔ prevAt m b = a))) &&
      ps.all (fun p => decide (p < WORD))

/-- The list at `l` is well formed in terms of its links. -/
def WellLinked (m : Mem) (l : Ptr) : Prop := wellLinkedB m l = true

instance (m : Mem) (l : Ptr) : Decidable (WellLinked m l) := by
  unfold WellLinked; infer_instance

/-- The nodes `ps` are live, non-null and linked by `next` in this order, the last one
to NULL. -/
def nextseg (m : Mem) : List Ptr → Prop
  | [] => True
  | p :: ps => p ≠ NULL ∧ (m.nodes p).isSome ∧ nextAt m p = firstD ps NULL ∧ nextseg m ps

end Adlist

/-!
Hash table (`src/datastructure/dict.h`): the structures and the macros that go through
the function pointers of the type descriptor.  A macro that assigns to an entry is the
entry afterwards; a macro that calls a destructor is the list of the calls it makes.
-/

namespace Dict

/-! ## Definitions of the dictionary macros -/

/-- The `dictEntry` struct; `val` is the member `v.val` of the value union. -/
structure dictEntry where
  key : Adlist.Ptr
  val : Adlist.Ptr
  next : Adlist.Ptr
deriving DecidableEq, Repr

/-- The `dictType` struct: six function pointers, NULL for an absent slot. -/
structure dictType where
  hashFunction : Adlist.Ptr
  keyDup : Adlist.Ptr
  valDup : Adlist.Ptr
  keyCompare : Adlist.Ptr
  keyDestructor : Adlist.Ptr
  valDestructor : Adlist.Ptr
deriving DecidableEq, Repr

/-- The `dictht` struct. -/
structure dictht where
  table : Adlist.Ptr
  size : Nat
  sizemask : Nat
  used : Nat
deriving DecidableEq, Repr

/-- The `dict` struct; `type` is the `dictType` that the pointer `d->type` points to, and
`ht0`, `ht1` are the two elements of the array `ht`. -/
structure dict where
  type : dictType
  privdata : Adlist.Ptr
  ht0 : dictht
  ht1 : dictht
  rehashidx : Int
  iterators : Nat
deriving DecidableEq, Repr

/-- What the functions behind the function pointers do: `dup f privdata x` is what the
`keyDup` or `valDup` function `f` returns, `compare f privdata key1 key2` what the
`keyCompare` function `f` returns. -/
structure Callbacks where
  dup : Adlist.Ptr → Adlist.Ptr → Adlist.Ptr → Adlist.Ptr
  compare : Adlist.Ptr → Adlist.Ptr → Adlist.Ptr → Adlist.Ptr → Int

/-- A call of a destructor: the function called and its two arguments. -/
structure DestructorCall where
  function : Adlist.Ptr
  privdata : Adlist.Ptr
  arg : Adlist.Ptr
deriving DecidableEq, Repr

/-- The macro `dictFreeVal(d, entry)`: the destructor calls it makes. -/
def dictFreeVal (d : dict) (entry : dictEntry) : List DestructorCall :=
  if d.type.valDestructor ≠ Adlist.NULL then [⟨d.type.valDestructor, d.privdata, entry.val⟩]
  else []

/-- The macro `dictSetVal(d, entry, _val_)`: the entry afterwards. -/
def dictSetVal (cb : Callbacks) (d : dict) (entry : dictEntry) (val : Adlist.Ptr) :
    dictEntry :=
  if d.type.valDup ≠ Adlist.NULL then
    { entry with val := cb.dup d.type.valDup d.privdata val }
  else
    { entry with val := val }

/-- The macro `dictFreeKey(d, entry)`: the destructor calls it makes. -/
def dictFreeKey (d : dict) (entry : dictEntry) : List DestructorCall :=
  if d.type.keyDestructor ≠ Adlist.NULL then [⟨d.type.keyDestructor, d.privdata, entry.key⟩]
  else []

/-- The macro `dictSetKey(d, entry, _key_)`: the entry afterwards. -/
def dictSetKey (cb : Callbacks) (d : dict) (entry : dictEntry) (key : Adlist.Ptr) :
    dictEntry :=
  if d.type.keyDup ≠ Adlist.NULL then
    { entry with key := cb.dup d.type.keyDup d.privdata key }
  else
    { entry with key := key }

/-- The macro `dictCompareKeys(d, key1, key2)`: an `int`, non-zero for "equal". -/
def dictCompareKeys (cb : Callbacks) (d : dict) (key1 key2 : Adlist.Ptr) : Int :=
  if d.type.keyCompare ≠ Adlist.NULL then cb.compare d.type.keyCompare d.privdata key1 key2
  else if key1 = key2 then 1 else 0

/-- Example callbacks: a copy is at the sum of the function address, `privdata` and the
address copied; two keys compare equal when they agree modulo `privdata`. -/
def exampleCallbacks : Callbacks :=
  { dup := fun f privdata x => f + privdata + x,
    compare := fun _ privdata key1 key2 => if key1 % privdata = key2 % privdata then 1 else 0 }

/-- An example dictionary whose type has every slot set. -/
def exampleDict : dict :=
  { type := ⟨1, 2, 3, 4, 5, 6⟩, privdata := 10, ht0 := ⟨0, 0, 0, 0⟩, ht1 := ⟨0, 0, 0, 0⟩,
    rehashidx := -1, iterators := 0 }

end Dict

namespace Intset

/-! ## Byte-level lemmas -/

theorem length_storeBytes (bs : List Byte) : ∀ (c : List Byte) (off : Nat),
    (storeBytes c off bs).length = c.length := by
  induction bs with
  | nil => intro c off; rfl
  | cons b bs ih => intro c off; simp [storeBytes, ih]

theorem getD_storeBytes (bs : List Byte) : ∀ (c : List Byte) (off i : Nat),
    off + bs.length ≤ c.length →
    (storeBytes c off bs).getD i 0 =
      if off ≤ i ∧ i < off + bs.length then bs.getD (i - off) 0 else c.getD i 0 := by
  induction bs with
  | nil =>
    intro c off i _
    have h2 : ¬ (off ≤ i ∧ i < off + ([] : List Byte).length) := by simp
    rw [if_neg h2]; rfl
  | cons b bs ih =>
    intro c off i h
    simp only [List.length_cons] at h
    rw [storeBytes, ih (c.set off b) (off + 1) i (by simp; omega)]
    by_cases h1 : off + 1 ≤ i ∧ i < off + 1 + bs.length
    · have h2 : off ≤ i ∧ i < off + (b :: bs).length := by simp; omega
      rw [if_pos h1, if_pos h2]
      obtain ⟨k, hk⟩ : ∃ k, i - off = k + 1 := ⟨i - off - 1, by omega⟩
      rw [hk, show i - (off + 1) = k by omega]
      simp [List.getD_cons_succ]
    · rw [if_neg h1]
      by_cases h3 : i = off
      · subst h3
        have h2 : i ≤ i ∧ i < i + (b :: bs).length := by simp
        rw [if_pos h2]
        have hlt : i < c.length := by omega
        simp [List.getD_eq_getElem?_getD, List.getElem?_set, hlt]
      · have h2 : ¬ (off ≤ i ∧ i < off + (b :: bs).length) := by simp; omega
        rw [if_neg h2]
        simp [List.getD_eq_getElem?_getD, List.getElem?_set, Ne.symm h3]

theorem length_loadBytes (c : List Byte) (off w : Nat) : (loadBytes c off w).length = w := by
  simp [loadBytes]

theorem getD_loadBytes (c : List Byte) (off w k : Nat) (hk : k < w) :
    (loadBytes c off w).getD k 0 = c.getD (off + k) 0 := by
  simp [loadBytes, List.getD_eq_getElem?_getD, List.getElem?_map, List.getElem?_range hk]

theorem loadBytes_congr (c c' : List Byte) (off off' w : Nat)
    (h : ∀ k, k < w → c.getD (off + k) 0 = c'.getD (off' + k) 0) :
    loadBytes c off w = loadBytes c' off' w := by
  unfold loadBytes
  apply List.map_congr_left
  intro k hk
  exact h k (List.mem_range.mp hk)

theorem loadBytes_eq_self (bs : List Byte) : ∀ (c : List Byte) (off : Nat),
    (∀ k, k < bs.length → c.getD (off + k) 0 = bs.getD k 0) →
    loadBytes c off bs.length = bs := by
  intro c off h
  apply List.ext_getElem (by simp [loadBytes])
  intro k h1 h2
  have := h k h2
  simp [loadBytes, List.getD_eq_getElem?_getD, List.getElem?_eq_getElem h2] at this ⊢
  exact this

/-! ## Number encoding lemmas -/

theorem length_natToLE : ∀ (w u : Nat), (natToLE w u).length = w := by
  intro w
  induction w with
  | zero => intro u; rfl
  | succ w ih => intro u; simp [natToLE, ih]

theorem leToNat_natToLE : ∀ (w u : Nat), leToNat (natToLE w u) = u % 256 ^ w := by
  intro w
  induction w with
  | zero => intro u; simp [natToLE, leToNat, Nat.mod_one]
  | succ w ih =>
    intro u
    simp only [natToLE, leToNat, ih]
    rw [pow_succ, Nat.mul_comm (256 ^ w) 256, Nat.mod_mul]

theorem leToNat_lt : ∀ (bs : List Byte), leToNat bs < 256 ^ bs.length := by
  intro bs
  induction bs with
  | nil => simp [leToNat]
  | cons b bs ih =>
    simp only [leToNat, List.length_cons, pow_succ]
    have := b.isLt
    omega

theorem encWidth_of_valid {enc : Nat} (h : validEnc enc) : encWidth enc = enc := by
  rcases h with h | h | h <;> subst h <;> rfl

theorem validEnc_encWidth (enc : Nat) : validEnc (encWidth enc) := by
  unfold encWidth validEnc INTSET_ENC_INT64 INTSET_ENC_INT32
  split
  · simp
  · split <;> simp

theorem validEnc_valueEncoding (v : Int) : validEnc (_intsetValueEncoding v) := by
  unfold _intsetValueEncoding validEnc INTSET_ENC_INT64 INTSET_ENC_INT32 INTSET_ENC_INT16
  split
  · simp
  · split <;> simp

theorem toSigned_toUnsigned {w : Nat} (hw : validEnc w) {v : Int} (hv : fitsWidth w v) :
    toSigned w (toUnsigned w v) = v := by
  unfold fitsWidth at hv
  unfold toSigned toUnsigned
  rcases hw with h | h | h <;> subst h <;> norm_num at hv ⊢ <;> omega

theorem fitsWidth_toSigned {w : Nat} (hw : validEnc w) {u : Nat} (hu : u < 256 ^ w) :
    fitsWidth w (toSigned w u) := by
  unfold fitsWidth toSigned
  rcases hw with h | h | h <;> subst h <;> norm_num at hu ⊢ <;> split <;> omega

theorem fitsWidth_iff_valueEncoding {enc : Nat} (henc : validEnc enc) {v : Int} (hv : isInt64 v) :
    _intsetValueEncoding v ≤ enc ↔ fitsWidth enc v := by
  unfold isInt64 INT64_MIN INT64_MAX at hv
  unfold _intsetValueEncoding fitsWidth INT32_MIN INT32_MAX INT16_MIN INT16_MAX
    INTSET_ENC_INT64 INTSET_ENC_INT32 INTSET_ENC_INT16
  rcases henc with h | h | h <;> subst h <;> norm_num <;> split_ifs <;> omega

theorem fitsWidth_mono {w w' : Nat} (hw : validEnc w) (hw' : validEnc w') (h : w ≤ w') {v : Int}
    (hv : fitsWidth w v) : fitsWidth w' v := by
  unfold fitsWidth at *
  rcases hw with h1 | h1 | h1 <;> rcases hw' with h2 | h2 | h2 <;> subst h1 <;> subst h2 <;>
    norm_num at h hv ⊢ <;> omega

theorem fitsWidth_getAt {w : Nat} (hw : validEnc w) (c : List Byte) (pos : Nat) :
    fitsWidth w (getAt c w pos) := by
  apply fitsWidth_toSigned hw
  have := leToNat_lt (loadBytes c (pos * w) w)
  rwa [length_loadBytes] at this

theorem length_setAt (c : List Byte) (w pos : Nat) (v : Int) :
    (setAt c w pos v).length = c.length := length_storeBytes _ _ _

theorem getAt_storeBytes_disjoint (c bs : List Byte) (off w j : Nat)
    (hlen : off + bs.length ≤ c.length)
    (hdis : (j + 1) * w ≤ off ∨ off + bs.length ≤ j * w) :
    getAt (storeBytes c off bs) w j = getAt c w j := by
  unfold getAt
  congr 2
  apply loadBytes_congr
  intro k hk
  rw [getD_storeBytes bs c off _ hlen]
  have : (j + 1) * w = j * w + w := by ring
  rw [if_neg (by omega)]

theorem getAt_setAt_same {w : Nat} (hw : validEnc w) (c : List Byte) (pos : Nat) {v : Int}
    (hv : fitsWidth w v) (hlen : (pos + 1) * w ≤ c.length) :
    getAt (setAt c w pos v) w pos = v := by
  have h1 : (pos + 1) * w = pos * w + w := by ring
  have hl : loadBytes (setAt c w pos v) (pos * w) w = natToLE w (toUnsigned w v) := by
    have := loadBytes_eq_self (natToLE w (toUnsigned w v)) (setAt c w pos v) (pos * w)
    rw [length_natToLE] at this
    apply this
    intro k hk
    unfold setAt
    rw [getD_storeBytes _ _ _ _ (by rw [length_natToLE]; omega), length_natToLE,
      if_pos (by omega), Nat.add_sub_cancel_left]
  unfold getAt
  rw [hl, leToNat_natToLE]
  have hlt : toUnsigned w v < 256 ^ w := by
    unfold toUnsigned
    rcases hw with h | h | h <;> subst h <;> norm_num <;> omega
  rw [Nat.mod_eq_of_lt hlt]
  exact toSigned_toUnsigned hw hv

theorem getAt_setAt_other (c : List Byte) (w pos j : Nat) (v : Int)
    (hlen : (pos + 1) * w ≤ c.length) (hne : j ≠ pos) :
    getAt (setAt c w pos v) w j = getAt c w j := by
  unfold setAt
  have h1 : (pos + 1) * w = pos * w + w := by ring
  apply getAt_storeBytes_disjoint
  · rw [length_natToLE]; omega
  · rw [length_natToLE]
    rcases Nat.lt_or_gt_of_ne hne with h | h
    · left
      exact Nat.mul_le_mul_right w h
    · right
      rw [← h1]
      exact Nat.mul_le_mul_right w h

/-! ## Binary search -/

theorem ascending_le {is : intset} (h : Ascending is) {i j : Nat} (hij : i ≤ j)
    (hj : j < is.length) : _intsetGet is i ≤ _intsetGet is j := by
  rcases Nat.eq_or_lt_of_le hij with h1 | h1
  · subst h1; exact le_refl _
  · exact le_of_lt (h i j h1 hj)

theorem intsetSearchLoop_spec (is : intset) (value : Int) (hlen : is.length < 2 ^ 31)
    (hasc : Ascending is) :
    ∀ (fuel : Nat) (min max mid cur : Int), 0 ≤ min → max < is.length → min ≤ max + 1 →
      max - min + 1 ≤ fuel →
      (∀ i : Nat, (i : Int) < min → _intsetGet is i < value) →
      (∀ i : Nat, max < (i : Int) → i < is.length → value < _intsetGet is i) →
      (max < min → cur ≠ value) →
      ∃ min1 max1 mid1 cur1,
        intsetSearchLoop is value fuel min max mid cur = some (min1, max1, mid1, cur1) ∧
        ((cur1 = value ∧ 0 ≤ mid1 ∧ mid1 < is.length ∧ _intsetGet is mid1.toNat = value) ∨
         (cur1 ≠ value ∧ 0 ≤ min1 ∧ min1 ≤ is.length ∧
           (∀ i : Nat, (i : Int) < min1 → _intsetGet is i < value) ∧
           (∀ i : Nat, min1 ≤ (i : Int) → i < is.length → value < _intsetGet is i))) := by
  intro fuel
  induction fuel with
  | zero =>
    intro min max mid cur h0 hmax hle hfuel hlo hhi hcur
    have hlt : ¬ (max ≥ min) := by omega
    refine ⟨min, max, mid, cur, by simp [intsetSearchLoop, hlt], Or.inr ⟨hcur (by omega), h0, by omega, hlo, ?_⟩⟩
    intro i hi hin
    exact hhi i (by omega) hin
  | succ fuel ih =>
    intro min max mid cur h0 hmax hle hfuel hlo hhi hcur
    by_cases hge : max ≥ min
    · have hmid : ((min % 2 ^ 32 + max % 2 ^ 32) % 2 ^ 32) / 2 = (min + max) / 2 := by
        have : (2 : Int) ^ 32 = 4294967296 := by norm_num
        have h31 : ((2 ^ 31 : Nat) : Int) = 2147483648 := by norm_num
        rw [this]
        omega
      have hm0 : 0 ≤ (min + max) / 2 := by omega
      have hm1 : min ≤ (min + max) / 2 := by omega
      have hm2 : (min + max) / 2 ≤ max := by omega
      have hmn : ((min + max) / 2).toNat < is.length := by omega
      have hcast : ((((min + max) / 2).toNat : Nat) : Int) = (min + max) / 2 := Int.toNat_of_nonneg hm0
      simp only [intsetSearchLoop, hge, if_true, hmid]
      by_cases hgt : value > _intsetGet is ((min + max) / 2).toNat
      · simp only [hgt, if_true]
        apply ih
        · omega
        · exact hmax
        · omega
        · omega
        · intro i hi
          have hi2 : i ≤ ((min + max) / 2).toNat := by omega
          exact lt_of_le_of_lt (ascending_le hasc hi2 hmn) hgt
        · exact hhi
        · intro _; exact ne_of_lt hgt
      · simp only [hgt, if_false]
        by_cases hlt : value < _intsetGet is ((min + max) / 2).toNat
        · simp only [hlt, if_true]
          apply ih
          · exact h0
          · omega
          · omega
          · omega
          · exact hlo
          · intro i hi hin
            have hi2 : ((min + max) / 2).toNat ≤ i := by omega
            exact lt_of_lt_of_le hlt (ascending_le hasc hi2 hin)
          · intro _; exact ne_of_gt hlt
        · simp only [hlt, if_false]
          have heq : _intsetGet is ((min + max) / 2).toNat = value := by omega
          exact ⟨_, _, _, _, rfl, Or.inl ⟨heq, hm0, by omega, heq⟩⟩
    · have hlt : max < min := by omega
      refine ⟨min, max, mid, cur, by simp [intsetSearchLoop, hge], Or.inr ⟨hcur hlt, h0, by omega, hlo, ?_⟩⟩
      intro i hi hin
      exact hhi i (by omega) hin

/-- The loop of `intsetSearch` never exhausts the `length + 1` iterations it is given,
whatever the buffer holds. -/
theorem intsetSearchLoop_isSome (is : intset) (value : Int) :
    ∀ (fuel : Nat) (min max mid cur : Int), 0 ≤ min → max < 2 ^ 31 → max - min + 1 ≤ fuel →
      (intsetSearchLoop is value fuel min max mid cur).isSome = true := by
  intro fuel
  induction fuel with
  | zero =>
    intro min max mid cur h0 _ hfuel
    have hlt : ¬ (max ≥ min) := by omega
    simp [intsetSearchLoop, hlt]
  | succ fuel ih =>
    intro min max mid cur h0 hmax hfuel
    by_cases hge : max ≥ min
    · have hmid : ((min % 2 ^ 32 + max % 2 ^ 32) % 2 ^ 32) / 2 = (min + max) / 2 := by
        have : (2 : Int) ^ 32 = 4294967296 := by norm_num
        have h31 : (2 : Int) ^ 31 = 2147483648 := by norm_num
        rw [this]
        omega
      have h31 : (2 : Int) ^ 31 = 2147483648 := by norm_num
      simp only [intsetSearchLoop, hge, if_true, hmid]
      split
      · apply ih <;> omega
      · split
        · apply ih <;> omega
        · rfl
    · simp [intsetSearchLoop, hge]

/-- The call of the loop made by `intsetSearch` returns for every buffer of fewer than
`2 ^ 31` elements, so the `none` case of `intsetSearch` is never taken. -/
theorem intsetSearch_loop_returns (is : intset) (value : Int) (hlen : is.length < 2 ^ 31) :
    (intsetSearchLoop is value (is.length + 1) 0 (toInt32 ((is.length + U32 - 1) % U32))
      (-1) (-1)).isSome = true := by
  have h31 : (2 : Int) ^ 31 = 2147483648 := by norm_num
  have hmax : toInt32 ((is.length + U32 - 1) % U32) ≤ (is.length : Int) - 1 := by
    unfold toInt32 U32
    norm_num at hlen ⊢
    split <;> omega
  apply intsetSearchLoop_isSome
  · exact le_refl _
  · rw [h31]; norm_num at hlen; omega
  · push_cast; omega

/-- What `intsetSearch` returns on an ascending buffer: either the value was found at
the returned position, or the returned position separates the smaller from the larger
elements. -/
theorem intsetSearch_spec (is : intset) (value : Int) (hlen : is.length < 2 ^ 31)
    (hasc : Ascending is) :
    ((intsetSearch is value).1 = 1 ∧ (intsetSearch is value).2 < is.length ∧
        _intsetGet is (intsetSearch is value).2 = value) ∨
    ((intsetSearch is value).1 = 0 ∧ (intsetSearch is value).2 ≤ is.length ∧
        (∀ i : Nat, i < (intsetSearch is value).2 → _intsetGet is i < value) ∧
        (∀ i : Nat, (intsetSearch is value).2 ≤ i → i < is.length → value < _intsetGet is i)) := by
  by_cases h0 : is.length = 0
  · right
    simp [intsetSearch, h0]
  · have hmax : toInt32 ((is.length + U32 - 1) % U32) = (is.length : Int) - 1 := by
      unfold toInt32 U32
      norm_num at hlen ⊢
      split <;> omega
    have hmaxn : ((is.length : Int) - 1).toNat = is.length - 1 := by omega
    by_cases h1 : value > _intsetGet is (is.length - 1)
    · right
      simp only [intsetSearch, h0, if_false, hmax, hmaxn, h1, if_true]
      refine ⟨trivial, le_refl _, ?_, ?_⟩
      · intro i hi
        exact lt_of_le_of_lt (ascending_le hasc (by omega) (by omega)) h1
      · intro i hi hi2; omega
    · by_cases h2 : value < _intsetGet is 0
      · right
        simp only [intsetSearch, h0, if_false, hmax, hmaxn, h1, h2, if_true]
        refine ⟨trivial, Nat.zero_le _, ?_, ?_⟩
        · intro i hi; omega
        · intro i _ hi2
          exact lt_of_lt_of_le h2 (ascending_le hasc (Nat.zero_le _) hi2)
      · obtain ⟨min1, max1, mid1, cur1, hloop, hres⟩ :=
          intsetSearchLoop_spec is value hlen hasc (is.length + 1) 0 ((is.length : Int) - 1)
            (-1) (-1) (le_refl _) (by omega) (by omega) (by push_cast; omega)
            (by intro i hi; omega) (by intro i hi hi2; omega) (by intro h; omega)
        simp only [intsetSearch, h0, if_false, hmax, hmaxn, h1, h2, hloop]
        have h32 : (2 : Int) ^ 32 = 4294967296 := by norm_num
        rcases hres with ⟨hc, hm0, hm1, hget⟩ | ⟨hc, hm0, hm1, hlo, hhi⟩
        · left
          have hmod : (mid1 % 2 ^ 32).toNat = mid1.toNat := by
            rw [h32]; norm_num at hlen; omega
          simp only [hc, if_true, hmod]
          exact ⟨trivial, by omega, hget⟩
        · right
          have hmod : (min1 % 2 ^ 32).toNat = min1.toNat := by
            rw [h32]; norm_num at hlen; omega
          simp only [Ne.symm hc, if_false, hmod]
          refine ⟨trivial, by omega, ?_, ?_⟩
          · intro i hi; exact hlo i (by omega)
          · intro i hi hi2; exact hhi i (by omega) hi2

/-! ## Buffer resizing and tail moves -/

theorem length_zrealloc (c : List Byte) (size : Nat) : (zrealloc c size).length = size := by
  simp [zrealloc]
  omega

theorem getD_zrealloc (c : List Byte) (size i : Nat) (hi : i < size) :
    (zrealloc c size).getD i 0 = c.getD i 0 := by
  unfold zrealloc
  simp only [List.getD_eq_getElem?_getD]
  by_cases h : i < c.length
  · rw [List.getElem?_append_left (by simp; omega), List.getElem?_take_of_lt hi]
  · rw [List.getElem?_append_right (by simp; omega)]
    rw [List.getElem?_eq_none (show c.length ≤ i by omega)]
    simp only [List.getElem?_replicate]
    split <;> rfl

theorem getAt_zrealloc (c : List Byte) (size w j : Nat) (h : (j + 1) * w ≤ size) :
    getAt (zrealloc c size) w j = getAt c w j := by
  unfold getAt
  congr 2
  apply loadBytes_congr
  intro k hk
  have : (j + 1) * w = j * w + w := by ring
  exact getD_zrealloc c size _ (by omega)

theorem getD_memmove (c : List Byte) (dst src n i : Nat) (h : dst + n ≤ c.length) :
    (memmove c dst src n).getD i 0 =
      if dst ≤ i ∧ i < dst + n then c.getD (src + (i - dst)) 0 else c.getD i 0 := by
  unfold memmove
  rw [getD_storeBytes _ _ _ _ (by rw [length_loadBytes]; exact h), length_loadBytes]
  split
  · rw [getD_loadBytes _ _ _ _ (by omega)]
  · rfl

theorem length_memmove (c : List Byte) (dst src n : Nat) :
    (memmove c dst src n).length = c.length := length_storeBytes _ _ _

theorem getAt_memmove_inside (c : List Byte) (w t f cnt j : Nat)
    (hlen : (t + cnt) * w ≤ c.length) (h1 : t ≤ j) (h2 : j < t + cnt) :
    getAt (memmove c (t * w) (f * w) (cnt * w)) w j = getAt c w (f + (j - t)) := by
  unfold getAt
  congr 2
  apply loadBytes_congr
  intro k hk
  obtain ⟨d, rfl⟩ : ∃ d, j = t + d := ⟨j - t, by omega⟩
  have e1 : (t + cnt) * w = t * w + cnt * w := by ring
  have e2 : (t + d) * w = t * w + d * w := by ring
  have e3 : (f + (t + d - t)) * w = f * w + d * w := by
    rw [Nat.add_sub_cancel_left]; ring
  have e4 : (d + 1) * w ≤ cnt * w := Nat.mul_le_mul_right w (by omega)
  have e5 : (d + 1) * w = d * w + w := by ring
  rw [getD_memmove _ _ _ _ _ (by omega), if_pos (by omega), e3, e2]
  congr 1
  omega

theorem getAt_memmove_outside (c : List Byte) (w t f cnt j : Nat)
    (hlen : (t + cnt) * w ≤ c.length) (h : j < t ∨ t + cnt ≤ j) :
    getAt (memmove c (t * w) (f * w) (cnt * w)) w j = getAt c w j := by
  unfold memmove
  have e1 : (t + cnt) * w = t * w + cnt * w := by ring
  apply getAt_storeBytes_disjoint
  · rw [length_loadBytes]; omega
  · rw [length_loadBytes]
    rcases h with h | h
    · left; exact Nat.mul_le_mul_right w h
    · right; rw [← e1]; exact Nat.mul_le_mul_right w h

/-! ## Well-formed sets -/

theorem length_elems (is : intset) : (elems is).length = is.length := by simp [elems]

theorem getElem_elems (is : intset) (i : Nat) (h : i < (elems is).length) :
    (elems is)[i] = _intsetGet is i := by simp [elems]

theorem ascending_iff (is : intset) : Ascending is ↔ (elems is).Pairwise (· < ·) := by
  rw [List.pairwise_iff_getElem]
  constructor
  · intro h i j hi hj hij
    rw [getElem_elems, getElem_elems]
    exact h i j hij (by rwa [length_elems] at hj)
  · intro h i j hij hj
    have := h i j (by rw [length_elems]; omega) (by rw [length_elems]; omega) hij
    rwa [getElem_elems, getElem_elems] at this

theorem WF_ascending {is : intset} (h : WF is) : Ascending is := (ascending_iff is).mpr h.2.2.2

theorem WF_length_lt {is : intset} (h : WF is) : is.length < 2 ^ 31 := by
  obtain ⟨he, _, hs, _⟩ := h
  unfold U32 at hs
  norm_num at hs ⊢
  rcases he with h | h | h <;> rw [h] at hs <;> omega

theorem get_eq_getAt {is : intset} (h : validEnc is.encoding) (j : Nat) :
    _intsetGet is j = getAt is.contents is.encoding j := by
  have h256 : is.encoding % 256 = is.encoding := by
    rcases h with h | h | h <;> rw [h]
  unfold _intsetGet _intsetGetEncoded getAt
  rw [h256, encWidth_of_valid h]

theorem insert_shape (is : intset) (v : Int) (hwf : WF is)
    (hvenc : _intsetValueEncoding v ≤ is.encoding)
    (hroom : (is.length + 1) * is.encoding < U32) (hnf : (intsetSearch is v).1 = 0)
    (hp : (intsetSearch is v).2 ≤ is.length) :
    intsetAdd is v =
      ({ encoding := is.encoding, length := is.length + 1,
         contents := setAt
           (if (intsetSearch is v).2 < is.length then
              memmove (zrealloc is.contents ((is.length + 1) * is.encoding))
                (((intsetSearch is v).2 + 1) * is.encoding) ((intsetSearch is v).2 * is.encoding)
                ((is.length - (intsetSearch is v).2) * is.encoding)
            else zrealloc is.contents ((is.length + 1) * is.encoding))
           is.encoding (intsetSearch is v).2 v }, 1) := by
  have hnot : ¬ (_intsetValueEncoding v > is.encoding) := by omega
  have hw := encWidth_of_valid hwf.1
  have hlen := (WF_length_lt hwf)
  have h1 : (is.length + 1) % U32 = is.length + 1 := by
    unfold U32; norm_num at hlen ⊢; omega
  have h2 : ((is.length + 1) * is.encoding) % U32 = (is.length + 1) * is.encoding :=
    Nat.mod_eq_of_lt hroom
  have h3 : ((intsetSearch is v).2 + 1) % U32 = (intsetSearch is v).2 + 1 := by
    unfold U32; norm_num at hlen ⊢; omega
  have h4 : (is.length + U32 - (intsetSearch is v).2) % U32 = is.length - (intsetSearch is v).2 := by
    unfold U32; norm_num at hlen ⊢; omega
  have h5 : ((is.length - (intsetSearch is v).2) * is.encoding) % U32 =
      (is.length - (intsetSearch is v).2) * is.encoding := by
    apply Nat.mod_eq_of_lt
    calc (is.length - (intsetSearch is v).2) * is.encoding
        ≤ (is.length + 1) * is.encoding := Nat.mul_le_mul_right _ (by omega)
      _ < U32 := hroom
  simp only [intsetAdd, hnot, if_false, hnf, ne_eq, not_true_eq_false, intsetResize, h1, h2,
    _intsetSet, intsetMoveTail, hw, h3, h4, h5, setAt]
  split <;> simp only [hw, h1]

theorem insert_getAt (c : List Byte) (e n p : Nat) (v : Int) (he : validEnc e)
    (hv : fitsWidth e v) (hp : p ≤ n) (j : Nat) (hj : j ≤ n) :
    getAt (setAt
        (if p < n then memmove (zrealloc c ((n + 1) * e)) ((p + 1) * e) (p * e) ((n - p) * e)
         else zrealloc c ((n + 1) * e)) e p v) e j =
      if j < p then getAt c e j else if j = p then v else getAt c e (j - 1) := by
  have hl2 : (if p < n then memmove (zrealloc c ((n + 1) * e)) ((p + 1) * e) (p * e) ((n - p) * e)
         else zrealloc c ((n + 1) * e)).length = (n + 1) * e := by
    split
    · rw [length_memmove, length_zrealloc]
    · rw [length_zrealloc]
  have hpl : (p + 1) * e ≤ (n + 1) * e := Nat.mul_le_mul_right e (by omega)
  by_cases hjp : j = p
  · subst hjp
    rw [getAt_setAt_same he _ _ hv (by rw [hl2]; exact hpl)]
    simp
  · rw [getAt_setAt_other _ _ _ _ _ (by rw [hl2]; exact hpl) hjp]
    by_cases hpn : p < n
    · have hcnt : (p + 1 + (n - p)) * e ≤ (zrealloc c ((n + 1) * e)).length := by
        rw [length_zrealloc, show p + 1 + (n - p) = n + 1 by omega]
      rw [if_pos hpn]
      by_cases hlt : j < p
      · rw [if_pos hlt, getAt_memmove_outside _ _ _ _ _ _ hcnt (Or.inl (by omega)),
          getAt_zrealloc _ _ _ _ (Nat.mul_le_mul_right e (by omega))]
      · rw [if_neg hlt, if_neg hjp, getAt_memmove_inside _ _ _ _ _ _ hcnt (by omega) (by omega),
          show p + (j - (p + 1)) = j - 1 by omega,
          getAt_zrealloc _ _ _ _ (Nat.mul_le_mul_right e (by omega))]
    · rw [if_neg hpn, if_pos (by omega), getAt_zrealloc _ _ _ _ (Nat.mul_le_mul_right e (by omega))]

/-- List form of "old elements below `p`, then `v`, then the old elements from `p` on". -/
theorem map_range_insert {α : Type} (f g : Nat → α) (n p : Nat) (v : α) (hp : p ≤ n)
    (hg : ∀ j, j ≤ n → g j = if j < p then f j else if j = p then v else f (j - 1)) :
    (List.range (n + 1)).map g =
      ((List.range n).map f).take p ++ v :: ((List.range n).map f).drop p := by
  apply List.ext_getElem
  · simp; omega
  · intro i h1 h2
    simp only [List.length_map, List.length_range] at h1
    rw [List.getElem_map, List.getElem_range, hg i (by omega)]
    by_cases hip : i < p
    · rw [if_pos hip, List.getElem_append_left (by simp; omega)]
      simp
    · rw [if_neg hip, List.getElem_append_right (by simp; omega)]
      simp only [List.length_take, List.length_map, List.length_range, Nat.min_eq_left hp]
      by_cases hie : i = p
      · subst hie; simp
      · rw [if_neg hie]
        obtain ⟨d, hd⟩ : ∃ d, i - p = d + 1 := ⟨i - p - 1, by omega⟩
        simp only [hd, List.getElem_cons_succ, List.getElem_drop, List.getElem_map,
          List.getElem_range]
        congr 1
        omega

/-- The insert path of `intsetAdd` (no upgrade, value absent): success is reported,
the encoding is kept, and the elements are the old ones with `value` at the position
`intsetSearch` returned. -/
theorem intsetAdd_insert (is : intset) (v : Int) (hwf : WF is)
    (hvenc : _intsetValueEncoding v ≤ is.encoding) (hv : fitsWidth is.encoding v)
    (hroom : (is.length + 1) * is.encoding < U32) (hnf : (intsetSearch is v).1 = 0)
    (hp : (intsetSearch is v).2 ≤ is.length) :
    (intsetAdd is v).2 = 1 ∧ (intsetAdd is v).1.encoding = is.encoding ∧
    (intsetAdd is v).1.length = is.length + 1 ∧
    (intsetAdd is v).1.contents.length = (is.length + 1) * is.encoding ∧
    elems (intsetAdd is v).1 =
      (elems is).take (intsetSearch is v).2 ++ v :: (elems is).drop (intsetSearch is v).2 := by
  rw [insert_shape is v hwf hvenc hroom hnf hp]
  refine ⟨rfl, rfl, rfl, ?_, ?_⟩
  · simp only [length_setAt]
    split
    · rw [length_memmove, length_zrealloc]
    · rw [length_zrealloc]
  · unfold elems
    apply map_range_insert _ _ _ _ _ hp
    intro j hj
    rw [get_eq_getAt (by exact hwf.1)]
    simp only [get_eq_getAt hwf.1]
    exact insert_getAt is.contents is.encoding is.length _ v hwf.1 hv hp j hj

/-! ## Removal -/

theorem remove_shape (is : intset) (v : Int) (hwf : WF is)
    (hvenc : _intsetValueEncoding v ≤ is.encoding) (hf : (intsetSearch is v).1 = 1)
    (hp : (intsetSearch is v).2 < is.length) :
    intsetRemove is v =
      ({ encoding := is.encoding, length := is.length - 1,
         contents := zrealloc
           (if (intsetSearch is v).2 < is.length - 1 then
              memmove is.contents ((intsetSearch is v).2 * is.encoding)
                (((intsetSearch is v).2 + 1) * is.encoding)
                ((is.length - ((intsetSearch is v).2 + 1)) * is.encoding)
            else is.contents)
           ((is.length - 1) * is.encoding) }, 1) := by
  have hw := encWidth_of_valid hwf.1
  have hlen := (WF_length_lt hwf)
  have h1 : (is.length + U32 - 1) % U32 = is.length - 1 := by
    unfold U32; norm_num at hlen ⊢; omega
  have hsz : (is.length - 1) * is.encoding < U32 :=
    lt_of_le_of_lt (Nat.mul_le_mul_right _ (by omega)) hwf.2.2.1
  have h2 : ((is.length - 1) * is.encoding) % U32 = (is.length - 1) * is.encoding :=
    Nat.mod_eq_of_lt hsz
  have h3 : ((intsetSearch is v).2 + 1) % U32 = (intsetSearch is v).2 + 1 := by
    unfold U32; norm_num at hlen ⊢; omega
  have h4 : (is.length + U32 - ((intsetSearch is v).2 + 1)) % U32 =
      is.length - ((intsetSearch is v).2 + 1) := by
    unfold U32; norm_num at hlen ⊢; omega
  have h5 : ((is.length - ((intsetSearch is v).2 + 1)) * is.encoding) % U32 =
      (is.length - ((intsetSearch is v).2 + 1)) * is.encoding := by
    apply Nat.mod_eq_of_lt
    exact lt_of_le_of_lt (Nat.mul_le_mul_right _ (by omega)) hwf.2.2.1
  simp only [intsetRemove, hvenc, hf, true_and, ne_eq, one_ne_zero, not_false_eq_true, if_true,
    intsetResize, h1, intsetMoveTail, hw, h3, h4, h5]
  by_cases hpn : (intsetSearch is v).2 < is.length - 1
  · simp only [hpn, if_true, h2]
  · simp only [hpn, if_false, h2]

theorem remove_getAt (c : List Byte) (e n p : Nat) (hc : c.length = n * e) (hp : p < n)
    (j : Nat) (hj : j < n - 1) :
    getAt (zrealloc
        (if p < n - 1 then memmove c (p * e) ((p + 1) * e) ((n - (p + 1)) * e) else c)
        ((n - 1) * e)) e j =
      if j < p then getAt c e j else getAt c e (j + 1) := by
  rw [getAt_zrealloc _ _ _ _ (Nat.mul_le_mul_right e (by omega))]
  by_cases hpn : p < n - 1
  · have hcnt : (p + (n - (p + 1))) * e ≤ c.length := by
      rw [hc]; exact Nat.mul_le_mul_right e (by omega)
    rw [if_pos hpn]
    by_cases hlt : j < p
    · rw [if_pos hlt, getAt_memmove_outside _ _ _ _ _ _ hcnt (Or.inl hlt)]
    · rw [if_neg hlt, getAt_memmove_inside _ _ _ _ _ _ hcnt (by omega) (by omega),
        show p + 1 + (j - p) = j + 1 by omega]
  · rw [if_neg hpn, if_pos (by omega)]

/-- List form of "the old elements without the one at index `p`". -/
theorem map_range_erase {α : Type} (f g : Nat → α) (n p : Nat) (hp : p < n)
    (hg : ∀ j, j < n - 1 → g j = if j < p then f j else f (j + 1)) :
    (List.range (n - 1)).map g = ((List.range n).map f).eraseIdx p := by
  apply List.ext_getElem
  · simp [List.length_eraseIdx, hp]
  · intro i h1 h2
    simp only [List.length_map, List.length_range] at h1
    rw [List.getElem_map, List.getElem_range, hg i h1, List.getElem_eraseIdx]
    by_cases hip : i < p
    · simp [hip]
    · simp [hip]

/-- The removal path of `intsetRemove` (value present): success is reported, the
encoding is kept, and the element at the position `intsetSearch` returned is gone. -/
theorem intsetRemove_found (is : intset) (v : Int) (hwf : WF is)
    (hvenc : _intsetValueEncoding v ≤ is.encoding) (hf : (intsetSearch is v).1 = 1)
    (hp : (intsetSearch is v).2 < is.length) :
    (intsetRemove is v).2 = 1 ∧ (intsetRemove is v).1.encoding = is.encoding ∧
    (intsetRemove is v).1.length = is.length - 1 ∧
    (intsetRemove is v).1.contents.length = (is.length - 1) * is.encoding ∧
    elems (intsetRemove is v).1 = (elems is).eraseIdx (intsetSearch is v).2 := by
  rw [remove_shape is v hwf hvenc hf hp]
  refine ⟨rfl, rfl, rfl, ?_, ?_⟩
  · simp only [length_zrealloc]
  · unfold elems
    apply map_range_erase _ _ _ _ hp
    intro j hj
    simp only [get_eq_getAt hwf.1]
    rw [get_eq_getAt (by exact hwf.1)]
    exact remove_getAt is.contents is.encoding is.length _ hwf.2.1 hp j hj

/-! ## Encoding upgrade -/

theorem intsetUpgradeLoop_spec (w0 w1 prepend : Nat) (hw0 : validEnc w0) (hw1 : validEnc w1)
    (h01 : w0 ≤ w1) :
    ∀ (k : Nat) (is : intset), is.encoding = w1 → (k + prepend) * w1 ≤ is.contents.length →
      (intsetUpgradeLoop w0 prepend k is).encoding = w1 ∧
      (intsetUpgradeLoop w0 prepend k is).length = is.length ∧
      (intsetUpgradeLoop w0 prepend k is).contents.length = is.contents.length ∧
      (∀ j, j < k → getAt (intsetUpgradeLoop w0 prepend k is).contents w1 (j + prepend) =
        getAt is.contents w0 j) ∧
      (∀ j, k + prepend ≤ j → getAt (intsetUpgradeLoop w0 prepend k is).contents w1 j =
        getAt is.contents w1 j) := by
  intro k
  induction k with
  | zero =>
    intro is he _
    exact ⟨he, rfl, rfl, fun j hj => absurd hj (Nat.not_lt_zero j), fun _ _ => rfl⟩
  | succ k ih =>
    intro is he hlen
    have hwe : encWidth is.encoding = w1 := by rw [he]; exact encWidth_of_valid hw1
    have hstep : (_intsetSet is (k + prepend) (_intsetGetEncoded is k w0)).contents =
        setAt is.contents w1 (k + prepend) (getAt is.contents w0 k) := by
      simp only [_intsetSet, _intsetGetEncoded, hwe, encWidth_of_valid hw0, setAt, getAt]
    have hlen1 : (k + prepend + 1) * w1 ≤ is.contents.length := by
      rw [show k + prepend + 1 = k + 1 + prepend by omega]; exact hlen
    have hlen2 : (k + prepend) * w1 ≤ (k + prepend + 1) * w1 := Nat.mul_le_mul_right w1 (by omega)
    obtain ⟨e1, e2, e3, e4, e5⟩ := ih (_intsetSet is (k + prepend) (_intsetGetEncoded is k w0)) he
      (by rw [hstep, length_setAt]; omega)
    simp only [intsetUpgradeLoop]
    refine ⟨e1, e2, ?_, ?_, ?_⟩
    · rw [e3, hstep, length_setAt]
    · intro j hj
      by_cases hjk : j < k
      · rw [e4 j hjk, hstep]
        unfold setAt
        apply getAt_storeBytes_disjoint
        · rw [length_natToLE]
          have : (k + prepend + 1) * w1 = (k + prepend) * w1 + w1 := by ring
          omega
        · left
          exact Nat.mul_le_mul (by omega) h01
      · have hjk2 : j = k := by omega
        subst hjk2
        rw [e5 (j + prepend) (le_refl _), hstep]
        exact getAt_setAt_same hw1 _ _ (fitsWidth_mono hw0 hw1 h01 (fitsWidth_getAt hw0 _ _)) hlen1
    · intro j hj
      rw [e5 j (by omega), hstep]
      exact getAt_setAt_other _ _ _ _ _ hlen1 (by omega)

theorem map_range_cons {α : Type} (f g : Nat → α) (n : Nat) (v : α) (h0 : g 0 = v)
    (hg : ∀ j, j < n → g (j + 1) = f j) :
    (List.range (n + 1)).map g = v :: (List.range n).map f := by
  rw [List.range_succ_eq_map, List.map_cons, h0, List.map_map]
  congr 1
  apply List.map_congr_left
  intro j hj
  exact hg j (List.mem_range.mp hj)

theorem map_range_snoc {α : Type} (f g : Nat → α) (n : Nat) (v : α) (hn : g n = v)
    (hg : ∀ j, j < n → g j = f j) :
    (List.range (n + 1)).map g = (List.range n).map f ++ [v] := by
  rw [List.range_succ, List.map_append, List.map_singleton, hn]
  congr 1
  apply List.map_congr_left
  intro j hj
  exact hg j (List.mem_range.mp hj)

theorem fitsWidth_valueEncoding {v : Int} (hv : isInt64 v) :
    fitsWidth (_intsetValueEncoding v) v :=
  (fitsWidth_iff_valueEncoding (validEnc_valueEncoding v) hv).mp (le_refl _)

/-- The upgrade path of `intsetAdd`: success is reported, the encoding becomes the
value's, and the value is put in front of the old elements when negative, behind them
otherwise. -/
theorem intsetAdd_upgrade (is : intset) (v : Int) (hwf : WF is) (hv : isInt64 v)
    (hup : _intsetValueEncoding v > is.encoding)
    (hroom : (is.length + 1) * _intsetValueEncoding v < U32) :
    (intsetAdd is v).2 = 1 ∧ (intsetAdd is v).1.encoding = _intsetValueEncoding v ∧
    (intsetAdd is v).1.length = is.length + 1 ∧
    (intsetAdd is v).1.contents.length = (is.length + 1) * _intsetValueEncoding v ∧
    elems (intsetAdd is v).1 = if v < 0 then v :: elems is else elems is ++ [v] := by
  have hw1 := validEnc_valueEncoding v
  have hw0 := hwf.1
  have hlen := (WF_length_lt hwf)
  have hcur : is.encoding % 256 = is.encoding := by
    rcases hw0 with h | h | h <;> rw [h]
  have h1 : (is.length + 1) % U32 = is.length + 1 := by
    unfold U32; norm_num at hlen ⊢; omega
  have h2 : ((is.length + 1) * _intsetValueEncoding v) % U32 =
      (is.length + 1) * _intsetValueEncoding v := Nat.mod_eq_of_lt hroom
  have hww : encWidth (_intsetValueEncoding v) = _intsetValueEncoding v := encWidth_of_valid hw1
  have hold : ∀ j, j < is.length →
      getAt (zrealloc is.contents ((is.length + 1) * _intsetValueEncoding v)) is.encoding j =
        _intsetGet is j := by
    intro j hj
    rw [get_eq_getAt hw0, getAt_zrealloc]
    exact Nat.mul_le_mul (by omega) (le_of_lt hup)
  by_cases hneg : v < 0
  · obtain ⟨e1, e2, e3, e4, e5⟩ := intsetUpgradeLoop_spec is.encoding (_intsetValueEncoding v) 1
      hw0 hw1 (le_of_lt hup) is.length
      { encoding := _intsetValueEncoding v, length := is.length,
        contents := zrealloc is.contents ((is.length + 1) * _intsetValueEncoding v) }
      rfl (by simp only [length_zrealloc]; exact le_refl _)
    simp only [length_zrealloc] at e3
    have hone : (1 : Nat) * _intsetValueEncoding v ≤ (is.length + 1) * _intsetValueEncoding v :=
      Nat.mul_le_mul_right _ (by omega)
    simp only [intsetAdd, hup, if_true, intsetUpgradeAndAdd, hneg, intsetResize, h1, h2, hcur,
      _intsetSet, e1, e2, hww, if_true]
    refine ⟨trivial, trivial, trivial, ?_, ?_⟩
    · rw [length_storeBytes, e3]
    · unfold elems
      apply map_range_cons
      · refine Eq.trans (get_eq_getAt hw1 _) ?_
        exact getAt_setAt_same hw1 _ 0 (fitsWidth_valueEncoding hv) (by rw [e3]; exact hone)
      · intro j hj
        refine Eq.trans (get_eq_getAt hw1 _) ?_
        refine Eq.trans (getAt_setAt_other _ _ 0 (j + 1) v (by rw [e3]; exact hone) (by omega)) ?_
        rw [e4 j hj, hold j hj]
  · obtain ⟨e1, e2, e3, e4, e5⟩ := intsetUpgradeLoop_spec is.encoding (_intsetValueEncoding v) 0
      hw0 hw1 (le_of_lt hup) is.length
      { encoding := _intsetValueEncoding v, length := is.length,
        contents := zrealloc is.contents ((is.length + 1) * _intsetValueEncoding v) }
      rfl (by simp only [length_zrealloc]; exact Nat.mul_le_mul_right _ (by omega))
    simp only [length_zrealloc] at e3
    simp only [intsetAdd, hup, if_true, intsetUpgradeAndAdd, hneg, intsetResize, h1, h2, hcur,
      _intsetSet, e1, e2, hww, if_false, zero_ne_one]
    refine ⟨trivial, trivial, trivial, ?_, ?_⟩
    · rw [length_storeBytes, e3]
    · unfold elems
      apply map_range_snoc
      · refine Eq.trans (get_eq_getAt hw1 _) ?_
        exact getAt_setAt_same hw1 _ is.length (fitsWidth_valueEncoding hv) (by rw [e3])
      · intro j hj
        refine Eq.trans (get_eq_getAt hw1 _) ?_
        refine Eq.trans (getAt_setAt_other _ _ is.length j v (by rw [e3]) (by omega)) ?_
        have h4 := e4 j hj
        simp only [Nat.add_zero] at h4
        rw [h4, hold j hj]

/-! ## Search on the element list -/

theorem mem_elems (is : intset) (v : Int) :
    v ∈ elems is ↔ ∃ i, i < is.length ∧ _intsetGet is i = v := by
  simp [elems]

/-- On a well-formed set `intsetSearch` finds the value exactly when it is stored, and
otherwise returns the index below which the elements are smaller and from which on they
are larger. -/
theorem intsetSearch_cases (is : intset) (v : Int) (hwf : WF is) :
    (v ∈ elems is ∧ (intsetSearch is v).1 = 1 ∧ (intsetSearch is v).2 < is.length ∧
      _intsetGet is (intsetSearch is v).2 = v) ∨
    (v ∉ elems is ∧ (intsetSearch is v).1 = 0 ∧ (intsetSearch is v).2 ≤ is.length ∧
      (∀ x ∈ (elems is).take (intsetSearch is v).2, x < v) ∧
      (∀ x ∈ (elems is).drop (intsetSearch is v).2, v < x)) := by
  rcases intsetSearch_spec is v (WF_length_lt hwf) (WF_ascending hwf) with ⟨h1, h2, h3⟩ | ⟨h1, h2, h3, h4⟩
  · left
    exact ⟨(mem_elems is v).mpr ⟨_, h2, h3⟩, h1, h2, h3⟩
  · right
    refine ⟨?_, h1, h2, ?_, ?_⟩
    · intro hmem
      obtain ⟨i, hi, hget⟩ := (mem_elems is v).mp hmem
      by_cases hip : i < (intsetSearch is v).2
      · have := h3 i hip; omega
      · have := h4 i (by omega) hi; omega
    · intro x hx
      obtain ⟨i, hi, rfl⟩ := List.mem_take_iff_getElem.mp hx
      rw [getElem_elems]
      exact h3 i (by omega)
    · intro x hx
      obtain ⟨i, hi, rfl⟩ := List.mem_drop_iff_getElem.mp hx
      rw [getElem_elems]
      rw [length_elems] at hi
      exact h4 _ (by omega) (by omega)

theorem countP_lt_eq (l : List Int) (v : Int) (p : Nat) (hp : p ≤ l.length)
    (hlo : ∀ x ∈ l.take p, x < v) (hhi : ∀ x ∈ l.drop p, v < x) :
    (l.filter (fun x => decide (x < v))).length = p := by
  rw [← List.countP_eq_length_filter]
  conv_lhs => rw [← List.take_append_drop p l]
  rw [List.countP_append]
  have h1 : List.countP (fun x => decide (x < v)) (l.take p) = (l.take p).length :=
    List.countP_eq_length.mpr (by intro a ha; simpa using hlo a ha)
  have h2 : List.countP (fun x => decide (x < v)) (l.drop p) = 0 :=
    List.countP_eq_zero.mpr (by intro a ha; have := hhi a ha; simp; omega)
  rw [h1, h2, List.length_take]
  omega

/-- Every stored element is representable at the set's encoding. -/
theorem fitsWidth_of_mem {is : intset} (henc : validEnc is.encoding) {x : Int}
    (hx : x ∈ elems is) : fitsWidth is.encoding x := by
  obtain ⟨i, _, rfl⟩ := (mem_elems is x).mp hx
  rw [get_eq_getAt henc]
  exact fitsWidth_getAt henc _ _

/-! ## The operations on well-formed sets -/

theorem hasRoom_le {is : intset} {v : Int} (h : hasRoom is v) :
    (is.length + 1) * is.encoding < U32 ∧ (is.length + 1) * _intsetValueEncoding v < U32 :=
  ⟨lt_of_le_of_lt (Nat.mul_le_mul_left _ (le_max_left _ _)) h,
   lt_of_le_of_lt (Nat.mul_le_mul_left _ (le_max_right _ _)) h⟩

theorem hasRoom_of_le {is : intset} (v : Int) (henc : validEnc is.encoding) {n : Nat}
    (hle : is.length + 1 ≤ n) (hcap : n * INTSET_ENC_INT64 < U32) : hasRoom is v := by
  refine lt_of_le_of_lt (Nat.mul_le_mul hle ?_) hcap
  unfold INTSET_ENC_INT64
  rcases henc with h | h | h <;> rcases validEnc_valueEncoding v with h1 | h1 | h1 <;>
    rw [h, h1] <;> decide

/-- A value needing a wider encoding than `e` lies outside the range of every value
representable at `e`: below when negative, above otherwise. -/
theorem upgrade_outside {e : Nat} (he : validEnc e) {x v : Int} (hx : fitsWidth e x)
    (hv : isInt64 v) (hup : _intsetValueEncoding v > e) :
    (v < 0 → v < x) ∧ (¬ v < 0 → x < v) := by
  have hnf : ¬ fitsWidth e v := by
    rw [← fitsWidth_iff_valueEncoding he hv]; omega
  unfold fitsWidth at hx hnf
  rcases he with h | h | h <;> subst h <;> norm_num at hx hnf <;> constructor <;> intro h0 <;> omega

theorem encoding_le_of_mem {is : intset} (hwf : WF is) {v : Int} (hv : isInt64 v)
    (hmem : v ∈ elems is) : _intsetValueEncoding v ≤ is.encoding :=
  (fitsWidth_iff_valueEncoding hwf.1 hv).mpr (fitsWidth_of_mem hwf.1 hmem)

/-- Adding a value that is stored returns the set itself and reports `0`. -/
theorem intsetAdd_of_mem {is : intset} (hwf : WF is) {v : Int} (hv : isInt64 v)
    (hmem : v ∈ elems is) : intsetAdd is v = (is, 0) := by
  have henc := encoding_le_of_mem hwf hv hmem
  rcases intsetSearch_cases is v hwf with ⟨_, h1, _, _⟩ | ⟨h0, _⟩
  · have hnot : ¬ (_intsetValueEncoding v > is.encoding) := by omega
    simp [intsetAdd, hnot, h1]
  · exact absurd hmem h0

/-- Adding a value that is not stored: what the result is on either path. -/
theorem intsetAdd_of_not_mem {is : intset} (hwf : WF is) {v : Int} (hv : isInt64 v)
    (hroom : hasRoom is v) (hmem : v ∉ elems is) :
    (intsetAdd is v).2 = 1 ∧ (intsetAdd is v).1.length = is.length + 1 ∧
    (intsetAdd is v).1.encoding = max is.encoding (_intsetValueEncoding v) ∧
    (intsetAdd is v).1.contents.length = (is.length + 1) * (intsetAdd is v).1.encoding ∧
    ((_intsetValueEncoding v ≤ is.encoding ∧
        (∀ x ∈ (elems is).take (intsetSearch is v).2, x < v) ∧
        (∀ x ∈ (elems is).drop (intsetSearch is v).2, v < x) ∧
        (intsetSearch is v).2 ≤ is.length ∧
        elems (intsetAdd is v).1 =
          (elems is).take (intsetSearch is v).2 ++ v :: (elems is).drop (intsetSearch is v).2) ∨
     (_intsetValueEncoding v > is.encoding ∧
        elems (intsetAdd is v).1 = if v < 0 then v :: elems is else elems is ++ [v])) := by
  by_cases hup : _intsetValueEncoding v > is.encoding
  · obtain ⟨h1, h2, h3, h4, h5⟩ :=
      intsetAdd_upgrade is v hwf hv hup (hasRoom_le hroom).2
    refine ⟨h1, h3, ?_, ?_, Or.inr ⟨hup, h5⟩⟩
    · rw [h2]; omega
    · rw [h4, h2]
  · have hle : _intsetValueEncoding v ≤ is.encoding := by omega
    rcases intsetSearch_cases is v hwf with ⟨h0, _⟩ | ⟨_, hnf, hp, hlo, hhi⟩
    · exact absurd h0 hmem
    · obtain ⟨h1, h2, h3, h4, h5⟩ := intsetAdd_insert is v hwf hle
        ((fitsWidth_iff_valueEncoding hwf.1 hv).mp hle) (hasRoom_le hroom).1 hnf hp
      refine ⟨h1, h3, ?_, ?_, Or.inl ⟨hle, hlo, hhi, hp, h5⟩⟩
      · rw [h2]; omega
      · rw [h4, h2]

/-- Membership after `intsetAdd`. -/
theorem mem_elems_intsetAdd {is : intset} (hwf : WF is) {v : Int} (hv : isInt64 v)
    (hroom : hasRoom is v) (x : Int) :
    x ∈ elems (intsetAdd is v).1 ↔ x = v ∨ x ∈ elems is := by
  by_cases hmem : v ∈ elems is
  · rw [intsetAdd_of_mem hwf hv hmem]
    constructor
    · intro h; exact Or.inr h
    · rintro (h | h)
      · subst h; exact hmem
      · exact h
  · obtain ⟨_, _, _, _, h | h⟩ := intsetAdd_of_not_mem hwf hv hroom hmem
    · rw [h.2.2.2.2]
      conv_rhs => rw [← List.take_append_drop (intsetSearch is v).2 (elems is)]
      simp only [List.mem_append, List.mem_cons]
      tauto
    · rw [h.2]
      split
      · exact List.mem_cons
      · simp only [List.mem_append, List.mem_singleton]
        tauto

/-- Well-formedness is kept by `intsetAdd`. -/
theorem WF_intsetAdd {is : intset} (hwf : WF is) {v : Int} (hv : isInt64 v)
    (hroom : hasRoom is v) : WF (intsetAdd is v).1 := by
  by_cases hmem : v ∈ elems is
  · rw [intsetAdd_of_mem hwf hv hmem]; exact hwf
  · obtain ⟨_, h2, h3, h4, h5⟩ := intsetAdd_of_not_mem hwf hv hroom hmem
    have henc : validEnc (intsetAdd is v).1.encoding := by
      rw [h3]
      rcases le_total is.encoding (_intsetValueEncoding v) with h | h
      · rw [max_eq_right h]; exact validEnc_valueEncoding v
      · rw [max_eq_left h]; exact hwf.1
    refine ⟨henc, ?_, ?_, ?_⟩
    · rw [h4, h2]
    · rw [h2, h3]; exact hroom
    · have hsorted := hwf.2.2.2
      rcases h5 with ⟨_, hlo, hhi, _, he⟩ | ⟨hup, he⟩
      · rw [he]
        rw [← List.take_append_drop (intsetSearch is v).2 (elems is), List.pairwise_append] at hsorted
        obtain ⟨s1, s2, s3⟩ := hsorted
        rw [List.pairwise_append]
        refine ⟨s1, List.pairwise_cons.mpr ⟨hhi, s2⟩, ?_⟩
        intro a ha b hb
        rcases List.mem_cons.mp hb with hb | hb
        · rw [hb]; exact hlo a ha
        · exact s3 a ha b hb
      · rw [he]
        have hout : ∀ x ∈ elems is, (v < 0 → v < x) ∧ (¬ v < 0 → x < v) :=
          fun x hx => upgrade_outside hwf.1 (fitsWidth_of_mem hwf.1 hx) hv hup
        split
        · rename_i hneg
          exact List.pairwise_cons.mpr ⟨fun x hx => (hout x hx).1 hneg, hsorted⟩
        · rename_i hneg
          rw [List.pairwise_append]
          refine ⟨hsorted, List.pairwise_singleton _ _, ?_⟩
          intro a ha b hb
          rw [List.mem_singleton.mp hb]
          exact (hout a ha).2 hneg

theorem nodup_elems {is : intset} (hwf : WF is) : (elems is).Nodup :=
  hwf.2.2.2.imp (fun h => ne_of_lt h)

/-- Removing a value that is not stored returns the set itself and reports `0`. -/
theorem intsetRemove_of_not_mem {is : intset} (hwf : WF is) {v : Int}
    (hmem : v ∉ elems is) : intsetRemove is v = (is, 0) := by
  rcases intsetSearch_cases is v hwf with ⟨h0, _⟩ | ⟨_, hnf, _⟩
  · exact absurd h0 hmem
  · simp [intsetRemove, hnf]

/-- Removing a stored value: what the result is. -/
theorem intsetRemove_of_mem {is : intset} (hwf : WF is) {v : Int} (hv : isInt64 v)
    (hmem : v ∈ elems is) :
    (intsetRemove is v).2 = 1 ∧ (intsetRemove is v).1.encoding = is.encoding ∧
    (intsetRemove is v).1.length = is.length - 1 ∧
    (intsetRemove is v).1.contents.length = (is.length - 1) * is.encoding ∧
    elems (intsetRemove is v).1 = (elems is).erase v := by
  have henc := encoding_le_of_mem hwf hv hmem
  rcases intsetSearch_cases is v hwf with ⟨_, h1, hp, hget⟩ | ⟨h0, _⟩
  · obtain ⟨r1, r2, r3, r4, r5⟩ := intsetRemove_found is v hwf henc h1 hp
    refine ⟨r1, r2, r3, r4, ?_⟩
    rw [r5]
    have hp2 : (intsetSearch is v).2 < (elems is).length := by rw [length_elems]; exact hp
    have := (nodup_elems hwf).erase_getElem (intsetSearch is v).2 hp2
    rw [getElem_elems, hget] at this
    exact this.symm
  · exact absurd hmem h0

/-- Membership after `intsetRemove`. -/
theorem mem_elems_intsetRemove {is : intset} (hwf : WF is) {v : Int} (hv : isInt64 v)
    (x : Int) : x ∈ elems (intsetRemove is v).1 ↔ x ≠ v ∧ x ∈ elems is := by
  by_cases hmem : v ∈ elems is
  · rw [(intsetRemove_of_mem hwf hv hmem).2.2.2.2]
    exact (nodup_elems hwf).mem_erase_iff
  · rw [intsetRemove_of_not_mem hwf hmem]
    constructor
    · intro h
      exact ⟨fun he => hmem (he ▸ h), h⟩
    · exact fun h => h.2

/-- Well-formedness is kept by `intsetRemove`. -/
theorem WF_intsetRemove {is : intset} (hwf : WF is) {v : Int} (hv : isInt64 v) :
    WF (intsetRemove is v).1 := by
  by_cases hmem : v ∈ elems is
  · obtain ⟨_, r2, r3, r4, r5⟩ := intsetRemove_of_mem hwf hv hmem
    refine ⟨by rw [r2]; exact hwf.1, by rw [r4, r3, r2], ?_, ?_⟩
    · rw [r3, r2]
      exact lt_of_le_of_lt (Nat.mul_le_mul_right _ (Nat.sub_le _ _)) hwf.2.2.1
    · rw [r5]
      exact hwf.2.2.2.sublist (List.erase_sublist v (elems is))
  · rw [intsetRemove_of_not_mem hwf hmem]; exact hwf

/-- On a well-formed set `intsetFind` returns `1` for the stored values and `0` for all
others. -/
theorem intsetFind_eq {is : intset} (hwf : WF is) {v : Int} (hv : isInt64 v) :
    intsetFind is v = if v ∈ elems is then 1 else 0 := by
  rcases intsetSearch_cases is v hwf with ⟨hmem, h1, _, _⟩ | ⟨hmem, h0, _⟩
  · have henc := encoding_le_of_mem hwf hv hmem
    simp [intsetFind, hmem, h1, henc]
  · simp [intsetFind, hmem, h0]

theorem WF_intsetNew : WF intsetNew := by decide

/-! ## Sequences of operations -/

theorem length_intsetAdd_le {is : intset} (hwf : WF is) {v : Int} (hv : isInt64 v)
    (hroom : hasRoom is v) : (intsetAdd is v).1.length ≤ is.length + 1 := by
  by_cases hmem : v ∈ elems is
  · rw [intsetAdd_of_mem hwf hv hmem]; exact Nat.le_succ _
  · rw [(intsetAdd_of_not_mem hwf hv hroom hmem).2.1]

theorem length_intsetRemove_le {is : intset} (hwf : WF is) {v : Int} (hv : isInt64 v) :
    (intsetRemove is v).1.length ≤ is.length := by
  by_cases hmem : v ∈ elems is
  · rw [(intsetRemove_of_mem hwf hv hmem).2.2.1]; omega
  · rw [intsetRemove_of_not_mem hwf hmem]

theorem runOps_snoc (ops : List Op) (op : Op) :
    runOps (ops ++ [op]) = applyOp (runOps ops) op := by
  simp [runOps, List.foldl_append]

/-- Every set reached from `intsetNew()` is well-formed and no longer than the number
of operations. -/
theorem WF_runOps (ops : List Op) (hops : ∀ op ∈ ops, isInt64 op.value)
    (hcap : ops.length * INTSET_ENC_INT64 < U32) :
    WF (runOps ops) ∧ (runOps ops).length ≤ ops.length := by
  induction ops using List.reverseRecOn with
  | nil => exact ⟨WF_intsetNew, Nat.le_refl _⟩
  | append_singleton ops op ih =>
    have hlen : (ops ++ [op]).length = ops.length + 1 := by simp
    rw [hlen] at hcap ⊢
    obtain ⟨hwf, hle⟩ := ih (fun o ho => hops o (List.mem_append_left _ ho))
      (lt_of_le_of_lt (Nat.mul_le_mul_right _ (by omega)) hcap)
    have hv : isInt64 op.value := hops op (by simp)
    have hroom : ∀ v, hasRoom (runOps ops) v :=
      fun v => hasRoom_of_le v hwf.1 (Nat.succ_le_succ hle) hcap
    rw [runOps_snoc]
    cases op with
    | add v =>
      exact ⟨WF_intsetAdd hwf hv (hroom v), le_trans (length_intsetAdd_le hwf hv (hroom v)) (by omega)⟩
    | remove v =>
      exact ⟨WF_intsetRemove hwf hv, le_trans (length_intsetRemove_le hwf hv) (by omega)⟩

theorem minEncoding_le_iff (l : List Int) (e : Nat) :
    minEncoding l ≤ e ↔ INTSET_ENC_INT16 ≤ e ∧ ∀ x ∈ l, _intsetValueEncoding x ≤ e := by
  induction l with
  | nil => simp [minEncoding]
  | cons a l ih =>
    have h : minEncoding (a :: l) = max (_intsetValueEncoding a) (minEncoding l) := rfl
    rw [h, max_le_iff, ih]
    simp only [List.mem_cons, forall_eq_or_imp]
    tauto

theorem minEncoding_insert {l l1 : List Int} {v : Int} (h : ∀ x, x ∈ l1 ↔ x = v ∨ x ∈ l) :
    minEncoding l1 = max (minEncoding l) (_intsetValueEncoding v) := by
  have key : ∀ e, minEncoding l1 ≤ e ↔ max (minEncoding l) (_intsetValueEncoding v) ≤ e := by
    intro e
    rw [max_le_iff, minEncoding_le_iff, minEncoding_le_iff]
    constructor
    · rintro ⟨h1, h2⟩
      exact ⟨⟨h1, fun x hx => h2 x ((h x).mpr (Or.inr hx))⟩, h2 v ((h v).mpr (Or.inl rfl))⟩
    · rintro ⟨⟨h1, h2⟩, h3⟩
      refine ⟨h1, fun x hx => ?_⟩
      rcases (h x).mp hx with hx | hx
      · rw [hx]; exact h3
      · exact h2 x hx
  exact le_antisymm ((key _).mpr (le_refl _)) ((key _).mp (le_refl _))

theorem minEncoding_le_encoding {is : intset} (hwf : WF is) :
    minEncoding (elems is) ≤ is.encoding := by
  rw [minEncoding_le_iff]
  constructor
  · unfold INTSET_ENC_INT16
    rcases hwf.1 with h | h | h <;> omega
  · intro x hx
    have hfit := fitsWidth_of_mem hwf.1 hx
    have hx64 : isInt64 x := by
      have := fitsWidth_mono hwf.1 (Or.inr (Or.inr rfl)) (by rcases hwf.1 with h | h | h <;> omega) hfit
      unfold fitsWidth at this
      unfold isInt64 INT64_MIN INT64_MAX
      norm_num at this
      omega
    exact (fitsWidth_iff_valueEncoding hwf.1 hx64).mpr hfit

theorem encoding_runOps_addOnly (ops : List Op) (hops : ∀ op ∈ ops, isInt64 op.value)
    (hcap : ops.length * INTSET_ENC_INT64 < U32) (hadd : addOnly ops) :
    (runOps ops).encoding = minEncoding (elems (runOps ops)) := by
  induction ops using List.reverseRecOn with
  | nil => rfl
  | append_singleton ops op ih =>
    have hlen : (ops ++ [op]).length = ops.length + 1 := by simp
    rw [hlen] at hcap
    have hops1 : ∀ o ∈ ops, isInt64 o.value := fun o ho => hops o (List.mem_append_left _ ho)
    have hcap1 : ops.length * INTSET_ENC_INT64 < U32 :=
      lt_of_le_of_lt (Nat.mul_le_mul_right _ (by omega)) hcap
    have ih1 := ih hops1 hcap1 (fun o ho => hadd o (List.mem_append_left _ ho))
    obtain ⟨hwf, hle⟩ := WF_runOps ops hops1 hcap1
    have hroom : ∀ v, hasRoom (runOps ops) v :=
      fun v => hasRoom_of_le v hwf.1 (Nat.succ_le_succ hle) hcap
    obtain ⟨v, rfl⟩ := hadd op (by simp)
    have hv : isInt64 v := hops (Op.add v) (by simp)
    rw [runOps_snoc]
    show (intsetAdd (runOps ops) v).1.encoding = minEncoding (elems (intsetAdd (runOps ops) v).1)
    by_cases hmem : v ∈ elems (runOps ops)
    · rw [intsetAdd_of_mem hwf hv hmem]; exact ih1
    · rw [(intsetAdd_of_not_mem hwf hv (hroom v) hmem).2.2.1,
        minEncoding_insert (mem_elems_intsetAdd hwf hv (hroom v)), ih1]

theorem addAll_snoc (vs : List Int) (v : Int) :
    addAll (vs ++ [v]) =
      ((intsetAdd (addAll vs).1 v).1, (addAll vs).2 + (intsetAdd (addAll vs).1 v).2) := by
  simp [addAll, List.foldl_append]

/-- After adding the values of `vs` one by one: the set is well-formed, its length is
the number of reported successes, and it stores exactly the values of `vs`. -/
theorem addAll_invariant (vs : List Int) (hvs : ∀ v ∈ vs, isInt64 v)
    (hcap : vs.length * INTSET_ENC_INT64 < U32) :
    WF (addAll vs).1 ∧ (addAll vs).1.length = (addAll vs).2 ∧
    (addAll vs).1.length ≤ vs.length ∧ (∀ x, x ∈ elems (addAll vs).1 ↔ x ∈ vs) := by
  induction vs using List.reverseRecOn with
  | nil =>
    refine ⟨WF_intsetNew, rfl, Nat.le_refl _, ?_⟩
    intro x
    simp [addAll, elems, intsetNew]
  | append_singleton vs v ih =>
    have hlen : (vs ++ [v]).length = vs.length + 1 := by simp
    rw [hlen] at hcap ⊢
    obtain ⟨hwf, hcnt, hle, hmem⟩ := ih (fun o ho => hvs o (List.mem_append_left _ ho))
      (lt_of_le_of_lt (Nat.mul_le_mul_right _ (by omega)) hcap)
    have hv : isInt64 v := hvs v (by simp)
    have hroom : hasRoom (addAll vs).1 v :=
      hasRoom_of_le v hwf.1 (Nat.succ_le_succ hle) hcap
    rw [addAll_snoc]
    refine ⟨WF_intsetAdd hwf hv hroom, ?_, le_trans (length_intsetAdd_le hwf hv hroom) (by omega),
      ?_⟩
    · by_cases hm : v ∈ elems (addAll vs).1
      · rw [intsetAdd_of_mem hwf hv hm]; exact hcnt
      · obtain ⟨h1, h2, _⟩ := intsetAdd_of_not_mem hwf hv hroom hm
        show (intsetAdd (addAll vs).1 v).1.length = (addAll vs).2 + (intsetAdd (addAll vs).1 v).2
        rw [h1, h2, hcnt]
    · intro x
      show x ∈ elems (intsetAdd (addAll vs).1 v).1 ↔ x ∈ vs ++ [v]
      rw [mem_elems_intsetAdd hwf hv hroom, hmem, List.mem_append, List.mem_singleton]
      tauto

/-! ## Header fields under the operations -/

theorem contents_intsetSet {is : intset} (henc : validEnc is.encoding) (pos : Nat) (v : Int) :
    (_intsetSet is pos v).contents = setAt is.contents is.encoding pos v := by
  simp [_intsetSet, setAt, encWidth_of_valid henc]

theorem encoding_intsetSet (is : intset) (pos : Nat) (v : Int) :
    (_intsetSet is pos v).encoding = is.encoding := rfl

theorem length_intsetSet (is : intset) (pos : Nat) (v : Int) :
    (_intsetSet is pos v).length = is.length := rfl

theorem encoding_intsetResize (is : intset) (n : Nat) :
    (intsetResize is n).encoding = is.encoding := rfl

theorem encoding_intsetMoveTail (is : intset) (f t : Nat) :
    (intsetMoveTail is f t).encoding = is.encoding := rfl

theorem encoding_fst_mk (e l : Nat) (c : List Byte) (x : Nat) :
    ((({ encoding := e, length := l, contents := c } : intset), x) : intset × Nat).1.encoding
      = e := rfl

theorem encoding_intsetUpgradeLoop (curenc prepend : Nat) : ∀ (k : Nat) (is : intset),
    (intsetUpgradeLoop curenc prepend k is).encoding = is.encoding := by
  intro k
  induction k with
  | zero => intro is; rfl
  | succ k ih =>
    intro is
    rw [intsetUpgradeLoop, ih, encoding_intsetSet]

theorem encoding_intsetRemove (is : intset) (v : Int) :
    (intsetRemove is v).1.encoding = is.encoding := by
  simp only [intsetRemove]
  generalize intsetSearch is v = r
  generalize (is.length + U32 - 1) % U32 = n
  by_cases h : _intsetValueEncoding v ≤ is.encoding ∧ r.1 ≠ 0
  · rw [if_pos h, encoding_fst_mk, encoding_intsetResize]
    by_cases h2 : r.2 < n
    · rw [if_pos h2, encoding_intsetMoveTail]
    · rw [if_neg h2]
  · rw [if_neg h]

theorem encoding_intsetAdd (is : intset) (v : Int) :
    (intsetAdd is v).1.encoding = is.encoding ∨
    (is.encoding < (intsetAdd is v).1.encoding ∧
      (intsetAdd is v).1.encoding = _intsetValueEncoding v) := by
  by_cases hup : _intsetValueEncoding v > is.encoding
  · right
    have : (intsetAdd is v).1.encoding = _intsetValueEncoding v := by
      simp only [intsetAdd, if_pos hup, intsetUpgradeAndAdd, apply_ite intset.encoding,
        encoding_intsetSet, encoding_intsetUpgradeLoop, encoding_intsetResize, ite_self]
    exact ⟨by omega, this⟩
  · left
    simp only [intsetAdd, if_neg hup]
    generalize intsetSearch is v = r
    by_cases h1 : r.1 ≠ 0
    · rw [if_pos h1]
    · rw [if_neg h1, encoding_fst_mk, encoding_intsetSet]
      by_cases h2 : r.2 < (intsetResize is ((is.length + 1) % U32)).length
      · rw [if_pos h2, encoding_intsetMoveTail, encoding_intsetResize]
      · rw [if_neg h2, encoding_intsetResize]

theorem encoding_le_foldl (ops : List Op) : ∀ is : intset,
    is.encoding ≤ (ops.foldl applyOp is).encoding := by
  induction ops with
  | nil => intro is; exact le_refl _
  | cons op ops ih =>
    intro is
    rw [List.foldl_cons]
    refine le_trans ?_ (ih _)
    cases op with
    | add v =>
      show is.encoding ≤ (intsetAdd is v).1.encoding
      rcases encoding_intsetAdd is v with h | h
      · rw [h]
      · exact le_of_lt h.1
    | remove v =>
      show is.encoding ≤ (intsetRemove is v).1.encoding
      rw [encoding_intsetRemove]

theorem isInt64_of_fitsWidth {e : Nat} (he : validEnc e) {x : Int} (hx : fitsWidth e x) :
    isInt64 x := by
  have h8 : fitsWidth 8 x := by
    refine fitsWidth_mono he (Or.inr (Or.inr rfl)) ?_ hx
    rcases he with h | h | h <;> omega
  unfold fitsWidth at h8
  unfold isInt64 INT64_MIN INT64_MAX
  norm_num at h8
  omega

theorem valueEncoding_le_of_mem {is : intset} (henc : validEnc is.encoding) {x : Int}
    (hx : x ∈ elems is) : _intsetValueEncoding x ≤ is.encoding :=
  (fitsWidth_iff_valueEncoding henc (isInt64_of_fitsWidth henc (fitsWidth_of_mem henc hx))).mpr
    (fitsWidth_of_mem henc hx)

theorem validEnc_foldl (ops : List Op) : ∀ is : intset, validEnc is.encoding →
    validEnc (ops.foldl applyOp is).encoding := by
  induction ops with
  | nil => intro is h; exact h
  | cons op ops ih =>
    intro is h
    rw [List.foldl_cons]
    apply ih
    cases op with
    | add v =>
      show validEnc (intsetAdd is v).1.encoding
      rcases encoding_intsetAdd is v with h1 | h1
      · rw [h1]; exact h
      · rw [h1.2]; exact validEnc_valueEncoding v
    | remove v =>
      show validEnc (intsetRemove is v).1.encoding
      rw [encoding_intsetRemove]; exact h

/-- The encoding tag of every set reached from `intsetNew()` is one of the three widths,
whatever the sequence of adds and removes. -/
theorem validEnc_runOps (ops : List Op) : validEnc (runOps ops).encoding :=
  validEnc_foldl ops intsetNew (Or.inl rfl)

theorem minEncoding_le_of_valid {is : intset} (henc : validEnc is.encoding) :
    minEncoding (elems is) ≤ is.encoding := by
  rw [minEncoding_le_iff]
  constructor
  · unfold INTSET_ENC_INT16
    rcases henc with h | h | h <;> omega
  · intro x hx
    exact valueEncoding_le_of_mem henc hx

/-! ## The 32-bit byte size of the buffer

`intsetResize` computes `len * encoding` in a `uint32_t`.  At `2^29` elements of 8 bytes
the product is `2^32`, which is 0 in 32 bits: the buffer is resized to 0 bytes while the
element count goes to `2^29`. -/

theorem storeBytes_nil (bs : List Byte) : ∀ off : Nat, storeBytes [] off bs = [] := by
  induction bs with
  | nil => intro off; rfl
  | cons b bs ih => intro off; rw [storeBytes, List.set_nil, ih]

theorem zrealloc_zero (c : List Byte) : zrealloc c 0 = [] := by
  simp [zrealloc]

theorem leToNat_zeros : ∀ l : List Byte, (∀ b ∈ l, b = 0) → leToNat l = 0 := by
  intro l
  induction l with
  | nil => intro _; rfl
  | cons b bs ih =>
    intro h
    rw [leToNat, ih (fun x hx => h x (List.mem_cons_of_mem _ hx)), h b (List.mem_cons_self _ _)]
    rfl

theorem getAt_nil (w pos : Nat) : getAt [] w pos = 0 := by
  unfold getAt
  rw [leToNat_zeros]
  · unfold toSigned
    rw [if_pos (by positivity)]
    rfl
  · intro b hb
    unfold loadBytes at hb
    obtain ⟨k, _, hk⟩ := List.mem_map.mp hb
    rw [← hk]
    rfl

theorem intsetGet_nil (e n i : Nat) : _intsetGet ⟨e, n, []⟩ i = 0 :=
  getAt_nil (encWidth (e % 256)) i

theorem elems_nil (e n : Nat) : ∀ x ∈ elems ⟨e, n, []⟩, x = 0 := by
  intro x hx
  obtain ⟨i, _, hi⟩ := (mem_elems _ x).mp hx
  rw [← hi]
  exact intsetGet_nil e n i

theorem not_pairwise_nil (e n : Nat) (hn : 2 ≤ n) :
    ¬ (elems ⟨e, n, []⟩).Pairwise (· < ·) := by
  intro h
  have h2 := (ascending_iff ⟨e, n, []⟩).mpr h 0 1 (by decide) hn
  rw [intsetGet_nil, intsetGet_nil] at h2
  exact absurd h2 (by decide)

theorem intset_eq_mk (a : intset) (e l : Nat) (c : List Byte) (h1 : a.encoding = e)
    (h2 : a.length = l) (h3 : a.contents = c) : a = ⟨e, l, c⟩ := by
  cases a
  simp only at h1 h2 h3
  rw [h1, h2, h3]

theorem contents_intsetMoveTail_nil (is : intset) (f t : Nat) (h : is.contents = []) :
    (intsetMoveTail is f t).contents = [] := by
  unfold intsetMoveTail memmove
  simp only [h]
  exact storeBytes_nil _ _

theorem contents_intsetSet_nil (is : intset) (pos : Nat) (v : Int) (h : is.contents = []) :
    (_intsetSet is pos v).contents = [] := by
  unfold _intsetSet
  simp only [h]
  exact storeBytes_nil _ _

theorem contents_intsetUpgradeLoop_nil (curenc prepend : Nat) : ∀ (k : Nat) (is : intset),
    is.contents = [] → (intsetUpgradeLoop curenc prepend k is).contents = [] := by
  intro k
  induction k with
  | zero => intro is h; exact h
  | succ k ih =>
    intro is h
    rw [intsetUpgradeLoop]
    exact ih _ (contents_intsetSet_nil _ _ _ h)

theorem length_intsetUpgradeLoop (curenc prepend : Nat) : ∀ (k : Nat) (is : intset),
    (intsetUpgradeLoop curenc prepend k is).length = is.length := by
  intro k
  induction k with
  | zero => intro is; rfl
  | succ k ih =>
    intro is
    rw [intsetUpgradeLoop, ih, length_intsetSet]

theorem contents_intsetResize_wrap (is : intset) (n : Nat) (h : (n * is.encoding) % U32 = 0) :
    (intsetResize is n).contents = [] := by
  unfold intsetResize
  simp only [h]
  exact zrealloc_zero _

theorem length_intsetResize (is : intset) (n : Nat) : (intsetResize is n).length = is.length := rfl

theorem length_intsetMoveTail (is : intset) (f t : Nat) :
    (intsetMoveTail is f t).length = is.length := rfl

/-- The plain-insert path of `intsetAdd` when the byte size of the grown buffer wraps to 0. -/
theorem intsetAdd_wrap (is : intset) (v : Int)
    (hfit : ¬ _intsetValueEncoding v > is.encoding)
    (hnf : (intsetSearch is v).1 = 0)
    (hsize : ((is.length + 1) % U32 * is.encoding) % U32 = 0) :
    intsetAdd is v = (⟨is.encoding, (is.length + 1) % U32, []⟩, 1) := by
  simp only [intsetAdd, if_neg hfit]
  generalize intsetSearch is v = r at hnf
  rw [if_neg (by rw [hnf]; exact fun h => h rfl)]
  have hres := contents_intsetResize_wrap is ((is.length + 1) % U32) hsize
  have hlen := length_intsetResize is ((is.length + 1) % U32)
  have henc := encoding_intsetResize is ((is.length + 1) % U32)
  generalize intsetResize is ((is.length + 1) % U32) = s at hres hlen henc
  have key : ∀ t : intset, t.encoding = is.encoding → t.length = is.length → t.contents = [] →
      (({ _intsetSet t r.2 v with length := ((_intsetSet t r.2 v).length + 1) % U32 } : intset), 1)
        = ((⟨is.encoding, (is.length + 1) % U32, []⟩ : intset), 1) := by
    intro t h1 h2 h3
    congr 1
    apply intset_eq_mk
    · show (_intsetSet t r.2 v).encoding = _
      rw [encoding_intsetSet, h1]
    · show ((_intsetSet t r.2 v).length + 1) % U32 = _
      rw [length_intsetSet, h2]
    · exact contents_intsetSet_nil _ _ _ h3
  by_cases hp : r.2 < s.length
  · rw [if_pos hp]
    exact key _ (by rw [encoding_intsetMoveTail, henc]) (by rw [length_intsetMoveTail, hlen])
      (contents_intsetMoveTail_nil _ _ _ hres)
  · rw [if_neg hp]
    exact key s henc hlen hres

/-- The upgrade path of `intsetAdd` when the byte size of the grown buffer wraps to 0. -/
theorem intsetAdd_upgrade_wrap (is : intset) (v : Int)
    (hup : _intsetValueEncoding v > is.encoding)
    (hsize : ((is.length + 1) % U32 * _intsetValueEncoding v) % U32 = 0) :
    intsetAdd is v = (⟨_intsetValueEncoding v, (is.length + 1) % U32, []⟩, 1) := by
  simp only [intsetAdd, if_pos hup]
  congr 1
  unfold intsetUpgradeAndAdd
  simp only
  have hres := contents_intsetResize_wrap
    { is with encoding := _intsetValueEncoding v } ((is.length + 1) % U32) hsize
  have hloop := fun p : Nat =>
    contents_intsetUpgradeLoop_nil (is.encoding % 256) p is.length _ hres
  apply intset_eq_mk
  · simp only [apply_ite intset.encoding, encoding_intsetSet, encoding_intsetUpgradeLoop,
      encoding_intsetResize, ite_self]
  · simp only [apply_ite intset.length, length_intsetSet, length_intsetUpgradeLoop,
      length_intsetResize, ite_self]
  · simp only [apply_ite intset.contents]
    split <;> exact contents_intsetSet_nil _ _ _ (hloop _)

theorem addAll_fst (vs : List Int) : (addAll vs).1 = runOps (vs.map Op.add) := by
  induction vs using List.reverseRecOn with
  | nil => rfl
  | append_singleton vs v ih =>
    rw [addAll_snoc, List.map_append, List.map_singleton, runOps_snoc, ← ih]
    rfl

theorem length_consecutive (base : Int) (n : Nat) : (consecutive base n).length = n := by
  unfold consecutive
  rw [List.length_map, List.length_range]

theorem mem_consecutive (base : Int) (n : Nat) (x : Int) :
    x ∈ consecutive base n ↔ base ≤ x ∧ x < base + n := by
  unfold consecutive
  rw [List.mem_map]
  constructor
  · rintro ⟨i, hi, rfl⟩
    have := List.mem_range.mp hi
    omega
  · rintro ⟨h1, h2⟩
    refine ⟨(x - base).toNat, List.mem_range.mpr ?_, ?_⟩ <;> omega

theorem nodup_consecutive (base : Int) (n : Nat) : (consecutive base n).Nodup := by
  unfold consecutive
  apply List.Nodup.map _ (List.nodup_range n)
  intro a b h
  simp only at h
  omega

/-- Adding distinct values to a new set, with room for all of them, stores every one. -/
theorem runOps_adds (vs : List Int) (hvs : ∀ v ∈ vs, isInt64 v)
    (hcap : vs.length * INTSET_ENC_INT64 < U32) (hnd : vs.Nodup) :
    WF (runOps (vs.map Op.add)) ∧ (runOps (vs.map Op.add)).length = vs.length ∧
    (∀ x, x ∈ elems (runOps (vs.map Op.add)) ↔ x ∈ vs) := by
  obtain ⟨hwf, _, _, hmem⟩ := addAll_invariant vs hvs hcap
  rw [addAll_fst] at hwf hmem
  refine ⟨hwf, ?_, hmem⟩
  rw [← length_elems, ← List.toFinset_card_of_nodup (nodup_elems hwf),
    ← List.toFinset_card_of_nodup hnd]
  congr 1
  ext x
  simp only [List.mem_toFinset]
  exact hmem x

theorem addOnly_map_add (vs : List Int) : addOnly (vs.map Op.add) := by
  intro op hop
  obtain ⟨v, _, hv⟩ := List.mem_map.mp hop
  exact ⟨v, hv.symm⟩

theorem isInt64_map_add (vs : List Int) (hvs : ∀ v ∈ vs, isInt64 v) :
    ∀ op ∈ vs.map Op.add, isInt64 op.value := by
  intro op hop
  obtain ⟨v, hv, rfl⟩ := List.mem_map.mp hop
  exact hvs v hv

theorem isInt64_consecutive (base : Int) (n : Nat) (h1 : INT64_MIN ≤ base)
    (h2 : base + n ≤ INT64_MAX + 1) : ∀ v ∈ consecutive base n, isInt64 v := by
  intro v hv
  have := (mem_consecutive _ _ v).mp hv
  unfold isInt64
  omega

/-- The sets reached by adding `n` consecutive values from `base` on, as long as the
buffer size stays a `uint32_t`. -/
theorem runOps_consecutive (base : Int) (n : Nat) (h1 : INT64_MIN ≤ base)
    (h2 : base + n ≤ INT64_MAX + 1) (hcap : n * INTSET_ENC_INT64 < U32) :
    WF (runOps ((consecutive base n).map Op.add)) ∧
    (runOps ((consecutive base n).map Op.add)).length = n ∧
    (∀ x, x ∈ elems (runOps ((consecutive base n).map Op.add)) ↔ base ≤ x ∧ x < base + n) ∧
    (runOps ((consecutive base n).map Op.add)).encoding =
      minEncoding (elems (runOps ((consecutive base n).map Op.add))) := by
  have hvs := isInt64_consecutive base n h1 h2
  have hcap2 : (consecutive base n).length * INTSET_ENC_INT64 < U32 := by
    rw [length_consecutive]; exact hcap
  obtain ⟨hwf, hlen, hmem⟩ := runOps_adds _ hvs hcap2 (nodup_consecutive _ _)
  refine ⟨hwf, ?_, ?_, ?_⟩
  · rw [hlen, length_consecutive]
  · intro x
    exact (hmem x).trans (mem_consecutive _ _ x)
  · exact encoding_runOps_addOnly _ (isInt64_map_add _ hvs)
      (by rw [List.length_map]; exact hcap2) (addOnly_map_add _)

/-- The set of `2^29 - 1` 64-bit elements: it is well-formed, and its buffer of
`4294967288` bytes is the largest a 64-bit set can have. -/
theorem wrapSet64_spec :
    WF wrapSet64 ∧ wrapSet64.length = 536870911 ∧ wrapSet64.encoding = 8 ∧
    (∀ x, x ∈ elems wrapSet64 ↔ 4294967296 ≤ x ∧ x < 4294967296 + ((536870911 : Nat) : Int)) := by
  obtain ⟨hwf, hlen, hmem, _⟩ := runOps_consecutive 4294967296 536870911 (by decide)
    (by decide) (by decide)
  refine ⟨hwf, hlen, ?_, hmem⟩
  have h1 : (4294967296 : Int) ∈ elems (runOps ((consecutive 4294967296 536870911).map Op.add)) :=
    (hmem _).mpr (by omega)
  have h2 := encoding_le_of_mem hwf (by decide) h1
  have h3 : _intsetValueEncoding 4294967296 = 8 := by decide
  rw [h3] at h2
  rcases hwf.1 with h | h | h
  · rw [h] at h2; exact absurd h2 (by decide)
  · rw [h] at h2; exact absurd h2 (by decide)
  · exact h

theorem wrapSet32_spec :
    WF wrapSet32 ∧ wrapSet32.length = 536870911 ∧ wrapSet32.encoding = 4 ∧
    (∀ x, x ∈ elems wrapSet32 ↔ 65536 ≤ x ∧ x < 65536 + ((536870911 : Nat) : Int)) := by
  obtain ⟨hwf, hlen, hmem, henc⟩ := runOps_consecutive 65536 536870911 (by decide)
    (by decide) (by decide)
  refine ⟨hwf, hlen, ?_, hmem⟩
  have h1 : (65536 : Int) ∈ elems (runOps ((consecutive 65536 536870911).map Op.add)) :=
    (hmem _).mpr (by omega)
  have h2 := encoding_le_of_mem hwf (by decide) h1
  have h3 : _intsetValueEncoding 65536 = 4 := by decide
  rw [h3] at h2
  have h6 : minEncoding (elems (runOps ((consecutive 65536 536870911).map Op.add))) ≤ 4 := by
    rw [minEncoding_le_iff]
    refine ⟨by decide, ?_⟩
    intro x hx
    have hx2 := (hmem x).mp hx
    unfold _intsetValueEncoding INT32_MIN INT32_MAX INT16_MIN INT16_MAX INTSET_ENC_INT64
      INTSET_ENC_INT32 INTSET_ENC_INT16
    split_ifs <;> omega
  rw [← henc] at h6
  exact le_antisymm h6 h2

/-- At `2^29 - 1` elements of 8 bytes the plain insert of a new value computes the byte
size `2^29 * 8` in 32 bits: `intsetResize` shrinks the buffer to 0 bytes and the element
count becomes `2^29`. -/
theorem intsetAdd_full64 (is : intset) (v : Int) (hwf : WF is) (hlen : is.length = 536870911)
    (henc : is.encoding = 8) (hmem : v ∉ elems is) :
    intsetAdd is v = (⟨8, 536870912, []⟩, 1) := by
  have hfit : ¬ _intsetValueEncoding v > is.encoding := by
    rw [henc]
    rcases validEnc_valueEncoding v with h | h | h <;> omega
  have hnf : (intsetSearch is v).1 = 0 := by
    rcases intsetSearch_cases is v hwf with ⟨h0, _⟩ | ⟨_, hnf, _⟩
    · exact absurd h0 hmem
    · exact hnf
  have hsize : ((is.length + 1) % U32 * is.encoding) % U32 = 0 := by
    rw [hlen, henc]; decide
  rw [intsetAdd_wrap is v hfit hnf hsize, hlen, henc]
  rfl

/-- At `2^29 - 1` elements the upgrade to 8-byte elements computes the byte size
`2^29 * 8` in 32 bits: the buffer shrinks to 0 bytes and the element count becomes
`2^29`. -/
theorem intsetAdd_full32 (is : intset) (v : Int) (hlen : is.length = 536870911)
    (henc : is.encoding < 8) (hv : _intsetValueEncoding v = 8) :
    intsetAdd is v = (⟨8, 536870912, []⟩, 1) := by
  have hup : _intsetValueEncoding v > is.encoding := by omega
  have hsize : ((is.length + 1) % U32 * _intsetValueEncoding v) % U32 = 0 := by
    rw [hlen, hv]; decide
  rw [intsetAdd_upgrade_wrap is v hup hsize, hlen, hv]
  rfl

theorem not_mem_elems_nil (e n : Nat) (v : Int) (hv : v ≠ 0) : v ∉ elems ⟨e, n, []⟩ :=
  fun h => hv (elems_nil e n v h)

theorem five_not_mem_wrapSet64 : (5 : Int) ∉ elems wrapSet64 := by
  intro h
  have := (wrapSet64_spec.2.2.2 5).mp h
  omega

theorem intsetAdd_wrapSet64 : intsetAdd wrapSet64 5 = (⟨8, 536870912, []⟩, 1) :=
  intsetAdd_full64 wrapSet64 5 wrapSet64_spec.1 wrapSet64_spec.2.1 wrapSet64_spec.2.2.1
    five_not_mem_wrapSet64

theorem intsetAdd_wrapSet32 : intsetAdd wrapSet32 4294967296 = (⟨8, 536870912, []⟩, 1) :=
  intsetAdd_full32 wrapSet32 4294967296 wrapSet32_spec.2.1
    (by rw [wrapSet32_spec.2.2.1]; decide) (by decide)

theorem runOps_snoc_add (ops : List Op) (v : Int) :
    runOps (ops ++ [Op.add v]) = (intsetAdd (runOps ops) v).1 := runOps_snoc ops (Op.add v)

theorem wrapSet64_eq : wrapSet64 = runOps ((consecutive 4294967296 536870911).map Op.add) := rfl

theorem dedup_length_append_twice (l : List Int) (v : Int) (n : Nat) (hl : l.length = n)
    (hnd : l.Nodup) (hv : v ∉ l) : (l ++ [v, v]).dedup.length = n + 1 := by
  rw [← List.card_toFinset, List.toFinset_append]
  have h1 : ([v, v] : List Int).toFinset = {v} := by
    ext x; simp
  rw [h1, Finset.card_union_of_disjoint, List.toFinset_card_of_nodup hnd, hl, Finset.card_singleton]
  rw [Finset.disjoint_singleton_right]
  simpa using hv

/-- What the counting of `addAll` gives when the sequence ends with a new value added
twice and the first of the two adds wraps the buffer size. -/
theorem addAll_full64_twice (l : List Int) (v : Int) (hwf : WF (addAll l).1)
    (hlen : (addAll l).1.length = 536870911) (henc : (addAll l).1.encoding = 8)
    (hcnt : (addAll l).2 = 536870911) (hmem : v ∉ elems (addAll l).1)
    (hz : intsetAdd ⟨8, 536870912, []⟩ v = (⟨8, 536870913, [0, 0, 0, 0, 0, 0, 0, 0]⟩, 1)) :
    addAll (l ++ [v, v]) = (⟨8, 536870913, [0, 0, 0, 0, 0, 0, 0, 0]⟩, 536870913) := by
  have h1 : l ++ [v, v] = (l ++ [v]) ++ [v] := by simp
  have h2 : addAll (l ++ [v]) = (⟨8, 536870912, []⟩, 536870912) := by
    rw [addAll_snoc, intsetAdd_full64 _ v hwf hlen henc hmem, hcnt]
    rfl
  rw [h1, addAll_snoc, h2]
  simp only
  rw [hz]
  rfl

theorem minEncoding_nil (e n : Nat) : minEncoding (elems ⟨e, n, []⟩) = INTSET_ENC_INT16 := by
  apply le_antisymm
  · rw [minEncoding_le_iff]
    refine ⟨le_refl _, ?_⟩
    intro x hx
    rw [elems_nil e n x hx]
    decide
  · exact ((minEncoding_le_iff _ _).mp (le_refl _)).1

theorem intsetBlobLen_full64 (is : intset) (hlen : is.length = 536870911)
    (henc : is.encoding = 8) : intsetBlobLen is = 4294967296 := by
  unfold intsetBlobLen
  rw [hlen, henc]
  decide

/-! ## The claims -/

/-- Sortedness is preserved as long as the byte size of the buffer is a `uint32_t`.  For
every well-formed intset and every `int64_t` value, the elements after `intsetAdd` (with
room for one more element) and after `intsetRemove` are strictly ascending and free of
duplicates, and so are those of every set reached from `intsetNew()` by fewer than `2^29`
adds and removes. -/
theorem sortedness_preserved_with_room :
    (∀ (is : intset) (v : Int), WF is → isInt64 v → hasRoom is v →
      (elems (intsetAdd is v).1).Pairwise (· < ·) ∧ (elems (intsetAdd is v).1).Nodup) ∧
    (∀ (is : intset) (v : Int), WF is → isInt64 v →
      (elems (intsetRemove is v).1).Pairwise (· < ·) ∧ (elems (intsetRemove is v).1).Nodup) ∧
    (∀ ops : List Op, (∀ op ∈ ops, isInt64 op.value) → ops.length * INTSET_ENC_INT64 < U32 →
      (elems (runOps ops)).Pairwise (· < ·) ∧ (elems (runOps ops)).Nodup) := by
  refine ⟨?_, ?_, ?_⟩
  · intro is v hwf hv hroom
    have h1 := WF_intsetAdd hwf hv hroom
    exact ⟨h1.2.2.2, nodup_elems h1⟩
  · intro is v hwf hv
    have h2 := WF_intsetRemove hwf hv
    exact ⟨h2.2.2.2, nodup_elems h2⟩
  · intro ops hops hcap
    have h := (WF_runOps ops hops hcap).1
    exact ⟨h.2.2.2, nodup_elems h⟩

/-- C1, the failing input.  The set `wrapSet64` is reached from `intsetNew()` by `2^29 - 1`
adds and is well-formed.  One more add of a new value computes the buffer size
`2^29 * 8` in 32 bits, which is 0: the result has `2^29` elements and a buffer of 0
bytes, and its elements, read as `checkConsistency` reads them, are not ascending. -/
theorem C1_sortedness_lost_at_wrap :
    WF wrapSet64 ∧ isInt64 5 ∧
    (intsetAdd wrapSet64 5).1.length = 536870912 ∧
    (intsetAdd wrapSet64 5).1.contents = [] ∧
    ¬ (elems (intsetAdd wrapSet64 5).1).Pairwise (· < ·) ∧
    ¬ (elems (runOps ((consecutive 4294967296 536870911).map Op.add ++ [Op.add 5]))).Pairwise
      (· < ·) := by
  refine ⟨wrapSet64_spec.1, by decide, ?_, ?_, ?_, ?_⟩
  · rw [intsetAdd_wrapSet64]
  · rw [intsetAdd_wrapSet64]
  · rw [intsetAdd_wrapSet64]
    exact not_pairwise_nil 8 536870912 (by decide)
  · rw [runOps_snoc_add, ← wrapSet64_eq, intsetAdd_wrapSet64]
    exact not_pairwise_nil 8 536870912 (by decide)

/-- C2 as stated fails: after adding 100000 and removing it again the set is empty, so
16 bits represent every stored value, but the encoding is still 32-bit. -/
theorem C2_counterexample :
    (runOps [Op.add 100000, Op.remove 100000]).encoding = INTSET_ENC_INT32 ∧
    elems (runOps [Op.add 100000, Op.remove 100000]) = [] ∧
    minEncoding (elems (runOps [Op.add 100000, Op.remove 100000])) = INTSET_ENC_INT16 ∧
    (runOps [Op.add 100000, Op.remove 100000]).encoding ≠
      minEncoding (elems (runOps [Op.add 100000, Op.remove 100000])) := by
  decide

/-- C2, amended: for every intset reached from `intsetNew()` by any sequence of adds and
removes the encoding is one of 16/32/64 bits and at least the minimum width that
represents every stored value; it is exactly that minimum width when the set was reached
by fewer than `2^29` adds of `int64_t` values and no removal (a removal never narrows the
encoding; fewer than `2^29` adds keep the byte size of the buffer a `uint32_t`). -/
theorem C2_encoding_covers_values (ops : List Op) :
    validEnc (runOps ops).encoding ∧
    minEncoding (elems (runOps ops)) ≤ (runOps ops).encoding ∧
    (addOnly ops → (∀ op ∈ ops, isInt64 op.value) → ops.length < 2 ^ 29 →
      (runOps ops).encoding = minEncoding (elems (runOps ops))) :=
  ⟨validEnc_runOps ops, minEncoding_le_of_valid (validEnc_runOps ops),
    fun hadd hops hlen =>
      encoding_runOps_addOnly ops hops (by unfold INTSET_ENC_INT64 U32; omega) hadd⟩

theorem C2_encoding_covers_values_witness :
    (addOnly [Op.add 5, Op.add 100000, Op.add (-3)] ∧
      (∀ op ∈ [Op.add 5, Op.add 100000, Op.add (-3)], isInt64 op.value) ∧
      [Op.add 5, Op.add 100000, Op.add (-3)].length < 2 ^ 29) ∧
    validEnc (runOps [Op.add 5, Op.add 100000, Op.remove 100000]).encoding ∧
    minEncoding (elems (runOps [Op.add 5, Op.add 100000, Op.remove 100000])) ≤
      (runOps [Op.add 5, Op.add 100000, Op.remove 100000]).encoding ∧
    (runOps [Op.add 5, Op.add 100000, Op.add (-3)]).encoding =
      minEncoding (elems (runOps [Op.add 5, Op.add 100000, Op.add (-3)])) :=
  ⟨⟨fun op hop => by
      simp only [List.mem_cons, List.mem_singleton, List.not_mem_nil, or_false] at hop
      rcases hop with rfl | rfl | rfl
      · exact ⟨5, rfl⟩
      · exact ⟨100000, rfl⟩
      · exact ⟨-3, rfl⟩,
    by decide, by decide⟩,
   (C2_encoding_covers_values [Op.add 5, Op.add 100000, Op.remove 100000]).1,
   (C2_encoding_covers_values [Op.add 5, Op.add 100000, Op.remove 100000]).2.1,
   (C2_encoding_covers_values [Op.add 5, Op.add 100000, Op.add (-3)]).2.2
     (fun op hop => by
      simp only [List.mem_cons, List.mem_singleton, List.not_mem_nil, or_false] at hop
      rcases hop with rfl | rfl | rfl
      · exact ⟨5, rfl⟩
      · exact ⟨100000, rfl⟩
      · exact ⟨-3, rfl⟩)
     (by decide) (by decide)⟩

/-- Find after add, with room.  For every well-formed intset with room for one more
element and every `int64_t` value `v`, `intsetFind(intsetAdd(is, v), v)` returns 1, on
every path of the add. -/
theorem find_after_add_with_room (is : intset) (v : Int) (hwf : WF is) (hv : isInt64 v)
    (hroom : hasRoom is v) : intsetFind (intsetAdd is v).1 v = 1 := by
  rw [intsetFind_eq (WF_intsetAdd hwf hv hroom) hv,
    if_pos ((mem_elems_intsetAdd hwf hv hroom v).mpr (Or.inl rfl))]

/-- C3, the failing input.  On the well-formed set `wrapSet64` of `2^29 - 1` elements the
add of the new value 5 reports success, and `intsetFind` of 5 on the returned set is 0:
the buffer size wrapped to 0 and the value was written outside the buffer. -/
theorem C3_find_after_add_fails_at_wrap :
    WF wrapSet64 ∧ isInt64 5 ∧ (intsetAdd wrapSet64 5).2 = 1 ∧
    intsetFind (intsetAdd wrapSet64 5).1 5 = 0 := by
  refine ⟨wrapSet64_spec.1, by decide, ?_, ?_⟩
  · rw [intsetAdd_wrapSet64]
  · rw [intsetAdd_wrapSet64]
    decide

/-- C4: duplicate add is a reported no-op.  For every well-formed intset and every
`int64_t` value `v`, `intsetAdd` sets `*success` to 0 exactly when `v` is stored, and then
returns the very same set (encoding, length and contents); when `v` is not stored
`*success` is 1. -/
theorem C4_duplicate_add_noop (is : intset) (v : Int) (hwf : WF is) (hv : isInt64 v) :
    ((intsetAdd is v).2 = 0 ↔ v ∈ elems is) ∧
    (v ∈ elems is → (intsetAdd is v).1 = is) ∧
    (v ∉ elems is → (intsetAdd is v).2 = 1) := by
  have hnot : v ∉ elems is → (intsetAdd is v).2 = 1 := by
    intro hmem
    by_cases hup : _intsetValueEncoding v > is.encoding
    · simp [intsetAdd, hup]
    · rcases intsetSearch_cases is v hwf with ⟨h0, _⟩ | ⟨_, hnf, _⟩
      · exact absurd h0 hmem
      · simp [intsetAdd, hup, hnf]
  refine ⟨⟨?_, ?_⟩, ?_, hnot⟩
  · intro h0
    by_contra hmem
    rw [hnot hmem] at h0
    exact absurd h0 (by decide)
  · intro hmem; rw [intsetAdd_of_mem hwf hv hmem]
  · intro hmem; rw [intsetAdd_of_mem hwf hv hmem]

theorem C4_duplicate_add_noop_witness :
    (WF ⟨2, 3, [4, 0, 5, 0, 6, 0]⟩ ∧ isInt64 4) ∧
    (((intsetAdd ⟨2, 3, [4, 0, 5, 0, 6, 0]⟩ 4).2 = 0 ↔ (4 : Int) ∈ elems ⟨2, 3, [4, 0, 5, 0, 6, 0]⟩) ∧
    ((4 : Int) ∈ elems ⟨2, 3, [4, 0, 5, 0, 6, 0]⟩ →
      (intsetAdd ⟨2, 3, [4, 0, 5, 0, 6, 0]⟩ 4).1 = ⟨2, 3, [4, 0, 5, 0, 6, 0]⟩) ∧
    ((4 : Int) ∉ elems ⟨2, 3, [4, 0, 5, 0, 6, 0]⟩ →
      (intsetAdd ⟨2, 3, [4, 0, 5, 0, 6, 0]⟩ 4).2 = 1)) :=
  ⟨by decide, C4_duplicate_add_noop ⟨2, 3, [4, 0, 5, 0, 6, 0]⟩ 4 (by decide) (by decide)⟩

/-- Upgrade insert, with room.  For every well-formed intset with room for one more
element and every `int64_t` value `v` whose minimal encoding is greater than the set's,
`intsetAdd` reports success, the new encoding is `v`'s minimal encoding, the length grows
by one, and the elements are `v` followed by the old elements in their order when `v < 0`,
the old elements in their order followed by `v` otherwise. -/
theorem upgrade_insert_with_room (is : intset) (v : Int) (hwf : WF is) (hv : isInt64 v)
    (hroom : hasRoom is v) (hup : _intsetValueEncoding v > is.encoding) :
    (intsetAdd is v).2 = 1 ∧
    (intsetAdd is v).1.encoding = _intsetValueEncoding v ∧
    (intsetAdd is v).1.length = is.length + 1 ∧
    elems (intsetAdd is v).1 = (if v < 0 then v :: elems is else elems is ++ [v]) := by
  obtain ⟨h1, h2, h3, _, h5⟩ :=
    intsetAdd_upgrade is v hwf hv hup (hasRoom_le hroom).2
  exact ⟨h1, h2, h3, h5⟩

/-- C5, the failing input.  On the well-formed 32-bit set `wrapSet32` of `2^29 - 1`
elements the add of `2^32`, which needs 64 bits, takes the upgrade path: success is
reported, the encoding is the value's and the length grows by one, but the buffer was
resized to `2^29 * 8` bytes computed in 32 bits, which is 0, so the elements are not the
old ones followed by the value. -/
theorem C5_upgrade_insert_fails_at_wrap :
    WF wrapSet32 ∧ isInt64 4294967296 ∧
    _intsetValueEncoding 4294967296 > wrapSet32.encoding ∧
    (intsetAdd wrapSet32 4294967296).2 = 1 ∧
    (intsetAdd wrapSet32 4294967296).1.encoding = _intsetValueEncoding 4294967296 ∧
    (intsetAdd wrapSet32 4294967296).1.length = wrapSet32.length + 1 ∧
    (intsetAdd wrapSet32 4294967296).1.contents = [] ∧
    elems (intsetAdd wrapSet32 4294967296).1 ≠
      (if (4294967296 : Int) < 0 then 4294967296 :: elems wrapSet32
        else elems wrapSet32 ++ [4294967296]) := by
  refine ⟨wrapSet32_spec.1, by decide, ?_, ?_, ?_, ?_, ?_, ?_⟩
  · rw [wrapSet32_spec.2.2.1]; decide
  · rw [intsetAdd_wrapSet32]
  · rw [intsetAdd_wrapSet32]; decide
  · rw [intsetAdd_wrapSet32, wrapSet32_spec.2.1]
  · rw [intsetAdd_wrapSet32]
  · rw [intsetAdd_wrapSet32, if_neg (by decide)]
    intro h
    have h1 : (4294967296 : Int) ∈ elems wrapSet32 ++ [4294967296] :=
      List.mem_append_right _ (List.mem_singleton_self _)
    rw [← h] at h1
    exact not_mem_elems_nil 8 536870912 4294967296 (by decide) h1

/-- Non-upgrade insert, with room.  For every well-formed intset with room for one more
element and every `int64_t` value `v` that fits the current encoding and is not stored,
`intsetAdd` keeps the encoding, makes the length one larger, and the elements are the old
ones below index `p`, then `v` at index `p`, then the old ones from index `p` on, where
`p` is the number of old elements smaller than `v`. -/
theorem plain_insert_with_room (is : intset) (v : Int) (hwf : WF is) (hv : isInt64 v)
    (hroom : hasRoom is v) (hfit : _intsetValueEncoding v ≤ is.encoding)
    (hmem : v ∉ elems is) :
    (intsetAdd is v).1.encoding = is.encoding ∧
    (intsetAdd is v).1.length = is.length + 1 ∧
    elems (intsetAdd is v).1 =
      (elems is).take ((elems is).filter (fun x => decide (x < v))).length ++
        v :: (elems is).drop ((elems is).filter (fun x => decide (x < v))).length := by
  obtain ⟨_, h2, h3, _, h5⟩ := intsetAdd_of_not_mem hwf hv hroom hmem
  rcases h5 with ⟨_, hlo, hhi, hp, he⟩ | ⟨hup, _⟩
  · have hcount := countP_lt_eq (elems is) v (intsetSearch is v).2
      (by rw [length_elems]; exact hp) hlo hhi
    rw [hcount]
    exact ⟨by rw [h3]; exact max_eq_left hfit, h2, he⟩
  · omega

/-- C6, the failing input.  On the well-formed set `wrapSet64` the value 5 fits the
encoding and is not stored; no stored element is below it, so it belongs at index 0 with
every old element shifted right.  `intsetAdd` keeps the encoding and makes the length one
larger, but the buffer of the result has 0 bytes and 5 is not among its elements. -/
theorem C6_plain_insert_fails_at_wrap :
    WF wrapSet64 ∧ isInt64 5 ∧ _intsetValueEncoding 5 ≤ wrapSet64.encoding ∧
    (5 : Int) ∉ elems wrapSet64 ∧
    (intsetAdd wrapSet64 5).1.encoding = wrapSet64.encoding ∧
    (intsetAdd wrapSet64 5).1.length = wrapSet64.length + 1 ∧
    (intsetAdd wrapSet64 5).1.contents = [] ∧
    (5 : Int) ∉ elems (intsetAdd wrapSet64 5).1 ∧
    elems (intsetAdd wrapSet64 5).1 ≠
      (elems wrapSet64).take ((elems wrapSet64).filter (fun x => decide (x < 5))).length ++
        5 :: (elems wrapSet64).drop ((elems wrapSet64).filter (fun x => decide (x < 5))).length := by
  have hnot : (5 : Int) ∉ elems (intsetAdd wrapSet64 5).1 := by
    rw [intsetAdd_wrapSet64]
    exact not_mem_elems_nil 8 536870912 5 (by decide)
  refine ⟨wrapSet64_spec.1, by decide, ?_, five_not_mem_wrapSet64, ?_, ?_, ?_, hnot, ?_⟩
  · rw [wrapSet64_spec.2.2.1]; decide
  · rw [intsetAdd_wrapSet64, wrapSet64_spec.2.2.1]
  · rw [intsetAdd_wrapSet64, wrapSet64_spec.2.1]
  · rw [intsetAdd_wrapSet64]
  · intro h
    apply hnot
    rw [h]
    exact List.mem_append_right _ (List.mem_cons_self _ _)

/-- C7: remove.  For every well-formed intset and every `int64_t` value `v`,
`intsetRemove` sets `*success` to 1 exactly when `v` is stored; then the length is one
less, the encoding is the same and the elements are the old ones with `v` deleted, the
others in their order; when `v` is not stored (also when it needs a wider encoding than
the set's) `*success` is 0 and the very same set is returned. -/
theorem C7_remove (is : intset) (v : Int) (hwf : WF is) (hv : isInt64 v) :
    ((intsetRemove is v).2 = 1 ↔ v ∈ elems is) ∧
    (v ∈ elems is →
      (intsetRemove is v).1.length = is.length - 1 ∧
      (intsetRemove is v).1.encoding = is.encoding ∧
      elems (intsetRemove is v).1 = (elems is).erase v) ∧
    (v ∉ elems is → intsetRemove is v = (is, 0)) ∧
    (_intsetValueEncoding v > is.encoding → intsetRemove is v = (is, 0)) := by
  refine ⟨⟨?_, ?_⟩, ?_, ?_, ?_⟩
  · intro h1
    by_contra hmem
    rw [intsetRemove_of_not_mem hwf hmem] at h1
    exact absurd h1 (Nat.zero_ne_one)
  · intro hmem; exact (intsetRemove_of_mem hwf hv hmem).1
  · intro hmem
    obtain ⟨_, r2, r3, _, r5⟩ := intsetRemove_of_mem hwf hv hmem
    exact ⟨r3, r2, r5⟩
  · intro hmem; exact intsetRemove_of_not_mem hwf hmem
  · intro hup
    apply intsetRemove_of_not_mem hwf
    intro hmem
    have := encoding_le_of_mem hwf hv hmem
    omega

theorem C7_remove_witness :
    (WF ⟨2, 3, [4, 0, 5, 0, 6, 0]⟩ ∧ isInt64 5) ∧
    (((intsetRemove ⟨2, 3, [4, 0, 5, 0, 6, 0]⟩ 5).2 = 1 ↔
        (5 : Int) ∈ elems ⟨2, 3, [4, 0, 5, 0, 6, 0]⟩) ∧
      ((5 : Int) ∈ elems ⟨2, 3, [4, 0, 5, 0, 6, 0]⟩ →
        (intsetRemove ⟨2, 3, [4, 0, 5, 0, 6, 0]⟩ 5).1.length =
          (⟨2, 3, [4, 0, 5, 0, 6, 0]⟩ : intset).length - 1 ∧
        (intsetRemove ⟨2, 3, [4, 0, 5, 0, 6, 0]⟩ 5).1.encoding =
          (⟨2, 3, [4, 0, 5, 0, 6, 0]⟩ : intset).encoding ∧
        elems (intsetRemove ⟨2, 3, [4, 0, 5, 0, 6, 0]⟩ 5).1 =
          (elems ⟨2, 3, [4, 0, 5, 0, 6, 0]⟩).erase 5) ∧
      ((5 : Int) ∉ elems ⟨2, 3, [4, 0, 5, 0, 6, 0]⟩ →
        intsetRemove ⟨2, 3, [4, 0, 5, 0, 6, 0]⟩ 5 = (⟨2, 3, [4, 0, 5, 0, 6, 0]⟩, 0)) ∧
      (_intsetValueEncoding 5 > (⟨2, 3, [4, 0, 5, 0, 6, 0]⟩ : intset).encoding →
        intsetRemove ⟨2, 3, [4, 0, 5, 0, 6, 0]⟩ 5 = (⟨2, 3, [4, 0, 5, 0, 6, 0]⟩, 0))) :=
  ⟨by decide, C7_remove ⟨2, 3, [4, 0, 5, 0, 6, 0]⟩ 5 (by decide) (by decide)⟩

/-- C8: find is exact membership.  For every well-formed intset and every `int64_t` value
`v`, `intsetFind(is, v)` returns 1 exactly when `v` equals one of the first `length`
stored elements, and 0 otherwise; in particular it returns 0 whenever `v`'s minimal
encoding exceeds the set's encoding. -/
theorem C8_find_is_membership (is : intset) (v : Int) (hwf : WF is) (hv : isInt64 v) :
    (intsetFind is v = 1 ↔ ∃ i, i < is.length ∧ _intsetGet is i = v) ∧
    (intsetFind is v = 0 ∨ intsetFind is v = 1) ∧
    (_intsetValueEncoding v > is.encoding → intsetFind is v = 0) := by
  rw [← mem_elems, intsetFind_eq hwf hv]
  refine ⟨?_, ?_, ?_⟩
  · by_cases hmem : v ∈ elems is <;> simp [hmem]
  · by_cases hmem : v ∈ elems is <;> simp [hmem]
  · intro hup
    rw [if_neg]
    intro hmem
    have := encoding_le_of_mem hwf hv hmem
    omega

theorem C8_find_is_membership_witness :
    (WF ⟨2, 3, [4, 0, 5, 0, 6, 0]⟩ ∧ isInt64 6) ∧
    ((intsetFind ⟨2, 3, [4, 0, 5, 0, 6, 0]⟩ 6 = 1 ↔
        ∃ i, i < (⟨2, 3, [4, 0, 5, 0, 6, 0]⟩ : intset).length ∧
          _intsetGet ⟨2, 3, [4, 0, 5, 0, 6, 0]⟩ i = 6) ∧
      (intsetFind ⟨2, 3, [4, 0, 5, 0, 6, 0]⟩ 6 = 0 ∨ intsetFind ⟨2, 3, [4, 0, 5, 0, 6, 0]⟩ 6 = 1) ∧
      (_intsetValueEncoding 6 > (⟨2, 3, [4, 0, 5, 0, 6, 0]⟩ : intset).encoding →
        intsetFind ⟨2, 3, [4, 0, 5, 0, 6, 0]⟩ 6 = 0)) :=
  ⟨by decide, C8_find_is_membership ⟨2, 3, [4, 0, 5, 0, 6, 0]⟩ 6 (by decide) (by decide)⟩

/-- C9: remove then find.  For every well-formed intset and every `int64_t` value `v`,
`intsetFind(intsetRemove(is, v), v)` returns 0, whether or not `v` was stored. -/
theorem C9_remove_then_find (is : intset) (v : Int) (hwf : WF is) (hv : isInt64 v) :
    intsetFind (intsetRemove is v).1 v = 0 := by
  rw [intsetFind_eq (WF_intsetRemove hwf hv) hv, if_neg]
  intro hmem
  exact ((mem_elems_intsetRemove hwf hv v).mp hmem).1 rfl

theorem C9_remove_then_find_witness :
    (WF ⟨2, 3, [4, 0, 5, 0, 6, 0]⟩ ∧ isInt64 5) ∧
    intsetFind (intsetRemove ⟨2, 3, [4, 0, 5, 0, 6, 0]⟩ 5).1 5 = 0 :=
  ⟨by decide, C9_remove_then_find ⟨2, 3, [4, 0, 5, 0, 6, 0]⟩ 5 (by decide) (by decide)⟩

/-- Length counts successful inserts, for fewer than `2^29` adds.  `intsetNew()` is empty
with the 16-bit encoding, and for every sequence of fewer than `2^29` `int64_t` values
added one by one to it, the final `intsetLen` equals the number of adds that reported
success, which equals the number of distinct values in the sequence. -/
theorem length_counts_inserts_below_wrap (vs : List Int) (hvs : ∀ v ∈ vs, isInt64 v)
    (hcap : vs.length * INTSET_ENC_INT64 < U32) :
    (intsetLen intsetNew = 0 ∧ intsetNew.encoding = INTSET_ENC_INT16 ∧ elems intsetNew = []) ∧
    intsetLen (addAll vs).1 = (addAll vs).2 ∧
    (addAll vs).2 = vs.dedup.length := by
  obtain ⟨hwf, hcnt, _, hmem⟩ := addAll_invariant vs hvs hcap
  refine ⟨⟨rfl, rfl, rfl⟩, hcnt, ?_⟩
  rw [← hcnt, ← length_elems, ← List.toFinset_card_of_nodup (nodup_elems hwf),
    ← List.card_toFinset]
  congr 1
  ext x
  simp only [List.mem_toFinset]
  exact hmem x

/-- C10, the failing input.  The sequence is `2^29 - 1` distinct values followed by the
value 5 twice: `2^29` distinct values.  The first add of 5 wraps the buffer size to 0, so
the second add of 5 does not find it and reports success as well: `intsetLen` and the
number of reported successes are `2^29 + 1`. -/
theorem C10_count_fails_at_wrap :
    (∀ v ∈ consecutive 4294967296 536870911 ++ [5, 5], isInt64 v) ∧
    intsetLen (addAll (consecutive 4294967296 536870911 ++ [5, 5])).1 = 536870913 ∧
    (addAll (consecutive 4294967296 536870911 ++ [5, 5])).2 = 536870913 ∧
    (consecutive 4294967296 536870911 ++ [5, 5]).dedup.length = 536870912 := by
  have hspec := wrapSet64_spec
  rw [wrapSet64_eq, ← addAll_fst] at hspec
  have hcnt : (addAll (consecutive 4294967296 536870911)).2 = 536870911 := by
    have h := (addAll_invariant (consecutive 4294967296 536870911)
      (isInt64_consecutive _ _ (by decide) (by decide))
      (by rw [length_consecutive]; decide)).2.1
    rw [← h]
    exact hspec.2.1
  have hmem : (5 : Int) ∉ elems (addAll (consecutive 4294967296 536870911)).1 := by
    intro h
    have := (hspec.2.2.2 5).mp h
    omega
  have hall := addAll_full64_twice (consecutive 4294967296 536870911) 5 hspec.1 hspec.2.1
    hspec.2.2.1 hcnt hmem (by decide)
  refine ⟨?_, ?_, ?_, ?_⟩
  · intro v hv
    rcases List.mem_append.mp hv with h | h
    · exact isInt64_consecutive _ _ (by decide) (by decide) v h
    · simp only [List.mem_cons, List.mem_singleton, List.not_mem_nil, or_false, or_self] at h
      rw [h]; decide
  · rw [hall]; rfl
  · rw [hall]
  · exact dedup_length_append_twice _ 5 536870911 (length_consecutive _ _)
      (nodup_consecutive _ _) (fun h => by have := (mem_consecutive _ _ 5).mp h; omega)

theorem countP_lt_of_split (l : List Int) (v : Int) (p : Nat) (hp : p ≤ l.length)
    (hlo : ∀ x ∈ l.take p, x < v) (hhi : ∀ x ∈ l.drop p, ¬ x < v) :
    (l.filter (fun x => decide (x < v))).length = p := by
  rw [← List.countP_eq_length_filter]
  conv_lhs => rw [← List.take_append_drop p l]
  rw [List.countP_append]
  have h1 : List.countP (fun x => decide (x < v)) (l.take p) = (l.take p).length :=
    List.countP_eq_length.mpr (by intro a ha; simpa using hlo a ha)
  have h2 : List.countP (fun x => decide (x < v)) (l.drop p) = 0 :=
    List.countP_eq_zero.mpr (by intro a ha; simpa using hhi a ha)
  rw [h1, h2, List.length_take]
  omega

theorem countP_lt_getElem (l : List Int) (hs : l.Pairwise (· < ·)) (p : Nat) (hp : p < l.length) :
    (l.filter (fun x => decide (x < l[p]))).length = p := by
  rw [List.pairwise_iff_getElem] at hs
  apply countP_lt_of_split l _ p (le_of_lt hp)
  · intro a ha
    obtain ⟨i, hi, rfl⟩ := List.mem_take_iff_getElem.mp ha
    exact hs i p (by omega) hp (by omega)
  · intro a ha
    obtain ⟨i, hi, rfl⟩ := List.mem_drop_iff_getElem.mp ha
    rw [not_lt]
    rcases Nat.eq_zero_or_pos i with h0 | h0
    · subst h0; exact le_refl _
    · exact le_of_lt (hs p (p + i) hp (by omega) (by omega))

/-- C11: minimal value encoding.  For every `int64_t` value `v`, `_intsetValueEncoding`
returns 2 exactly when `v` is in the 16-bit range, 4 exactly when `v` is in the 32-bit
range but outside the 16-bit range, and 8 otherwise; the result is the smallest of the
three widths whose signed range contains `v`. -/
theorem C11_value_encoding (v : Int) (hv : isInt64 v) :
    (_intsetValueEncoding v = 2 ↔ -32768 ≤ v ∧ v ≤ 32767) ∧
    (_intsetValueEncoding v = 4 ↔
      (-2147483648 ≤ v ∧ v ≤ 2147483647) ∧ ¬ (-32768 ≤ v ∧ v ≤ 32767)) ∧
    (_intsetValueEncoding v = 8 ↔ ¬ (-2147483648 ≤ v ∧ v ≤ 2147483647)) ∧
    fitsWidth (_intsetValueEncoding v) v ∧
    (∀ w, validEnc w → fitsWidth w v → _intsetValueEncoding v ≤ w) := by
  refine ⟨?_, ?_, ?_, fitsWidth_valueEncoding hv, ?_⟩
  · unfold _intsetValueEncoding INT32_MIN INT32_MAX INT16_MIN INT16_MAX
      INTSET_ENC_INT64 INTSET_ENC_INT32 INTSET_ENC_INT16
    split_ifs <;> omega
  · unfold _intsetValueEncoding INT32_MIN INT32_MAX INT16_MIN INT16_MAX
      INTSET_ENC_INT64 INTSET_ENC_INT32 INTSET_ENC_INT16
    split_ifs <;> omega
  · unfold _intsetValueEncoding INT32_MIN INT32_MAX INT16_MIN INT16_MAX
      INTSET_ENC_INT64 INTSET_ENC_INT32 INTSET_ENC_INT16
    split_ifs <;> omega
  · intro w hw hfit
    exact (fitsWidth_iff_valueEncoding hw hv).mpr hfit

theorem C11_value_encoding_witness :
    isInt64 (-32769) ∧
    ((_intsetValueEncoding (-32769) = 2 ↔ -32768 ≤ (-32769 : Int) ∧ (-32769 : Int) ≤ 32767) ∧
    (_intsetValueEncoding (-32769) = 4 ↔
      (-2147483648 ≤ (-32769 : Int) ∧ (-32769 : Int) ≤ 2147483647) ∧
        ¬ (-32768 ≤ (-32769 : Int) ∧ (-32769 : Int) ≤ 32767)) ∧
    (_intsetValueEncoding (-32769) = 8 ↔
      ¬ (-2147483648 ≤ (-32769 : Int) ∧ (-32769 : Int) ≤ 2147483647)) ∧
    fitsWidth (_intsetValueEncoding (-32769)) (-32769) ∧
    (∀ w, validEnc w → fitsWidth w (-32769) → _intsetValueEncoding (-32769) ≤ w)) :=
  ⟨by decide, C11_value_encoding (-32769) (by decide)⟩

/-- C12: positional get.  For every intset, every position `pos` and every previous
content of `*value`, `intsetGet` returns 1 and stores the element at position `pos` when
`pos < length`, and returns 0 leaving `*value` as it was when `pos >= length`; on a
well-formed set the element at position `pos` is the `pos`-th smallest, counting from 0
(exactly `pos` stored elements are smaller). -/
theorem C12_positional_get (is : intset) (pos : Nat) (old : Int) :
    (pos < is.length → intsetGet is pos old = (1, _intsetGet is pos)) ∧
    (is.length ≤ pos → intsetGet is pos old = (0, old)) ∧
    (WF is → pos < is.length →
      (elems is)[pos]? = some (intsetGet is pos old).2 ∧
      ((elems is).filter (fun x => decide (x < (intsetGet is pos old).2))).length = pos) := by
  refine ⟨?_, ?_, ?_⟩
  · intro h; simp [intsetGet, h]
  · intro h; simp [intsetGet, Nat.not_lt.mpr h]
  · intro hwf h
    have hl : pos < (elems is).length := by rw [length_elems]; exact h
    have hget : (intsetGet is pos old).2 = (elems is)[pos] := by
      rw [getElem_elems]; simp [intsetGet, h]
    rw [hget]
    exact ⟨List.getElem?_eq_getElem hl, countP_lt_getElem (elems is) hwf.2.2.2 pos hl⟩

theorem C12_positional_get_witness :
    (WF ⟨2, 3, [4, 0, 5, 0, 7, 0]⟩ ∧ 1 < (⟨2, 3, [4, 0, 5, 0, 7, 0]⟩ : intset).length ∧
      (⟨2, 3, [4, 0, 5, 0, 7, 0]⟩ : intset).length ≤ 3) ∧
    intsetGet ⟨2, 3, [4, 0, 5, 0, 7, 0]⟩ 1 0 = (1, _intsetGet ⟨2, 3, [4, 0, 5, 0, 7, 0]⟩ 1) ∧
    intsetGet ⟨2, 3, [4, 0, 5, 0, 7, 0]⟩ 3 9 = (0, 9) ∧
    ((elems ⟨2, 3, [4, 0, 5, 0, 7, 0]⟩)[1]? =
        some (intsetGet ⟨2, 3, [4, 0, 5, 0, 7, 0]⟩ 1 0).2 ∧
      ((elems ⟨2, 3, [4, 0, 5, 0, 7, 0]⟩).filter
        (fun x => decide (x < (intsetGet ⟨2, 3, [4, 0, 5, 0, 7, 0]⟩ 1 0).2))).length = 1) :=
  ⟨by decide,
    (C12_positional_get ⟨2, 3, [4, 0, 5, 0, 7, 0]⟩ 1 0).1 (by decide),
    (C12_positional_get ⟨2, 3, [4, 0, 5, 0, 7, 0]⟩ 3 9).2.1 (by decide),
    (C12_positional_get ⟨2, 3, [4, 0, 5, 0, 7, 0]⟩ 1 0).2.2 (by decide) (by decide)⟩

/-- Blob size, with room.  For every well-formed intset `intsetBlobLen` returns the 8
bytes of the header plus `length * encoding` bytes, the encoding being 2, 4 or 8.  After an
add of a new value with room for it, it is the header plus `(length + 1)` elements at the
wider of the old encoding and the value's (so one element width more when the encoding is
unchanged); after a removal of a stored value it is one element width less; a duplicate
add and a removal of an absent value leave it unchanged. -/
theorem blob_size_with_room (is : intset) (v : Int) (hwf : WF is) (hv : isInt64 v) :
    (intsetBlobLen is = 8 + is.length * is.encoding ∧ validEnc is.encoding) ∧
    (hasRoom is v → v ∉ elems is →
      intsetBlobLen (intsetAdd is v).1 =
        8 + (is.length + 1) * max is.encoding (_intsetValueEncoding v) ∧
      (_intsetValueEncoding v ≤ is.encoding →
        intsetBlobLen (intsetAdd is v).1 = intsetBlobLen is + is.encoding)) ∧
    (v ∈ elems is → intsetBlobLen (intsetAdd is v).1 = intsetBlobLen is) ∧
    (v ∈ elems is → intsetBlobLen (intsetRemove is v).1 + is.encoding = intsetBlobLen is) ∧
    (v ∉ elems is → intsetBlobLen (intsetRemove is v).1 = intsetBlobLen is) := by
  have hblob : ∀ s : intset, WF s → intsetBlobLen s = 8 + s.length * s.encoding := by
    intro s hs
    have h := hs.2.2.1
    unfold intsetBlobLen sizeofIntset SIZE_T
    rw [Nat.mod_eq_of_lt h]
    unfold U32 at h
    omega
  refine ⟨⟨hblob is hwf, hwf.1⟩, ?_, ?_, ?_, ?_⟩
  · intro hroom hmem
    obtain ⟨_, h2, h3, _, _⟩ := intsetAdd_of_not_mem hwf hv hroom hmem
    have hb := hblob _ (WF_intsetAdd hwf hv hroom)
    rw [h2, h3] at hb
    refine ⟨hb, ?_⟩
    intro hle
    rw [hb, hblob is hwf, max_eq_left hle]
    ring
  · intro hmem
    rw [intsetAdd_of_mem hwf hv hmem]
  · intro hmem
    obtain ⟨_, r2, r3, _, _⟩ := intsetRemove_of_mem hwf hv hmem
    rw [hblob _ (WF_intsetRemove hwf hv), hblob is hwf, r2, r3]
    obtain ⟨i, hi, _⟩ := (mem_elems is v).mp hmem
    obtain ⟨n, hn⟩ : ∃ n, is.length = n + 1 := ⟨is.length - 1, by omega⟩
    rw [hn]
    simp only [Nat.add_sub_cancel]
    ring
  · intro hmem
    rw [intsetRemove_of_not_mem hwf hmem]

/-- C13, the failing input.  The well-formed set `wrapSet64` has a blob of `2^32` bytes
(the header and `2^29 - 1` elements of 8 bytes).  The add of the new value 5 reports
success and keeps the encoding, and the blob size of the result is 8 bytes, not 8 bytes
more: both `intsetResize` and `intsetBlobLen` compute `2^29 * 8` in 32 bits. -/
theorem C13_blob_size_fails_at_wrap :
    WF wrapSet64 ∧ isInt64 5 ∧ (5 : Int) ∉ elems wrapSet64 ∧
    intsetBlobLen wrapSet64 = 4294967296 ∧
    (intsetAdd wrapSet64 5).2 = 1 ∧
    (intsetAdd wrapSet64 5).1.encoding = wrapSet64.encoding ∧
    (intsetAdd wrapSet64 5).1.length = wrapSet64.length + 1 ∧
    intsetBlobLen (intsetAdd wrapSet64 5).1 = 8 := by
  refine ⟨wrapSet64_spec.1, by decide, five_not_mem_wrapSet64, ?_, ?_, ?_, ?_, ?_⟩
  · exact intsetBlobLen_full64 wrapSet64 wrapSet64_spec.2.1 wrapSet64_spec.2.2.1
  · rw [intsetAdd_wrapSet64]
  · rw [intsetAdd_wrapSet64, wrapSet64_spec.2.2.1]
  · rw [intsetAdd_wrapSet64, wrapSet64_spec.2.1]
  · rw [intsetAdd_wrapSet64]
    decide

/-! ## Further claims on the integer set -/

theorem mem_take_elems (is : intset) (p : Nat) (hp : p ≤ is.length) (x : Int) :
    x ∈ (elems is).take p ↔ ∃ i, i < p ∧ _intsetGet is i = x := by
  have : (elems is).take p = (List.range p).map (_intsetGet is) := by
    unfold elems
    rw [← List.map_take, List.take_range, Nat.min_eq_left hp]
  rw [this]
  simp

theorem mem_drop_elems (is : intset) (p : Nat) (x : Int) :
    x ∈ (elems is).drop p ↔ ∃ i, p ≤ i ∧ i < is.length ∧ _intsetGet is i = x := by
  constructor
  · intro h
    obtain ⟨i, hi, hx⟩ := List.mem_drop_iff_getElem.mp h
    rw [getElem_elems] at hx
    rw [length_elems] at hi
    exact ⟨p + i, by omega, by omega, hx⟩
  · rintro ⟨i, h1, h2, rfl⟩
    rw [List.mem_drop_iff_getElem]
    refine ⟨i - p, by rw [length_elems]; omega, ?_⟩
    rw [getElem_elems]
    congr 1
    omega

/-- C24: binary search result.  For every intset of fewer than `2 ^ 31` elements whose
contents are strictly ascending and every value `v`: when `v` is stored, `intsetSearch`
returns 1 and a position that holds `v`; when it is not, `intsetSearch` returns 0 and
the number of stored elements smaller than `v`, which is 0 for an empty set and `length`
when `v` exceeds the last element.  The loop of the search ends within the `length + 1`
rounds it is given, whatever the buffer holds. -/
theorem C24_binary_search (is : intset) (v : Int) (hlen : is.length < 2 ^ 31) :
    (Ascending is →
      (v ∈ elems is → (intsetSearch is v).1 = 1 ∧ (intsetSearch is v).2 < is.length ∧
        _intsetGet is (intsetSearch is v).2 = v) ∧
      (v ∉ elems is → (intsetSearch is v).1 = 0 ∧
        (intsetSearch is v).2 = ((elems is).filter (fun x => decide (x < v))).length ∧
        (is.length = 0 → (intsetSearch is v).2 = 0) ∧
        (is.length ≠ 0 → _intsetGet is (is.length - 1) < v →
          (intsetSearch is v).2 = is.length))) ∧
    (intsetSearchLoop is v (is.length + 1) 0 (toInt32 ((is.length + U32 - 1) % U32))
      (-1) (-1)).isSome = true := by
  refine ⟨?_, intsetSearch_loop_returns is v hlen⟩
  intro hasc
  have hspec := intsetSearch_spec is v hlen hasc
  constructor
  · intro hmem
    rcases hspec with h | ⟨-, hle, hlo, hhi⟩
    · exact h
    · exfalso
      obtain ⟨i, hi, hget⟩ := (mem_elems is v).mp hmem
      by_cases hip : i < (intsetSearch is v).2
      · have := hlo i hip
        omega
      · have := hhi i (by omega) hi
        omega
  · intro hmem
    rcases hspec with ⟨-, hlt, hget⟩ | ⟨h0, hle, hlo, hhi⟩
    · exact absurd ((mem_elems is v).mpr ⟨_, hlt, hget⟩) hmem
    · have hcount : ((elems is).filter (fun x => decide (x < v))).length =
          (intsetSearch is v).2 := by
        apply countP_lt_eq _ _ _ (by rw [length_elems]; exact hle)
        · intro x hx
          obtain ⟨i, hi, rfl⟩ := (mem_take_elems is _ hle x).mp hx
          exact hlo i hi
        · intro x hx
          obtain ⟨i, h1, h2, rfl⟩ := (mem_drop_elems is _ x).mp hx
          exact hhi i h1 h2
      refine ⟨h0, hcount.symm, ?_, ?_⟩
      · intro hz; omega
      · intro hnz hlast
        by_contra hne
        have := hhi (is.length - 1) (by omega) (by omega)
        omega

theorem C24_binary_search_witness :
    ((⟨2, 3, [4, 0, 5, 0, 7, 0]⟩ : intset).length < 2 ^ 31 ∧
      (6 : Int) ∉ elems ⟨2, 3, [4, 0, 5, 0, 7, 0]⟩) ∧
    ((intsetSearch ⟨2, 3, [4, 0, 5, 0, 7, 0]⟩ 6).1 = 0 ∧
      (intsetSearch ⟨2, 3, [4, 0, 5, 0, 7, 0]⟩ 6).2 =
        ((elems ⟨2, 3, [4, 0, 5, 0, 7, 0]⟩).filter (fun x => decide (x < 6))).length ∧
      ((⟨2, 3, [4, 0, 5, 0, 7, 0]⟩ : intset).length = 0 →
        (intsetSearch ⟨2, 3, [4, 0, 5, 0, 7, 0]⟩ 6).2 = 0) ∧
      ((⟨2, 3, [4, 0, 5, 0, 7, 0]⟩ : intset).length ≠ 0 →
        _intsetGet ⟨2, 3, [4, 0, 5, 0, 7, 0]⟩
          ((⟨2, 3, [4, 0, 5, 0, 7, 0]⟩ : intset).length - 1) < 6 →
        (intsetSearch ⟨2, 3, [4, 0, 5, 0, 7, 0]⟩ 6).2 =
          (⟨2, 3, [4, 0, 5, 0, 7, 0]⟩ : intset).length)) :=
  ⟨by decide,
    ((C24_binary_search ⟨2, 3, [4, 0, 5, 0, 7, 0]⟩ 6 (by decide)).1
      (WF_ascending (by decide))).2 (by decide)⟩

/-- C25: upgrade placement is justified.  For every intset with a valid encoding `e` (its
stored elements then all fit `e`) and every `int64_t` value `v` whose minimal encoding is
greater than `e`: a negative `v` is smaller than every stored element and a non-negative
`v` is greater than every stored element, so putting `v` in front or at the end of
strictly ascending elements leaves them strictly ascending; that is where `intsetAdd`
puts it. -/
theorem C25_upgrade_placement (is : intset) (v : Int) (henc : validEnc is.encoding)
    (hv : isInt64 v) (hup : _intsetValueEncoding v > is.encoding) :
    (∀ x ∈ elems is, fitsWidth is.encoding x) ∧
    (v < 0 → ∀ x ∈ elems is, v < x) ∧
    (0 ≤ v → ∀ x ∈ elems is, x < v) ∧
    ((elems is).Pairwise (· < ·) →
      (if v < 0 then v :: elems is else elems is ++ [v]).Pairwise (· < ·)) ∧
    (WF is → hasRoom is v →
      elems (intsetAdd is v).1 = (if v < 0 then v :: elems is else elems is ++ [v])) := by
  have hfit : ∀ x ∈ elems is, fitsWidth is.encoding x := fun x hx => fitsWidth_of_mem henc hx
  have hneg : v < 0 → ∀ x ∈ elems is, v < x :=
    fun h x hx => (upgrade_outside henc (hfit x hx) hv hup).1 h
  have hpos : 0 ≤ v → ∀ x ∈ elems is, x < v :=
    fun h x hx => (upgrade_outside henc (hfit x hx) hv hup).2 (by omega)
  refine ⟨hfit, hneg, hpos, ?_, ?_⟩
  · intro hasc
    by_cases h0 : v < 0
    · rw [if_pos h0]
      exact List.pairwise_cons.mpr ⟨hneg h0, hasc⟩
    · rw [if_neg h0]
      rw [List.pairwise_append]
      refine ⟨hasc, List.pairwise_singleton _ _, ?_⟩
      intro x hx y hy
      rw [List.mem_singleton] at hy
      subst hy
      exact hpos (by omega) x hx
  · intro hwf hroom
    exact (intsetAdd_upgrade is v hwf hv hup (hasRoom_le hroom).2).2.2.2.2

theorem C25_upgrade_placement_witness :
    (validEnc (⟨2, 3, [4, 0, 5, 0, 7, 0]⟩ : intset).encoding ∧ isInt64 (-40000) ∧
      _intsetValueEncoding (-40000) > (⟨2, 3, [4, 0, 5, 0, 7, 0]⟩ : intset).encoding) ∧
    ((∀ x ∈ elems ⟨2, 3, [4, 0, 5, 0, 7, 0]⟩,
        fitsWidth (⟨2, 3, [4, 0, 5, 0, 7, 0]⟩ : intset).encoding x) ∧
    ((-40000 : Int) < 0 → ∀ x ∈ elems ⟨2, 3, [4, 0, 5, 0, 7, 0]⟩, -40000 < x) ∧
    (0 ≤ (-40000 : Int) → ∀ x ∈ elems ⟨2, 3, [4, 0, 5, 0, 7, 0]⟩, x < -40000) ∧
    ((elems ⟨2, 3, [4, 0, 5, 0, 7, 0]⟩).Pairwise (· < ·) →
      (if (-40000 : Int) < 0 then -40000 :: elems ⟨2, 3, [4, 0, 5, 0, 7, 0]⟩
        else elems ⟨2, 3, [4, 0, 5, 0, 7, 0]⟩ ++ [-40000]).Pairwise (· < ·)) ∧
    (WF ⟨2, 3, [4, 0, 5, 0, 7, 0]⟩ → hasRoom ⟨2, 3, [4, 0, 5, 0, 7, 0]⟩ (-40000) →
      elems (intsetAdd ⟨2, 3, [4, 0, 5, 0, 7, 0]⟩ (-40000)).1 =
        (if (-40000 : Int) < 0 then -40000 :: elems ⟨2, 3, [4, 0, 5, 0, 7, 0]⟩
          else elems ⟨2, 3, [4, 0, 5, 0, 7, 0]⟩ ++ [-40000]))) :=
  ⟨by decide,
    C25_upgrade_placement ⟨2, 3, [4, 0, 5, 0, 7, 0]⟩ (-40000) (by decide) (by decide)
      (by decide)⟩

/-- C26: representation invariant.  For every intset reached from `intsetNew()` by any
sequence of adds and removes, the encoding tag is 2, 4 or 8, every stored element lies
in the signed range of that width and its minimal encoding is at most the set's, and a
value whose minimal encoding is greater than the set's is not stored and is not found. -/
theorem C26_representation_invariant (ops : List Op) :
    validEnc (runOps ops).encoding ∧
    (∀ x ∈ elems (runOps ops),
      fitsWidth (runOps ops).encoding x ∧ _intsetValueEncoding x ≤ (runOps ops).encoding) ∧
    (∀ v, _intsetValueEncoding v > (runOps ops).encoding →
      v ∉ elems (runOps ops) ∧ intsetFind (runOps ops) v = 0) := by
  have henc := validEnc_runOps ops
  refine ⟨henc, fun x hx => ⟨fitsWidth_of_mem henc hx, valueEncoding_le_of_mem henc hx⟩, ?_⟩
  intro v hv
  constructor
  · intro hmem
    have := valueEncoding_le_of_mem henc hmem
    omega
  · unfold intsetFind
    rw [if_neg]
    rintro ⟨h, -⟩
    omega

theorem loadBytes_storeBytes (c bs : List Byte) (off : Nat) (h : off + bs.length ≤ c.length) :
    loadBytes (storeBytes c off bs) off bs.length = bs := by
  apply loadBytes_eq_self
  intro k hk
  rw [getD_storeBytes bs c off (off + k) h, if_pos ⟨by omega, by omega⟩]
  congr 1
  omega

/-- Reading after a write with `_intsetSet`: the position written holds the value, the
other positions are as before. -/
theorem intsetGet_intsetSet {is : intset} (henc : validEnc is.encoding) (pos : Nat) {v : Int}
    (hv : fitsWidth is.encoding v) (hlen : (pos + 1) * is.encoding ≤ is.contents.length)
    (j : Nat) :
    _intsetGet (_intsetSet is pos v) j = if j = pos then v else _intsetGet is j := by
  have henc1 : validEnc (_intsetSet is pos v).encoding := henc
  rw [get_eq_getAt henc1, get_eq_getAt henc, contents_intsetSet henc, encoding_intsetSet]
  by_cases hj : j = pos
  · subst hj
    rw [if_pos rfl, getAt_setAt_same henc _ _ hv hlen]
  · rw [if_neg hj, getAt_setAt_other _ _ _ _ _ hlen hj]

/-- Writing a sequence of values with `_intsetSet` at consecutive positions. -/
theorem setAll_spec : ∀ (vs : List Int) (is : intset) (pos : Nat), validEnc is.encoding →
    (pos + vs.length) * is.encoding ≤ is.contents.length →
    (∀ x ∈ vs, fitsWidth is.encoding x) →
    (setAll is pos vs).encoding = is.encoding ∧ (setAll is pos vs).length = is.length ∧
    (setAll is pos vs).contents.length = is.contents.length ∧
    (∀ j, _intsetGet (setAll is pos vs) j =
      if pos ≤ j ∧ j < pos + vs.length then vs.getD (j - pos) 0 else _intsetGet is j) := by
  intro vs
  induction vs with
  | nil =>
    intro is pos _ _ _
    refine ⟨rfl, rfl, rfl, ?_⟩
    intro j
    rw [if_neg]
    · rfl
    · simp
  | cons v vs ih =>
    intro is pos henc hlen hfit
    have hlen0 : (pos + 1) * is.encoding ≤ is.contents.length := by
      refine le_trans (Nat.mul_le_mul_right _ ?_) hlen
      simp
    have hclen : (_intsetSet is pos v).contents.length = is.contents.length := by
      rw [contents_intsetSet henc, length_setAt]
    have henc1 : validEnc (_intsetSet is pos v).encoding := henc
    obtain ⟨h1, h2, h3, h4⟩ := ih (_intsetSet is pos v) (pos + 1) henc1
      (by rw [hclen, encoding_intsetSet]
          refine le_trans (le_of_eq ?_) hlen
          simp only [List.length_cons]
          ring)
      (fun x hx => hfit x (List.mem_cons_of_mem _ hx))
    refine ⟨h1, h2, h3.trans hclen, ?_⟩
    intro j
    show _intsetGet (setAll (_intsetSet is pos v) (pos + 1) vs) j = _
    rw [h4 j, intsetGet_intsetSet henc pos (hfit v (List.mem_cons_self _ _)) hlen0 j]
    simp only [List.length_cons]
    by_cases hj1 : j = pos
    · subst hj1
      simp
    · by_cases hj2 : pos + 1 ≤ j ∧ j < pos + 1 + vs.length
      · rw [if_pos hj2, if_pos ⟨by omega, by omega⟩]
        obtain ⟨k, hk⟩ : ∃ k, j - pos = k + 1 := ⟨j - pos - 1, by omega⟩
        rw [hk, List.getD_cons_succ]
        congr 1
        omega
      · rw [if_neg hj2, if_neg hj1, if_neg (by omega)]

/-- C27: element encode/decode round trip.  For every intset with encoding width `w` in
{2, 4, 8}, every position `pos` inside the buffer and every value `v` in the signed range
of `w`: after `_intsetSet` at `pos`, `_intsetGet` at `pos` returns `v`; the `w` bytes at
byte offset `pos * w` are the little-endian bytes of `v` in two's complement; every other
position reads as before; encoding and length are kept.  Writing a sequence of values that
fit `w` at the positions from 0 and reading the set back gives that sequence, at the same
width. -/
theorem C27_element_round_trip (is : intset) (pos : Nat) (v : Int)
    (henc : validEnc is.encoding) (hv : fitsWidth is.encoding v)
    (hpos : (pos + 1) * is.encoding ≤ is.contents.length) :
    _intsetGet (_intsetSet is pos v) pos = v ∧
    loadBytes (_intsetSet is pos v).contents (pos * is.encoding) is.encoding =
      natToLE is.encoding (toUnsigned is.encoding v) ∧
    (leToNat (loadBytes (_intsetSet is pos v).contents (pos * is.encoding) is.encoding) : Int) =
      v % 2 ^ (8 * is.encoding) ∧
    (∀ j, j ≠ pos → _intsetGet (_intsetSet is pos v) j = _intsetGet is j) ∧
    (_intsetSet is pos v).encoding = is.encoding ∧
    (_intsetSet is pos v).length = is.length ∧
    (∀ vs : List Int, vs.length = is.length → vs.length * is.encoding ≤ is.contents.length →
      (∀ x ∈ vs, fitsWidth is.encoding x) →
      elems (setAll is 0 vs) = vs ∧ (setAll is 0 vs).encoding = is.encoding) := by
  have hbytes : loadBytes (_intsetSet is pos v).contents (pos * is.encoding) is.encoding =
      natToLE is.encoding (toUnsigned is.encoding v) := by
    rw [contents_intsetSet henc]
    unfold setAt
    have hl : (natToLE is.encoding (toUnsigned is.encoding v)).length = is.encoding :=
      length_natToLE _ _
    have := loadBytes_storeBytes is.contents (natToLE is.encoding (toUnsigned is.encoding v))
      (pos * is.encoding) (by rw [hl]; linarith [Nat.add_mul pos 1 is.encoding])
    rw [hl] at this
    exact this
  refine ⟨?_, hbytes, ?_, ?_, rfl, rfl, ?_⟩
  · rw [intsetGet_intsetSet henc pos hv hpos, if_pos rfl]
  · rw [hbytes, leToNat_natToLE]
    unfold toUnsigned
    have hpow : (256 : Nat) ^ is.encoding = 2 ^ (8 * is.encoding) := by
      rw [pow_mul]; norm_num
    have hnn : 0 ≤ v % 2 ^ (8 * is.encoding) := Int.emod_nonneg _ (by positivity)
    have hlt : v % 2 ^ (8 * is.encoding) < 2 ^ (8 * is.encoding) :=
      Int.emod_lt_of_pos _ (by positivity)
    rw [hpow, Nat.mod_eq_of_lt]
    · exact Int.toNat_of_nonneg hnn
    · have : ((v % 2 ^ (8 * is.encoding)).toNat : Int) < ((2 ^ (8 * is.encoding) : Nat) : Int) := by
        rw [Int.toNat_of_nonneg hnn]
        push_cast
        exact hlt
      exact_mod_cast this
  · intro j hj
    rw [intsetGet_intsetSet henc pos hv hpos, if_neg hj]
  · intro vs hvl hcl hfit
    obtain ⟨h1, h2, -, h4⟩ := setAll_spec vs is 0 henc (by simpa using hcl) hfit
    refine ⟨?_, h1⟩
    apply List.ext_getElem
    · rw [length_elems, h2, hvl]
    · intro i hi1 hi2
      rw [getElem_elems, h4 i, if_pos ⟨by omega, by omega⟩]
      simp only [Nat.sub_zero]
      exact List.getD_eq_getElem _ _ hi2

theorem C27_element_round_trip_witness :
    (validEnc (⟨2, 3, [4, 0, 5, 0, 7, 0]⟩ : intset).encoding ∧
      fitsWidth (⟨2, 3, [4, 0, 5, 0, 7, 0]⟩ : intset).encoding (-2) ∧
      (1 + 1) * (⟨2, 3, [4, 0, 5, 0, 7, 0]⟩ : intset).encoding ≤
        (⟨2, 3, [4, 0, 5, 0, 7, 0]⟩ : intset).contents.length) ∧
    _intsetGet (_intsetSet ⟨2, 3, [4, 0, 5, 0, 7, 0]⟩ 1 (-2)) 1 = -2 ∧
    loadBytes (_intsetSet ⟨2, 3, [4, 0, 5, 0, 7, 0]⟩ 1 (-2)).contents
        (1 * (⟨2, 3, [4, 0, 5, 0, 7, 0]⟩ : intset).encoding)
        (⟨2, 3, [4, 0, 5, 0, 7, 0]⟩ : intset).encoding =
      natToLE (⟨2, 3, [4, 0, 5, 0, 7, 0]⟩ : intset).encoding
        (toUnsigned (⟨2, 3, [4, 0, 5, 0, 7, 0]⟩ : intset).encoding (-2)) :=
  ⟨by decide,
    (C27_element_round_trip ⟨2, 3, [4, 0, 5, 0, 7, 0]⟩ 1 (-2) (by decide) (by decide)
      (by decide)).1,
    (C27_element_round_trip ⟨2, 3, [4, 0, 5, 0, 7, 0]⟩ 1 (-2) (by decide) (by decide)
      (by decide)).2.1⟩

/-- The bytes written for the value -2 at position 1 of a 16-bit set are `fe ff`, and
writing the values -1, 300, 32767 into a 16-bit buffer reads back as these values. -/
theorem intsetSet_example :
    (_intsetSet ⟨2, 3, [4, 0, 5, 0, 7, 0]⟩ 1 (-2)).contents = [4, 0, 254, 255, 7, 0] ∧
    elems (setAll ⟨2, 3, [0, 0, 0, 0, 0, 0]⟩ 0 [-1, 300, 32767]) = [-1, 300, 32767] := by
  decide

theorem intsetRandom_eq (is : intset) (r : Nat) (hne : is.length ≠ 0) (hr : r < 2 ^ 31) :
    intsetRandom is r = some (_intsetGet is (r % is.length)) := by
  have hpos : 0 < is.length := Nat.pos_of_ne_zero hne
  have hle : r % is.length ≤ r := Nat.mod_le _ _
  have h1 : r % U32 = r := Nat.mod_eq_of_lt (by unfold U32; omega)
  have h2 : toInt32 (r % is.length) = (r % is.length : Nat) := by
    unfold toInt32
    rw [if_pos (by omega)]
  unfold intsetRandom
  rw [if_neg hne, h1, h2, Int.toNat_ofNat]

/-- C28: random member.  `randMax` is the largest value of the random source (`RAND_MAX`,
an `int`).  For every non-empty intset and every output `r` of the random source,
`intsetRandom` reads position `r mod length`, which is below `length`, and so returns a
stored element; every position up to `randMax`, hence every position when
`length <= randMax + 1`, is read for some output.  For an empty set the modulus is zero
and there is no result. -/
theorem C28_random_member (is : intset) (randMax r : Nat) (hmax : randMax < 2 ^ 31)
    (hr : r ≤ randMax) :
    (is.length = 0 → intsetRandom is r = none) ∧
    (is.length ≠ 0 →
      r % is.length < is.length ∧
      intsetRandom is r = some (_intsetGet is (r % is.length)) ∧
      (∃ x ∈ elems is, intsetRandom is r = some x) ∧
      (∀ p, p < is.length → p ≤ randMax →
        ∃ r1, r1 ≤ randMax ∧ r1 % is.length = p ∧
          intsetRandom is r1 = some (_intsetGet is p)) ∧
      (is.length ≤ randMax + 1 → ∀ p, p < is.length →
        ∃ r1, r1 ≤ randMax ∧ r1 % is.length = p ∧
          intsetRandom is r1 = some (_intsetGet is p))) := by
  constructor
  · intro h0
    simp [intsetRandom, h0]
  · intro hne
    have hlt : r % is.length < is.length := Nat.mod_lt _ (Nat.pos_of_ne_zero hne)
    have heq := intsetRandom_eq is r hne (by omega)
    have hall : ∀ p, p < is.length → p ≤ randMax →
        ∃ r1, r1 ≤ randMax ∧ r1 % is.length = p ∧
          intsetRandom is r1 = some (_intsetGet is p) := by
      intro p hp hpm
      refine ⟨p, hpm, Nat.mod_eq_of_lt hp, ?_⟩
      rw [intsetRandom_eq is p hne (by omega), Nat.mod_eq_of_lt hp]
    refine ⟨hlt, heq, ⟨_, (mem_elems is _).mpr ⟨_, hlt, rfl⟩, heq⟩, hall, ?_⟩
    intro hle p hp
    exact hall p hp (by omega)

theorem C28_random_member_witness :
    ((2147483647 : Nat) < 2 ^ 31 ∧ (1000 : Nat) ≤ 2147483647 ∧
      (⟨2, 3, [4, 0, 5, 0, 7, 0]⟩ : intset).length ≠ 0) ∧
    (1000 % (⟨2, 3, [4, 0, 5, 0, 7, 0]⟩ : intset).length <
        (⟨2, 3, [4, 0, 5, 0, 7, 0]⟩ : intset).length ∧
      intsetRandom ⟨2, 3, [4, 0, 5, 0, 7, 0]⟩ 1000 =
        some (_intsetGet ⟨2, 3, [4, 0, 5, 0, 7, 0]⟩
          (1000 % (⟨2, 3, [4, 0, 5, 0, 7, 0]⟩ : intset).length)) ∧
      (∃ x ∈ elems ⟨2, 3, [4, 0, 5, 0, 7, 0]⟩,
        intsetRandom ⟨2, 3, [4, 0, 5, 0, 7, 0]⟩ 1000 = some x) ∧
      (∀ p, p < (⟨2, 3, [4, 0, 5, 0, 7, 0]⟩ : intset).length → p ≤ 2147483647 →
        ∃ r1, r1 ≤ 2147483647 ∧ r1 % (⟨2, 3, [4, 0, 5, 0, 7, 0]⟩ : intset).length = p ∧
          intsetRandom ⟨2, 3, [4, 0, 5, 0, 7, 0]⟩ r1 =
            some (_intsetGet ⟨2, 3, [4, 0, 5, 0, 7, 0]⟩ p)) ∧
      ((⟨2, 3, [4, 0, 5, 0, 7, 0]⟩ : intset).length ≤ 2147483647 + 1 →
        ∀ p, p < (⟨2, 3, [4, 0, 5, 0, 7, 0]⟩ : intset).length →
        ∃ r1, r1 ≤ 2147483647 ∧ r1 % (⟨2, 3, [4, 0, 5, 0, 7, 0]⟩ : intset).length = p ∧
          intsetRandom ⟨2, 3, [4, 0, 5, 0, 7, 0]⟩ r1 =
            some (_intsetGet ⟨2, 3, [4, 0, 5, 0, 7, 0]⟩ p))) :=
  ⟨by decide,
    (C28_random_member ⟨2, 3, [4, 0, 5, 0, 7, 0]⟩ 2147483647 1000 (by decide) (by decide)).2
      (by decide)⟩

/-- Set refinement, with room.  On a well-formed intset and for `int64_t` values `v` and
`w`: `intsetFind` is membership in the finite set the intset stands for; `intsetAdd` (with
room for one more element) is insertion and `intsetRemove` is deletion on that finite set.
So `w` is found after adding `v` exactly when `w = v` or `w` was found before, `w` is found
after removing `v` exactly when `w` differs from `v` and was found before, and neither
operation on `v` changes what `intsetFind` returns for another value. -/
theorem set_refinement_with_room (is : intset) (v w : Int) (hwf : WF is) (hv : isInt64 v)
    (hw : isInt64 w) :
    (intsetFind is w = 1 ↔ w ∈ toFinset is) ∧
    (hasRoom is v →
      toFinset (intsetAdd is v).1 = specAdd (toFinset is) v ∧
      (intsetFind (intsetAdd is v).1 w = 1 ↔ w = v ∨ intsetFind is w = 1) ∧
      (w ≠ v → intsetFind (intsetAdd is v).1 w = intsetFind is w)) ∧
    toFinset (intsetRemove is v).1 = specRemove (toFinset is) v ∧
    (intsetFind (intsetRemove is v).1 w = 1 ↔ w ≠ v ∧ intsetFind is w = 1) ∧
    (w ≠ v → intsetFind (intsetRemove is v).1 w = intsetFind is w) := by
  have hfind : ∀ s : intset, WF s → (intsetFind s w = 1 ↔ w ∈ elems s) := by
    intro s hs
    rw [intsetFind_eq hs hw]
    by_cases h : w ∈ elems s <;> simp [h]
  have hfind2 : ∀ s t : intset, WF s → WF t → (w ∈ elems s ↔ w ∈ elems t) →
      intsetFind s w = intsetFind t w := by
    intro s t hs ht hst
    rw [intsetFind_eq hs hw, intsetFind_eq ht hw]
    by_cases h : w ∈ elems s
    · rw [if_pos h, if_pos (hst.mp h)]
    · rw [if_neg h, if_neg (fun h2 => h (hst.mpr h2))]
  have hwfr := WF_intsetRemove hwf hv
  refine ⟨?_, ?_, ?_, ?_, ?_⟩
  · rw [hfind is hwf]
    simp [toFinset]
  · intro hroom
    have hwfa := WF_intsetAdd hwf hv hroom
    refine ⟨?_, ?_, ?_⟩
    · ext x
      simp only [toFinset, specAdd, List.mem_toFinset, Finset.mem_insert]
      exact mem_elems_intsetAdd hwf hv hroom x
    · rw [hfind _ hwfa, hfind is hwf]
      exact mem_elems_intsetAdd hwf hv hroom w
    · intro hne
      apply hfind2 _ _ hwfa hwf
      rw [mem_elems_intsetAdd hwf hv hroom w]
      simp [hne]
  · ext x
    simp only [toFinset, specRemove, List.mem_toFinset, Finset.mem_erase]
    exact mem_elems_intsetRemove hwf hv x
  · rw [hfind _ hwfr, hfind is hwf]
    exact mem_elems_intsetRemove hwf hv w
  · intro hne
    apply hfind2 _ _ hwfr hwf
    rw [mem_elems_intsetRemove hwf hv w]
    simp [hne]

/-- C29, the failing input.  On the well-formed set `wrapSet64` the value `2^32` is found.
After the add of 5 neither 5 nor `2^32` is found, and the finite set of the result is not
the old one with 5 inserted: the add changed the membership of another value. -/
theorem C29_refinement_fails_at_wrap :
    WF wrapSet64 ∧ isInt64 5 ∧ isInt64 4294967296 ∧
    intsetFind wrapSet64 4294967296 = 1 ∧
    intsetFind (intsetAdd wrapSet64 5).1 4294967296 = 0 ∧
    intsetFind (intsetAdd wrapSet64 5).1 5 = 0 ∧
    toFinset (intsetAdd wrapSet64 5).1 ≠ specAdd (toFinset wrapSet64) 5 := by
  refine ⟨wrapSet64_spec.1, by decide, by decide, ?_, ?_, ?_, ?_⟩
  · rw [intsetFind_eq wrapSet64_spec.1 (by decide),
      if_pos ((wrapSet64_spec.2.2.2 4294967296).mpr (by omega))]
  · rw [intsetAdd_wrapSet64]; decide
  · rw [intsetAdd_wrapSet64]; decide
  · intro h
    have h1 : (5 : Int) ∈ specAdd (toFinset wrapSet64) 5 := Finset.mem_insert_self _ _
    rw [← h, intsetAdd_wrapSet64] at h1
    exact not_mem_elems_nil 8 536870912 5 (by decide) (List.mem_toFinset.mp h1)

/-- C30: encoding never narrows.  For every intset and value, `intsetRemove` leaves the
encoding as it is, and `intsetAdd` either leaves it as it is or sets it to the value's
minimal encoding, which is then strictly wider; so the encoding does not decrease along
any sequence of adds and removes, from any set and in particular from `intsetNew()`. -/
theorem C30_encoding_never_narrows (is : intset) (v : Int) (ops ops2 : List Op) :
    (intsetRemove is v).1.encoding = is.encoding ∧
    ((intsetAdd is v).1.encoding = is.encoding ∨
      (is.encoding < (intsetAdd is v).1.encoding ∧
        (intsetAdd is v).1.encoding = _intsetValueEncoding v)) ∧
    is.encoding ≤ (ops.foldl applyOp is).encoding ∧
    (runOps ops).encoding ≤ (runOps (ops ++ ops2)).encoding := by
  refine ⟨encoding_intsetRemove is v, encoding_intsetAdd is v, encoding_le_foldl ops is, ?_⟩
  unfold runOps
  rw [List.foldl_append]
  exact encoding_le_foldl ops2 _

/-- Removing the only element that needed 32 bits, which also empties the set, leaves the
encoding at 32 bits. -/
theorem encoding_after_remove_example :
    (intsetAdd intsetNew 100000).1.encoding = INTSET_ENC_INT32 ∧
    (intsetRemove (intsetAdd intsetNew 100000).1 100000).1.encoding = INTSET_ENC_INT32 ∧
    (intsetRemove (intsetAdd intsetNew 100000).1 100000).1.length = 0 := by
  decide

/-- Add-only minimality, for fewer than `2^29` adds.  For every intset built from
`intsetNew()` by fewer than `2^29` calls of `intsetAdd` only (of `int64_t` values), the
encoding is the maximum of the minimal encodings of the stored values, 16-bit for the empty
set: no stored value needs more, and every one of the three widths that holds every stored
value is at least the encoding. -/
theorem add_only_minimality_below_wrap (ops : List Op) (hops : ∀ op ∈ ops, isInt64 op.value)
    (hcap : ops.length * INTSET_ENC_INT64 < U32) (hadd : addOnly ops) :
    (runOps ops).encoding = minEncoding (elems (runOps ops)) ∧
    (elems (runOps ops) = [] → (runOps ops).encoding = INTSET_ENC_INT16) ∧
    (∀ x ∈ elems (runOps ops), _intsetValueEncoding x ≤ (runOps ops).encoding) ∧
    (elems (runOps ops) ≠ [] →
      ∃ x ∈ elems (runOps ops), _intsetValueEncoding x = (runOps ops).encoding) ∧
    (∀ e, validEnc e → (∀ x ∈ elems (runOps ops), fitsWidth e x) →
      (runOps ops).encoding ≤ e) := by
  have henc := encoding_runOps_addOnly ops hops hcap hadd
  have hwf := (WF_runOps ops hops hcap).1
  have hmax : ∀ l : List Int, l ≠ [] → ∃ x ∈ l, _intsetValueEncoding x = minEncoding l := by
    intro l
    induction l with
    | nil => intro h; exact absurd rfl h
    | cons y l ih =>
      intro _
      by_cases hl : l = []
      · subst hl
        refine ⟨y, by simp, ?_⟩
        show _ = max (_intsetValueEncoding y) INTSET_ENC_INT16
        have := validEnc_valueEncoding y
        unfold INTSET_ENC_INT16
        rcases this with h | h | h <;> rw [h] <;> rfl
      · obtain ⟨x, hx, hxe⟩ := ih hl
        show ∃ x ∈ y :: l, _ = max (_intsetValueEncoding y) (minEncoding l)
        by_cases hle : minEncoding l ≤ _intsetValueEncoding y
        · exact ⟨y, by simp, (max_eq_left hle).symm⟩
        · exact ⟨x, List.mem_cons_of_mem _ hx, by rw [hxe, max_eq_right (by omega)]⟩
  refine ⟨henc, ?_, ?_, ?_, ?_⟩
  · intro h
    rw [henc, h]
    rfl
  · intro x hx
    exact valueEncoding_le_of_mem hwf.1 hx
  · intro hne
    rw [henc]
    exact hmax _ hne
  · intro e he hfit
    rw [henc, minEncoding_le_iff]
    refine ⟨?_, ?_⟩
    · unfold INTSET_ENC_INT16
      rcases he with h | h | h <;> omega
    · intro x hx
      exact (fitsWidth_iff_valueEncoding he
        (isInt64_of_fitsWidth hwf.1 (fitsWidth_of_mem hwf.1 hx))).mpr (hfit x hx)

/-- C31, the failing input.  The sequence of `2^29 - 1` adds of 64-bit values followed by
the add of 5 only adds.  The set it reaches has the 64-bit encoding, while the elements
read from its buffer of 0 bytes all fit 16 bits. -/
theorem C31_minimality_fails_at_wrap :
    addOnly ((consecutive 4294967296 536870911).map Op.add ++ [Op.add 5]) ∧
    (∀ op ∈ (consecutive 4294967296 536870911).map Op.add ++ [Op.add 5], isInt64 op.value) ∧
    (runOps ((consecutive 4294967296 536870911).map Op.add ++ [Op.add 5])).encoding =
      INTSET_ENC_INT64 ∧
    minEncoding (elems (runOps ((consecutive 4294967296 536870911).map Op.add ++ [Op.add 5]))) =
      INTSET_ENC_INT16 := by
  refine ⟨?_, ?_, ?_, ?_⟩
  · intro op hop
    rcases List.mem_append.mp hop with h | h
    · exact addOnly_map_add _ op h
    · exact ⟨5, List.mem_singleton.mp h⟩
  · intro op hop
    rcases List.mem_append.mp hop with h | h
    · exact isInt64_map_add _ (isInt64_consecutive _ _ (by decide) (by decide)) op h
    · rw [List.mem_singleton.mp h]; decide
  · rw [runOps_snoc_add, ← wrapSet64_eq, intsetAdd_wrapSet64]
    rfl
  · rw [runOps_snoc_add, ← wrapSet64_eq, intsetAdd_wrapSet64]
    exact minEncoding_nil 8 536870912

end Intset

namespace Adlist

/-! ## Heap access lemmas -/

theorem getNode_eq {m : Mem} {p : Ptr} (hp : p ≠ NULL) : getNode m p = m.nodes p := by
  simp [getNode, hp]

theorem getList_eq {m : Mem} {l : Ptr} (hl : l ≠ NULL) : getList m l = m.lists l := by
  simp [getList, hl]

@[simp] theorem nodes_putNode (m : Mem) (p : Ptr) (nd : listNode) (q : Ptr) :
    (putNode m p nd).nodes q = if q = p then some nd else m.nodes q := rfl

@[simp] theorem lists_putNode (m : Mem) (p : Ptr) (nd : listNode) :
    (putNode m p nd).lists = m.lists := rfl

@[simp] theorem freed_putNode (m : Mem) (p : Ptr) (nd : listNode) :
    (putNode m p nd).freed = m.freed := rfl

@[simp] theorem nodes_putList (m : Mem) (l : Ptr) (L : list) :
    (putList m l L).nodes = m.nodes := rfl

@[simp] theorem lists_putList (m : Mem) (l : Ptr) (L : list) (q : Ptr) :
    (putList m l L).lists q = if q = l then some L else m.lists q := rfl

@[simp] theorem freed_putList (m : Mem) (l : Ptr) (L : list) :
    (putList m l L).freed = m.freed := rfl

theorem setPrev_eq {m : Mem} {p : Ptr} {nd : listNode} (hp : p ≠ NULL)
    (h : m.nodes p = some nd) (x : Ptr) :
    setPrev m p x = some (putNode m p { nd with prev := x }) := by
  simp [setPrev, getNode, hp, h]

theorem setNext_eq {m : Mem} {p : Ptr} {nd : listNode} (hp : p ≠ NULL)
    (h : m.nodes p = some nd) (x : Ptr) :
    setNext m p x = some (putNode m p { nd with next := x }) := by
  simp [setNext, getNode, hp, h]

theorem setValue_eq {m : Mem} {p : Ptr} {nd : listNode} (hp : p ≠ NULL)
    (h : m.nodes p = some nd) (x : Ptr) :
    setValue m p x = some (putNode m p { nd with value := x }) := by
  simp [setValue, getNode, hp, h]

theorem setHead_eq {m : Mem} {l : Ptr} {L : list} (hl : l ≠ NULL)
    (h : m.lists l = some L) (x : Ptr) :
    setHead m l x = some (putList m l { L with head := x }) := by
  simp [setHead, getList, hl, h]

theorem setTail_eq {m : Mem} {l : Ptr} {L : list} (hl : l ≠ NULL)
    (h : m.lists l = some L) (x : Ptr) :
    setTail m l x = some (putList m l { L with tail := x }) := by
  simp [setTail, getList, hl, h]

theorem setLen_eq {m : Mem} {l : Ptr} {L : list} (hl : l ≠ NULL)
    (h : m.lists l = some L) (n : Nat) :
    setLen m l n = some (putList m l { L with len := n % WORD }) := by
  simp [setLen, getList, hl, h]

/-! ## Doubly linked segments -/

@[simp] theorem firstD_nil (d : Ptr) : firstD [] d = d := rfl

@[simp] theorem firstD_cons (p : Ptr) (ps : List Ptr) (d : Ptr) : firstD (p :: ps) d = p := rfl

@[simp] theorem lastD_nil (d : Ptr) : lastD [] d = d := rfl

@[simp] theorem lastD_cons (p : Ptr) (ps : List Ptr) (d : Ptr) :
    lastD (p :: ps) d = lastD ps p := rfl

theorem firstD_append (a b : List Ptr) (d : Ptr) : firstD (a ++ b) d = firstD a (firstD b d) := by
  cases a <;> rfl

theorem lastD_append (a b : List Ptr) : ∀ d : Ptr, lastD (a ++ b) d = lastD b (lastD a d) := by
  induction a with
  | nil => intro d; rfl
  | cons p a ih => intro d; simp [ih]

@[simp] theorem lastD_concat (a : List Ptr) (x d : Ptr) : lastD (a ++ [x]) d = x := by
  rw [lastD_append]; rfl

theorem dllseg_nil (m : Mem) (prev nxt : Ptr) : dllseg m prev [] nxt := rfl

theorem dllseg_cons (m : Mem) (prev p : Ptr) (ps : List Ptr) (nxt : Ptr) :
    dllseg m prev (p :: ps) nxt ↔
      p ≠ NULL ∧ (∃ nd, m.nodes p = some nd ∧ nd.prev = prev ∧ nd.next = firstD ps nxt) ∧
        dllseg m p ps nxt := by
  unfold dllseg
  simp only [dllsegB, Bool.and_eq_true, bne_iff_ne, ne_eq]
  cases h : m.nodes p with
  | none => simp
  | some nd => simp [and_assoc]

theorem dllseg_congr {m m1 : Mem} {ps : List Ptr} (h : ∀ p ∈ ps, m1.nodes p = m.nodes p) :
    ∀ (prev nxt : Ptr), dllseg m1 prev ps nxt ↔ dllseg m prev ps nxt := by
  induction ps with
  | nil => intro prev nxt; simp [dllseg_nil]
  | cons p ps ih =>
    intro prev nxt
    rw [dllseg_cons, dllseg_cons, h p (List.mem_cons_self _ _),
      ih (fun q hq => h q (List.mem_cons_of_mem _ hq))]

theorem dllseg_append (m : Mem) (a b : List Ptr) : ∀ (prev nxt : Ptr),
    dllseg m prev (a ++ b) nxt ↔
      dllseg m prev a (firstD b nxt) ∧ dllseg m (lastD a prev) b nxt := by
  induction a with
  | nil => intro prev nxt; simp [dllseg_nil, lastD]
  | cons p a ih =>
    intro prev nxt
    rw [List.cons_append, dllseg_cons, dllseg_cons, ih, firstD_append]
    simp only [lastD]
    tauto

theorem dllseg_mem {m : Mem} {ps : List Ptr} : ∀ {prev nxt : Ptr}, dllseg m prev ps nxt →
    ∀ p ∈ ps, p ≠ NULL ∧ ∃ nd, m.nodes p = some nd := by
  induction ps with
  | nil => intro _ _ _ p hp; simp at hp
  | cons q ps ih =>
    intro prev nxt h p hp
    rw [dllseg_cons] at h
    rcases List.mem_cons.mp hp with rfl | hp
    · exact ⟨h.1, h.2.1.choose, h.2.1.choose_spec.1⟩
    · exact ih h.2.2 p hp

theorem listRep_iff (m : Mem) (l : Ptr) (ps : List Ptr) :
    ListRep m l ps ↔
      l ≠ NULL ∧
      (∃ L, m.lists l = some L ∧ L.head = firstD ps NULL ∧ L.tail = lastD ps NULL ∧
        L.len = ps.length) ∧
      ps.Nodup ∧ (∀ p ∈ ps, p < WORD) ∧ dllseg m NULL ps NULL := by
  unfold ListRep listRepB dllseg
  simp only [Bool.and_eq_true, bne_iff_ne, ne_eq, decide_eq_true_eq, List.all_eq_true]
  cases h : m.lists l with
  | none => simp
  | some L => simp; tauto

/-- No more distinct non-null addresses than machine words. -/
theorem length_lt_WORD (ps : List Ptr) (hnd : ps.Nodup) (hb : ∀ p ∈ ps, p < WORD)
    (h0 : ∀ p ∈ ps, p ≠ NULL) : ps.length < WORD := by
  have hsub : ps.toFinset ⊆ Finset.Ico 1 WORD := by
    intro p hp
    rw [List.mem_toFinset] at hp
    rw [Finset.mem_Ico]
    have := h0 p hp
    unfold NULL at this
    exact ⟨Nat.pos_of_ne_zero this, hb p hp⟩
  have hcard := Finset.card_le_card hsub
  rw [List.toFinset_card_of_nodup hnd, Nat.card_Ico] at hcard
  have : 0 < WORD := by unfold WORD; norm_num
  omega

@[simp] theorem putNode_putNode_same (m : Mem) (p : Ptr) (a b : listNode) :
    putNode (putNode m p a) p b = putNode m p b := by
  unfold putNode
  congr 1
  funext q
  by_cases h : q = p <;> simp [h]

@[simp] theorem putList_putList_same (m : Mem) (l : Ptr) (a b : list) :
    putList (putList m l a) l b = putList m l b := by
  unfold putList
  congr 1
  funext q
  by_cases h : q = l <;> simp [h]

@[simp] theorem putNode_putList (m : Mem) (l : Ptr) (L : list) (p : Ptr) (nd : listNode) :
    putNode (putList m l L) p nd = putList (putNode m p nd) l L := rfl

theorem dllseg_cons_of {m : Mem} {prev p : Ptr} {ps : List Ptr} {nxt : Ptr} {d : listNode}
    (hp : p ≠ NULL) (hnd : m.nodes p = some d) (h1 : d.prev = prev)
    (h2 : d.next = firstD ps nxt) (h3 : dllseg m p ps nxt) : dllseg m prev (p :: ps) nxt :=
  (dllseg_cons m prev p ps nxt).mpr ⟨hp, ⟨d, hnd, h1, h2⟩, h3⟩

/-- Changing the `prev` field of the first node of a segment. -/
theorem dllseg_putPrev {m : Mem} {p : Ptr} {ps : List Ptr} {prev nxt : Ptr} {nd : listNode}
    (h : dllseg m prev (p :: ps) nxt) (hp : p ∉ ps) (hnd : m.nodes p = some nd) (x : Ptr) :
    dllseg (putNode m p { nd with prev := x }) x (p :: ps) nxt := by
  rw [dllseg_cons] at h ⊢
  obtain ⟨h1, ⟨nd1, e1, e2, e3⟩, h3⟩ := h
  rw [hnd] at e1
  cases e1
  refine ⟨h1, ⟨{ nd with prev := x }, by simp, rfl, e3⟩, ?_⟩
  rw [dllseg_congr]
  · exact h3
  · intro q hq
    have : q ≠ p := fun e => hp (e ▸ hq)
    simp [this]

theorem dllseg_putNode_of_not_mem {m : Mem} {p : Ptr} {ps : List Ptr} (hp : p ∉ ps)
    (nd : listNode) (prev nxt : Ptr) :
    dllseg (putNode m p nd) prev ps nxt ↔ dllseg m prev ps nxt := by
  apply dllseg_congr
  intro q hq
  have : q ≠ p := fun e => hp (e ▸ hq)
  simp [this]

@[simp] theorem dllseg_putList (m : Mem) (l : Ptr) (L : list) (prev : Ptr) (ps : List Ptr)
    (nxt : Ptr) : dllseg (putList m l L) prev ps nxt ↔ dllseg m prev ps nxt :=
  @dllseg_congr m (putList m l L) ps (fun _ _ => rfl) prev nxt

theorem listRep_putList (m : Mem) (l : Ptr) (L : list) (ps : List Ptr) :
    ListRep (putList m l L) l ps ↔
      l ≠ NULL ∧ L.head = firstD ps NULL ∧ L.tail = lastD ps NULL ∧ L.len = ps.length ∧
      ps.Nodup ∧ (∀ p ∈ ps, p < WORD) ∧ dllseg m NULL ps NULL := by
  rw [listRep_iff]
  simp only [lists_putList, if_true, Option.some.injEq, exists_eq_left', dllseg_putList]
  tauto

@[simp] theorem valueAt_putList (m : Mem) (l : Ptr) (L : list) (p : Ptr) :
    valueAt (putList m l L) p = valueAt m p := rfl

@[simp] theorem values_putList (m : Mem) (l : Ptr) (L : list) (ps : List Ptr) :
    values (putList m l L) ps = values m ps := rfl

theorem valueAt_putNode (m : Mem) (p : Ptr) (nd : listNode) (q : Ptr) :
    valueAt (putNode m p nd) q = if q = p then nd.value else valueAt m q := by
  unfold valueAt
  by_cases h : q = p <;> simp [h]

theorem values_congr {m m1 : Mem} {ps : List Ptr} (h : ∀ p ∈ ps, valueAt m1 p = valueAt m p) :
    values m1 ps = values m ps := by
  unfold values
  exact List.map_congr_left h

/-- Changing the `next` field of the last node of a segment. -/
theorem dllseg_putNext {m : Mem} {a : List Ptr} {x : Ptr} {prev nxt : Ptr} {nd : listNode}
    (h : dllseg m prev (a ++ [x]) nxt) (hx : x ∉ a) (hnd : m.nodes x = some nd) (y : Ptr) :
    dllseg (putNode m x { nd with next := y }) prev (a ++ [x]) y := by
  rw [dllseg_append] at h ⊢
  obtain ⟨h1, h2⟩ := h
  constructor
  · rw [dllseg_putNode_of_not_mem hx]
    exact h1
  · rw [dllseg_cons] at h2
    obtain ⟨h3, ⟨nd1, e1, e2, _⟩, _⟩ := h2
    rw [hnd] at e1
    cases e1
    exact dllseg_cons_of (d := { nd with next := y }) h3 (by simp) e2 rfl (dllseg_nil _ _ _)

theorem nodup_cons_fresh {m : Mem} {ps : List Ptr} {prev nxt node : Ptr}
    (hseg : dllseg m prev ps nxt) (hfresh : m.nodes node = none) : node ∉ ps := by
  intro hin
  obtain ⟨_, nd, hnd⟩ := dllseg_mem hseg node hin
  rw [hfresh] at hnd
  cases hnd

/-- What a successful `listAddNodeHead` does: the new node is in front, the other nodes
and their values are kept, the methods are kept, `len` is one more; nothing else in the
heap changes. -/
theorem listAddNodeHead_spec (m : Mem) (l : Ptr) (ps : List Ptr) (v node : Ptr)
    (h : ListRep m l ps) (hn : node ≠ NULL) (hfresh : m.nodes node = none) (hw : node < WORD) :
    ∃ m1 L L1, listAddNodeHead m l v node = some (m1, l) ∧ ListRep m1 l (node :: ps) ∧
      values m1 (node :: ps) = v :: values m ps ∧
      m.lists l = some L ∧ m1.lists l = some L1 ∧ L1.len = L.len + 1 ∧ L1.dup = L.dup ∧
      L1.free = L.free ∧ L1.«match» = L.«match» ∧
      (∀ q, q ≠ l → m1.lists q = m.lists q) ∧
      (∀ q, q ≠ node → q ∉ ps → m1.nodes q = m.nodes q) ∧ m1.freed = m.freed := by
  rw [listRep_iff] at h
  obtain ⟨hl, ⟨L, hL, hh, ht, hlen⟩, hnd, hb, hseg⟩ := h
  have hmem := dllseg_mem hseg
  have hnode : node ∉ ps := nodup_cons_fresh hseg hfresh
  have hnd1 : (node :: ps).Nodup := List.nodup_cons.mpr ⟨hnode, hnd⟩
  have hb1 : ∀ q ∈ node :: ps, q < WORD := by
    intro p hp
    rcases List.mem_cons.mp hp with rfl | hp
    · exact hw
    · exact hb p hp
  have hlt : (node :: ps).length < WORD := by
    apply length_lt_WORD _ hnd1 hb1
    intro p hp
    rcases List.mem_cons.mp hp with rfl | hp
    · exact hn
    · exact (hmem p hp).1
  have hlen1 : (L.len + 1) % WORD = L.len + 1 := by
    apply Nat.mod_eq_of_lt
    rw [hlen]; simpa using hlt
  cases ps with
  | nil =>
    simp only [firstD_nil, lastD_nil, List.length_nil] at hh ht hlen
    have hlen0 : L.len = 0 ↔ True := by simp [hlen]
    have hres : listAddNodeHead m l v node =
        some (putList (putNode m node ⟨NULL, NULL, v⟩) l
          { L with head := node, tail := node, len := L.len + 1 }, l) := by
      simp [listAddNodeHead, hn, allocNode, setValue, setTail, setHead, setNext, setPrev, setLen,
        getNode, getList, hl, hL, hlen1, hlen0]
    refine ⟨_, L, { L with head := node, tail := node, len := L.len + 1 }, hres, ?_, ?_, hL,
      by simp, rfl, rfl, rfl, rfl, ?_, ?_, rfl⟩
    · rw [listRep_putList]
      refine ⟨hl, rfl, rfl, by simp [hlen], hnd1, hb1, ?_⟩
      exact dllseg_cons_of (d := ⟨NULL, NULL, v⟩) hn (by simp) rfl rfl (dllseg_nil _ _ _)
    · simp [values, valueAt]
    · intro q hq; simp [hq]
    · intro q hq _; simp [hq]
  | cons p ps =>
    simp only [firstD_cons, lastD_cons, List.length_cons] at hh ht hlen
    obtain ⟨hp0, ndp, hndp⟩ := hmem p (List.mem_cons_self _ _)
    have hpn : p ≠ node := by rintro rfl; exact hnode (List.mem_cons_self _ _)
    have hlen0 : L.len ≠ 0 := by omega
    have hres : listAddNodeHead m l v node =
        some (putList (putNode (putNode m node ⟨NULL, p, v⟩) p { ndp with prev := node }) l
          { L with head := node, len := L.len + 1 }, l) := by
      simp [listAddNodeHead, hn, allocNode, setValue, setTail, setHead, setNext, setPrev, setLen,
        getNode, getList, hl, hL, hlen1, hlen0, hh, hp0, hpn, hndp]
    refine ⟨_, L, { L with head := node, len := L.len + 1 }, hres, ?_, ?_, hL,
      by simp, rfl, rfl, rfl, rfl, ?_, ?_, rfl⟩
    · rw [listRep_putList]
      refine ⟨hl, rfl, by simpa using ht, by simp [hlen], hnd1, hb1, ?_⟩
      refine dllseg_cons_of (d := ⟨NULL, p, v⟩) hn (by simp [Ne.symm hpn]) rfl rfl ?_
      have hs1 : dllseg (putNode m node ⟨NULL, p, v⟩) NULL (p :: ps) NULL :=
        (dllseg_putNode_of_not_mem hnode _ _ _).mpr hseg
      exact dllseg_putPrev hs1 (List.nodup_cons.mp hnd).1 (by simp [hpn, hndp]) node
    · simp only [values, values_putList, valueAt_putList, List.map_cons, List.cons.injEq]
      refine ⟨by simp [valueAt_putNode, Ne.symm hpn], by simp [valueAt_putNode, valueAt, hndp], ?_⟩
      apply List.map_congr_left
      intro q hq
      have h1 : q ≠ p := by rintro rfl; exact (List.nodup_cons.mp hnd).1 hq
      have h2 : q ≠ node := by rintro rfl; exact hnode (List.mem_cons_of_mem _ hq)
      simp [valueAt_putNode, h1, h2]
    · intro q hq; simp [hq]
    · intro q hq1 hq2
      have h1 : q ≠ p := by rintro rfl; exact hq2 (List.mem_cons_self _ _)
      simp [hq1, h1]

/-- What a successful `listAddNodeTail` does: the new node is at the end, the other nodes
and their values are kept, the methods are kept, `len` is one more; nothing else in the
heap changes. -/
theorem listAddNodeTail_spec (m : Mem) (l : Ptr) (ps : List Ptr) (v node : Ptr)
    (h : ListRep m l ps) (hn : node ≠ NULL) (hfresh : m.nodes node = none) (hw : node < WORD) :
    ∃ m1 L L1, listAddNodeTail m l v node = some (m1, l) ∧ ListRep m1 l (ps ++ [node]) ∧
      values m1 (ps ++ [node]) = values m ps ++ [v] ∧
      m.lists l = some L ∧ m1.lists l = some L1 ∧ L1.len = L.len + 1 ∧ L1.dup = L.dup ∧
      L1.free = L.free ∧ L1.«match» = L.«match» ∧
      (∀ q, q ≠ l → m1.lists q = m.lists q) ∧
      (∀ q, q ≠ node → q ∉ ps → m1.nodes q = m.nodes q) ∧ m1.freed = m.freed := by
  rw [listRep_iff] at h
  obtain ⟨hl, ⟨L, hL, hh, ht, hlen⟩, hnd, hb, hseg⟩ := h
  have hmem := dllseg_mem hseg
  have hnode : node ∉ ps := nodup_cons_fresh hseg hfresh
  have hnd1 : (ps ++ [node]).Nodup := by
    rw [List.nodup_append]
    refine ⟨hnd, List.nodup_singleton _, ?_⟩
    intro a ha hb
    rw [List.mem_singleton] at hb
    exact hnode (hb ▸ ha)
  have hb1 : ∀ q ∈ ps ++ [node], q < WORD := by
    intro q hq
    rcases List.mem_append.mp hq with hq | hq
    · exact hb q hq
    · rw [List.mem_singleton.mp hq]; exact hw
  have hlt : (ps ++ [node]).length < WORD := by
    apply length_lt_WORD _ hnd1 hb1
    intro q hq
    rcases List.mem_append.mp hq with hq | hq
    · exact (hmem q hq).1
    · rw [List.mem_singleton.mp hq]; exact hn
  have hlen1 : (L.len + 1) % WORD = L.len + 1 := by
    apply Nat.mod_eq_of_lt
    rw [hlen]; simpa using hlt
  rcases List.eq_nil_or_concat ps with rfl | ⟨a, x, hax⟩
  · simp only [firstD_nil, lastD_nil, List.length_nil] at hh ht hlen
    have hlen0 : L.len = 0 ↔ True := by simp [hlen]
    have hres : listAddNodeTail m l v node =
        some (putList (putNode m node ⟨NULL, NULL, v⟩) l
          { L with head := node, tail := node, len := L.len + 1 }, l) := by
      simp [listAddNodeTail, hn, allocNode, setValue, setTail, setHead, setNext, setPrev, setLen,
        getNode, getList, hl, hL, hlen1, hlen0]
    refine ⟨_, L, { L with head := node, tail := node, len := L.len + 1 }, hres, ?_, ?_, hL,
      by simp, rfl, rfl, rfl, rfl, ?_, ?_, rfl⟩
    · rw [listRep_putList]
      refine ⟨hl, rfl, rfl, by simp [hlen], hnd1, hb1, ?_⟩
      exact dllseg_cons_of (d := ⟨NULL, NULL, v⟩) hn (by simp) rfl rfl (dllseg_nil _ _ _)
    · simp [values, valueAt]
    · intro q hq; simp [hq]
    · intro q hq _; simp [hq]
  · rw [List.concat_eq_append] at hax
    subst hax
    simp only [lastD_concat, List.length_append, List.length_singleton] at ht hlen
    obtain ⟨hx0, ndx, hndx⟩ := hmem x (by simp)
    have hxn : x ≠ node := by rintro rfl; exact hnode (by simp)
    have hxa : x ∉ a := by
      intro hin
      have := List.disjoint_of_nodup_append hnd hin
      simp at this
    have hlen0 : L.len ≠ 0 := by omega
    have hres : listAddNodeTail m l v node =
        some (putList (putNode (putNode m node ⟨x, NULL, v⟩) x { ndx with next := node }) l
          { L with tail := node, len := L.len + 1 }, l) := by
      simp [listAddNodeTail, hn, allocNode, setValue, setTail, setHead, setNext, setPrev, setLen,
        getNode, getList, hl, hL, hlen1, hlen0, ht, hx0, hxn, hndx]
    refine ⟨_, L, { L with tail := node, len := L.len + 1 }, hres, ?_, ?_, hL,
      by simp, rfl, rfl, rfl, rfl, ?_, ?_, rfl⟩
    · rw [listRep_putList]
      refine ⟨hl, ?_, (lastD_concat _ _ _).symm, by simp [hlen], hnd1, hb1, ?_⟩
      · rw [hh]; simp [firstD_append]
      · rw [dllseg_append]
        constructor
        · have hs1 : dllseg (putNode m node ⟨x, NULL, v⟩) NULL (a ++ [x]) NULL :=
            (dllseg_putNode_of_not_mem hnode _ _ _).mpr hseg
          exact dllseg_putNext hs1 hxa (by simp [hxn, hndx]) node
        · exact dllseg_cons_of (d := ⟨x, NULL, v⟩) hn (by simp [Ne.symm hxn]) (by simp) rfl
            (dllseg_nil _ _ _)
    · simp only [values, values_putList, valueAt_putList, List.map_append, List.map_cons,
        List.map_nil]
      congr 1
      · congr 1
        · apply List.map_congr_left
          intro q hq
          have h1 : q ≠ x := by rintro rfl; exact hxa hq
          have h2 : q ≠ node := by rintro rfl; exact hnode (List.mem_append_left _ hq)
          simp [valueAt_putNode, h1, h2]
        · simp [valueAt_putNode, valueAt, hndx]
      · simp [valueAt_putNode, Ne.symm hxn]
    · intro q hq; simp [hq]
    · intro q hq1 hq2
      have h1 : q ≠ x := by rintro rfl; exact hq2 (by simp)
      simp [hq1, h1]

theorem lastD_mem {a : List Ptr} (hne : a ≠ []) : ∀ d : Ptr, lastD a d ∈ a := by
  induction a with
  | nil => exact absurd rfl hne
  | cons p a ih =>
    intro d
    cases a with
    | nil => simp
    | cons q a => exact List.mem_cons_of_mem _ (ih (by simp) p)

theorem firstD_mem {a : List Ptr} (hne : a ≠ []) (d : Ptr) : firstD a d ∈ a := by
  cases a with
  | nil => exact absurd rfl hne
  | cons p a => simp

theorem lastD_of_ne_nil {a : List Ptr} (hne : a ≠ []) (d e : Ptr) : lastD a d = lastD a e := by
  cases a with
  | nil => exact absurd rfl hne
  | cons p a => rfl

theorem firstD_of_ne_nil {a : List Ptr} (hne : a ≠ []) (d e : Ptr) : firstD a d = firstD a e := by
  cases a with
  | nil => exact absurd rfl hne
  | cons p a => rfl

theorem eq_append_lastD {a : List Ptr} (hne : a ≠ []) (d : Ptr) :
    ∃ a0, a = a0 ++ [lastD a d] := by
  rcases List.eq_nil_or_concat a with rfl | ⟨a0, x, hax⟩
  · exact absurd rfl hne
  · rw [List.concat_eq_append] at hax
    subst hax
    exact ⟨a0, by simp⟩

/-- Changing the `next` field of the last node of a non-empty segment. -/
theorem dllseg_setNext_last {m : Mem} {a : List Ptr} {prev nxt d : Ptr} {nd : listNode}
    (h : dllseg m prev a nxt) (hne : a ≠ []) (hnd : a.Nodup)
    (hx : m.nodes (lastD a d) = some nd) (y : Ptr) :
    dllseg (putNode m (lastD a d) { nd with next := y }) prev a y := by
  obtain ⟨a0, ha⟩ := eq_append_lastD hne d
  have hx0 : lastD a d ∉ a0 := by
    intro hin
    rw [ha] at hnd
    have := List.disjoint_of_nodup_append hnd hin
    simp at this
  have h1 : dllseg m prev (a0 ++ [lastD a d]) nxt := by rw [← ha]; exact h
  have := dllseg_putNext h1 hx0 hx y
  rwa [← ha] at this

/-- Changing the `prev` field of the first node of a non-empty segment. -/
theorem dllseg_setPrev_first {m : Mem} {a : List Ptr} {prev nxt d : Ptr} {nd : listNode}
    (h : dllseg m prev a nxt) (hne : a ≠ []) (hnd : a.Nodup)
    (hx : m.nodes (firstD a d) = some nd) (y : Ptr) :
    dllseg (putNode m (firstD a d) { nd with prev := y }) y a nxt := by
  cases a with
  | nil => exact absurd rfl hne
  | cons p a => exact dllseg_putPrev h (List.nodup_cons.mp hnd).1 hx y

/-- The fields of the first node of a segment. -/
theorem dllseg_first {m : Mem} {p : Ptr} {ps : List Ptr} {prev nxt : Ptr}
    (h : dllseg m prev (p :: ps) nxt) :
    p ≠ NULL ∧ ∃ nd, m.nodes p = some nd ∧ nd.prev = prev ∧ nd.next = firstD ps nxt :=
  ⟨((dllseg_cons _ _ _ _ _).mp h).1, ((dllseg_cons _ _ _ _ _).mp h).2.1⟩

/-- The fields of the last node of a segment. -/
theorem dllseg_last {m : Mem} {a : List Ptr} {x : Ptr} {prev nxt : Ptr}
    (h : dllseg m prev (a ++ [x]) nxt) :
    x ≠ NULL ∧ ∃ nd, m.nodes x = some nd ∧ nd.prev = lastD a prev ∧ nd.next = nxt := by
  rw [dllseg_append] at h
  have := dllseg_first h.2
  simpa using this

/-- The fields of a node in the middle of a segment. -/
theorem dllseg_mid {m : Mem} {a b : List Ptr} {x : Ptr} {prev nxt : Ptr}
    (h : dllseg m prev (a ++ x :: b) nxt) :
    x ≠ NULL ∧ ∃ nd, m.nodes x = some nd ∧ nd.prev = lastD a prev ∧ nd.next = firstD b nxt := by
  rw [dllseg_append] at h
  exact dllseg_first h.2

/-! ## Indexed access -/

theorem walkNext_spec (m : Mem) (ps : List Ptr) : ∀ (prev : Ptr) (k : Nat),
    dllseg m prev ps NULL → walkNext m k (firstD ps NULL) = some (ps.getD k NULL) := by
  induction ps with
  | nil =>
    intro prev k _
    cases k <;> simp [walkNext]
  | cons p ps ih =>
    intro prev k h
    cases k with
    | zero => simp [walkNext]
    | succ k =>
      obtain ⟨hp, nd, hnd, _, hnext⟩ := dllseg_first h
      have h2 := ((dllseg_cons _ _ _ _ _).mp h).2.2
      simp [walkNext, hp, getNode, hnd, hnext, ih p k h2]

theorem walkPrev_spec (m : Mem) (ps : List Ptr) : ∀ (nxt : Ptr) (k : Nat),
    dllseg m NULL ps nxt → walkPrev m k (lastD ps NULL) = some (ps.reverse.getD k NULL) := by
  induction ps using List.reverseRecOn with
  | nil =>
    intro nxt k _
    cases k <;> simp [walkPrev]
  | append_singleton a x ih =>
    intro nxt k h
    cases k with
    | zero => simp [walkPrev]
    | succ k =>
      obtain ⟨hx, nd, hnd, hprev, _⟩ := dllseg_last h
      have h2 := ((dllseg_append _ _ _ _ _).mp h).1
      simp [walkPrev, hx, getNode, hnd, hprev, ih _ k h2]

theorem wrapLong_neg_sub_one (i : Int) (h1 : LONG_MIN ≤ i) (h2 : i < 0) :
    wrapLong (wrapLong (-i) - 1) = -i - 1 := by
  unfold LONG_MIN at h1
  unfold wrapLong
  norm_num
  omega

/-- What `listIndex` returns on a well-formed list, for every `long` index. -/
theorem listIndex_spec (m : Mem) (l : Ptr) (ps : List Ptr) (i : Int) (h : ListRep m l ps)
    (h1 : LONG_MIN ≤ i) :
    listIndex m l i =
      some (if 0 ≤ i then ps.getD i.toNat NULL else ps.reverse.getD (-i - 1).toNat NULL) := by
  rw [listRep_iff] at h
  obtain ⟨hl, ⟨L, hL, hh, ht, hlen⟩, hnd, hb, hseg⟩ := h
  by_cases hi : i < 0
  · have hw := wrapLong_neg_sub_one i h1 hi
    simp [listIndex, getList, hl, hL, hi, hw, ht, walkPrev_spec m ps NULL _ hseg, not_le.mpr hi]
  · simp [listIndex, getList, hl, hL, hi, hh, walkNext_spec m ps NULL _ hseg, not_lt.mp hi]

/-! ## Freed nodes and recorded calls -/

@[simp] theorem nodes_dropNode (m : Mem) (p q : Ptr) :
    (dropNode m p).nodes q = if q = p then none else m.nodes q := rfl

@[simp] theorem lists_dropNode (m : Mem) (p : Ptr) : (dropNode m p).lists = m.lists := rfl

@[simp] theorem freed_dropNode (m : Mem) (p : Ptr) : (dropNode m p).freed = m.freed := rfl

@[simp] theorem nodes_dropList (m : Mem) (l : Ptr) : (dropList m l).nodes = m.nodes := rfl

@[simp] theorem lists_dropList (m : Mem) (l q : Ptr) :
    (dropList m l).lists q = if q = l then none else m.lists q := rfl

@[simp] theorem freed_dropList (m : Mem) (l : Ptr) : (dropList m l).freed = m.freed := rfl

@[simp] theorem nodes_freeValue (m : Mem) (f v : Ptr) : (freeValue m f v).nodes = m.nodes := by
  unfold freeValue; split <;> rfl

@[simp] theorem lists_freeValue (m : Mem) (f v : Ptr) : (freeValue m f v).lists = m.lists := by
  unfold freeValue; split <;> rfl

theorem freed_freeValue (m : Mem) (f v : Ptr) :
    (freeValue m f v).freed = if f = NULL then m.freed else (f, v) :: m.freed := by
  unfold freeValue; split <;> rfl

@[simp] theorem dropNode_putList (m : Mem) (l : Ptr) (L : list) (p : Ptr) :
    dropNode (putList m l L) p = putList (dropNode m p) l L := rfl

@[simp] theorem freeValue_putList (m : Mem) (l : Ptr) (L : list) (f v : Ptr) :
    freeValue (putList m l L) f v = putList (freeValue m f v) l L := by
  unfold freeValue; split <;> rfl

theorem dllseg_dropNode_of_not_mem {m : Mem} {p : Ptr} {ps : List Ptr} (hp : p ∉ ps)
    (prev nxt : Ptr) : dllseg (dropNode m p) prev ps nxt ↔ dllseg m prev ps nxt := by
  apply dllseg_congr
  intro q hq
  have : q ≠ p := by rintro rfl; exact hp hq
  simp [this]

@[simp] theorem dllseg_freeValue (m : Mem) (f v : Ptr) (prev : Ptr) (ps : List Ptr) (nxt : Ptr) :
    dllseg (freeValue m f v) prev ps nxt ↔ dllseg m prev ps nxt :=
  @dllseg_congr m (freeValue m f v) ps (fun _ _ => by simp) prev nxt

theorem values_congr_nodes {m m1 : Mem} {ps : List Ptr} (h : ∀ p ∈ ps, m1.nodes p = m.nodes p) :
    values m1 ps = values m ps := by
  apply values_congr
  intro p hp
  unfold valueAt
  rw [h p hp]

theorem dllseg_nodup_split {a b : List Ptr} {x : Ptr} (h : (a ++ x :: b).Nodup) :
    x ∉ a ∧ x ∉ b ∧ a.Nodup ∧ b.Nodup ∧ (a ++ b).Nodup ∧ (∀ q ∈ a, q ∉ b) := by
  rw [List.nodup_append] at h
  obtain ⟨h1, h2, h3⟩ := h
  rw [List.nodup_cons] at h2
  refine ⟨fun hx => h3 hx (List.mem_cons_self _ _), h2.1, h1, h2.2, ?_, ?_⟩
  · rw [List.nodup_append]
    exact ⟨h1, h2.2, fun q hq hq2 => h3 hq (List.mem_cons_of_mem _ hq2)⟩
  · intro q hq hq2
    exact h3 hq (List.mem_cons_of_mem _ hq2)

/-- A segment whose last node gets a new `next`, the other nodes being as before. -/
theorem dllseg_relink_next {m M : Mem} {a : List Ptr} {prev nxt : Ptr} (y : Ptr)
    (h : dllseg m prev a nxt) (hnd : a.Nodup)
    (hM : ∀ q ∈ a, M.nodes q =
      if q = lastD a NULL then (m.nodes q).map (fun nd => { nd with next := y })
      else m.nodes q) :
    dllseg M prev a y := by
  by_cases hne : a = []
  · subst hne; exact dllseg_nil _ _ _
  · obtain ⟨_, nd, hx⟩ := dllseg_mem h _ (lastD_mem hne NULL)
    have h1 := dllseg_setNext_last h hne hnd hx y
    refine (dllseg_congr ?_ prev y).mpr h1
    intro q hq
    rw [hM q hq]
    by_cases hq2 : q = lastD a NULL
    · subst hq2; simp [hx]
    · simp [hq2]

/-- A segment whose first node gets a new `prev`, the other nodes being as before. -/
theorem dllseg_relink_prev {m M : Mem} {b : List Ptr} {prev nxt : Ptr} (y : Ptr)
    (h : dllseg m prev b nxt) (hnd : b.Nodup)
    (hM : ∀ q ∈ b, M.nodes q =
      if q = firstD b NULL then (m.nodes q).map (fun nd => { nd with prev := y })
      else m.nodes q) :
    dllseg M y b nxt := by
  by_cases hne : b = []
  · subst hne; exact dllseg_nil _ _ _
  · obtain ⟨_, nd, hx⟩ := dllseg_mem h _ (firstD_mem hne NULL)
    have h1 := dllseg_setPrev_first h hne hnd hx y
    refine (dllseg_congr ?_ y nxt).mpr h1
    intro q hq
    rw [hM q hq]
    by_cases hq2 : q = firstD b NULL
    · subst hq2; simp [hx]
    · simp [hq2]

/-- A `len` decrement does not wrap on a non-empty list. -/
theorem dec_mod_WORD {n : Nat} (h0 : 0 < n) (h : n < WORD) : (n + WORD - 1) % WORD = n - 1 := by
  have : n + WORD - 1 = (n - 1) + WORD := by omega
  rw [this, Nat.add_mod_right]
  exact Nat.mod_eq_of_lt (by omega)

/-! ## Deleting a node -/

theorem listDelNode_eval_only {m : Mem} {l node : Ptr} {L : list} {nd : listNode}
    (hl : l ≠ NULL) (hL : m.lists l = some L) (hn0 : node ≠ NULL)
    (hnode : m.nodes node = some nd) (hprev : nd.prev = NULL) (hnext : nd.next = NULL) :
    listDelNode m l node =
      some (putList (dropNode (freeValue m L.free nd.value) node) l
        { L with head := NULL, tail := NULL, len := (L.len + WORD - 1) % WORD }) := by
  simp [listDelNode, getNode, getList, hn0, hnode, hprev, hnext, setHead, setTail, setLen,
    hl, hL, freeNode]

theorem listDelNode_eval_first {m : Mem} {l node y : Ptr} {L : list} {nd ndy : listNode}
    (hl : l ≠ NULL) (hL : m.lists l = some L) (hn0 : node ≠ NULL)
    (hnode : m.nodes node = some nd) (hprev : nd.prev = NULL) (hnext : nd.next = y)
    (hy0 : y ≠ NULL) (hndy : m.nodes y = some ndy) (hyn : y ≠ node) :
    listDelNode m l node =
      some (putList (dropNode (freeValue (putNode m y { ndy with prev := NULL }) L.free
        nd.value) node) l { L with head := y, len := (L.len + WORD - 1) % WORD }) := by
  simp [listDelNode, getNode, getList, hn0, hnode, hprev, hnext, setHead, setTail, setLen,
    setPrev, hl, hL, freeNode, hy0, hyn, Ne.symm hyn, hndy]

theorem listDelNode_eval_last {m : Mem} {l node x : Ptr} {L : list} {nd ndx : listNode}
    (hl : l ≠ NULL) (hL : m.lists l = some L) (hn0 : node ≠ NULL)
    (hnode : m.nodes node = some nd) (hprev : nd.prev = x) (hnext : nd.next = NULL)
    (hx0 : x ≠ NULL) (hndx : m.nodes x = some ndx) (hxn : x ≠ node) :
    listDelNode m l node =
      some (putList (dropNode (freeValue (putNode m x { ndx with next := NULL }) L.free
        nd.value) node) l { L with tail := x, len := (L.len + WORD - 1) % WORD }) := by
  simp [listDelNode, getNode, getList, hn0, hnode, hprev, hnext, setHead, setTail, setLen,
    setNext, hl, hL, freeNode, hx0, hxn, Ne.symm hxn, hndx]

theorem listDelNode_eval_mid {m : Mem} {l node x y : Ptr} {L : list} {nd ndx ndy : listNode}
    (hl : l ≠ NULL) (hL : m.lists l = some L) (hn0 : node ≠ NULL)
    (hnode : m.nodes node = some nd) (hprev : nd.prev = x) (hnext : nd.next = y)
    (hx0 : x ≠ NULL) (hndx : m.nodes x = some ndx) (hxn : x ≠ node)
    (hy0 : y ≠ NULL) (hndy : m.nodes y = some ndy) (hyn : y ≠ node) (hxy : x ≠ y) :
    listDelNode m l node =
      some (putList (dropNode (freeValue (putNode (putNode m x { ndx with next := y }) y
        { ndy with prev := x }) L.free nd.value) node) l
        { L with len := (L.len + WORD - 1) % WORD }) := by
  simp [listDelNode, getNode, getList, hn0, hnode, hprev, hnext, setHead, setTail, setLen,
    setNext, setPrev, hl, hL, freeNode, hx0, hxn, Ne.symm hxn, hndx, hy0, hyn, Ne.symm hyn,
    hndy, hxy, Ne.symm hxy]

/-- The list after a deletion, from a pointwise description of the heap. -/
theorem listDelNode_finish {m M : Mem} {l : Ptr} {a b : List Ptr} {node : Ptr} {L : list}
    (h : ListRep m l (a ++ node :: b)) (hL : m.lists l = some L)
    (hnodes : ∀ q, M.nodes q =
        if q = node then none
        else (m.nodes q).map (fun n1 =>
          { n1 with
            next := if a ≠ [] ∧ q = lastD a NULL then firstD b NULL else n1.next,
            prev := if b ≠ [] ∧ q = firstD b NULL then lastD a NULL else n1.prev }))
    (hlists : M.lists l = some { L with head := firstD (a ++ b) NULL,
                                        tail := lastD (a ++ b) NULL, len := L.len - 1 }) :
    ListRep M l (a ++ b) ∧ values M (a ++ b) = values m (a ++ b) ∧
      (∀ q, q ∉ a ++ node :: b → M.nodes q = m.nodes q) := by
  rw [listRep_iff] at h
  obtain ⟨hl, ⟨L0, hL0, hh, ht, hlen⟩, hnd, hb, hseg⟩ := h
  rw [hL] at hL0
  cases hL0
  obtain ⟨hxa, hxb, hnda, hndb, hndab, hdisj⟩ := dllseg_nodup_split hnd
  have hsplit := (dllseg_append _ _ _ _ _).mp hseg
  have hsa : dllseg m NULL a node := by simpa using hsplit.1
  have hsb : dllseg m node b NULL := ((dllseg_cons _ _ _ _ _).mp hsplit.2).2.2
  have hna : ∀ q ∈ a, q ≠ node := fun q hq e => hxa (e ▸ hq)
  have hnb : ∀ q ∈ b, q ≠ node := fun q hq e => hxb (e ▸ hq)
  refine ⟨?_, ?_, ?_⟩
  · rw [listRep_iff]
    refine ⟨hl, ⟨_, hlists, rfl, rfl, ?_⟩, hndab, fun p hp => hb p ?_, ?_⟩
    · simp only [hlen, List.length_append, List.length_cons]; omega
    · rcases List.mem_append.mp hp with hp | hp
      · exact List.mem_append_left _ hp
      · exact List.mem_append_right _ (List.mem_cons_of_mem _ hp)
    · rw [dllseg_append]
      constructor
      · apply dllseg_relink_next (firstD b NULL) hsa hnda
        intro q hq
        have hqb : ¬ (b ≠ [] ∧ q = firstD b NULL) := by
          rintro ⟨h1, h2⟩
          exact hdisj q hq (h2 ▸ firstD_mem h1 NULL)
        have hqa : a ≠ [] := by rintro rfl; simp at hq
        rw [hnodes q, if_neg (hna q hq)]
        by_cases hq2 : q = lastD a NULL
        · subst hq2; simp [hqa, hqb]
        · simp [hq2, hqb]
      · apply dllseg_relink_prev (lastD a NULL) hsb hndb
        intro q hq
        have hqa : ¬ (a ≠ [] ∧ q = lastD a NULL) := by
          rintro ⟨h1, h2⟩
          exact hdisj _ (lastD_mem h1 NULL) (h2 ▸ hq)
        have hqb : b ≠ [] := by rintro rfl; simp at hq
        rw [hnodes q, if_neg (hnb q hq)]
        by_cases hq2 : q = firstD b NULL
        · subst hq2; simp [hqa, hqb]
        · simp [hq2, hqa]
  · apply values_congr
    intro q hq
    have hqn : q ≠ node := by
      rcases List.mem_append.mp hq with hq | hq
      · exact hna q hq
      · exact hnb q hq
    unfold valueAt
    rw [hnodes q, if_neg hqn]
    cases m.nodes q <;> rfl
  · intro q hq
    have hqn : q ≠ node := by rintro rfl; exact hq (by simp)
    have hqa : ¬ (a ≠ [] ∧ q = lastD a NULL) := by
      rintro ⟨h1, h2⟩
      exact hq (List.mem_append_left _ (h2 ▸ lastD_mem h1 NULL))
    have hqb : ¬ (b ≠ [] ∧ q = firstD b NULL) := by
      rintro ⟨h1, h2⟩
      exact hq (List.mem_append_right _ (List.mem_cons_of_mem _ (h2 ▸ firstD_mem h1 NULL)))
    rw [hnodes q, if_neg hqn]
    simp only [hqa, hqb, if_false]
    cases m.nodes q <;> rfl

/-- The heap after `listDelNode`, pointwise. -/
theorem listDelNode_heap (m : Mem) (l : Ptr) (a b : List Ptr) (node : Ptr) (L : list)
    (h : ListRep m l (a ++ node :: b)) (hL : m.lists l = some L) :
    ∃ M, listDelNode m l node = some M ∧
      (∀ q, M.nodes q =
        if q = node then none
        else (m.nodes q).map (fun n1 =>
          { n1 with
            next := if a ≠ [] ∧ q = lastD a NULL then firstD b NULL else n1.next,
            prev := if b ≠ [] ∧ q = firstD b NULL then lastD a NULL else n1.prev })) ∧
      M.lists l = some { L with head := firstD (a ++ b) NULL, tail := lastD (a ++ b) NULL,
                                len := L.len - 1 } ∧
      (∀ q, q ≠ l → M.lists q = m.lists q) ∧
      M.freed = (if L.free = NULL then m.freed else (L.free, valueAt m node) :: m.freed) := by
  rw [listRep_iff] at h
  obtain ⟨hl, ⟨L0, hL0, hh, ht, hlen⟩, hnd, hb, hseg⟩ := h
  rw [hL] at hL0
  cases hL0
  have hmem := dllseg_mem hseg
  obtain ⟨hxa, hxb, hnda, hndb, hndab, hdisj⟩ := dllseg_nodup_split hnd
  obtain ⟨hn0, nd, hnode, hprev, hnext⟩ := dllseg_mid hseg
  have hlt : (a ++ node :: b).length < WORD :=
    length_lt_WORD _ hnd hb (fun p hp => (hmem p hp).1)
  have hlen1 : (L.len + WORD - 1) % WORD = L.len - 1 := by
    apply dec_mod_WORD
    · rw [hlen]; simp
    · rw [hlen]; exact hlt
  have hval : valueAt m node = nd.value := by simp [valueAt, hnode]
  rcases List.eq_nil_or_concat a with rfl | ⟨a0, x, hax⟩
  · cases b with
    | nil =>
      simp only [lastD_nil, firstD_nil] at hprev hnext
      refine ⟨_, listDelNode_eval_only hl hL hn0 hnode hprev hnext, ?_, by simp [hlen1], ?_, ?_⟩
      · intro q
        by_cases hq : q = node
        · simp [hq]
        · simp [hq]
      · intro q hq; simp [hq]
      · simp [freed_freeValue, hval]
    | cons y b0 =>
      simp only [lastD_nil, firstD_cons] at hprev hnext
      obtain ⟨hy0, ndy, hndy⟩ := hmem y (by simp)
      have hyn : y ≠ node := by rintro rfl; exact hxb (by simp)
      have ht1 : L.tail = lastD b0 y := by simpa using ht
      refine ⟨_, listDelNode_eval_first hl hL hn0 hnode hprev hnext hy0 hndy hyn, ?_,
        by simp [hlen1, ht1], ?_, ?_⟩
      · intro q
        by_cases hq : q = node
        · simp [hq]
        · by_cases hq2 : q = y
          · subst hq2; simp [hq, hndy]
          · simp [hq, hq2]
      · intro q hq; simp [hq]
      · simp [freed_freeValue, hval]
  · rw [List.concat_eq_append] at hax
    subst hax
    obtain ⟨hx0, ndx, hndx⟩ := hmem x (by simp)
    have hxn : x ≠ node := by rintro rfl; exact hxa (by simp)
    have hh1 : L.head = firstD (a0 ++ [x]) NULL := by
      rw [hh, firstD_append]
      exact firstD_of_ne_nil (a := a0 ++ [x]) (by simp) _ _
    simp only [lastD_concat] at hprev
    cases b with
    | nil =>
      simp only [firstD_nil] at hnext
      refine ⟨_, listDelNode_eval_last hl hL hn0 hnode hprev hnext hx0 hndx hxn, ?_,
        by simp [hlen1, hh1], ?_, ?_⟩
      · intro q
        by_cases hq : q = node
        · simp [hq]
        · by_cases hq2 : q = x
          · subst hq2; simp [hq, hndx]
          · simp [hq, hq2]
      · intro q hq; simp [hq]
      · simp [freed_freeValue, hval]
    | cons y b0 =>
      simp only [firstD_cons] at hnext
      obtain ⟨hy0, ndy, hndy⟩ := hmem y (by simp)
      have hyn : y ≠ node := by rintro rfl; exact hxb (by simp)
      have hxy : x ≠ y := by rintro rfl; exact hdisj x (by simp) (by simp)
      have ht1 : L.tail = lastD b0 y := by simpa [lastD_append] using ht
      refine ⟨_, listDelNode_eval_mid hl hL hn0 hnode hprev hnext hx0 hndx hxn hy0 hndy hyn hxy,
        ?_, by simp [hlen1, hh1, ht1, firstD_append, lastD_append], ?_, ?_⟩
      · intro q
        by_cases hq : q = node
        · simp [hq]
        · by_cases hq2 : q = x
          · subst hq2; simp [hq, hndx, hxy]
          · by_cases hq3 : q = y
            · subst hq3; simp [hq, hndy, hq2]
            · simp [hq, hq2, hq3]
      · intro q hq; simp [hq]
      · simp [freed_freeValue, hval]

/-- What `listDelNode` does on a node of a well-formed list: the node is unlinked and
freed, the other nodes keep their order and values, `len` is one less, the `free` method,
when set, is called on the node's value; nothing else in the heap changes. -/
theorem listDelNode_spec (m : Mem) (l : Ptr) (a b : List Ptr) (node : Ptr)
    (h : ListRep m l (a ++ node :: b)) :
    ∃ m1 L L1, listDelNode m l node = some m1 ∧ ListRep m1 l (a ++ b) ∧
      values m1 (a ++ b) = values m (a ++ b) ∧ m1.nodes node = none ∧
      m.lists l = some L ∧ m1.lists l = some L1 ∧ L1.len + 1 = L.len ∧ L1.dup = L.dup ∧
      L1.free = L.free ∧ L1.«match» = L.«match» ∧
      (∀ q, q ≠ l → m1.lists q = m.lists q) ∧
      (∀ q, q ∉ a ++ node :: b → m1.nodes q = m.nodes q) ∧
      m1.freed = (if L.free = NULL then m.freed else (L.free, valueAt m node) :: m.freed) := by
  obtain ⟨_, ⟨L, hL, _, _, hlen⟩, _⟩ := (listRep_iff _ _ _).mp h
  obtain ⟨M, hres, hnodes, hlists, hframe, hfreed⟩ := listDelNode_heap m l a b node L h hL
  obtain ⟨h1, h2, h3⟩ := listDelNode_finish h hL hnodes hlists
  refine ⟨M, L, _, hres, h1, h2, by simp [hnodes], hL, hlists, ?_, rfl, rfl, rfl, hframe, h3,
    hfreed⟩
  simp only [hlen, List.length_append, List.length_cons]; omega

/-! ## Inserting next to a node -/

theorem listInsertNode_eval_after_last {m : Mem} {l old v node : Ptr} {after : Int} {L : list}
    {ndo : listNode} (hl : l ≠ NULL) (hL : m.lists l = some L) (hn : node ≠ NULL)
    (hafter : after ≠ 0) (ho0 : old ≠ NULL) (hon : old ≠ node) (hndo : m.nodes old = some ndo)
    (hnext : ndo.next = NULL) (ht : L.tail = old) :
    listInsertNode m l old v after node =
      some (putList (putNode (putNode m node ⟨old, NULL, v⟩) old { ndo with next := node }) l
        { L with tail := node, len := (L.len + 1) % WORD }, l) := by
  simp [listInsertNode, hn, allocNode, setValue, setPrev, setNext, setTail, setHead, setLen,
    getNode, getList, hl, hL, hafter, ho0, hon, Ne.symm hon, hndo, hnext, ht]

theorem listInsertNode_eval_after_mid {m : Mem} {l old v node y : Ptr} {after : Int} {L : list}
    {ndo ndy : listNode} (hl : l ≠ NULL) (hL : m.lists l = some L) (hn : node ≠ NULL)
    (hafter : after ≠ 0) (ho0 : old ≠ NULL) (hon : old ≠ node) (hndo : m.nodes old = some ndo)
    (hnext : ndo.next = y) (hy0 : y ≠ NULL) (hyn : y ≠ node) (hyo : y ≠ old)
    (hndy : m.nodes y = some ndy) (ht : L.tail ≠ old) :
    listInsertNode m l old v after node =
      some (putList (putNode (putNode (putNode m node ⟨old, y, v⟩) old { ndo with next := node })
        y { ndy with prev := node }) l { L with len := (L.len + 1) % WORD }, l) := by
  simp [listInsertNode, hn, allocNode, setValue, setPrev, setNext, setTail, setHead, setLen,
    getNode, getList, hl, hL, hafter, ho0, hon, Ne.symm hon, hndo, hnext, ht, hy0, hyn,
    Ne.symm hyn, hyo, Ne.symm hyo, hndy]

theorem listInsertNode_eval_before_first {m : Mem} {l old v node : Ptr} {L : list}
    {ndo : listNode} (hl : l ≠ NULL) (hL : m.lists l = some L) (hn : node ≠ NULL)
    (ho0 : old ≠ NULL) (hon : old ≠ node) (hndo : m.nodes old = some ndo)
    (hprev : ndo.prev = NULL) (hh : L.head = old) :
    listInsertNode m l old v 0 node =
      some (putList (putNode (putNode m node ⟨NULL, old, v⟩) old { ndo with prev := node }) l
        { L with head := node, len := (L.len + 1) % WORD }, l) := by
  simp [listInsertNode, hn, allocNode, setValue, setPrev, setNext, setTail, setHead, setLen,
    getNode, getList, hl, hL, ho0, hon, Ne.symm hon, hndo, hprev, hh]

theorem listInsertNode_eval_before_mid {m : Mem} {l old v node x : Ptr} {L : list}
    {ndo ndx : listNode} (hl : l ≠ NULL) (hL : m.lists l = some L) (hn : node ≠ NULL)
    (ho0 : old ≠ NULL) (hon : old ≠ node) (hndo : m.nodes old = some ndo)
    (hprev : ndo.prev = x) (hx0 : x ≠ NULL) (hxn : x ≠ node) (hxo : x ≠ old)
    (hndx : m.nodes x = some ndx) (hh : L.head ≠ old) :
    listInsertNode m l old v 0 node =
      some (putList (putNode (putNode (putNode m node ⟨x, old, v⟩) x { ndx with next := node })
        old { ndo with prev := node }) l { L with len := (L.len + 1) % WORD }, l) := by
  simp [listInsertNode, hn, allocNode, setValue, setPrev, setNext, setTail, setHead, setLen,
    getNode, getList, hl, hL, ho0, hon, Ne.symm hon, hndo, hprev, hh, hx0, hxn,
    Ne.symm hxn, hxo, Ne.symm hxo, hndx]

theorem values_append (m : Mem) (a b : List Ptr) : values m (a ++ b) = values m a ++ values m b := by
  simp [values]

theorem values_cons (m : Mem) (p : Ptr) (a : List Ptr) :
    values m (p :: a) = valueAt m p :: values m a := rfl

/-- The list after an insertion behind `old`, from a pointwise description of the heap. -/
theorem listInsertNode_finish_after {m M : Mem} {l : Ptr} {a b : List Ptr} {old node v : Ptr}
    {L : list} (h : ListRep m l (a ++ old :: b)) (hL : m.lists l = some L)
    (hn : node ≠ NULL) (hfresh : m.nodes node = none) (hw : node < WORD)
    (hnodes : ∀ q, M.nodes q =
        if q = node then some ⟨old, firstD b NULL, v⟩
        else (m.nodes q).map (fun n1 =>
          { n1 with
            next := if q = old then node else n1.next,
            prev := if b ≠ [] ∧ q = firstD b NULL then node else n1.prev }))
    (hlists : M.lists l = some { L with tail := lastD (a ++ old :: node :: b) NULL,
                                        len := L.len + 1 }) :
    ListRep M l (a ++ old :: node :: b) ∧
      values M (a ++ old :: node :: b) = values m a ++ valueAt m old :: v :: values m b ∧
      (∀ q, q ≠ node → q ∉ a ++ old :: b → M.nodes q = m.nodes q) := by
  rw [listRep_iff] at h
  obtain ⟨hl, ⟨L0, hL0, hh, ht, hlen⟩, hnd, hb, hseg⟩ := h
  rw [hL] at hL0
  cases hL0
  have hnode : node ∉ a ++ old :: b := nodup_cons_fresh hseg hfresh
  obtain ⟨hxa, hxb, hnda, hndb, hndab, hdisj⟩ := dllseg_nodup_split hnd
  have hsplit := (dllseg_append _ _ _ _ _).mp hseg
  have hsb : dllseg m old b NULL := ((dllseg_cons _ _ _ _ _).mp hsplit.2).2.2
  have hseg2 : dllseg m NULL ((a ++ [old]) ++ b) NULL := by simpa using hseg
  have hsa : dllseg m NULL (a ++ [old]) (firstD b NULL) := ((dllseg_append _ _ _ _ _).mp hseg2).1
  have hna : node ∉ a := fun hq => hnode (List.mem_append_left _ hq)
  have hnb : node ∉ b := fun hq => hnode (List.mem_append_right _ (List.mem_cons_of_mem _ hq))
  have hno : node ≠ old := by rintro rfl; exact hnode (by simp)
  have hnd1 : (a ++ old :: node :: b).Nodup := by
    rw [List.nodup_append] at hnd ⊢
    obtain ⟨h1, h2, h3⟩ := hnd
    rw [List.nodup_cons] at h2
    refine ⟨h1, ?_, ?_⟩
    · rw [List.nodup_cons, List.nodup_cons]
      refine ⟨?_, hnb, h2.2⟩
      intro hq
      rcases List.mem_cons.mp hq with hq | hq
      · exact hno hq.symm
      · exact h2.1 hq
    · intro q hq hq2
      rcases List.mem_cons.mp hq2 with rfl | hq2
      · exact h3 hq (List.mem_cons_self _ _)
      · rcases List.mem_cons.mp hq2 with rfl | hq2
        · exact hna hq
        · exact h3 hq (List.mem_cons_of_mem _ hq2)
  have hnda1 : (a ++ [old]).Nodup := by
    rw [List.nodup_append]
    refine ⟨hnda, List.nodup_singleton _, ?_⟩
    intro q hq hq2
    rw [List.mem_singleton] at hq2
    exact hxa (hq2 ▸ hq)
  refine ⟨?_, ?_, ?_⟩
  · rw [listRep_iff]
    refine ⟨hl, ⟨_, hlists, ?_, rfl, ?_⟩, hnd1, ?_, ?_⟩
    · show L.head = _
      rw [hh, firstD_append, firstD_append]; rfl
    · simp only [hlen, List.length_append, List.length_cons]; omega
    · intro q hq
      rcases List.mem_append.mp hq with hq | hq
      · exact hb q (List.mem_append_left _ hq)
      · rcases List.mem_cons.mp hq with rfl | hq
        · exact hb q (by simp)
        · rcases List.mem_cons.mp hq with rfl | hq
          · exact hw
          · exact hb q (List.mem_append_right _ (List.mem_cons_of_mem _ hq))
    · have e : a ++ old :: node :: b = (a ++ [old]) ++ node :: b := by simp
      rw [e, dllseg_append]
      constructor
      · apply dllseg_relink_next node hsa hnda1
        intro q hq
        have hqn : q ≠ node := by
          rintro rfl
          rcases List.mem_append.mp hq with hq | hq
          · exact hna hq
          · exact hno (List.mem_singleton.mp hq)
        have hqb : ¬ (b ≠ [] ∧ q = firstD b NULL) := by
          rintro ⟨h1, h2⟩
          have hqb2 : q ∈ b := h2 ▸ firstD_mem h1 NULL
          rcases List.mem_append.mp hq with hq | hq
          · exact hdisj q hq hqb2
          · exact hxb ((List.mem_singleton.mp hq) ▸ hqb2)
        rw [hnodes q, if_neg hqn, lastD_concat]
        by_cases hq2 : q = old
        · subst hq2; simp [hqb]
        · simp [hq2, hqb]
      · rw [lastD_concat]
        refine dllseg_cons_of (d := ⟨old, firstD b NULL, v⟩) hn (by simp [hnodes]) rfl rfl ?_
        apply dllseg_relink_prev node hsb hndb
        intro q hq
        have hqn : q ≠ node := by rintro rfl; exact hnb hq
        have hqo : q ≠ old := by rintro rfl; exact hxb hq
        have hqb : b ≠ [] := by rintro rfl; simp at hq
        rw [hnodes q, if_neg hqn]
        by_cases hq2 : q = firstD b NULL
        · subst hq2; simp [hqo, hqb]
        · simp [hq2, hqo]
  · have hv : ∀ q, q ≠ node → valueAt M q = valueAt m q := by
      intro q hq
      unfold valueAt
      rw [hnodes q, if_neg hq]
      cases m.nodes q <;> rfl
    have hvn : valueAt M node = v := by simp [valueAt, hnodes]
    rw [values_append, values_cons, values_cons, hvn, hv old (Ne.symm hno)]
    congr 1
    · exact values_congr (fun q hq => hv q (by rintro rfl; exact hna hq))
    · congr 2
      exact values_congr (fun q hq => hv q (by rintro rfl; exact hnb hq))
  · intro q hq1 hq2
    have hqo : q ≠ old := by rintro rfl; exact hq2 (by simp)
    have hqb : ¬ (b ≠ [] ∧ q = firstD b NULL) := by
      rintro ⟨h1, h2⟩
      exact hq2 (List.mem_append_right _ (List.mem_cons_of_mem _ (h2 ▸ firstD_mem h1 NULL)))
    rw [hnodes q, if_neg hq1]
    simp only [hqo, hqb, if_false]
    cases m.nodes q <;> rfl

/-- The list after an insertion in front of `old`, from a pointwise description of the
heap. -/
theorem listInsertNode_finish_before {m M : Mem} {l : Ptr} {a b : List Ptr}
    {old node v : Ptr} {L : list} (h : ListRep m l (a ++ old :: b)) (hL : m.lists l = some L)
    (hn : node ≠ NULL) (hfresh : m.nodes node = none) (hw : node < WORD)
    (hnodes : ∀ q, M.nodes q =
        if q = node then some ⟨lastD a NULL, old, v⟩
        else (m.nodes q).map (fun n1 =>
          { n1 with
            prev := if q = old then node else n1.prev,
            next := if a ≠ [] ∧ q = lastD a NULL then node else n1.next }))
    (hlists : M.lists l = some { L with head := firstD (a ++ node :: old :: b) NULL,
                                        len := L.len + 1 }) :
    ListRep M l (a ++ node :: old :: b) ∧
      values M (a ++ node :: old :: b) = values m a ++ v :: valueAt m old :: values m b ∧
      (∀ q, q ≠ node → q ∉ a ++ old :: b → M.nodes q = m.nodes q) := by
  rw [listRep_iff] at h
  obtain ⟨hl, ⟨L0, hL0, hh, ht, hlen⟩, hnd, hb, hseg⟩ := h
  rw [hL] at hL0
  cases hL0
  have hnode : node ∉ a ++ old :: b := nodup_cons_fresh hseg hfresh
  obtain ⟨hxa, hxb, hnda, hndb, hndab, hdisj⟩ := dllseg_nodup_split hnd
  have hsplit := (dllseg_append _ _ _ _ _).mp hseg
  have hsa : dllseg m NULL a old := by simpa using hsplit.1
  have hsb : dllseg m (lastD a NULL) (old :: b) NULL := hsplit.2
  have hna : node ∉ a := fun hq => hnode (List.mem_append_left _ hq)
  have hnb : node ∉ b := fun hq => hnode (List.mem_append_right _ (List.mem_cons_of_mem _ hq))
  have hno : node ≠ old := by rintro rfl; exact hnode (by simp)
  have hndob : (old :: b).Nodup := List.nodup_cons.mpr ⟨hxb, hndb⟩
  have hnd1 : (a ++ node :: old :: b).Nodup := by
    rw [List.nodup_append] at hnd ⊢
    obtain ⟨h1, h2, h3⟩ := hnd
    refine ⟨h1, ?_, ?_⟩
    · rw [List.nodup_cons]
      refine ⟨?_, h2⟩
      intro hq
      rcases List.mem_cons.mp hq with hq | hq
      · exact hno hq
      · exact hnb hq
    · intro q hq hq2
      rcases List.mem_cons.mp hq2 with rfl | hq2
      · exact hna hq
      · exact h3 hq hq2
  refine ⟨?_, ?_, ?_⟩
  · rw [listRep_iff]
    refine ⟨hl, ⟨_, hlists, rfl, ?_, ?_⟩, hnd1, ?_, ?_⟩
    · show L.tail = _
      rw [ht, lastD_append, lastD_append]; rfl
    · simp only [hlen, List.length_append, List.length_cons]; omega
    · intro q hq
      rcases List.mem_append.mp hq with hq | hq
      · exact hb q (List.mem_append_left _ hq)
      · rcases List.mem_cons.mp hq with rfl | hq
        · exact hw
        · exact hb q (List.mem_append_right _ hq)
    · rw [dllseg_append]
      constructor
      · apply dllseg_relink_next node hsa hnda
        intro q hq
        have hqn : q ≠ node := by rintro rfl; exact hna hq
        have hqo : q ≠ old := by rintro rfl; exact hxa hq
        have hqa : a ≠ [] := by rintro rfl; simp at hq
        rw [hnodes q, if_neg hqn]
        by_cases hq2 : q = lastD a NULL
        · subst hq2; simp [hqo, hqa]
        · simp [hq2, hqo]
      · refine dllseg_cons_of (d := ⟨lastD a NULL, old, v⟩) hn (by simp [hnodes]) rfl rfl ?_
        apply dllseg_relink_prev node hsb hndob
        intro q hq
        have hqn : q ≠ node := by
          rintro rfl
          rcases List.mem_cons.mp hq with hq | hq
          · exact hno hq
          · exact hnb hq
        have hqa : ¬ (a ≠ [] ∧ q = lastD a NULL) := by
          rintro ⟨h1, h2⟩
          have hqa2 : q ∈ a := h2 ▸ lastD_mem h1 NULL
          rcases List.mem_cons.mp hq with rfl | hq
          · exact hxa hqa2
          · exact hdisj q hqa2 hq
        rw [hnodes q, if_neg hqn, firstD_cons]
        by_cases hq2 : q = old
        · subst hq2; simp [hqa]
        · simp [hq2, hqa]
  · have hv : ∀ q, q ≠ node → valueAt M q = valueAt m q := by
      intro q hq
      unfold valueAt
      rw [hnodes q, if_neg hq]
      cases m.nodes q <;> rfl
    have hvn : valueAt M node = v := by simp [valueAt, hnodes]
    rw [values_append, values_cons, values_cons, hvn, hv old (Ne.symm hno)]
    congr 1
    · exact values_congr (fun q hq => hv q (by rintro rfl; exact hna hq))
    · congr 2
      exact values_congr (fun q hq => hv q (by rintro rfl; exact hnb hq))
  · intro q hq1 hq2
    have hqo : q ≠ old := by rintro rfl; exact hq2 (by simp)
    have hqa : ¬ (a ≠ [] ∧ q = lastD a NULL) := by
      rintro ⟨h1, h2⟩
      exact hq2 (List.mem_append_left _ (h2 ▸ lastD_mem h1 NULL))
    rw [hnodes q, if_neg hq1]
    simp only [hqo, hqa, if_false]
    cases m.nodes q <;> rfl

/-- Facts about a node of a well-formed list used by the insertions. -/
theorem listRep_node_facts {m : Mem} {l : Ptr} {a b : List Ptr} {old : Ptr} {L : list}
    (h : ListRep m l (a ++ old :: b)) (hL : m.lists l = some L) :
    old ≠ NULL ∧ (∃ ndo, m.nodes old = some ndo ∧ ndo.prev = lastD a NULL ∧
      ndo.next = firstD b NULL) ∧
    (L.tail = old ↔ b = []) ∧ (L.head = old ↔ a = []) ∧
    L.len = (a ++ old :: b).length := by
  rw [listRep_iff] at h
  obtain ⟨hl, ⟨L0, hL0, hh, ht, hlen⟩, hnd, hb, hseg⟩ := h
  rw [hL] at hL0
  cases hL0
  obtain ⟨hxa, hxb, hnda, hndb, hndab, hdisj⟩ := dllseg_nodup_split hnd
  obtain ⟨ho0, ndo, hndo, hprev, hnext⟩ := dllseg_mid hseg
  refine ⟨ho0, ⟨ndo, hndo, hprev, hnext⟩, ?_, ?_, hlen⟩
  · rw [ht, lastD_append, lastD_cons]
    constructor
    · intro e
      by_contra hne
      exact hxb (e ▸ lastD_mem hne _)
    · rintro rfl; rfl
  · rw [hh, firstD_append]
    constructor
    · intro e
      by_contra hne
      exact hxa (e ▸ firstD_mem hne _)
    · rintro rfl; rfl

/-- With a fresh node at hand, `len + 1` does not wrap. -/
theorem listRep_len_succ {m : Mem} {l : Ptr} {ps : List Ptr} {node : Ptr} {L : list}
    (h : ListRep m l ps) (hL : m.lists l = some L) (hn : node ≠ NULL)
    (hfresh : m.nodes node = none) (hw : node < WORD) : (L.len + 1) % WORD = L.len + 1 := by
  rw [listRep_iff] at h
  obtain ⟨hl, ⟨L0, hL0, hh, ht, hlen⟩, hnd, hb, hseg⟩ := h
  rw [hL] at hL0
  cases hL0
  have hnode : node ∉ ps := nodup_cons_fresh hseg hfresh
  have hlt : (node :: ps).length < WORD := by
    apply length_lt_WORD _ (List.nodup_cons.mpr ⟨hnode, hnd⟩)
    · intro p hp
      rcases List.mem_cons.mp hp with rfl | hp
      · exact hw
      · exact hb p hp
    · intro p hp
      rcases List.mem_cons.mp hp with rfl | hp
      · exact hn
      · exact (dllseg_mem hseg p hp).1
  apply Nat.mod_eq_of_lt
  rw [hlen]
  simpa using hlt

/-- What a successful `listInsertNode` with `after` non-zero does: the new node is right
behind `old`, the other nodes and their values are kept, the methods are kept, `len` is
one more; nothing else in the heap changes. -/
theorem listInsertNode_after_spec (m : Mem) (l : Ptr) (a b : List Ptr) (old v node : Ptr)
    (after : Int) (h : ListRep m l (a ++ old :: b)) (hafter : after ≠ 0) (hn : node ≠ NULL)
    (hfresh : m.nodes node = none) (hw : node < WORD) :
    ∃ m1 L L1, listInsertNode m l old v after node = some (m1, l) ∧
      ListRep m1 l (a ++ old :: node :: b) ∧
      values m1 (a ++ old :: node :: b) = values m a ++ valueAt m old :: v :: values m b ∧
      m.lists l = some L ∧ m1.lists l = some L1 ∧ L1.len = L.len + 1 ∧ L1.dup = L.dup ∧
      L1.free = L.free ∧ L1.«match» = L.«match» ∧
      (∀ q, q ≠ l → m1.lists q = m.lists q) ∧
      (∀ q, q ≠ node → q ∉ a ++ old :: b → m1.nodes q = m.nodes q) ∧ m1.freed = m.freed := by
  have h0 := h
  rw [listRep_iff] at h
  obtain ⟨hl, ⟨L, hL, hh, ht, hlen⟩, hnd, hb, hseg⟩ := h
  obtain ⟨ho0, ⟨ndo, hndo, hprev, hnext⟩, htail, hhead, _⟩ := listRep_node_facts h0 hL
  have hlen1 := listRep_len_succ h0 hL hn hfresh hw
  have hnode : node ∉ a ++ old :: b := nodup_cons_fresh hseg hfresh
  have hon : old ≠ node := by rintro rfl; exact hnode (by simp)
  obtain ⟨hxa, hxb, hnda, hndb, hndab, hdisj⟩ := dllseg_nodup_split hnd
  suffices hM : ∃ M, listInsertNode m l old v after node = some (M, l) ∧
      (∀ q, M.nodes q =
        if q = node then some ⟨old, firstD b NULL, v⟩
        else (m.nodes q).map (fun n1 =>
          { n1 with
            next := if q = old then node else n1.next,
            prev := if b ≠ [] ∧ q = firstD b NULL then node else n1.prev })) ∧
      M.lists l = some { L with tail := lastD (a ++ old :: node :: b) NULL,
                                len := L.len + 1 } ∧
      (∀ q, q ≠ l → M.lists q = m.lists q) ∧ M.freed = m.freed by
    obtain ⟨M, hres, hnodes, hlists, hframe, hfreed⟩ := hM
    obtain ⟨h1, h2, h3⟩ := listInsertNode_finish_after h0 hL hn hfresh hw hnodes hlists
    exact ⟨M, L, _, hres, h1, h2, hL, hlists, rfl, rfl, rfl, rfl, hframe, h3, hfreed⟩
  cases b with
  | nil =>
    simp only [firstD_nil] at hnext
    refine ⟨_, listInsertNode_eval_after_last hl hL hn hafter ho0 hon hndo hnext
      (htail.mpr rfl), ?_, by simp [hlen1, lastD_append], ?_, rfl⟩
    · intro q
      by_cases hq : q = node
      · subst hq; simp [Ne.symm hon]
      · by_cases hq2 : q = old
        · subst hq2; simp [hq, hndo]
        · simp [hq, hq2]
    · intro q hq; simp [hq]
  | cons y b0 =>
    simp only [firstD_cons] at hnext
    obtain ⟨hy0, ndy, hndy⟩ := dllseg_mem hseg y (by simp)
    have hyn : y ≠ node := by rintro rfl; exact hnode (by simp)
    have hyo : y ≠ old := by rintro rfl; exact hxb (by simp)
    have ht1 : L.tail ≠ old := fun e => by simpa using htail.mp e
    refine ⟨_, listInsertNode_eval_after_mid hl hL hn hafter ho0 hon hndo hnext hy0 hyn hyo
      hndy ht1, ?_, by simp [hlen1, lastD_append, ht], ?_, rfl⟩
    · intro q
      by_cases hq : q = node
      · subst hq; simp [Ne.symm hon, Ne.symm hyn]
      · by_cases hq2 : q = old
        · subst hq2; simp [hq, hndo, Ne.symm hyo]
        · by_cases hq3 : q = y
          · subst hq3; simp [hq, hndy, hq2]
          · simp [hq, hq2, hq3]
    · intro q hq; simp [hq]

theorem list_head_same (L : list) {x : Ptr} (e : x = L.head) :
    ({ L with head := x, len := L.len + 1 } : list) = { L with len := L.len + 1 } := by
  subst e; rfl

/-- What a successful `listInsertNode` with `after` zero does: the new node is right in
front of `old`, the other nodes and their values are kept, the methods are kept, `len` is
one more; nothing else in the heap changes. -/
theorem listInsertNode_before_spec (m : Mem) (l : Ptr) (a b : List Ptr) (old v node : Ptr)
    (h : ListRep m l (a ++ old :: b)) (hn : node ≠ NULL)
    (hfresh : m.nodes node = none) (hw : node < WORD) :
    ∃ m1 L L1, listInsertNode m l old v 0 node = some (m1, l) ∧
      ListRep m1 l (a ++ node :: old :: b) ∧
      values m1 (a ++ node :: old :: b) = values m a ++ v :: valueAt m old :: values m b ∧
      m.lists l = some L ∧ m1.lists l = some L1 ∧ L1.len = L.len + 1 ∧ L1.dup = L.dup ∧
      L1.free = L.free ∧ L1.«match» = L.«match» ∧
      (∀ q, q ≠ l → m1.lists q = m.lists q) ∧
      (∀ q, q ≠ node → q ∉ a ++ old :: b → m1.nodes q = m.nodes q) ∧ m1.freed = m.freed := by
  have h0 := h
  rw [listRep_iff] at h
  obtain ⟨hl, ⟨L, hL, hh, ht, hlen⟩, hnd, hb, hseg⟩ := h
  obtain ⟨ho0, ⟨ndo, hndo, hprev, hnext⟩, htail, hhead, _⟩ := listRep_node_facts h0 hL
  have hlen1 := listRep_len_succ h0 hL hn hfresh hw
  have hnode : node ∉ a ++ old :: b := nodup_cons_fresh hseg hfresh
  have hon : old ≠ node := by rintro rfl; exact hnode (by simp)
  obtain ⟨hxa, hxb, hnda, hndb, hndab, hdisj⟩ := dllseg_nodup_split hnd
  suffices hM : ∃ M, listInsertNode m l old v 0 node = some (M, l) ∧
      (∀ q, M.nodes q =
        if q = node then some ⟨lastD a NULL, old, v⟩
        else (m.nodes q).map (fun n1 =>
          { n1 with
            prev := if q = old then node else n1.prev,
            next := if a ≠ [] ∧ q = lastD a NULL then node else n1.next })) ∧
      M.lists l = some { L with head := firstD (a ++ node :: old :: b) NULL,
                                len := L.len + 1 } ∧
      (∀ q, q ≠ l → M.lists q = m.lists q) ∧ M.freed = m.freed by
    obtain ⟨M, hres, hnodes, hlists, hframe, hfreed⟩ := hM
    obtain ⟨h1, h2, h3⟩ := listInsertNode_finish_before h0 hL hn hfresh hw hnodes hlists
    exact ⟨M, L, _, hres, h1, h2, hL, hlists, rfl, rfl, rfl, rfl, hframe, h3, hfreed⟩
  rcases List.eq_nil_or_concat a with rfl | ⟨a0, x, hax⟩
  · simp only [lastD_nil] at hprev
    refine ⟨_, listInsertNode_eval_before_first hl hL hn ho0 hon hndo hprev (hhead.mpr rfl),
      ?_, by simp [hlen1], ?_, rfl⟩
    · intro q
      by_cases hq : q = node
      · subst hq; simp [Ne.symm hon]
      · by_cases hq2 : q = old
        · subst hq2; simp [hq, hndo]
        · simp [hq, hq2]
    · intro q hq; simp [hq]
  · rw [List.concat_eq_append] at hax
    subst hax
    simp only [lastD_concat] at hprev
    obtain ⟨hx0, ndx, hndx⟩ := dllseg_mem hseg x (by simp)
    have hxn : x ≠ node := by rintro rfl; exact hnode (by simp)
    have hxo : x ≠ old := by rintro rfl; exact hxa (by simp)
    have hh1 : L.head ≠ old := fun e => by simpa using hhead.mp e
    have hh2 : L.head = firstD (a0 ++ [x]) NULL := by
      rw [hh, firstD_append]
      exact firstD_of_ne_nil (a := a0 ++ [x]) (by simp) _ _
    refine ⟨_, listInsertNode_eval_before_mid hl hL hn ho0 hon hndo hprev hx0 hxn hxo hndx hh1,
      ?_, ?_, ?_, rfl⟩
    · intro q
      by_cases hq : q = node
      · subst hq; simp [Ne.symm hon, Ne.symm hxn]
      · by_cases hq2 : q = old
        · subst hq2; simp [hq, hndo, Ne.symm hxo]
        · by_cases hq3 : q = x
          · subst hq3; simp [hq, hndx, hq2]
          · simp [hq, hq2, hq3]
    · have e : firstD (a0 ++ [x] ++ node :: old :: b) NULL = L.head := by
        rw [hh2, firstD_append]
        exact firstD_of_ne_nil (a := a0 ++ [x]) (by simp) _ _
      rw [list_head_same L e]; simp [hlen1]
    · intro q hq; simp [hq]

/-- A segment whose first node gets a new `prev` and whose last node gets a new `next`,
the other fields and nodes being as before. -/
theorem dllseg_relink {m M : Mem} {a : List Ptr} {prev nxt : Ptr} (p1 n1 : Ptr)
    (h : dllseg m prev a nxt) (hnd : a.Nodup)
    (hM : ∀ q ∈ a, M.nodes q = (m.nodes q).map (fun nd =>
      { nd with
        prev := if q = firstD a NULL then p1 else nd.prev,
        next := if q = lastD a NULL then n1 else nd.next })) :
    dllseg M p1 a n1 := by
  let f : Ptr → Option listNode := fun q =>
    if q = firstD a NULL then (m.nodes q).map (fun nd => { nd with prev := p1 })
    else m.nodes q
  let m1 : Mem := ⟨f, m.lists, m.freed⟩
  have h1 : dllseg m1 p1 a nxt := dllseg_relink_prev p1 h hnd (fun q _ => rfl)
  apply dllseg_relink_next n1 h1 hnd
  intro q hq
  rw [hM q hq]
  show _ = if q = lastD a NULL then
      ((if q = firstD a NULL then (m.nodes q).map (fun nd => { nd with prev := p1 })
        else m.nodes q)).map (fun nd => { nd with next := n1 })
    else (if q = firstD a NULL then (m.nodes q).map (fun nd => { nd with prev := p1 })
        else m.nodes q)
  cases hmq : m.nodes q with
  | none => split_ifs <;> rfl
  | some nd => split_ifs <;> simp_all

/-! ## Rotation -/

theorem listRotate_eval_two {m : Mem} {l h z : Ptr} {L : list} {ndh ndz : listNode}
    (hl : l ≠ NULL) (hL : m.lists l = some L) (hlen : ¬ L.len ≤ 1)
    (hhead : L.head = h) (htail : L.tail = z) (hz0 : z ≠ NULL) (hh0 : h ≠ NULL)
    (hhz : h ≠ z) (hndz : m.nodes z = some ndz) (hndh : m.nodes h = some ndh)
    (hprev : ndz.prev = h) :
    listRotate m l =
      some (putList (putNode (putNode m h { ndh with next := NULL, prev := z }) z
        { ndz with prev := NULL, next := h }) l { L with tail := h, head := z }) := by
  simp [listRotate, getNode, getList, hl, hL, hlen, hhead, htail, hz0, hh0, hhz, Ne.symm hhz,
    hndz, hndh, hprev, setHead, setTail, setNext, setPrev]

theorem listRotate_eval_more {m : Mem} {l h w z : Ptr} {L : list} {ndh ndw ndz : listNode}
    (hl : l ≠ NULL) (hL : m.lists l = some L) (hlen : ¬ L.len ≤ 1)
    (hhead : L.head = h) (htail : L.tail = z) (hz0 : z ≠ NULL) (hh0 : h ≠ NULL)
    (hw0 : w ≠ NULL) (hhz : h ≠ z) (hwz : w ≠ z) (hhw : h ≠ w)
    (hndz : m.nodes z = some ndz) (hndh : m.nodes h = some ndh) (hndw : m.nodes w = some ndw)
    (hprev : ndz.prev = w) :
    listRotate m l =
      some (putList (putNode (putNode (putNode m w { ndw with next := NULL }) h
        { ndh with prev := z }) z { ndz with prev := NULL, next := h }) l
        { L with tail := w, head := z }) := by
  simp [listRotate, getNode, getList, hl, hL, hlen, hhead, htail, hz0, hh0, hw0, hhz,
    Ne.symm hhz, hwz, Ne.symm hwz, hhw, Ne.symm hhw, hndz, hndh, hndw, hprev, setHead,
    setTail, setNext, setPrev]

/-- The list after a rotation, from a pointwise description of the heap. -/
theorem listRotate_finish {m M : Mem} {l : Ptr} {a : List Ptr} {z : Ptr} {L : list}
    {ndz : listNode} (h : ListRep m l (a ++ [z])) (hne : a ≠ []) (hL : m.lists l = some L)
    (hndz : m.nodes z = some ndz)
    (hnodes : ∀ q, M.nodes q =
        if q = z then some ⟨NULL, firstD a NULL, ndz.value⟩
        else (m.nodes q).map (fun n1 =>
          { n1 with
            prev := if q = firstD a NULL then z else n1.prev,
            next := if q = lastD a NULL then NULL else n1.next }))
    (hlists : M.lists l = some { L with head := z, tail := lastD a z }) :
    ListRep M l (z :: a) ∧ values M (z :: a) = valueAt m z :: values m a ∧
      (∀ q, q ∉ a ++ [z] → M.nodes q = m.nodes q) := by
  rw [listRep_iff] at h
  obtain ⟨hl, ⟨L0, hL0, hh, ht, hlen⟩, hnd, hb, hseg⟩ := h
  rw [hL] at hL0
  cases hL0
  obtain ⟨hza, -, hnda, -, -, -⟩ := dllseg_nodup_split hnd
  have hsplit := (dllseg_append _ _ _ _ _).mp hseg
  have hz0 : z ≠ NULL := (dllseg_mem hseg z (by simp)).1
  have hv : ∀ q, valueAt M q = valueAt m q := by
    intro q
    unfold valueAt
    rw [hnodes q]
    by_cases hq : q = z
    · subst hq; simp [hndz]
    · rw [if_neg hq]; cases m.nodes q <;> rfl
  refine ⟨?_, ?_, ?_⟩
  · rw [listRep_iff]
    refine ⟨hl, ⟨_, hlists, rfl, rfl, ?_⟩, ?_, ?_, ?_⟩
    · simp only [hlen, List.length_append, List.length_cons, List.length_nil]
    · exact List.nodup_cons.mpr ⟨hza, hnda⟩
    · intro q hq
      rcases List.mem_cons.mp hq with rfl | hq
      · exact hb q (by simp)
      · exact hb q (List.mem_append_left _ hq)
    · refine dllseg_cons_of (d := ⟨NULL, firstD a NULL, ndz.value⟩) hz0 (by simp [hnodes])
        rfl rfl ?_
      apply dllseg_relink z NULL hsplit.1 hnda
      intro q hq
      have hqz : q ≠ z := by rintro rfl; exact hza hq
      rw [hnodes q, if_neg hqz]
  · exact values_congr (fun q _ => hv q)
  · intro q hq
    have hqz : q ≠ z := by rintro rfl; exact hq (by simp)
    have hqa : q ∉ a := fun hqa => hq (List.mem_append_left _ hqa)
    have hq1 : q ≠ lastD a NULL := by
      rintro rfl; exact hqa (lastD_mem hne NULL)
    have hq2 : q ≠ firstD a NULL := by
      rintro rfl; exact hqa (firstD_mem hne NULL)
    rw [hnodes q, if_neg hqz]
    simp only [hq1, hq2, if_false]
    cases m.nodes q <;> rfl

/-- What `listRotate` does on a list of at least two nodes: the tail node moves to the
front, the values stay with their nodes, the list structure keeps its length and methods;
nothing else in the heap changes. -/
theorem listRotate_spec (m : Mem) (l : Ptr) (a : List Ptr) (z : Ptr)
    (h : ListRep m l (a ++ [z])) (hne : a ≠ []) :
    ∃ m1 L L1, listRotate m l = some m1 ∧ ListRep m1 l (z :: a) ∧
      values m1 (z :: a) = valueAt m z :: values m a ∧
      m.lists l = some L ∧ m1.lists l = some L1 ∧ L1.len = L.len ∧ L1.dup = L.dup ∧
      L1.free = L.free ∧ L1.«match» = L.«match» ∧ L1.head = z ∧ L1.tail = lastD a NULL ∧
      (∀ q, q ≠ l → m1.lists q = m.lists q) ∧
      (∀ q, q ∉ a ++ [z] → m1.nodes q = m.nodes q) ∧ m1.freed = m.freed := by
  have h0 := h
  rw [listRep_iff] at h
  obtain ⟨hl, ⟨L, hL, hh, ht, hlen⟩, hnd, hb, hseg⟩ := h
  obtain ⟨hza, -, hnda, -, -, -⟩ := dllseg_nodup_split hnd
  obtain ⟨hz0, ndz, hndz, hprev, hnext⟩ := dllseg_last hseg
  have hlen2 : ¬ L.len ≤ 1 := by
    rw [hlen, List.length_append, List.length_singleton]
    have := List.length_pos.mpr hne
    omega
  have ht1 : L.tail = z := by rw [ht, lastD_append]; rfl
  have hlz : lastD a z = lastD a NULL := lastD_of_ne_nil hne _ _
  suffices hM : ∃ M, listRotate m l = some M ∧
      (∀ q, M.nodes q =
        if q = z then some ⟨NULL, firstD a NULL, ndz.value⟩
        else (m.nodes q).map (fun n1 =>
          { n1 with
            prev := if q = firstD a NULL then z else n1.prev,
            next := if q = lastD a NULL then NULL else n1.next })) ∧
      M.lists l = some { L with head := z, tail := lastD a z } ∧
      (∀ q, q ≠ l → M.lists q = m.lists q) ∧ M.freed = m.freed by
    obtain ⟨M, hres, hnodes, hlists, hframe, hfreed⟩ := hM
    obtain ⟨h1, h2, h3⟩ := listRotate_finish h0 hne hL hndz hnodes hlists
    exact ⟨M, L, _, hres, h1, h2, hL, hlists, rfl, rfl, rfl, rfl, rfl, hlz, hframe, h3, hfreed⟩
  cases a with
  | nil => exact absurd rfl hne
  | cons p a1 =>
    obtain ⟨hp0, ndp, hndp⟩ := dllseg_mem hseg p (by simp)
    have hpz : p ≠ z := by rintro rfl; exact hza (by simp)
    have hh1 : L.head = p := by rw [hh]; rfl
    rcases List.eq_nil_or_concat a1 with rfl | ⟨a2, w, haw⟩
    · simp only [lastD_cons, lastD_nil] at hprev
      refine ⟨_, listRotate_eval_two hl hL hlen2 hh1 ht1 hz0 hp0 hpz hndz hndp hprev,
        ?_, by simp, ?_, rfl⟩
      · intro q
        by_cases hq : q = z
        · subst hq; simp
        · by_cases hq2 : q = p
          · subst hq2; simp [hq, hndp]
          · simp [hq, hq2]
      · intro q hq; simp [hq]
    · rw [List.concat_eq_append] at haw
      subst haw
      have hlw : lastD (p :: (a2 ++ [w])) NULL = w := by simp [lastD_cons, lastD_append]
      rw [lastD_of_ne_nil (by simp) NULL z] at hlw
      rw [lastD_of_ne_nil (by simp) NULL z] at hprev
      rw [hlw] at hprev
      obtain ⟨hw0, ndw, hndw⟩ := dllseg_mem hseg w (by simp)
      have hwz : w ≠ z := by rintro rfl; exact hza (by simp)
      have hpw : p ≠ w := by
        rintro rfl
        have := (List.nodup_cons.mp hnda).1
        exact this (by simp)
      refine ⟨_, listRotate_eval_more hl hL hlen2 hh1 ht1 hz0 hp0 hw0 hpz hwz hpw hndz hndp
        hndw hprev, ?_, ?_, ?_, rfl⟩
      · intro q
        rw [lastD_of_ne_nil (by simp) NULL z, hlw]
        by_cases hq : q = z
        · subst hq; simp
        · by_cases hq2 : q = p
          · subst hq2; simp [hq, hndp, hpw]
          · by_cases hq3 : q = w
            · subst hq3; simp [hq, hndw, hq2]
            · simp [hq, hq2, hq3]
      · simp [hlw]
      · intro q hq; simp [hq]

/-! ## Joining two lists -/

theorem zero_mod_WORD : 0 % WORD = 0 := Nat.zero_mod _

theorem listJoin_eval_both {m : Mem} {l o x y t : Ptr} {L O : list} {ndx ndy : listNode}
    (hl : l ≠ NULL) (ho : o ≠ NULL) (hlo : l ≠ o) (hL : m.lists l = some L)
    (hO : m.lists o = some O) (htail : L.tail = x) (hhead : O.head = y) (hot : O.tail = t)
    (hx0 : x ≠ NULL) (hy0 : y ≠ NULL) (ht0 : t ≠ NULL) (hxy : x ≠ y)
    (hndx : m.nodes x = some ndx) (hndy : m.nodes y = some ndy) :
    listJoin m l o =
      some (putList (putList (putNode (putNode m y { ndy with prev := x }) x
        { ndx with next := y }) l { L with tail := t, len := (L.len + O.len) % WORD }) o
        { O with tail := NULL, head := NULL, len := 0 }) := by
  simp only [listJoin, getNode, getList, hl, ho, hlo, Ne.symm hlo, hL, hO, htail, hhead, hot, hx0,
    hy0, ht0, hxy, Ne.symm hxy, hndx, hndy, setHead, setTail, setNext, setPrev, setLen, if_false, if_true,
    Option.bind_eq_bind, Option.some_bind, ne_eq, not_true_eq_false, Option.map_some',
    Option.pure_def, lists_putList, lists_putNode, nodes_putNode, nodes_putList, zero_mod_WORD,
    putList_putList_same, putNode_putList, Option.bind_some, ite_false, ite_true,
    not_false_eq_true, reduceIte]

theorem listJoin_eval_left_empty {m : Mem} {l o y t : Ptr} {L O : list} {ndy : listNode}
    (hl : l ≠ NULL) (ho : o ≠ NULL) (hlo : l ≠ o) (hL : m.lists l = some L)
    (hO : m.lists o = some O) (htail : L.tail = NULL) (hhead : O.head = y) (hot : O.tail = t)
    (hy0 : y ≠ NULL) (ht0 : t ≠ NULL) (hndy : m.nodes y = some ndy) :
    listJoin m l o =
      some (putList (putList (putNode m y { ndy with prev := NULL }) l
        { L with head := y, tail := t, len := (L.len + O.len) % WORD }) o
        { O with tail := NULL, head := NULL, len := 0 }) := by
  simp only [listJoin, getNode, getList, hl, ho, hlo, Ne.symm hlo, hL, hO, htail, hhead, hot,
    hy0, ht0, hndy, setHead, setTail, setNext, setPrev, setLen, if_false, if_true,
    Option.bind_eq_bind, Option.some_bind, ne_eq, not_true_eq_false, Option.map_some',
    Option.pure_def, lists_putList, lists_putNode, nodes_putNode, nodes_putList, zero_mod_WORD,
    putList_putList_same, putNode_putList, Option.bind_some, ite_false, ite_true,
    not_false_eq_true, reduceIte]

theorem listJoin_eval_right_empty {m : Mem} {l o x : Ptr} {L O : list} {ndx : listNode}
    (hl : l ≠ NULL) (ho : o ≠ NULL) (hlo : l ≠ o) (hL : m.lists l = some L)
    (hO : m.lists o = some O) (htail : L.tail = x) (hhead : O.head = NULL)
    (hot : O.tail = NULL) (hx0 : x ≠ NULL) (hndx : m.nodes x = some ndx) :
    listJoin m l o =
      some (putList (putList (putNode m x { ndx with next := NULL }) l
        { L with len := (L.len + O.len) % WORD }) o
        { O with tail := NULL, head := NULL, len := 0 }) := by
  simp only [listJoin, getNode, getList, hl, ho, hlo, Ne.symm hlo, hL, hO, htail, hhead, hot,
    hx0, hndx, setHead, setTail, setNext, setPrev, setLen, if_false, if_true,
    Option.bind_eq_bind, Option.some_bind, ne_eq, not_true_eq_false, Option.map_some',
    Option.pure_def, lists_putList, lists_putNode, nodes_putNode, nodes_putList, zero_mod_WORD,
    putList_putList_same, putNode_putList, Option.bind_some, ite_false, ite_true,
    not_false_eq_true, reduceIte]

theorem listJoin_eval_empty {m : Mem} {l o : Ptr} {L O : list}
    (hl : l ≠ NULL) (ho : o ≠ NULL) (hlo : l ≠ o) (hL : m.lists l = some L)
    (hO : m.lists o = some O) (htail : L.tail = NULL) (hhead : O.head = NULL)
    (hot : O.tail = NULL) :
    listJoin m l o =
      some (putList (putList m l { L with head := NULL, len := (L.len + O.len) % WORD }) o
        { O with tail := NULL, head := NULL, len := 0 }) := by
  simp only [listJoin, getNode, getList, hl, ho, hlo, Ne.symm hlo, hL, hO, htail, hhead, hot,
    setHead, setTail, setNext, setPrev, setLen, if_false, if_true,
    Option.bind_eq_bind, Option.some_bind, ne_eq, not_true_eq_false, Option.map_some',
    Option.pure_def, lists_putList, lists_putNode, nodes_putNode, nodes_putList, zero_mod_WORD,
    putList_putList_same, putNode_putList, Option.bind_some, ite_false, ite_true,
    not_false_eq_true, reduceIte]

/-- The two lists after a join, from a pointwise description of the heap. -/
theorem listJoin_finish {m M : Mem} {l o : Ptr} {ps qs : List Ptr} {L O : list}
    (h1 : ListRep m l ps) (h2 : ListRep m o qs) (hdisj : ∀ q ∈ ps, q ∉ qs)
    (hL : m.lists l = some L) (hO : m.lists o = some O)
    (hnodes : ∀ q, M.nodes q = (m.nodes q).map (fun n1 =>
          { n1 with
            prev := if qs ≠ [] ∧ q = firstD qs NULL then lastD ps NULL else n1.prev,
            next := if ps ≠ [] ∧ q = lastD ps NULL then firstD qs NULL else n1.next }))
    (hlistsL : M.lists l = some { L with head := firstD (ps ++ qs) NULL,
                                         tail := lastD (ps ++ qs) NULL,
                                         len := L.len + O.len })
    (hlistsO : M.lists o = some { O with head := NULL, tail := NULL, len := 0 }) :
    ListRep M l (ps ++ qs) ∧ ListRep M o [] ∧
      values M (ps ++ qs) = values m ps ++ values m qs ∧
      (∀ q, q ∉ ps ++ qs → M.nodes q = m.nodes q) := by
  rw [listRep_iff] at h1 h2
  obtain ⟨hl, ⟨L0, hL0, hh, ht, hlen⟩, hnd, hb, hseg⟩ := h1
  obtain ⟨ho, ⟨O0, hO0, hh2, ht2, hlen2⟩, hnd2, hb2, hseg2⟩ := h2
  rw [hL] at hL0
  rw [hO] at hO0
  cases hL0
  cases hO0
  have hv : ∀ q, valueAt M q = valueAt m q := by
    intro q
    unfold valueAt
    rw [hnodes q]
    cases m.nodes q <;> rfl
  refine ⟨?_, ?_, ?_, ?_⟩
  · rw [listRep_iff]
    refine ⟨hl, ⟨_, hlistsL, rfl, rfl, ?_⟩, ?_, ?_, ?_⟩
    · simp only [hlen, hlen2, List.length_append]
    · exact List.nodup_append.mpr ⟨hnd, hnd2, fun q hq hq2 => hdisj q hq hq2⟩
    · intro q hq
      rcases List.mem_append.mp hq with hq | hq
      · exact hb q hq
      · exact hb2 q hq
    · rw [dllseg_append]
      constructor
      · apply dllseg_relink_next _ hseg hnd
        intro q hq
        have hne : ps ≠ [] := by rintro rfl; simp at hq
        have hqb : ¬ (qs ≠ [] ∧ q = firstD qs NULL) := by
          rintro ⟨e1, e2⟩
          exact hdisj q hq (e2 ▸ firstD_mem e1 NULL)
        rw [hnodes q]
        by_cases hq2 : q = lastD ps NULL
        · subst hq2; simp [hne, hqb]
        · simp only [hq2, hqb, and_false, if_false]
          cases m.nodes q <;> rfl
      · apply dllseg_relink_prev _ hseg2 hnd2
        intro q hq
        have hne : qs ≠ [] := by rintro rfl; simp at hq
        have hqb : ¬ (ps ≠ [] ∧ q = lastD ps NULL) := by
          rintro ⟨e1, e2⟩
          exact hdisj q (e2 ▸ lastD_mem e1 NULL) hq
        rw [hnodes q]
        by_cases hq2 : q = firstD qs NULL
        · subst hq2; simp [hne, hqb]
        · simp only [hq2, hqb, and_false, if_false]
          cases m.nodes q <;> rfl
  · rw [listRep_iff]
    exact ⟨ho, ⟨_, hlistsO, rfl, rfl, rfl⟩, List.nodup_nil, by simp, dllseg_nil _ _ _⟩
  · rw [values_congr (fun q _ => hv q)]
    simp [values]
  · intro q hq
    have hq1 : ¬ (qs ≠ [] ∧ q = firstD qs NULL) := by
      rintro ⟨e1, e2⟩
      exact hq (List.mem_append_right _ (e2 ▸ firstD_mem e1 NULL))
    have hq2 : ¬ (ps ≠ [] ∧ q = lastD ps NULL) := by
      rintro ⟨e1, e2⟩
      exact hq (List.mem_append_left _ (e2 ▸ lastD_mem e1 NULL))
    rw [hnodes q]
    simp only [hq1, hq2, if_false]
    cases m.nodes q <;> rfl

/-- What `listJoin` does on two lists that own separate nodes: the nodes of `o` are moved
behind those of `l`, the values stay with their nodes, `o` becomes the empty list; both
keep their methods and nothing else in the heap changes. -/
theorem listJoin_spec (m : Mem) (l o : Ptr) (ps qs : List Ptr)
    (h1 : ListRep m l ps) (h2 : ListRep m o qs) (hlo : l ≠ o) (hdisj : ∀ q ∈ ps, q ∉ qs) :
    ∃ m1 L O L1 O1, listJoin m l o = some m1 ∧ ListRep m1 l (ps ++ qs) ∧ ListRep m1 o [] ∧
      values m1 (ps ++ qs) = values m ps ++ values m qs ∧
      m.lists l = some L ∧ m.lists o = some O ∧ m1.lists l = some L1 ∧ m1.lists o = some O1 ∧
      L1.len = L.len + O.len ∧ L1.dup = L.dup ∧ L1.free = L.free ∧ L1.«match» = L.«match» ∧
      O1.head = NULL ∧ O1.tail = NULL ∧ O1.len = 0 ∧
      O1.dup = O.dup ∧ O1.free = O.free ∧ O1.«match» = O.«match» ∧
      (∀ q, q ≠ l → q ≠ o → m1.lists q = m.lists q) ∧
      (∀ q, q ∉ ps ++ qs → m1.nodes q = m.nodes q) ∧ m1.freed = m.freed := by
  have h10 := h1
  have h20 := h2
  rw [listRep_iff] at h1 h2
  obtain ⟨hl, ⟨L, hL, hh, ht, hlen⟩, hnd, hb, hseg⟩ := h1
  obtain ⟨ho, ⟨O, hO, hh2, ht2, hlen2⟩, hnd2, hb2, hseg2⟩ := h2
  have hlenlt : (L.len + O.len) % WORD = L.len + O.len := by
    apply Nat.mod_eq_of_lt
    rw [hlen, hlen2, ← List.length_append]
    apply length_lt_WORD
    · exact List.nodup_append.mpr ⟨hnd, hnd2, fun q hq hq2 => hdisj q hq hq2⟩
    · intro q hq
      rcases List.mem_append.mp hq with hq | hq
      · exact hb q hq
      · exact hb2 q hq
    · intro q hq
      rcases List.mem_append.mp hq with hq | hq
      · exact (dllseg_mem hseg q hq).1
      · exact (dllseg_mem hseg2 q hq).1
  suffices hM : ∃ M, listJoin m l o = some M ∧
      (∀ q, M.nodes q = (m.nodes q).map (fun n1 =>
          { n1 with
            prev := if qs ≠ [] ∧ q = firstD qs NULL then lastD ps NULL else n1.prev,
            next := if ps ≠ [] ∧ q = lastD ps NULL then firstD qs NULL else n1.next })) ∧
      M.lists l = some { L with head := firstD (ps ++ qs) NULL,
                                tail := lastD (ps ++ qs) NULL,
                                len := L.len + O.len } ∧
      M.lists o = some { O with head := NULL, tail := NULL, len := 0 } ∧
      (∀ q, q ≠ l → q ≠ o → M.lists q = m.lists q) ∧ M.freed = m.freed by
    obtain ⟨M, hres, hnodes, hlistsL, hlistsO, hframe, hfreed⟩ := hM
    obtain ⟨r1, r2, r3, r4⟩ := listJoin_finish h10 h20 hdisj hL hO hnodes hlistsL hlistsO
    exact ⟨M, L, O, _, _, hres, r1, r2, r3, hL, hO, hlistsL, hlistsO, rfl, rfl, rfl, rfl, rfl,
      rfl, rfl, rfl, rfl, rfl, hframe, r4, hfreed⟩
  rcases List.eq_nil_or_concat ps with rfl | ⟨a0, x, hax⟩
  · simp only [lastD_nil, firstD_nil] at hh ht
    cases qs with
    | nil =>
      simp only [lastD_nil, firstD_nil] at hh2 ht2
      refine ⟨_, listJoin_eval_empty hl ho hlo hL hO ht hh2 ht2, ?_, ?_, ?_, ?_, rfl⟩
      · intro q
        simp
      · simp [hlenlt, hlo, hh, ht]
      · simp
      · intro q hq1 hq2; simp [hq1, hq2]
    | cons y b0 =>
      simp only [firstD_cons, lastD_cons] at hh2 ht2
      obtain ⟨hy0, ndy, hndy, hyp, -⟩ := dllseg_first hseg2
      have ht0 : lastD b0 y ≠ NULL :=
        (dllseg_mem hseg2 (lastD b0 y) (by
          have := lastD_mem (a := y :: b0) (by simp) NULL
          simpa [lastD_cons] using this)).1
      refine ⟨_, listJoin_eval_left_empty hl ho hlo hL hO ht hh2 ht2 hy0 ht0 hndy,
        ?_, ?_, ?_, ?_, rfl⟩
      · intro q
        by_cases hq : q = y
        · subst hq; simp [hndy]
        · simp [hq]
      · simp [hlenlt, hlo]
      · simp
      · intro q hq1 hq2; simp [hq1, hq2]
  · rw [List.concat_eq_append] at hax
    subst hax
    simp only [lastD_concat] at ht
    obtain ⟨hx0, ndx, hndx, -, hxn⟩ := dllseg_last hseg
    have hhd : firstD (a0 ++ [x]) NULL = L.head := hh.symm
    cases qs with
    | nil =>
      simp only [lastD_nil, firstD_nil] at hh2 ht2
      refine ⟨_, listJoin_eval_right_empty hl ho hlo hL hO ht hh2 ht2 hx0 hndx,
        ?_, ?_, ?_, ?_, rfl⟩
      · intro q
        by_cases hq : q = x
        · subst hq; simp [hndx]
        · simp [hq]
      · simp [hlenlt, hlo, hh, ht]
      · simp
      · intro q hq1 hq2; simp [hq1, hq2]
    | cons y b0 =>
      simp only [firstD_cons, lastD_cons] at hh2 ht2
      obtain ⟨hy0, ndy, hndy, hyp, -⟩ := dllseg_first hseg2
      have ht0 : lastD b0 y ≠ NULL :=
        (dllseg_mem hseg2 (lastD b0 y) (by
          have := lastD_mem (a := y :: b0) (by simp) NULL
          simpa [lastD_cons] using this)).1
      have hxy : x ≠ y := by
        rintro rfl
        exact hdisj x (by simp) (by simp)
      refine ⟨_, listJoin_eval_both hl ho hlo hL hO ht hh2 ht2 hx0 hy0 ht0 hxy hndx hndy,
        ?_, ?_, ?_, ?_, rfl⟩
      · intro q
        by_cases hq : q = x
        · subst hq; simp [hndx, hxy]
        · by_cases hq2 : q = y
          · subst hq2; simp [hndy, hq]
          · simp [hq, hq2]
      · have e : firstD (a0 ++ [x] ++ y :: b0) NULL = L.head := by
          rw [← hhd, firstD_append]
          exact firstD_of_ne_nil (a := a0 ++ [x]) (by simp) _ _
        simp [hlenlt, hlo, e, lastD_append, ← e]
      · simp
      · intro q hq1 hq2; simp [hq1, hq2]

theorem valueAt_of_values {m m1 : Mem} {ps : List Ptr} (h : values m1 ps = values m ps) :
    ∀ q ∈ ps, valueAt m1 q = valueAt m q :=
  List.map_inj_left.mp h

/-- Forward iteration with deletions: with `kept` already passed and `rest` ahead. -/
theorem iterateDeleting_forward (del : Ptr → Bool) (l : Ptr) :
    ∀ (rest kept : List Ptr) (m : Mem) (fuel : Nat), ListRep m l (kept ++ rest) →
      rest.length < fuel →
      ∃ m1, iterateDeleting del l fuel m ⟨firstD rest NULL, AL_START_HEAD⟩ = some (m1, rest) ∧
        ListRep m1 l (kept ++ rest.filter (fun p => !del p)) ∧
        (∀ q ∈ kept ++ rest.filter (fun p => !del p), valueAt m1 q = valueAt m q) ∧
        (∀ q, q ≠ l → m1.lists q = m.lists q) ∧
        (∀ L, m.lists l = some L → ∃ L1, m1.lists l = some L1 ∧ L1.dup = L.dup ∧
          L1.free = L.free ∧ L1.«match» = L.«match») := by
  intro rest
  induction rest with
  | nil =>
    intro kept m fuel h hf
    obtain ⟨fuel, rfl⟩ : ∃ k, fuel = k + 1 := ⟨fuel - 1, by omega⟩
    refine ⟨m, ?_, by simpa using h, fun _ _ => rfl, fun _ _ => rfl,
      fun L hL => ⟨L, hL, rfl, rfl, rfl⟩⟩
    simp [iterateDeleting, listNext]
  | cons p r ih =>
    intro kept m fuel h hf
    obtain ⟨fuel, rfl⟩ : ∃ k, fuel = k + 1 := ⟨fuel - 1, by omega⟩
    have hf1 : r.length < fuel := by simpa using hf
    obtain ⟨-, -, -, -, hseg⟩ := (listRep_iff _ _ _).mp h
    obtain ⟨hp0, nd, hnd, -, hnext⟩ := dllseg_mid hseg
    have hstep : iterateDeleting del l (fuel + 1) m ⟨firstD (p :: r) NULL, AL_START_HEAD⟩ =
        (do
          let m ← if del p then listDelNode m l p else pure m
          let (m, rest) ← iterateDeleting del l fuel m ⟨firstD r NULL, AL_START_HEAD⟩
          pure (m, p :: rest)) := by
      simp [iterateDeleting, listNext, getNode, hp0, hnd, hnext]
    rw [hstep]
    by_cases hd : del p = true
    · obtain ⟨m1, L, L1, hres, hrep, hvals, -, hL, hL1, -, hdup, hfree, hmatch, hframe, -, -⟩ :=
        listDelNode_spec m l kept r p h
      obtain ⟨m2, hres2, hrep2, hvals2, hframe2, hmeth2⟩ := ih kept m1 fuel hrep hf1
      refine ⟨m2, by simp [hd, hres, hres2], by simpa [hd] using hrep2, ?_, ?_, ?_⟩
      · intro q hq
        have hq1 : q ∈ kept ++ r.filter (fun p => !del p) := by simpa [hd] using hq
        rw [hvals2 q hq1]
        apply valueAt_of_values hvals
        rcases List.mem_append.mp hq1 with hq2 | hq2
        · exact List.mem_append_left _ hq2
        · exact List.mem_append_right _ (List.mem_of_mem_filter hq2)
      · intro q hq; rw [hframe2 q hq, hframe q hq]
      · intro L0 hL0
        rw [hL] at hL0
        cases hL0
        obtain ⟨L2, hL2, e1, e2, e3⟩ := hmeth2 L1 hL1
        exact ⟨L2, hL2, e1.trans hdup, e2.trans hfree, e3.trans hmatch⟩
    · have hd2 : del p = false := by simpa using hd
      have h1 : ListRep m l ((kept ++ [p]) ++ r) := by simpa using h
      obtain ⟨m2, hres2, hrep2, hvals2, hframe2, hmeth2⟩ := ih (kept ++ [p]) m fuel h1 hf1
      refine ⟨m2, by simp [hd2, hres2], by simpa [hd2] using hrep2, ?_, hframe2, hmeth2⟩
      intro q hq
      exact hvals2 q (by simpa [hd2] using hq)

/-- Backward iteration with deletions: with `kept` already passed and `rest` ahead. -/
theorem iterateDeleting_backward (del : Ptr → Bool) (l : Ptr) :
    ∀ (rest kept : List Ptr) (m : Mem) (fuel : Nat), ListRep m l (rest ++ kept) →
      rest.length < fuel →
      ∃ m1, iterateDeleting del l fuel m ⟨lastD rest NULL, AL_START_TAIL⟩ =
          some (m1, rest.reverse) ∧
        ListRep m1 l (rest.filter (fun p => !del p) ++ kept) ∧
        (∀ q ∈ rest.filter (fun p => !del p) ++ kept, valueAt m1 q = valueAt m q) ∧
        (∀ q, q ≠ l → m1.lists q = m.lists q) ∧
        (∀ L, m.lists l = some L → ∃ L1, m1.lists l = some L1 ∧ L1.dup = L.dup ∧
          L1.free = L.free ∧ L1.«match» = L.«match») := by
  intro rest
  induction rest using List.reverseRecOn with
  | nil =>
    intro kept m fuel h hf
    obtain ⟨fuel, rfl⟩ : ∃ k, fuel = k + 1 := ⟨fuel - 1, by omega⟩
    refine ⟨m, ?_, by simpa using h, fun _ _ => rfl, fun _ _ => rfl,
      fun L hL => ⟨L, hL, rfl, rfl, rfl⟩⟩
    simp [iterateDeleting, listNext]
  | append_singleton r p ih =>
    intro kept m fuel h hf
    obtain ⟨fuel, rfl⟩ : ∃ k, fuel = k + 1 := ⟨fuel - 1, by omega⟩
    have hf1 : r.length < fuel := by simpa using hf
    have h0 : ListRep m l (r ++ p :: kept) := by simpa using h
    obtain ⟨-, -, -, -, hseg⟩ := (listRep_iff _ _ _).mp h0
    obtain ⟨hp0, nd, hnd, hprev, -⟩ := dllseg_mid hseg
    have hstep : iterateDeleting del l (fuel + 1) m ⟨lastD (r ++ [p]) NULL, AL_START_TAIL⟩ =
        (do
          let m ← if del p then listDelNode m l p else pure m
          let (m, rest) ← iterateDeleting del l fuel m ⟨lastD r NULL, AL_START_TAIL⟩
          pure (m, p :: rest)) := by
      simp [iterateDeleting, listNext, getNode, hp0, hnd, hprev, AL_START_TAIL, AL_START_HEAD]
    rw [hstep]
    by_cases hd : del p = true
    · obtain ⟨m1, L, L1, hres, hrep, hvals, -, hL, hL1, -, hdup, hfree, hmatch, hframe, -, -⟩ :=
        listDelNode_spec m l r kept p h0
      obtain ⟨m2, hres2, hrep2, hvals2, hframe2, hmeth2⟩ := ih kept m1 fuel hrep hf1
      refine ⟨m2, by simp [hd, hres, hres2], by simpa [hd, List.filter_append] using hrep2,
        ?_, ?_, ?_⟩
      · intro q hq
        have hq1 : q ∈ r.filter (fun p => !del p) ++ kept := by
          simpa [hd, List.filter_append] using hq
        rw [hvals2 q hq1]
        apply valueAt_of_values hvals
        rcases List.mem_append.mp hq1 with hq2 | hq2
        · exact List.mem_append_left _ (List.mem_of_mem_filter hq2)
        · exact List.mem_append_right _ hq2
      · intro q hq; rw [hframe2 q hq, hframe q hq]
      · intro L0 hL0
        rw [hL] at hL0
        cases hL0
        obtain ⟨L2, hL2, e1, e2, e3⟩ := hmeth2 L1 hL1
        exact ⟨L2, hL2, e1.trans hdup, e2.trans hfree, e3.trans hmatch⟩
    · have hd2 : del p = false := by simpa using hd
      obtain ⟨m2, hres2, hrep2, hvals2, hframe2, hmeth2⟩ := ih (p :: kept) m fuel h0 hf1
      refine ⟨m2, by simp [hd2, hres2], by simpa [hd2, List.filter_append] using hrep2, ?_,
        hframe2, hmeth2⟩
      intro q hq
      exact hvals2 q (by simpa [hd2, List.filter_append] using hq)

/-! ## Releasing a list -/

theorem listRep_congr {m m1 : Mem} {l : Ptr} {ps : List Ptr} (hl : m1.lists l = m.lists l)
    (hn : ∀ q ∈ ps, m1.nodes q = m.nodes q) : ListRep m1 l ps ↔ ListRep m l ps := by
  rw [listRep_iff, listRep_iff, hl, dllseg_congr hn]

theorem listEmptyLoop_spec (l : Ptr) (hl : l ≠ NULL) :
    ∀ (cs : List Ptr) (prev : Ptr) (m : Mem), dllseg m prev cs NULL → cs.Nodup →
      (∃ L, m.lists l = some L) →
      ∃ m1, listEmptyLoop l cs.length m (firstD cs NULL) = some m1 ∧ m1.lists = m.lists ∧
        (∀ q, q ∉ cs → m1.nodes q = m.nodes q) ∧ (∀ q ∈ cs, m1.nodes q = none) := by
  intro cs
  induction cs with
  | nil =>
    intro prev m _ _ _
    exact ⟨m, rfl, rfl, fun _ _ => rfl, by simp⟩
  | cons p r ih =>
    intro prev m hseg hnd hL
    obtain ⟨L, hL⟩ := hL
    obtain ⟨hp0, nd, hndp, -, hnext⟩ := dllseg_first hseg
    obtain ⟨hpr, hndr⟩ := List.nodup_cons.mp hnd
    have hseg1 : dllseg (dropNode (freeValue m L.free nd.value) p) p r NULL := by
      rw [dllseg_dropNode_of_not_mem hpr, dllseg_freeValue]
      exact ((dllseg_cons _ _ _ _ _).mp hseg).2.2
    obtain ⟨m1, hres, hlists, hframe, hdead⟩ :=
      ih p (dropNode (freeValue m L.free nd.value) p) hseg1 hndr ⟨L, by simpa using hL⟩
    refine ⟨m1, ?_, by simpa using hlists, ?_, ?_⟩
    · simpa [listEmptyLoop, getNode, getList, hp0, hl, hndp, hL, freeNode, hnext] using hres
    · intro q hq
      have hq1 : q ≠ p := by rintro rfl; exact hq (by simp)
      have hq2 : q ∉ r := fun h => hq (List.mem_cons_of_mem _ h)
      rw [hframe q hq2]
      simp [hq1]
    · intro q hq
      rcases List.mem_cons.mp hq with rfl | hq
      · rw [hframe q hpr]; simp
      · exact hdead q hq

/-- What `listRelease` does on a well-formed list: it returns, the list structure and its
nodes are freed; the other lists and nodes are not touched. -/
theorem listRelease_spec (m : Mem) (l : Ptr) (cs : List Ptr) (h : ListRep m l cs) :
    ∃ m1, listRelease m l = some m1 ∧ m1.lists l = none ∧
      (∀ q, q ≠ l → m1.lists q = m.lists q) ∧
      (∀ q, q ∉ cs → m1.nodes q = m.nodes q) ∧ (∀ q ∈ cs, m1.nodes q = none) := by
  rw [listRep_iff] at h
  obtain ⟨hl, ⟨L, hL, hh, ht, hlen⟩, hnd, hb, hseg⟩ := h
  obtain ⟨m1, hres, hlists, hframe, hdead⟩ := listEmptyLoop_spec l hl cs NULL m hseg hnd ⟨L, hL⟩
  have hL1 : m1.lists l = some L := by rw [hlists]; exact hL
  refine ⟨dropList (putList m1 l { L with tail := NULL, head := NULL, len := 0 }) l, ?_,
    by simp, ?_, ?_, ?_⟩
  · rw [← hh, ← hlen] at hres
    simp only [listRelease, listEmpty, getList, hl, hL, hres, setTail, setHead,
      setLen, freeList, hL1, if_false, Option.bind_eq_bind, Option.some_bind, Option.map_some',
      lists_putList, if_true, putList_putList_same, Nat.zero_mod]
  · intro q hq; simp [hq, hlists]
  · intro q hq; simpa using hframe q hq
  · intro q hq; simpa using hdead q hq

/-! ## Duplicating a list -/

theorem listDupValue_end (callDup : Ptr → Ptr → Ptr) (copy : Ptr) (m : Mem) (d : Int) :
    listDupValue callDup copy m ⟨NULL, d⟩ = some (Sum.inl (m, copy)) := by
  simp [listDupValue, listNext]

theorem listDupValue_node (callDup : Ptr → Ptr → Ptr) {copy p : Ptr} {m : Mem} {C : list}
    {nd : listNode} (hc : copy ≠ NULL) (hC : m.lists copy = some C) (hp : p ≠ NULL)
    (hnd : m.nodes p = some nd) :
    listDupValue callDup copy m ⟨p, AL_START_HEAD⟩ =
      if C.dup ≠ NULL ∧ callDup C.dup nd.value = NULL then
        (listRelease m copy).map (fun m => Sum.inl (m, NULL))
      else some (Sum.inr (⟨nd.next, AL_START_HEAD⟩, copiedValue callDup C.dup nd.value)) := by
  by_cases h1 : C.dup = NULL
  · simp [listDupValue, listNext, getNode, getList, hc, hC, hp, hnd, h1, copiedValue]
  · by_cases h2 : callDup C.dup nd.value = NULL
    · simp [listDupValue, listNext, getNode, getList, hc, hC, hp, hnd, h1, h2, copiedValue,
        Option.map_eq_bind]
    · simp [listDupValue, listNext, getNode, getList, hc, hC, hp, hnd, h1, h2, copiedValue]

theorem listDupLoop_nil_eq (callDup : Ptr → Ptr → Ptr) (copy : Ptr) (m : Mem)
    (iter : listIter) :
    listDupLoop callDup copy [] m iter =
      match listDupValue callDup copy m iter with
      | none => none
      | some (Sum.inl r) => some r
      | some (Sum.inr (_, value)) =>
        match listAddNodeTail m copy value NULL with
        | none => none
        | some (m, _) => (listRelease m copy).map (fun m => (m, NULL)) := by
  rw [listDupLoop]

theorem listDupLoop_cons_eq (callDup : Ptr → Ptr → Ptr) (copy a : Ptr) (rest : List Ptr)
    (m : Mem) (iter : listIter) :
    listDupLoop callDup copy (a :: rest) m iter =
      match listDupValue callDup copy m iter with
      | none => none
      | some (Sum.inl r) => some r
      | some (Sum.inr (iter, value)) =>
        match listAddNodeTail m copy value a with
        | none => none
        | some (m, r) =>
          if r = NULL then (listRelease m copy).map (fun m => (m, NULL))
          else listDupLoop callDup copy rest m iter := by
  rw [listDupLoop]

theorem listDupLoop_end (callDup : Ptr → Ptr → Ptr) (copy : Ptr) (allocs : List Ptr)
    (m : Mem) (d : Int) :
    listDupLoop callDup copy allocs m ⟨NULL, d⟩ = some (m, copy) := by
  cases allocs with
  | nil => rw [listDupLoop_nil_eq, listDupValue_end]
  | cons a rest => rw [listDupLoop_cons_eq, listDupValue_end]

/-- The loop of `listDup`, with the nodes `done` of the original already copied into the
nodes `cs` of the copy and the nodes `rest` still to be copied. -/
theorem listDupLoop_spec (callDup : Ptr → Ptr → Ptr) (orig copy : Ptr) (hoc : orig ≠ copy) :
    ∀ (rest done cs allocs : List Ptr) (m : Mem) (C : list),
      ListRep m orig (done ++ rest) → ListRep m copy cs → m.lists copy = some C →
      allocs.Nodup → (∀ a ∈ allocs, a ≠ NULL ∧ m.nodes a = none ∧ a < WORD) →
      (∀ q ∈ done ++ rest, q ∉ cs) →
      ∃ m1 r, listDupLoop callDup copy allocs m ⟨firstD rest NULL, AL_START_HEAD⟩ =
          some (m1, r) ∧
        m1.lists orig = m.lists orig ∧ (∀ q ∈ done ++ rest, m1.nodes q = m.nodes q) ∧
        (r = NULL ∨ r = copy) ∧
        (r = copy ↔ rest.length ≤ allocs.length ∧
          (C.dup ≠ NULL → ∀ v ∈ values m rest, callDup C.dup v ≠ NULL)) ∧
        (r = copy →
          ListRep m1 copy (cs ++ allocs.take rest.length) ∧
          values m1 (cs ++ allocs.take rest.length) =
            values m cs ++ (values m rest).map (copiedValue callDup C.dup) ∧
          ∃ C1, m1.lists copy = some C1 ∧ C1.dup = C.dup ∧ C1.free = C.free ∧
            C1.«match» = C.«match») := by
  intro rest
  induction rest with
  | nil =>
    intro done cs allocs m C horig hcopy hC hnd hfresh hdisj
    refine ⟨m, copy, listDupLoop_end _ _ _ _ _, rfl, fun _ _ => rfl, Or.inr rfl, ?_, ?_⟩
    · simp [values]
    · intro _
      refine ⟨by simpa using hcopy, by simp [values], C, hC, rfl, rfl, rfl⟩
  | cons p r ih =>
    intro done cs allocs m C horig hcopy hC hnd hfresh hdisj
    have hc0 : copy ≠ NULL := ((listRep_iff _ _ _).mp hcopy).1
    obtain ⟨-, -, -, -, hseg⟩ := (listRep_iff _ _ _).mp horig
    obtain ⟨hp0, nd, hndp, -, hnext⟩ := dllseg_mid hseg
    have hval : valueAt m p = nd.value := by simp [valueAt, hndp]
    have hDV := listDupValue_node callDup hc0 hC hp0 hndp
    -- what releasing the copy gives
    have hrel : ∀ (M : Mem), ListRep M copy cs → M.lists orig = m.lists orig →
        (∀ q ∈ done ++ p :: r, M.nodes q = m.nodes q) →
        ∃ m1, listRelease M copy = some m1 ∧ m1.lists orig = m.lists orig ∧
          (∀ q ∈ done ++ p :: r, m1.nodes q = m.nodes q) := by
      intro M hM hMo hMn
      obtain ⟨m1, hres, -, hl1, hn1, -⟩ := listRelease_spec M copy cs hM
      exact ⟨m1, hres, by rw [hl1 orig hoc, hMo],
        fun q hq => by rw [hn1 q (hdisj q hq), hMn q hq]⟩
    by_cases hfail : C.dup ≠ NULL ∧ callDup C.dup nd.value = NULL
    · -- the dup method fails on this value
      obtain ⟨m1, hres, ho1, hn1⟩ := hrel m hcopy rfl (fun _ _ => rfl)
      have hloop : listDupLoop callDup copy allocs m ⟨firstD (p :: r) NULL, AL_START_HEAD⟩ =
          some (m1, NULL) := by
        cases allocs with
        | nil => rw [listDupLoop_nil_eq, firstD_cons, hDV, if_pos hfail, hres]; rfl
        | cons a rest => rw [listDupLoop_cons_eq, firstD_cons, hDV, if_pos hfail, hres]; rfl
      refine ⟨m1, NULL, hloop, ho1, hn1, Or.inl rfl, ?_, ?_⟩
      · constructor
        · intro e; exact absurd e.symm hc0
        · rintro ⟨-, h2⟩
          exact absurd hfail.2 (h2 hfail.1 _ (by simp [values, hval]))
      · intro e; exact absurd e.symm hc0
    · cases allocs with
      | nil =>
        -- out of memory
        obtain ⟨m1, hres, ho1, hn1⟩ := hrel m hcopy rfl (fun _ _ => rfl)
        have hloop : listDupLoop callDup copy [] m ⟨firstD (p :: r) NULL, AL_START_HEAD⟩ =
            some (m1, NULL) := by
          rw [listDupLoop_nil_eq, firstD_cons, hDV, if_neg hfail]
          simp [listAddNodeTail, hres]
        refine ⟨m1, NULL, hloop, ho1, hn1, Or.inl rfl, ?_, ?_⟩
        · constructor
          · intro e; exact absurd e.symm hc0
          · rintro ⟨h1, -⟩
            simp at h1
        · intro e; exact absurd e.symm hc0
      | cons a as =>
        obtain ⟨ha0, hafresh, haw⟩ := hfresh a (by simp)
        obtain ⟨haas, hndas⟩ := List.nodup_cons.mp hnd
        obtain ⟨m1, L, L1, hadd, hrep1, hvals1, hL, hL1, -, hdup, hfree, hmatch, hfl, hfn, -⟩ :=
          listAddNodeTail_spec m copy cs (copiedValue callDup C.dup nd.value) a hcopy ha0
            hafresh haw
        rw [hC] at hL
        cases hL
        have horign : ∀ q ∈ done ++ p :: r, m1.nodes q = m.nodes q := by
          intro q hq
          apply hfn q _ (hdisj q hq)
          rintro rfl
          obtain ⟨-, ndq, hq2⟩ := dllseg_mem hseg q hq
          rw [hafresh] at hq2
          cases hq2
        have horig1 : ListRep m1 orig ((done ++ [p]) ++ r) := by
          rw [listRep_congr (hfl orig hoc) (by simpa using horign)]
          simpa using horig
        have hfresh1 : ∀ b ∈ as, b ≠ NULL ∧ m1.nodes b = none ∧ b < WORD := by
          intro b hb
          obtain ⟨hb0, hbf, hbw⟩ := hfresh b (List.mem_cons_of_mem _ hb)
          refine ⟨hb0, ?_, hbw⟩
          rw [hfn b (by rintro rfl; exact haas hb) (nodup_cons_fresh
            ((listRep_iff _ _ _).mp hcopy).2.2.2.2 hbf)]
          exact hbf
        have hdisj1 : ∀ q ∈ (done ++ [p]) ++ r, q ∉ cs ++ [a] := by
          intro q hq hq2
          have hq1 : q ∈ done ++ p :: r := by simpa using hq
          rcases List.mem_append.mp hq2 with hq3 | hq3
          · exact hdisj q hq1 hq3
          · rw [List.mem_singleton] at hq3
            subst hq3
            obtain ⟨-, ndq, hq4⟩ := dllseg_mem hseg q hq1
            rw [hafresh] at hq4
            cases hq4
        obtain ⟨m2, res, hloop2, ho2, hn2, hor2, hiff2, hsucc2⟩ :=
          ih (done ++ [p]) (cs ++ [a]) as m1 L1 horig1 hrep1 hL1 hndas hfresh1 hdisj1
        have hvr : values m1 r = values m r :=
          values_congr_nodes (fun q hq => horign q (by simp [hq]))
        have hloop : listDupLoop callDup copy (a :: as) m
            ⟨firstD (p :: r) NULL, AL_START_HEAD⟩ = some (m2, res) := by
          rw [listDupLoop_cons_eq, firstD_cons, hDV, if_neg hfail]
          simp only [hadd, hc0, if_false]
          rw [hnext]
          exact hloop2
        refine ⟨m2, res, hloop, by rw [ho2, hfl orig hoc], ?_, hor2, ?_, ?_⟩
        · intro q hq
          rw [hn2 q (by simpa using hq), horign q hq]
        · rw [hiff2, hvr, hdup]
          constructor
          · rintro ⟨h1, h2⟩
            refine ⟨by simpa using h1, ?_⟩
            intro hd v hv
            have hv1 : v = valueAt m p ∨ ∃ q ∈ r, valueAt m q = v := by
              simpa [values] using hv
            rcases hv1 with rfl | hv2
            · intro e
              exact hfail ⟨hd, by rw [← hval]; exact e⟩
            · obtain ⟨q, hq, rfl⟩ := hv2
              exact h2 hd _ (by simp only [values, List.mem_map]; exact ⟨q, hq, rfl⟩)
          · rintro ⟨h1, h2⟩
            refine ⟨by simpa using h1, ?_⟩
            intro hd v hv
            exact h2 hd v (by
              simp only [values, List.mem_map] at hv ⊢
              obtain ⟨q, hq, rfl⟩ := hv
              exact ⟨q, List.mem_cons_of_mem _ hq, rfl⟩)
        · intro e
          obtain ⟨hrep2, hvals2, C2, hC2, e1, e2, e3⟩ := hsucc2 e
          refine ⟨by simpa using hrep2, ?_, C2, hC2, e1.trans hdup, e2.trans hfree,
            e3.trans hmatch⟩
          have : cs ++ List.take (p :: r).length (a :: as) = (cs ++ [a]) ++ as.take r.length := by
            simp
          rw [this, hvals2, hvals1, hvr, hdup]
          simp [values, hval]

theorem listDup_eval {callDup : Ptr → Ptr → Ptr} {m : Mem} {orig copy : Ptr}
    {allocs : List Ptr} {O : list} (ho : orig ≠ NULL) (hc0 : copy ≠ NULL) (hoc : orig ≠ copy)
    (hO : m.lists orig = some O) :
    listDup callDup m orig copy allocs =
      listDupLoop callDup copy allocs
        (putList m copy { head := NULL, tail := NULL, len := 0, dup := O.dup, free := O.free,
                          «match» := O.«match» })
        ⟨O.head, AL_START_HEAD⟩ := by
  simp only [listDup, listCreate, hc0, if_false, getList, ho, setDup, setFree, setMatch,
    lists_putList, hoc, hO, if_true, Option.bind_eq_bind, Option.some_bind, Option.map_some',
    putList_putList_same, listRewind, Option.pure_def]

/-- What `listDup` does on a well-formed list, given fresh addresses for the nodes of the
copy: it returns; the original list and its nodes are as before; the result is the copy
exactly when the addresses suffice and the `dup` method, when set, returns no NULL, and
then the copy has as many nodes, the copied values and the methods of the original. -/
theorem listDup_spec (callDup : Ptr → Ptr → Ptr) (m : Mem) (orig copy : Ptr)
    (allocs ps : List Ptr) (h : ListRep m orig ps) (hc0 : copy ≠ NULL) (hoc : orig ≠ copy)
    (hnd : allocs.Nodup) (hfresh : ∀ a ∈ allocs, a ≠ NULL ∧ m.nodes a = none ∧ a < WORD) :
    ∃ m1 r O, m.lists orig = some O ∧ listDup callDup m orig copy allocs = some (m1, r) ∧
      m1.lists orig = some O ∧ (∀ q ∈ ps, m1.nodes q = m.nodes q) ∧
      (r = NULL ∨ r = copy) ∧
      (r = copy ↔ ps.length ≤ allocs.length ∧
        (O.dup ≠ NULL → ∀ v ∈ values m ps, callDup O.dup v ≠ NULL)) ∧
      (r = copy →
        ListRep m1 copy (allocs.take ps.length) ∧
        values m1 (allocs.take ps.length) = (values m ps).map (copiedValue callDup O.dup) ∧
        ∃ C1, m1.lists copy = some C1 ∧ C1.dup = O.dup ∧ C1.free = O.free ∧
          C1.«match» = O.«match») := by
  obtain ⟨ho, ⟨O, hO, hh, -, -⟩, -, -, hseg⟩ := (listRep_iff _ _ _).mp h
  have hm3 : ∀ C : list, (putList m copy C).lists orig = m.lists orig := by
    intro C; simp [hoc]
  have horig3 : ∀ C : list, ListRep (putList m copy C) orig ([] ++ ps) := by
    intro C
    rw [List.nil_append, listRep_congr (hm3 C) (fun _ _ => rfl)]
    exact h
  have hcopy3 : ListRep (putList m copy ⟨NULL, NULL, O.dup, O.free, O.«match», 0⟩) copy [] := by
    rw [listRep_putList]
    exact ⟨hc0, rfl, rfl, rfl, List.nodup_nil, by simp, dllseg_nil _ _ _⟩
  obtain ⟨m1, r, hloop, hlo, hno, hor, hiff, hsucc⟩ :=
    listDupLoop_spec callDup orig copy hoc ps [] [] allocs _
      ⟨NULL, NULL, O.dup, O.free, O.«match», 0⟩ (horig3 _) hcopy3
      (by simp only [lists_putList, if_true]) hnd hfresh (by simp)
  refine ⟨m1, r, O, hO, ?_, ?_, ?_, hor, ?_, ?_⟩
  · rw [listDup_eval ho hc0 hoc hO, hh]; exact hloop
  · rw [hlo, hm3, hO]
  · intro q hq; exact hno q (by simpa using hq)
  · exact hiff
  · intro e
    obtain ⟨h1, h2, h3⟩ := hsucc e
    exact ⟨by simpa using h1, by simpa [values] using h2, h3⟩

/-! ## The claims on the linked list -/

/-- C14: push at either end.  On a well-formed list with the nodes `ps`, `listAddNodeHead`
and `listAddNodeTail` that got a node from the allocator return the list pointer passed
in; the value sequence becomes `v` followed by the old values, respectively the old values
followed by `v`; `len` is one more and the `dup`, `free` and `match` methods are as
before. -/
theorem C14_push_both_ends (m : Mem) (l : Ptr) (ps : List Ptr) (v node : Ptr)
    (h : ListRep m l ps) (hn : node ≠ NULL) (hfresh : m.nodes node = none)
    (hw : node < WORD) :
    (∃ m1 L L1, listAddNodeHead m l v node = some (m1, l) ∧ ListRep m1 l (node :: ps) ∧
      values m1 (node :: ps) = v :: values m ps ∧
      m.lists l = some L ∧ m1.lists l = some L1 ∧ L1.len = L.len + 1 ∧ L1.dup = L.dup ∧
      L1.free = L.free ∧ L1.«match» = L.«match») ∧
    (∃ m1 L L1, listAddNodeTail m l v node = some (m1, l) ∧ ListRep m1 l (ps ++ [node]) ∧
      values m1 (ps ++ [node]) = values m ps ++ [v] ∧
      m.lists l = some L ∧ m1.lists l = some L1 ∧ L1.len = L.len + 1 ∧ L1.dup = L.dup ∧
      L1.free = L.free ∧ L1.«match» = L.«match») := by
  constructor
  · obtain ⟨m1, L, L1, h1, h2, h3, h4, h5, h6, h7, h8, h9, -⟩ :=
      listAddNodeHead_spec m l ps v node h hn hfresh hw
    exact ⟨m1, L, L1, h1, h2, h3, h4, h5, h6, h7, h8, h9⟩
  · obtain ⟨m1, L, L1, h1, h2, h3, h4, h5, h6, h7, h8, h9, -⟩ :=
      listAddNodeTail_spec m l ps v node h hn hfresh hw
    exact ⟨m1, L, L1, h1, h2, h3, h4, h5, h6, h7, h8, h9⟩

theorem C14_push_both_ends_witness :
    (ListRep heap3 100 [10, 20, 30] ∧ values heap3 [10, 20, 30] = [1, 2, 3]) ∧
    ((∃ m1 L L1, listAddNodeHead heap3 100 4 40 = some (m1, 100) ∧
      ListRep m1 100 (40 :: [10, 20, 30]) ∧
      values m1 (40 :: [10, 20, 30]) = 4 :: values heap3 [10, 20, 30] ∧
      heap3.lists 100 = some L ∧ m1.lists 100 = some L1 ∧ L1.len = L.len + 1 ∧
      L1.dup = L.dup ∧ L1.free = L.free ∧ L1.«match» = L.«match») ∧
    (∃ m1 L L1, listAddNodeTail heap3 100 4 40 = some (m1, 100) ∧
      ListRep m1 100 ([10, 20, 30] ++ [40]) ∧
      values m1 ([10, 20, 30] ++ [40]) = values heap3 [10, 20, 30] ++ [4] ∧
      heap3.lists 100 = some L ∧ m1.lists 100 = some L1 ∧ L1.len = L.len + 1 ∧
      L1.dup = L.dup ∧ L1.free = L.free ∧ L1.«match» = L.«match»)) :=
  ⟨by decide,
    C14_push_both_ends heap3 100 [10, 20, 30] 4 40 (by decide) (by decide) (by decide)
      (by decide)⟩

/-- C15: indexed access.  On a well-formed list with the nodes `ps` and for every index
`i` of type `long`, `listIndex` returns the node at position `i` from the head when
`0 <= i < len`, the node at position `-i - 1` from the tail (which is position `len + i`
from the head, so `-1` is the last node) when `-len <= i <= -1`, and NULL for every other
index. -/
theorem C15_indexed_access (m : Mem) (l : Ptr) (ps : List Ptr) (i : Int)
    (h : ListRep m l ps) (hi : LONG_MIN ≤ i) :
    (0 ≤ i → i < ps.length →
      ∃ p, ps[i.toNat]? = some p ∧ p ≠ NULL ∧ listIndex m l i = some p) ∧
    (i ≤ -1 → -(ps.length : Int) ≤ i →
      ∃ p, ps.reverse[(-i - 1).toNat]? = some p ∧ ps[(ps.length + i).toNat]? = some p ∧
        p ≠ NULL ∧ listIndex m l i = some p) ∧
    ((ps.length : Int) ≤ i ∨ i < -(ps.length : Int) → listIndex m l i = some NULL) := by
  have hspec := listIndex_spec m l ps i h hi
  obtain ⟨-, -, -, -, hseg⟩ := (listRep_iff _ _ _).mp h
  refine ⟨?_, ?_, ?_⟩
  · intro h0 h1
    have hlt : i.toNat < ps.length := by omega
    refine ⟨ps[i.toNat], List.getElem?_eq_getElem hlt,
      (dllseg_mem hseg _ (List.getElem_mem hlt)).1, ?_⟩
    rw [hspec, if_pos h0, List.getD_eq_getElem _ _ hlt]
  · intro h0 h1
    have hlt : (-i - 1).toNat < ps.reverse.length := by
      rw [List.length_reverse]; omega
    have hlt2 : (ps.length + i).toNat < ps.length := by omega
    have hidx : ps.reverse[(-i - 1).toNat] = ps[(ps.length + i).toNat] := by
      rw [List.getElem_reverse]
      congr 1
      omega
    refine ⟨ps.reverse[(-i - 1).toNat], List.getElem?_eq_getElem hlt, ?_,
      (dllseg_mem hseg _ (List.mem_reverse.mp (List.getElem_mem hlt))).1, ?_⟩
    · rw [hidx]; exact List.getElem?_eq_getElem hlt2
    · rw [hspec, if_neg (by omega), List.getD_eq_getElem _ _ hlt]
  · intro h0
    rw [hspec]
    rcases h0 with h0 | h0
    · have h1 : 0 ≤ i := by omega
      rw [if_pos h1, List.getD_eq_default]
      omega
    · have h1 : ¬ 0 ≤ i := by omega
      rw [if_neg h1, List.getD_eq_default]
      rw [List.length_reverse]
      omega

theorem C15_indexed_access_witness :
    ListRep heap3 100 [10, 20, 30] ∧
    (∃ p, [10, 20, 30].reverse[(-(-2 : Int) - 1).toNat]? = some p ∧
      [10, 20, 30][(([10, 20, 30] : List Ptr).length + (-2 : Int)).toNat]? = some p ∧
      p ≠ NULL ∧ listIndex heap3 100 (-2) = some p) :=
  ⟨by decide,
    (C15_indexed_access heap3 100 [10, 20, 30] (-2) (by decide) (by decide)).2.1 (by decide)
      (by decide)⟩

/-- C16: removal during iteration.  On a well-formed list with the nodes `ps`, the loop
that calls `listNext` until it returns NULL and deletes with `listDelNode` any of the
nodes just returned (those chosen by `del`) ends within `len + 1` calls; from
`listRewind` it has returned exactly the nodes `ps` head to tail, from `listRewindTail`
exactly the nodes `ps` tail to head.  Afterwards the list holds the nodes not deleted, in
their original order and with their values, and `len` has dropped by the number of
deletions. -/
theorem C16_removal_during_iteration (m : Mem) (l : Ptr) (ps : List Ptr) (del : Ptr → Bool)
    (h : ListRep m l ps) :
    (∃ it m1 L L1, listRewind m l = some it ∧
      iterateDeleting del l (ps.length + 1) m it = some (m1, ps) ∧
      ListRep m1 l (ps.filter (fun p => !del p)) ∧
      values m1 (ps.filter (fun p => !del p)) = values m (ps.filter (fun p => !del p)) ∧
      m.lists l = some L ∧ m1.lists l = some L1 ∧ L1.len + ps.countP del = L.len) ∧
    (∃ it m1 L L1, listRewindTail m l = some it ∧
      iterateDeleting del l (ps.length + 1) m it = some (m1, ps.reverse) ∧
      ListRep m1 l (ps.filter (fun p => !del p)) ∧
      values m1 (ps.filter (fun p => !del p)) = values m (ps.filter (fun p => !del p)) ∧
      m.lists l = some L ∧ m1.lists l = some L1 ∧ L1.len + ps.countP del = L.len) := by
  obtain ⟨hl, ⟨L, hL, hh, ht, hlen⟩, -, -, -⟩ := (listRep_iff _ _ _).mp h
  have hcount : ∀ (m1 : Mem) (L1 : list), ListRep m1 l (ps.filter (fun p => !del p)) →
      m1.lists l = some L1 → L1.len + ps.countP del = L.len := by
    intro m1 L1 h1 hL1
    obtain ⟨-, ⟨L2, hL2, -, -, hlen2⟩, -, -, -⟩ := (listRep_iff _ _ _).mp h1
    rw [hL1] at hL2
    cases hL2
    rw [hlen, hlen2, List.countP_eq_length_filter]
    have hsum : ps.length =
        (ps.filter (fun p => !del p)).length + (ps.filter del).length := by
      have := List.length_eq_length_filter_add (l := ps) (fun p => !del p)
      simpa only [Bool.not_not] using this
    omega
  constructor
  · obtain ⟨m1, hres, hrep, hvals, -, hmeth⟩ :=
      iterateDeleting_forward del l ps [] m (ps.length + 1) (by simpa using h) (by omega)
    obtain ⟨L1, hL1, -⟩ := hmeth L hL
    have hrep1 : ListRep m1 l (ps.filter (fun p => !del p)) := by simpa using hrep
    refine ⟨⟨firstD ps NULL, AL_START_HEAD⟩, m1, L, L1, ?_, hres, hrep1,
      values_congr (fun q hq => hvals q (by simpa using hq)), hL, hL1, hcount m1 L1 hrep1 hL1⟩
    simp [listRewind, getList, hl, hL, hh]
  · obtain ⟨m1, hres, hrep, hvals, -, hmeth⟩ :=
      iterateDeleting_backward del l ps [] m (ps.length + 1) (by simpa using h) (by omega)
    obtain ⟨L1, hL1, -⟩ := hmeth L hL
    have hrep1 : ListRep m1 l (ps.filter (fun p => !del p)) := by simpa using hrep
    refine ⟨⟨lastD ps NULL, AL_START_TAIL⟩, m1, L, L1, ?_, hres, hrep1,
      values_congr (fun q hq => hvals q (by simpa using hq)), hL, hL1, hcount m1 L1 hrep1 hL1⟩
    simp [listRewindTail, getList, hl, hL, ht]

theorem C16_removal_during_iteration_witness :
    ListRep heap3 100 [10, 20, 30] ∧
    ((∃ it m1 L L1, listRewind heap3 100 = some it ∧
      iterateDeleting (fun p => p == 20) 100 (([10, 20, 30] : List Ptr).length + 1) heap3 it =
        some (m1, [10, 20, 30]) ∧
      ListRep m1 100 ([10, 20, 30].filter (fun p => !(fun p => p == 20) p)) ∧
      values m1 ([10, 20, 30].filter (fun p => !(fun p => p == 20) p)) =
        values heap3 ([10, 20, 30].filter (fun p => !(fun p => p == 20) p)) ∧
      heap3.lists 100 = some L ∧ m1.lists 100 = some L1 ∧
      L1.len + [10, 20, 30].countP (fun p => p == 20) = L.len) ∧
    (∃ it m1 L L1, listRewindTail heap3 100 = some it ∧
      iterateDeleting (fun p => p == 20) 100 (([10, 20, 30] : List Ptr).length + 1) heap3 it =
        some (m1, [10, 20, 30].reverse) ∧
      ListRep m1 100 ([10, 20, 30].filter (fun p => !(fun p => p == 20) p)) ∧
      values m1 ([10, 20, 30].filter (fun p => !(fun p => p == 20) p)) =
        values heap3 ([10, 20, 30].filter (fun p => !(fun p => p == 20) p)) ∧
      heap3.lists 100 = some L ∧ m1.lists 100 = some L1 ∧
      L1.len + [10, 20, 30].countP (fun p => p == 20) = L.len)) :=
  ⟨by decide, C16_removal_during_iteration heap3 100 [10, 20, 30] (fun p => p == 20) (by decide)⟩

theorem firstD_eq_iff {a b : List Ptr} {x : Ptr} (h : (a ++ x :: b).Nodup) (d : Ptr) :
    firstD (a ++ x :: b) d = x ↔ a = [] := by
  cases a with
  | nil => simp
  | cons p a =>
    simp only [List.cons_append, firstD_cons, reduceCtorEq, iff_false]
    rintro rfl
    exact (List.nodup_cons.mp h).1 (by simp)

theorem lastD_eq_iff {a b : List Ptr} {x : Ptr} (h : (a ++ x :: b).Nodup) (d : Ptr) :
    lastD (a ++ x :: b) d = x ↔ b = [] := by
  obtain ⟨-, hxb, -, -, -, -⟩ := dllseg_nodup_split h
  rw [lastD_append, lastD_cons]
  cases b with
  | nil => simp
  | cons p b =>
    simp only [reduceCtorEq, iff_false]
    intro e
    exact hxb (e ▸ lastD_mem (a := p :: b) (by simp) x)

/-- C17: insert relative to a node.  On a well-formed list and for a node `old` of it,
`listInsertNode` that got a node from the allocator returns the list pointer and places
the new node holding `v` right behind `old` when `after` is non-zero and right in front of
it when `after` is zero; the other nodes keep their order and values, `len` is one more,
and the new node becomes the head exactly when `old` was the head and `after` is zero,
the tail exactly when `old` was the tail and `after` is non-zero. -/
theorem C17_insert_relative (m : Mem) (l : Ptr) (a b : List Ptr) (old v node : Ptr)
    (after : Int) (h : ListRep m l (a ++ old :: b)) (hn : node ≠ NULL)
    (hfresh : m.nodes node = none) (hw : node < WORD) :
    ∃ m1 L L1, listInsertNode m l old v after node = some (m1, l) ∧
      ListRep m1 l (if after ≠ 0 then a ++ old :: node :: b else a ++ node :: old :: b) ∧
      values m1 (if after ≠ 0 then a ++ old :: node :: b else a ++ node :: old :: b) =
        (if after ≠ 0 then values m a ++ valueAt m old :: v :: values m b
         else values m a ++ v :: valueAt m old :: values m b) ∧
      m.lists l = some L ∧ m1.lists l = some L1 ∧ L1.len = L.len + 1 ∧
      (L1.head = node ↔ L.head = old ∧ after = 0) ∧
      (L1.tail = node ↔ L.tail = old ∧ after ≠ 0) := by
  have hfacts : ∀ L, m.lists l = some L → (L.tail = old ↔ b = []) ∧ (L.head = old ↔ a = []) :=
    fun L hL => ⟨(listRep_node_facts h hL).2.2.1, (listRep_node_facts h hL).2.2.2.1⟩
  by_cases ha : after = 0
  · subst ha
    obtain ⟨m1, L, L1, hres, hrep, hvals, hL, hL1, hlen, -⟩ :=
      listInsertNode_before_spec m l a b old v node h hn hfresh hw
    obtain ⟨-, ⟨L2, hL2, hh2, ht2, -⟩, hnd2, -, -⟩ := (listRep_iff _ _ _).mp hrep
    rw [hL1] at hL2
    cases hL2
    refine ⟨m1, L, L1, hres, by simpa using hrep, by simpa using hvals, hL, hL1, hlen, ?_, ?_⟩
    · rw [hh2, firstD_eq_iff hnd2, (hfacts L hL).2]; simp
    · have e : a ++ node :: old :: b = (a ++ [node]) ++ old :: b := by simp
      have hne : lastD (a ++ node :: old :: b) NULL ≠ node := by
        rw [lastD_append, lastD_cons, lastD_cons]
        intro e1
        have hmem : node ∈ old :: b := by
          have := lastD_mem (a := old :: b) (by simp) node
          rw [lastD_cons] at this
          rw [e1] at this
          exact this
        have hnd3 := hnd2
        rw [List.nodup_append] at hnd3
        exact (List.nodup_cons.mp hnd3.2.1).1 hmem
      rw [ht2]
      simp [hne]
  · obtain ⟨m1, L, L1, hres, hrep, hvals, hL, hL1, hlen, -⟩ :=
      listInsertNode_after_spec m l a b old v node after h ha hn hfresh hw
    obtain ⟨-, ⟨L2, hL2, hh2, ht2, -⟩, hnd2, -, -⟩ := (listRep_iff _ _ _).mp hrep
    rw [hL1] at hL2
    cases hL2
    refine ⟨m1, L, L1, hres, by simpa [ha] using hrep, by simpa [ha] using hvals, hL, hL1,
      hlen, ?_, ?_⟩
    · have e : a ++ old :: node :: b = (a ++ [old]) ++ node :: b := by simp
      rw [e] at hnd2 hh2
      rw [hh2, firstD_eq_iff hnd2]
      simp [ha]
    · have e : a ++ old :: node :: b = (a ++ [old]) ++ node :: b := by simp
      rw [e] at hnd2 ht2
      rw [ht2, lastD_eq_iff hnd2, (hfacts L hL).1]
      simp [ha]

theorem C17_insert_relative_witness :
    ListRep heap3 100 ([10] ++ 20 :: [30]) ∧
    (∃ m1 L L1, listInsertNode heap3 100 20 4 1 40 = some (m1, 100) ∧
      ListRep m1 100
        (if (1 : Int) ≠ 0 then [10] ++ 20 :: 40 :: [30] else [10] ++ 40 :: 20 :: [30]) ∧
      values m1
          (if (1 : Int) ≠ 0 then [10] ++ 20 :: 40 :: [30] else [10] ++ 40 :: 20 :: [30]) =
        (if (1 : Int) ≠ 0 then values heap3 [10] ++ valueAt heap3 20 :: 4 :: values heap3 [30]
         else values heap3 [10] ++ 4 :: valueAt heap3 20 :: values heap3 [30]) ∧
      heap3.lists 100 = some L ∧ m1.lists 100 = some L1 ∧ L1.len = L.len + 1 ∧
      (L1.head = 40 ↔ L.head = 20 ∧ (1 : Int) = 0) ∧
      (L1.tail = 40 ↔ L.tail = 20 ∧ (1 : Int) ≠ 0)) :=
  ⟨by decide,
    C17_insert_relative heap3 100 [10] [30] 20 4 40 1 (by decide) (by decide) (by decide)
      (by decide)⟩

/-- C18: join.  For two well-formed lists `l` and `o` at different addresses that own
separate nodes `ps` and `qs`, `listJoin` leaves `l` with the nodes `ps` followed by `qs`,
each with its value, and `len` the sum of both lengths, and leaves `o` empty but valid
(head and tail NULL, `len` 0); both keep their methods.  The node sequences may be
empty. -/
theorem C18_join (m : Mem) (l o : Ptr) (ps qs : List Ptr) (h1 : ListRep m l ps)
    (h2 : ListRep m o qs) (hlo : l ≠ o) (hdisj : ∀ q ∈ ps, q ∉ qs) :
    ∃ m1 L O L1 O1, listJoin m l o = some m1 ∧ ListRep m1 l (ps ++ qs) ∧ ListRep m1 o [] ∧
      values m1 (ps ++ qs) = values m ps ++ values m qs ∧
      m.lists l = some L ∧ m.lists o = some O ∧ m1.lists l = some L1 ∧ m1.lists o = some O1 ∧
      L1.len = L.len + O.len ∧ L1.dup = L.dup ∧ L1.free = L.free ∧ L1.«match» = L.«match» ∧
      O1.head = NULL ∧ O1.tail = NULL ∧ O1.len = 0 ∧
      O1.dup = O.dup ∧ O1.free = O.free ∧ O1.«match» = O.«match» := by
  obtain ⟨m1, L, O, L1, O1, r1, r2, r3, r4, r5, r6, r7, r8, r9, r10, r11, r12, r13, r14, r15,
    r16, r17, r18, -⟩ := listJoin_spec m l o ps qs h1 h2 hlo hdisj
  exact ⟨m1, L, O, L1, O1, r1, r2, r3, r4, r5, r6, r7, r8, r9, r10, r11, r12, r13, r14, r15,
    r16, r17, r18⟩

theorem C18_join_witness :
    (ListRep heap5 100 [10, 20, 30] ∧ ListRep heap5 200 [50, 60]) ∧
    (∃ m1 L O L1 O1, listJoin heap5 100 200 = some m1 ∧
      ListRep m1 100 ([10, 20, 30] ++ [50, 60]) ∧ ListRep m1 200 [] ∧
      values m1 ([10, 20, 30] ++ [50, 60]) =
        values heap5 [10, 20, 30] ++ values heap5 [50, 60] ∧
      heap5.lists 100 = some L ∧ heap5.lists 200 = some O ∧ m1.lists 100 = some L1 ∧
      m1.lists 200 = some O1 ∧
      L1.len = L.len + O.len ∧ L1.dup = L.dup ∧ L1.free = L.free ∧ L1.«match» = L.«match» ∧
      O1.head = NULL ∧ O1.tail = NULL ∧ O1.len = 0 ∧
      O1.dup = O.dup ∧ O1.free = O.free ∧ O1.«match» = O.«match») :=
  ⟨by decide,
    C18_join heap5 100 200 [10, 20, 30] [50, 60] (by decide) (by decide) (by decide)
      (by decide)⟩

/-- C19: rotate.  On a well-formed list with the nodes `ps`: when `ps` has at most one
node `listRotate` changes nothing; when `ps` is `a` followed by `z` with `a` not empty,
the node sequence becomes `z` followed by `a`, each node keeping its value, `len` and
the methods are as before, the former tail `z` is the head and the former penultimate
node is the tail. -/
theorem C19_rotate (m : Mem) (l : Ptr) (ps a : List Ptr) (z : Ptr) (h : ListRep m l ps) :
    (ps.length ≤ 1 → listRotate m l = some m) ∧
    (ps = a ++ [z] → a ≠ [] →
      ∃ m1 L L1, listRotate m l = some m1 ∧ ListRep m1 l (z :: a) ∧
        values m1 (z :: a) = valueAt m z :: values m a ∧
        m.lists l = some L ∧ m1.lists l = some L1 ∧ L1.len = L.len ∧ L1.dup = L.dup ∧
        L1.free = L.free ∧ L1.«match» = L.«match» ∧ L1.head = z ∧ L1.tail = lastD a NULL) := by
  constructor
  · intro hlen
    obtain ⟨hl, ⟨L, hL, -, -, hlen1⟩, -, -, -⟩ := (listRep_iff _ _ _).mp h
    have : L.len ≤ 1 := by rw [hlen1]; exact hlen
    simp [listRotate, getList, hl, hL, this]
  · intro hps hne
    subst hps
    obtain ⟨m1, L, L1, r1, r2, r3, r4, r5, r6, r7, r8, r9, r10, r11, -⟩ :=
      listRotate_spec m l a z h hne
    exact ⟨m1, L, L1, r1, r2, r3, r4, r5, r6, r7, r8, r9, r10, r11⟩

theorem C19_rotate_witness :
    ListRep heap3 100 [10, 20, 30] ∧
    (∃ m1 L L1, listRotate heap3 100 = some m1 ∧ ListRep m1 100 (30 :: [10, 20]) ∧
      values m1 (30 :: [10, 20]) = valueAt heap3 30 :: values heap3 [10, 20] ∧
      heap3.lists 100 = some L ∧ m1.lists 100 = some L1 ∧ L1.len = L.len ∧ L1.dup = L.dup ∧
      L1.free = L.free ∧ L1.«match» = L.«match» ∧ L1.head = 30 ∧
      L1.tail = lastD [10, 20] NULL) :=
  ⟨by decide,
    (C19_rotate heap3 100 [10, 20, 30] [10, 20] 30 (by decide)).2 (by decide) (by decide)⟩

/-- The failure path of `listDup` on the example heap: the `dup` method returns NULL on the
second value, `listDup` returns NULL, the original list is as before, the new list and the
node copied so far are freed, and the `free` method was called on the one copied value. -/
theorem listDup_dup_failure_example :
    (listDup dupFailsOn2 heap3 100 200 [41, 42, 43]).map
        (fun r => (r.2, decide (ListRep r.1 100 [10, 20, 30]), values r.1 [10, 20, 30])) =
      some (NULL, true, [1, 2, 3]) ∧
    (listDup dupFailsOn2 heap3 100 200 [41, 42, 43]).map
        (fun r => ((r.1.lists 200).isNone, (r.1.nodes 41).isNone)) = some (true, true) ∧
    (listDup dupFailsOn2 heap3 100 200 [41, 42, 43]).map (fun r => r.1.freed) =
      some [(8, 101)] := by
  decide

/-- C20: duplicate.  On a well-formed list `orig` with the nodes `ps`, `listDup` that got
the address `copy` for the new list and the fresh addresses `allocs` for its nodes
returns, and the original list, its nodes and their values are as before whatever the
result.  The result is `copy` exactly when the addresses suffice and the `dup` method,
when set, returns NULL for no value, and is NULL otherwise; a returned copy has as many
nodes as the original, the methods of the original, and as values, position by position,
`dup(value)` of the original values when a `dup` method is set and the same pointers when
none is set. -/
theorem C20_duplicate (callDup : Ptr → Ptr → Ptr) (m : Mem) (orig copy : Ptr)
    (allocs ps : List Ptr) (h : ListRep m orig ps) (hc0 : copy ≠ NULL) (hoc : orig ≠ copy)
    (hnd : allocs.Nodup) (hfresh : ∀ a ∈ allocs, a ≠ NULL ∧ m.nodes a = none ∧ a < WORD) :
    ∃ m1 r O, m.lists orig = some O ∧ listDup callDup m orig copy allocs = some (m1, r) ∧
      (ListRep m1 orig ps ∧ values m1 ps = values m ps ∧ m1.lists orig = some O ∧
        ∀ q ∈ ps, m1.nodes q = m.nodes q) ∧
      (r = NULL ∨ r = copy) ∧
      (r = copy ↔ ps.length ≤ allocs.length ∧
        (O.dup ≠ NULL → ∀ v ∈ values m ps, callDup O.dup v ≠ NULL)) ∧
      (r = copy →
        ∃ cs C1, ListRep m1 copy cs ∧ cs.length = ps.length ∧ m1.lists copy = some C1 ∧
          C1.len = O.len ∧ C1.dup = O.dup ∧ C1.free = O.free ∧ C1.«match» = O.«match» ∧
          values m1 cs =
            (values m ps).map (fun v => if O.dup ≠ NULL then callDup O.dup v else v)) := by
  obtain ⟨m1, r, O, hO, hres, hO1, hn1, hor, hiff, hsucc⟩ :=
    listDup_spec callDup m orig copy allocs ps h hc0 hoc hnd hfresh
  have hrep1 : ListRep m1 orig ps := by
    rw [listRep_congr (hO1.trans hO.symm) hn1]; exact h
  refine ⟨m1, r, O, hO, hres, ⟨hrep1, values_congr_nodes hn1, hO1, hn1⟩, hor, hiff, ?_⟩
  intro e
  obtain ⟨hrep, hvals, C1, hC1, e1, e2, e3⟩ := hsucc e
  have hle : ps.length ≤ allocs.length := (hiff.mp e).1
  have hlen : (allocs.take ps.length).length = ps.length := by
    rw [List.length_take]; omega
  obtain ⟨-, ⟨C2, hC2, -, -, hlen2⟩, -, -, -⟩ := (listRep_iff _ _ _).mp hrep
  rw [hC1] at hC2
  cases hC2
  obtain ⟨-, ⟨O2, hO2, -, -, hlen3⟩, -, -, -⟩ := (listRep_iff _ _ _).mp h
  rw [hO] at hO2
  cases hO2
  refine ⟨allocs.take ps.length, C1, hrep, hlen, hC1, by rw [hlen2, hlen, hlen3], e1, e2, e3,
    ?_⟩
  rw [hvals]
  rfl

theorem C20_duplicate_witness :
    ListRep heap3 100 [10, 20, 30] ∧
    (∃ m1 r O, heap3.lists 100 = some O ∧
      listDup dupPlus100 heap3 100 200 [41, 42, 43] = some (m1, r) ∧
      (ListRep m1 100 [10, 20, 30] ∧ values m1 [10, 20, 30] = values heap3 [10, 20, 30] ∧
        m1.lists 100 = some O ∧ ∀ q ∈ [10, 20, 30], m1.nodes q = heap3.nodes q) ∧
      (r = NULL ∨ r = 200) ∧
      (r = 200 ↔ ([10, 20, 30] : List Ptr).length ≤ ([41, 42, 43] : List Ptr).length ∧
        (O.dup ≠ NULL → ∀ v ∈ values heap3 [10, 20, 30], dupPlus100 O.dup v ≠ NULL)) ∧
      (r = 200 →
        ∃ cs C1, ListRep m1 200 cs ∧ cs.length = ([10, 20, 30] : List Ptr).length ∧
          m1.lists 200 = some C1 ∧
          C1.len = O.len ∧ C1.dup = O.dup ∧ C1.free = O.free ∧ C1.«match» = O.«match» ∧
          values m1 cs =
            (values heap3 [10, 20, 30]).map
              (fun v => if O.dup ≠ NULL then dupPlus100 O.dup v else v))) :=
  ⟨by decide,
    C20_duplicate dupPlus100 heap3 100 200 [41, 42, 43] [10, 20, 30] (by decide) (by decide)
      (by decide) (by decide) (by decide)⟩

/-! ## Searching and allocation failure -/

/-- The search loop with the nodes `a` already passed without a match and the nodes
`rest` ahead. -/
theorem listSearchKeyLoop_spec (callMatch : Ptr → Ptr → Ptr → Int) (m : Mem) (l key : Ptr)
    (L : list) (hl : l ≠ NULL) (hL : m.lists l = some L) :
    ∀ (rest : List Ptr) (prev : Ptr) (fuel : Nat), dllseg m prev rest NULL →
      rest.length < fuel →
      listSearchKeyLoop callMatch l key fuel m ⟨firstD rest NULL, AL_START_HEAD⟩ =
        some ((rest.find? (fun p => keyMatches callMatch L.«match» key (valueAt m p))).getD
          NULL) := by
  intro rest
  induction rest with
  | nil =>
    intro prev fuel _ hf
    obtain ⟨fuel, rfl⟩ : ∃ k, fuel = k + 1 := ⟨fuel - 1, by omega⟩
    simp [listSearchKeyLoop, listNext]
  | cons p r ih =>
    intro prev fuel hseg hf
    obtain ⟨fuel, rfl⟩ : ∃ k, fuel = k + 1 := ⟨fuel - 1, by omega⟩
    have hf1 : r.length < fuel := by simpa using hf
    obtain ⟨hp0, nd, hnd, -, hnext⟩ := dllseg_first hseg
    have hseg1 : dllseg m p r NULL := ((dllseg_cons _ _ _ _ _).mp hseg).2.2
    have hrec := ih p fuel hseg1 hf1
    have hval : valueAt m p = nd.value := by simp [valueAt, hnd]
    by_cases hm : L.«match» = NULL
    · by_cases hk : key = nd.value
      · simp [listSearchKeyLoop, listNext, getNode, getList, hp0, hnd, hl, hL, hm, hk,
          keyMatches, hval]
      · simp [listSearchKeyLoop, listNext, getNode, getList, hp0, hnd, hl, hL, hm, hk,
          keyMatches, hval, hnext, hrec]
    · by_cases hk : callMatch L.«match» nd.value key = 0
      · simp [listSearchKeyLoop, listNext, getNode, getList, hp0, hnd, hl, hL, hm, hk,
          keyMatches, hval, hnext, hrec]
      · simp [listSearchKeyLoop, listNext, getNode, getList, hp0, hnd, hl, hL, hm, hk,
          keyMatches, hval]

/-- What `listSearchKey` returns on a well-formed list. -/
theorem listSearchKey_spec (callMatch : Ptr → Ptr → Ptr → Int) (m : Mem) (l key : Ptr)
    (ps : List Ptr) (fuel : Nat) (L : list) (h : ListRep m l ps) (hL : m.lists l = some L)
    (hf : ps.length < fuel) :
    listSearchKey callMatch fuel m l key =
      some ((ps.find? (fun p => keyMatches callMatch L.«match» key (valueAt m p))).getD
        NULL) := by
  obtain ⟨hl, ⟨L0, hL0, hh, -, -⟩, -, -, hseg⟩ := (listRep_iff _ _ _).mp h
  rw [hL] at hL0
  cases hL0
  have := listSearchKeyLoop_spec callMatch m l key L hl hL ps NULL fuel hseg hf
  simp only [listSearchKey, listRewind, getList, hl, hL, if_false, Option.bind_eq_bind,
    Option.some_bind, Option.pure_def, hh]
  exact this

/-- C21: search by key.  On a well-formed list with the nodes `ps`, `listSearchKey` ends
within `len + 1` calls of `listNext` and returns the first node from the head whose value
passes the test (`match(value, key)` non-zero when a `match` method is set, the value
pointer equal to the key pointer when none is set): the nodes in front of the returned
one all fail the test.  It returns NULL exactly when no node passes the test. -/
theorem C21_search_key (callMatch : Ptr → Ptr → Ptr → Int) (m : Mem) (l key : Ptr)
    (ps : List Ptr) (fuel : Nat) (h : ListRep m l ps) (hf : ps.length < fuel) :
    ∃ L r, m.lists l = some L ∧ listSearchKey callMatch fuel m l key = some r ∧
      (r = NULL ↔ ∀ p ∈ ps, keyMatches callMatch L.«match» key (valueAt m p) = false) ∧
      (r ≠ NULL → ∃ a b, ps = a ++ r :: b ∧
        keyMatches callMatch L.«match» key (valueAt m r) = true ∧
        ∀ p ∈ a, keyMatches callMatch L.«match» key (valueAt m p) = false) := by
  obtain ⟨hl, ⟨L, hL, -, -, -⟩, -, -, hseg⟩ := (listRep_iff _ _ _).mp h
  refine ⟨L, _, hL, listSearchKey_spec callMatch m l key ps fuel L h hL hf, ?_, ?_⟩
  · cases hfind : ps.find? (fun p => keyMatches callMatch L.«match» key (valueAt m p)) with
    | none =>
      simp only [Option.getD_none, true_iff]
      intro p hp
      have := List.find?_eq_none.mp hfind p hp
      simpa using this
    | some q =>
      simp only [Option.getD_some]
      have hq := List.mem_of_find?_eq_some hfind
      have hq2 := List.find?_some hfind
      constructor
      · intro e
        exact absurd e (dllseg_mem hseg q hq).1
      · intro hall
        rw [hall q hq] at hq2
        cases hq2
  · intro hne
    cases hfind : ps.find? (fun p => keyMatches callMatch L.«match» key (valueAt m p)) with
    | none => rw [hfind] at hne; exact absurd rfl hne
    | some q =>
      simp only [Option.getD_some]
      obtain ⟨hq, a, b, hab, hfa⟩ := List.find?_eq_some.mp hfind
      refine ⟨a, b, hab, hq, ?_⟩
      intro p hp
      simpa using hfa p hp

theorem C21_search_key_witness :
    (ListRep heap3 100 [10, 20, 30] ∧ ([10, 20, 30] : List Ptr).length < 4) ∧
    (∃ L r, heap3.lists 100 = some L ∧ listSearchKey matchMod10 4 heap3 100 12 = some r ∧
      (r = NULL ↔ ∀ p ∈ [10, 20, 30], keyMatches matchMod10 L.«match» 12 (valueAt heap3 p) = false) ∧
      (r ≠ NULL → ∃ a b, [10, 20, 30] = a ++ r :: b ∧
        keyMatches matchMod10 L.«match» 12 (valueAt heap3 r) = true ∧
        ∀ p ∈ a, keyMatches matchMod10 L.«match» 12 (valueAt heap3 p) = false)) :=
  ⟨by decide, C21_search_key matchMod10 heap3 100 12 [10, 20, 30] 4 (by decide) (by decide)⟩

/-- The search on the example heap: the key 12 matches the value 2 of the node 20 under
the example `match` method; the key 14 matches no value. -/
theorem listSearchKey_example :
    listSearchKey matchMod10 4 heap3 100 12 = some 20 ∧
    listSearchKey matchMod10 4 heap3 100 14 = some NULL := by
  decide

/-- C22: allocation failure is atomic.  When the node allocation fails (`zmalloc` returns
NULL) inside `listAddNodeHead`, `listAddNodeTail` or `listInsertNode`, the function
returns NULL and the heap, hence the list with its head, tail, `len` and node links, is
exactly as before the call. -/
theorem C22_allocation_failure_atomic (m : Mem) (l old v : Ptr) (after : Int) :
    listAddNodeHead m l v NULL = some (m, NULL) ∧
    listAddNodeTail m l v NULL = some (m, NULL) ∧
    listInsertNode m l old v after NULL = some (m, NULL) ∧
    (∀ ps, ListRep m l ps →
      ∀ r ∈ [listAddNodeHead m l v NULL, listAddNodeTail m l v NULL,
          listInsertNode m l old v after NULL],
        ∃ m1, r = some (m1, NULL) ∧ ListRep m1 l ps ∧ m1.lists l = m.lists l ∧
          ∀ p ∈ ps, m1.nodes p = m.nodes p) := by
  have h1 : listAddNodeHead m l v NULL = some (m, NULL) := by simp [listAddNodeHead]
  have h2 : listAddNodeTail m l v NULL = some (m, NULL) := by simp [listAddNodeTail]
  have h3 : listInsertNode m l old v after NULL = some (m, NULL) := by simp [listInsertNode]
  refine ⟨h1, h2, h3, ?_⟩
  intro ps hps r hr
  rw [h1, h2, h3] at hr
  simp only [List.mem_cons, List.mem_singleton, List.not_mem_nil, or_false, or_self] at hr
  exact ⟨m, hr, hps, rfl, fun _ _ => rfl⟩

/-! ## Well-formedness in terms of the links -/

theorem nextChain_null (m : Mem) (fuel : Nat) : nextChain m fuel NULL = some [] := by
  cases fuel <;> simp [nextChain]

theorem nextChain_zero {m : Mem} {p : Ptr} (hp : p ≠ NULL) : nextChain m 0 p = none := by
  simp [nextChain, hp]

theorem nextChain_succ_none {m : Mem} {p : Ptr} (fuel : Nat) (hp : p ≠ NULL)
    (hn : m.nodes p = none) : nextChain m (fuel + 1) p = none := by
  simp [nextChain, hp, getNode, hn]

theorem nextChain_succ_some {m : Mem} {p : Ptr} {nd : listNode} (fuel : Nat) (hp : p ≠ NULL)
    (hn : m.nodes p = some nd) :
    nextChain m (fuel + 1) p = (nextChain m fuel nd.next).map (fun rest => p :: rest) := by
  simp [nextChain, hp, getNode, hn, Option.map_eq_bind]

theorem nextChain_spec (m : Mem) : ∀ (fuel : Nat) (p : Ptr) (ps : List Ptr),
    nextChain m fuel p = some ps ↔ nextseg m ps ∧ firstD ps NULL = p ∧ ps.length ≤ fuel := by
  intro fuel
  induction fuel with
  | zero =>
    intro p ps
    by_cases hp : p = NULL
    · subst hp
      rw [nextChain_null]
      cases ps with
      | nil => simp [nextseg]
      | cons q qs => simp
    · rw [nextChain_zero hp]
      cases ps with
      | nil => simp [nextseg, Ne.symm hp]
      | cons q qs => simp
  | succ fuel ih =>
    intro p ps
    by_cases hp : p = NULL
    · subst hp
      rw [nextChain_null]
      cases ps with
      | nil => simp [nextseg]
      | cons q qs =>
        simp only [Option.some.injEq, firstD_cons, nextseg]
        constructor
        · intro h; cases h
        · rintro ⟨⟨h1, -⟩, h2, -⟩
          exact absurd h2 h1
    · cases hn : m.nodes p with
      | none =>
        rw [nextChain_succ_none fuel hp hn]
        constructor
        · intro h; cases h
        · rintro ⟨h1, h2, -⟩
          cases ps with
          | nil => exact absurd h2.symm hp
          | cons q qs =>
            simp only [firstD_cons] at h2
            subst h2
            have := h1.2.1
            rw [hn] at this
            cases this
      | some nd =>
        rw [nextChain_succ_some fuel hp hn]
        have hnext : nextAt m p = nd.next := by simp [nextAt, hn]
        constructor
        · intro h
          cases hr : nextChain m fuel nd.next with
          | none => rw [hr] at h; cases h
          | some rest =>
            rw [hr] at h
            simp only [Option.map_some', Option.some.injEq] at h
            subst h
            obtain ⟨h1, h2, h3⟩ := (ih nd.next rest).mp hr
            exact ⟨⟨hp, by simp [hn], by rw [hnext, h2], h1⟩, rfl,
              by simp only [List.length_cons]; omega⟩
        · rintro ⟨h1, h2, h3⟩
          cases ps with
          | nil => exact absurd h2.symm hp
          | cons q qs =>
            simp only [firstD_cons] at h2
            subst h2
            obtain ⟨-, -, h4, h5⟩ := h1
            rw [hnext] at h4
            simp only [List.length_cons] at h3
            rw [(ih nd.next qs).mpr ⟨h5, h4.symm, by omega⟩]
            rfl

theorem nextseg_append (m : Mem) : ∀ (a b : List Ptr), nextseg m (a ++ b) → nextseg m b := by
  intro a
  induction a with
  | nil => intro b h; exact h
  | cons p a ih => intro b h; exact ih b h.2.2.2

theorem nextseg_unique (m : Mem) : ∀ (xs ys : List Ptr), nextseg m xs → nextseg m ys →
    firstD xs NULL = firstD ys NULL → xs = ys := by
  intro xs
  induction xs with
  | nil =>
    intro ys _ hy hf
    cases ys with
    | nil => rfl
    | cons q ys => exact absurd hf.symm hy.1
  | cons p xs ih =>
    intro ys hx hy hf
    cases ys with
    | nil => exact absurd hf hx.1
    | cons q ys =>
      simp only [firstD_cons] at hf
      subst hf
      have : firstD xs NULL = firstD ys NULL := by rw [← hx.2.2.1, ← hy.2.2.1]
      rw [ih ys hx.2.2.2 hy.2.2.2 this]

theorem nextseg_mem {m : Mem} : ∀ {ps : List Ptr}, nextseg m ps → ∀ p ∈ ps, p ≠ NULL := by
  intro ps
  induction ps with
  | nil => intro _ p hp; simp at hp
  | cons q ps ih =>
    intro h p hp
    rcases List.mem_cons.mp hp with rfl | hp
    · exact h.1
    · exact ih h.2.2.2 p hp

theorem nextseg_nodup (m : Mem) : ∀ (ps : List Ptr), nextseg m ps → ps.Nodup := by
  intro ps
  induction ps with
  | nil => intro _; exact List.nodup_nil
  | cons p ps ih =>
    intro h
    refine List.nodup_cons.mpr ⟨?_, ih h.2.2.2⟩
    intro hp
    obtain ⟨a, b, hab⟩ := List.append_of_mem hp
    have hsuf : nextseg m (p :: b) := nextseg_append m a (p :: b) (hab ▸ h.2.2.2)
    have heq := nextseg_unique m (p :: ps) (p :: b) h hsuf rfl
    have hlen := congrArg List.length heq
    rw [hab] at hlen
    simp at hlen
    omega

theorem nextseg_of_dllseg {m : Mem} : ∀ {ps : List Ptr} {prev : Ptr},
    dllseg m prev ps NULL → nextseg m ps := by
  intro ps
  induction ps with
  | nil => intro _ _; trivial
  | cons p ps ih =>
    intro prev h
    obtain ⟨hp0, nd, hnd, -, hnext⟩ := dllseg_first h
    exact ⟨hp0, by simp [hnd], by simp [nextAt, hnd, hnext],
      ih ((dllseg_cons _ _ _ _ _).mp h).2.2⟩

theorem dllseg_of_nextseg {m : Mem} : ∀ (ps : List Ptr) (prev : Ptr), nextseg m ps →
    (ps ≠ [] → prevAt m (firstD ps NULL) = prev) →
    (∀ a ∈ ps, ∀ b ∈ ps, nextAt m a = b ↔ prevAt m b = a) → dllseg m prev ps NULL := by
  intro ps
  induction ps with
  | nil => intro prev _ _ _; exact dllseg_nil _ _ _
  | cons p ps ih =>
    intro prev h hprev hadj
    obtain ⟨hp0, hlive, hnext, hrest⟩ := h
    obtain ⟨nd, hnd⟩ := Option.isSome_iff_exists.mp hlive
    have hpv : nd.prev = prev := by
      have := hprev (by simp)
      simpa [prevAt, hnd] using this
    have hnx : nd.next = firstD ps NULL := by simpa [nextAt, hnd] using hnext
    refine dllseg_cons_of hp0 hnd hpv hnx ?_
    apply ih p hrest
    · intro hne
      cases ps with
      | nil => exact absurd rfl hne
      | cons q qs =>
        simp only [firstD_cons] at hnext ⊢
        exact (hadj p (by simp) q (by simp)).mp hnext
    · intro a ha b hb
      exact hadj a (List.mem_cons_of_mem _ ha) b (List.mem_cons_of_mem _ hb)

theorem append_cons_unique {b : Ptr} : ∀ {x x1 y y1 : List Ptr},
    x ++ b :: y = x1 ++ b :: y1 → b ∉ x → b ∉ x1 → x = x1 ∧ y = y1 := by
  intro x
  induction x with
  | nil =>
    intro x1 y y1 h h1 h2
    cases x1 with
    | nil => simpa using h
    | cons c x1 =>
      simp only [List.nil_append, List.cons_append, List.cons.injEq] at h
      exact absurd (by rw [h.1]; simp) h2
  | cons c x ih =>
    intro x1 y y1 h h1 h2
    cases x1 with
    | nil =>
      simp only [List.nil_append, List.cons_append, List.cons.injEq] at h
      exact absurd (by rw [← h.1]; simp) h1
    | cons c1 x1 =>
      simp only [List.cons_append, List.cons.injEq] at h
      obtain ⟨e1, e2⟩ := ih h.2 (fun hb => h1 (List.mem_cons_of_mem _ hb))
        (fun hb => h2 (List.mem_cons_of_mem _ hb))
      exact ⟨by rw [h.1, e1], e2⟩

/-- In a doubly linked segment from NULL to NULL, `a->next = b` iff `b->prev = a`. -/
theorem dllseg_adjacent {m : Mem} {ps : List Ptr} (h : dllseg m NULL ps NULL)
    (hnd : ps.Nodup) : ∀ a ∈ ps, ∀ b ∈ ps, nextAt m a = b ↔ prevAt m b = a := by
  intro a ha b hb
  obtain ⟨x, y, h1⟩ := List.append_of_mem ha
  obtain ⟨x1, y1, h2⟩ := List.append_of_mem hb
  have ha0 : a ≠ NULL := (dllseg_mem h a ha).1
  have hb0 : b ≠ NULL := (dllseg_mem h b hb).1
  have hna : nextAt m a = firstD y NULL := by
    obtain ⟨-, nd, hn, -, hx⟩ := dllseg_mid (h1 ▸ h)
    simp [nextAt, hn, hx]
  have hpb : prevAt m b = lastD x1 NULL := by
    obtain ⟨-, nd, hn, hx, -⟩ := dllseg_mid (h2 ▸ h)
    simp [prevAt, hn, hx]
  have hax : a ∉ x ∧ a ∉ y := by
    have := dllseg_nodup_split (h1 ▸ hnd)
    exact ⟨this.1, this.2.1⟩
  have hbx : b ∉ x1 ∧ b ∉ y1 := by
    have := dllseg_nodup_split (h2 ▸ hnd)
    exact ⟨this.1, this.2.1⟩
  rw [hna, hpb]
  constructor
  · intro e
    cases y with
    | nil => exact absurd e.symm hb0
    | cons c y2 =>
      simp only [firstD_cons] at e
      subst e
      have hab : a ≠ c := by rintro rfl; exact hax.2 (by simp)
      have e3 : (x ++ [a]) ++ c :: y2 = x1 ++ c :: y1 := by
        rw [← h2, h1]; simp
      have hcx : c ∉ x ++ [a] := by
        intro hc
        rcases List.mem_append.mp hc with hc | hc
        · have hnd1 : (x ++ a :: c :: y2).Nodup := h1 ▸ hnd
          rw [List.nodup_append] at hnd1
          exact hnd1.2.2 hc (by simp)
        · exact hab (List.mem_singleton.mp hc).symm
      obtain ⟨e4, -⟩ := append_cons_unique e3 hcx hbx.1
      rw [← e4, lastD_concat]
  · intro e
    rcases List.eq_nil_or_concat x1 with rfl | ⟨x2, c, hc⟩
    · exact absurd e.symm ha0
    · rw [List.concat_eq_append] at hc
      subst hc
      rw [lastD_concat] at e
      subst e
      have hab : c ≠ b := by rintro rfl; exact hbx.1 (by simp)
      have e3 : x ++ c :: y = x2 ++ c :: (b :: y1) := by
        rw [← h1, h2]; simp
      have hcx : c ∉ x2 := by
        intro hc
        have hnd1 : (x2 ++ [c] ++ b :: y1).Nodup := h2 ▸ hnd
        rw [List.nodup_append] at hnd1
        have := hnd1.1
        rw [List.nodup_append] at this
        exact this.2.2 hc (by simp)
      obtain ⟨-, e4⟩ := append_cons_unique e3 hax.1 hcx
      rw [e4, firstD_cons]

/-- The link-level well-formedness, clause by clause. -/
theorem wellLinked_iff (m : Mem) (l : Ptr) :
    WellLinked m l ↔
      ∃ L ps, getList m l = some L ∧ nextChain m L.len L.head = some ps ∧
        ps.length = L.len ∧ (L.head = NULL ↔ L.tail = NULL) ∧ (L.tail = NULL ↔ L.len = 0) ∧
        (L.head ≠ NULL → prevAt m L.head = NULL) ∧ (L.tail ≠ NULL → nextAt m L.tail = NULL) ∧
        lastD ps NULL = L.tail ∧
        (∀ a ∈ ps, ∀ b ∈ ps, nextAt m a = b ↔ prevAt m b = a) ∧ (∀ p ∈ ps, p < WORD) := by
  unfold WellLinked wellLinkedB
  cases hg : getList m l with
  | none => simp
  | some L =>
    cases hc : nextChain m L.len L.head with
    | none => simp [hc]
    | some ps =>
      simp only [hc, Bool.and_eq_true, decide_eq_true_eq, List.all_eq_true]
      constructor
      · rintro ⟨⟨⟨⟨⟨⟨⟨h1, h2⟩, h3⟩, h4⟩, h5⟩, h6⟩, h7⟩, h8⟩
        exact ⟨L, ps, rfl, hc, h1, h2, h3, h4, h5, h6, h7, h8⟩
      · rintro ⟨L0, ps0, hL0, hc0, h1, h2, h3, h4, h5, h6, h7, h8⟩
        cases hL0
        rw [hc] at hc0
        cases hc0
        exact ⟨⟨⟨⟨⟨⟨⟨h1, h2⟩, h3⟩, h4⟩, h5⟩, h6⟩, h7⟩, h8⟩

theorem getList_eq_some {m : Mem} {l : Ptr} {L : list} :
    getList m l = some L ↔ l ≠ NULL ∧ m.lists l = some L := by
  unfold getList
  by_cases hl : l = NULL <;> simp [hl]

theorem nextChain_of_listRep {m : Mem} {l : Ptr} {ps : List Ptr} {L : list}
    (h : ListRep m l ps) (hL : m.lists l = some L) :
    nextChain m L.len L.head = some ps := by
  obtain ⟨-, ⟨L0, hL0, hh, -, hlen⟩, -, -, hseg⟩ := (listRep_iff _ _ _).mp h
  rw [hL] at hL0
  cases hL0
  exact (nextChain_spec m _ _ _).mpr ⟨nextseg_of_dllseg hseg, hh.symm, by omega⟩

theorem listNodes_of_listRep {m : Mem} {l : Ptr} {ps : List Ptr} (h : ListRep m l ps) :
    listNodes m l = ps := by
  obtain ⟨hl, ⟨L, hL, -⟩, -⟩ := (listRep_iff _ _ _).mp h
  unfold listNodes
  rw [getList_eq_some.mpr ⟨hl, hL⟩]
  simp [nextChain_of_listRep h hL]

/-- A list with the representation `ps` is well formed in terms of its links. -/
theorem wellLinked_of_listRep {m : Mem} {l : Ptr} {ps : List Ptr} (h : ListRep m l ps) :
    WellLinked m l := by
  obtain ⟨hl, ⟨L, hL, hh, ht, hlen⟩, hnd, hb, hseg⟩ := (listRep_iff _ _ _).mp h
  rw [wellLinked_iff]
  refine ⟨L, ps, getList_eq_some.mpr ⟨hl, hL⟩, nextChain_of_listRep h hL, hlen.symm,
    ?_, ?_, ?_, ?_, ht.symm, dllseg_adjacent hseg hnd, hb⟩
  · rw [hh, ht]
    cases ps with
    | nil => simp
    | cons p ps =>
      have h1 := (dllseg_mem hseg p (by simp)).1
      have h2 := (dllseg_mem hseg _ (lastD_mem (a := p :: ps) (by simp) NULL)).1
      simp only [firstD_cons]
      exact ⟨fun e => absurd e h1, fun e => absurd e h2⟩
  · rw [ht, hlen]
    cases ps with
    | nil => simp
    | cons p ps =>
      have h2 := (dllseg_mem hseg _ (lastD_mem (a := p :: ps) (by simp) NULL)).1
      simp only [List.length_cons]
      exact ⟨fun e => absurd e h2, fun e => by omega⟩
  · intro hne
    rw [hh] at hne ⊢
    cases ps with
    | nil => exact absurd rfl hne
    | cons p ps =>
      obtain ⟨-, nd, hnd1, hp, -⟩ := dllseg_first hseg
      simp [prevAt, hnd1, hp]
  · intro hne
    rw [ht] at hne ⊢
    rcases List.eq_nil_or_concat ps with rfl | ⟨a, x, hax⟩
    · exact absurd rfl hne
    · rw [List.concat_eq_append] at hax
      subst hax
      obtain ⟨-, nd, hnd1, -, hn⟩ := dllseg_last hseg
      simp [lastD_concat, nextAt, hnd1, hn]

/-- A list that is well formed in terms of its links has a representation, its nodes. -/
theorem listRep_of_wellLinked {m : Mem} {l : Ptr} (h : WellLinked m l) :
    ListRep m l (listNodes m l) := by
  obtain ⟨L, ps, hg, hc, h1, h2, h3, h4, h5, h6, h7, h8⟩ := (wellLinked_iff m l).mp h
  obtain ⟨hl, hL⟩ := getList_eq_some.mp hg
  obtain ⟨hseg, hfirst, -⟩ := (nextChain_spec m _ _ _).mp hc
  have hnodes : listNodes m l = ps := by
    unfold listNodes
    rw [hg]
    simp [hc]
  rw [hnodes, listRep_iff]
  refine ⟨hl, ⟨L, hL, hfirst.symm, h6.symm, h1.symm⟩, nextseg_nodup m ps hseg, h8, ?_⟩
  apply dllseg_of_nextseg ps NULL hseg _ h7
  intro hne
  rw [hfirst]
  apply h4
  rw [← hfirst]
  cases ps with
  | nil => exact absurd rfl hne
  | cons p ps => exact hseg.1

theorem wellLinked_iff_listRep (m : Mem) (l : Ptr) :
    WellLinked m l ↔ ∃ ps, ListRep m l ps :=
  ⟨fun h => ⟨_, listRep_of_wellLinked h⟩, fun ⟨_, h⟩ => wellLinked_of_listRep h⟩

/-- What `listEmpty` does on a well-formed list: it returns, the nodes are freed and the
list is the empty list with the same methods; the other lists and nodes are not
touched. -/
theorem listEmpty_spec (m : Mem) (l : Ptr) (cs : List Ptr) (h : ListRep m l cs) :
    ∃ m1 L L1, listEmpty m l = some m1 ∧ ListRep m1 l [] ∧ m.lists l = some L ∧
      m1.lists l = some L1 ∧ L1.dup = L.dup ∧ L1.free = L.free ∧ L1.«match» = L.«match» ∧
      (∀ q, q ≠ l → m1.lists q = m.lists q) ∧
      (∀ q, q ∉ cs → m1.nodes q = m.nodes q) ∧ (∀ q ∈ cs, m1.nodes q = none) := by
  rw [listRep_iff] at h
  obtain ⟨hl, ⟨L, hL, hh, ht, hlen⟩, hnd, hb, hseg⟩ := h
  obtain ⟨m1, hres, hlists, hframe, hdead⟩ := listEmptyLoop_spec l hl cs NULL m hseg hnd ⟨L, hL⟩
  have hL1 : m1.lists l = some L := by rw [hlists]; exact hL
  refine ⟨putList m1 l { L with tail := NULL, head := NULL, len := 0 }, L,
    { L with tail := NULL, head := NULL, len := 0 }, ?_, ?_, hL,
    by simp, rfl, rfl, rfl, ?_, ?_, ?_⟩
  · rw [← hh, ← hlen] at hres
    simp only [listEmpty, getList, hl, hL, hres, setTail, setHead,
      setLen, hL1, if_false, Option.bind_eq_bind, Option.some_bind, Option.map_some',
      lists_putList, if_true, putList_putList_same, Nat.zero_mod]
  · rw [listRep_putList]
    exact ⟨hl, rfl, rfl, rfl, List.nodup_nil, by simp, dllseg_nil _ _ _⟩
  · intro q hq; simp [hq, hlists]
  · intro q hq; simpa using hframe q hq
  · intro q hq; simpa using hdead q hq

/-- C32: list well-formedness is preserved.  The predicate is `WellLinked`: following
`next` from `head` reaches NULL after exactly `len` nodes, the last being `tail`; `head` is
NULL iff `tail` is NULL iff `len` is 0; `head->prev` and `tail->next` are NULL; `a->next = b`
iff `b->prev = a` for nodes of the list.  It holds for the list `listCreate` returns, and on
a list for which it holds every one of `listAddNodeHead`, `listAddNodeTail`,
`listInsertNode` (at a node of the list), `listDelNode` (of a node of the list),
`listRotate`, `listEmpty` and `listJoin` (with another such list at a different address
that owns other nodes; for both lists) returns and leaves it holding.  The node the
allocator returns is fresh, or NULL, in which case nothing changes. -/
theorem C32_wellformedness_preserved (m : Mem) (l : Ptr) (h : WellLinked m l) :
    (∀ p, p ≠ NULL → (listCreate m p).2 = p ∧ WellLinked (listCreate m p).1 p) ∧
    (∀ v node, node = NULL ∨ (m.nodes node = none ∧ node < WORD) →
      (∃ m1 r, listAddNodeHead m l v node = some (m1, r) ∧ WellLinked m1 l) ∧
      (∃ m1 r, listAddNodeTail m l v node = some (m1, r) ∧ WellLinked m1 l) ∧
      (∀ old after, old ∈ listNodes m l →
        ∃ m1 r, listInsertNode m l old v after node = some (m1, r) ∧ WellLinked m1 l)) ∧
    (∀ node, node ∈ listNodes m l → ∃ m1, listDelNode m l node = some m1 ∧ WellLinked m1 l) ∧
    (∃ m1, listRotate m l = some m1 ∧ WellLinked m1 l) ∧
    (∃ m1, listEmpty m l = some m1 ∧ WellLinked m1 l) ∧
    (∀ o, WellLinked m o → l ≠ o → (∀ q ∈ listNodes m l, q ∉ listNodes m o) →
      ∃ m1, listJoin m l o = some m1 ∧ WellLinked m1 l ∧ WellLinked m1 o) := by
  have hrep := listRep_of_wellLinked h
  refine ⟨?_, ?_, ?_, ?_, ?_, ?_⟩
  · intro p hp
    have hc : listCreate m p = (putList m p ⟨NULL, NULL, NULL, NULL, NULL, 0⟩, p) := by
      simp [listCreate, hp]
    rw [hc]
    refine ⟨rfl, @wellLinked_of_listRep _ _ [] ?_⟩
    rw [listRep_putList]
    exact ⟨hp, rfl, rfl, rfl, List.nodup_nil, by simp, dllseg_nil _ _ _⟩
  · intro v node hnode
    rcases hnode with rfl | ⟨hfresh, hw⟩
    · refine ⟨⟨m, NULL, by simp [listAddNodeHead], h⟩, ⟨m, NULL, by simp [listAddNodeTail], h⟩,
        ?_⟩
      intro old after _
      exact ⟨m, NULL, by simp [listInsertNode], h⟩
    · by_cases hn : node = NULL
      · subst hn
        refine ⟨⟨m, NULL, by simp [listAddNodeHead], h⟩,
          ⟨m, NULL, by simp [listAddNodeTail], h⟩, ?_⟩
        intro old after _
        exact ⟨m, NULL, by simp [listInsertNode], h⟩
      · refine ⟨?_, ?_, ?_⟩
        · obtain ⟨m1, -, -, h1, h2, -⟩ :=
            listAddNodeHead_spec m l (listNodes m l) v node hrep hn hfresh hw
          exact ⟨m1, l, h1, wellLinked_of_listRep h2⟩
        · obtain ⟨m1, -, -, h1, h2, -⟩ :=
            listAddNodeTail_spec m l (listNodes m l) v node hrep hn hfresh hw
          exact ⟨m1, l, h1, wellLinked_of_listRep h2⟩
        · intro old after hold
          obtain ⟨a, b, hab⟩ := List.append_of_mem hold
          rw [hab] at hrep
          by_cases ha : after = 0
          · subst ha
            obtain ⟨m1, -, -, h1, h2, -⟩ :=
              listInsertNode_before_spec m l a b old v node hrep hn hfresh hw
            exact ⟨m1, l, h1, wellLinked_of_listRep h2⟩
          · obtain ⟨m1, -, -, h1, h2, -⟩ :=
              listInsertNode_after_spec m l a b old v node after hrep ha hn hfresh hw
            exact ⟨m1, l, h1, wellLinked_of_listRep h2⟩
  · intro node hnode
    obtain ⟨a, b, hab⟩ := List.append_of_mem hnode
    rw [hab] at hrep
    obtain ⟨m1, -, -, h1, h2, -⟩ := listDelNode_spec m l a b node hrep
    exact ⟨m1, h1, wellLinked_of_listRep h2⟩
  · rcases List.eq_nil_or_concat (listNodes m l) with hnil | ⟨a, z, haz⟩
    · rw [hnil] at hrep
      obtain ⟨hl, ⟨L, hL, -, -, hlen⟩, -⟩ := (listRep_iff _ _ _).mp hrep
      have : L.len ≤ 1 := by rw [hlen]; simp
      exact ⟨m, by simp [listRotate, getList, hl, hL, this], h⟩
    · rw [List.concat_eq_append] at haz
      rw [haz] at hrep
      by_cases hne : a = []
      · obtain ⟨hl, ⟨L, hL, -, -, hlen⟩, -⟩ := (listRep_iff _ _ _).mp hrep
        have : L.len ≤ 1 := by rw [hlen, hne]; simp
        exact ⟨m, by simp [listRotate, getList, hl, hL, this], h⟩
      · obtain ⟨m1, -, -, h1, h2, -⟩ := listRotate_spec m l a z hrep hne
        exact ⟨m1, h1, wellLinked_of_listRep h2⟩
  · obtain ⟨m1, -, -, h1, h2, -⟩ := listEmpty_spec m l (listNodes m l) hrep
    exact ⟨m1, h1, wellLinked_of_listRep h2⟩
  · intro o ho hlo hdisj
    obtain ⟨m1, -, -, -, -, h1, h2, h3, -⟩ :=
      listJoin_spec m l o (listNodes m l) (listNodes m o) hrep (listRep_of_wellLinked ho) hlo
        hdisj
    exact ⟨m1, h1, wellLinked_of_listRep h2, wellLinked_of_listRep h3⟩

theorem C32_wellformedness_preserved_witness :
    (WellLinked heap5 100 ∧ WellLinked heap5 200 ∧ (20 : Ptr) ∈ listNodes heap5 100) ∧
    (∃ m1, listDelNode heap5 100 20 = some m1 ∧ WellLinked m1 100) ∧
    (∃ m1, listRotate heap5 100 = some m1 ∧ WellLinked m1 100) ∧
    (∃ m1, listJoin heap5 100 200 = some m1 ∧ WellLinked m1 100 ∧ WellLinked m1 200) :=
  ⟨by decide,
    (C32_wellformedness_preserved heap5 100 (by decide)).2.2.1 20 (by decide),
    (C32_wellformedness_preserved heap5 100 (by decide)).2.2.2.1,
    (C32_wellformedness_preserved heap5 100 (by decide)).2.2.2.2.2 200 (by decide) (by decide)
      (by decide)⟩

/-- A list whose first node has a `prev` that is not NULL is not well formed in terms of
its links, and neither is a list whose `len` is not the number of its nodes. -/
theorem wellLinked_examples :
    WellLinked heap3 100 ∧ listNodes heap3 100 = [10, 20, 30] ∧
    ¬ WellLinked (putNode heap3 10 ⟨30, 20, 1⟩) 100 ∧
    ¬ WellLinked (putList heap3 100 ⟨10, 30, 7, 8, 9, 2⟩) 100 := by
  decide

end Adlist

namespace Dict

/-! ## The type-descriptor macros of the dictionary -/

/-- C23: type-descriptor fallback to identity.  For every dict `d`: with no `keyCompare`
slot `dictCompareKeys` is non-zero exactly when the two keys are the same pointer; with no
`keyDup` (`valDup`) slot `dictSetKey` (`dictSetVal`) stores the pointer given; with no
`keyDestructor` (`valDestructor`) slot `dictFreeKey` (`dictFreeVal`) calls nothing.  With
the slot present each macro uses that slot's function, called with `d->privdata`, and its
result; the fields of the entry not assigned are kept. -/
theorem C23_type_descriptor_fallback (cb : Callbacks) (d : dict) (entry : dictEntry)
    (k1 k2 : Adlist.Ptr) :
    (d.type.keyCompare = Adlist.NULL → (dictCompareKeys cb d k1 k2 ≠ 0 ↔ k1 = k2)) ∧
    (d.type.keyCompare ≠ Adlist.NULL →
      dictCompareKeys cb d k1 k2 = cb.compare d.type.keyCompare d.privdata k1 k2) ∧
    (d.type.keyDup = Adlist.NULL → dictSetKey cb d entry k1 = { entry with key := k1 }) ∧
    (d.type.keyDup ≠ Adlist.NULL →
      dictSetKey cb d entry k1 = { entry with key := cb.dup d.type.keyDup d.privdata k1 }) ∧
    (d.type.valDup = Adlist.NULL → dictSetVal cb d entry k1 = { entry with val := k1 }) ∧
    (d.type.valDup ≠ Adlist.NULL →
      dictSetVal cb d entry k1 = { entry with val := cb.dup d.type.valDup d.privdata k1 }) ∧
    (d.type.keyDestructor = Adlist.NULL → dictFreeKey d entry = []) ∧
    (d.type.keyDestructor ≠ Adlist.NULL →
      dictFreeKey d entry = [⟨d.type.keyDestructor, d.privdata, entry.key⟩]) ∧
    (d.type.valDestructor = Adlist.NULL → dictFreeVal d entry = []) ∧
    (d.type.valDestructor ≠ Adlist.NULL →
      dictFreeVal d entry = [⟨d.type.valDestructor, d.privdata, entry.val⟩]) := by
  refine ⟨?_, ?_, ?_, ?_, ?_, ?_, ?_, ?_, ?_, ?_⟩
  · intro h
    unfold dictCompareKeys
    rw [if_neg (not_not.mpr h)]
    by_cases hk : k1 = k2
    · simp [hk]
    · simp [hk]
  · intro h; unfold dictCompareKeys; rw [if_pos h]
  · intro h; unfold dictSetKey; rw [if_neg (not_not.mpr h)]
  · intro h; unfold dictSetKey; rw [if_pos h]
  · intro h; unfold dictSetVal; rw [if_neg (not_not.mpr h)]
  · intro h; unfold dictSetVal; rw [if_pos h]
  · intro h; unfold dictFreeKey; rw [if_neg (not_not.mpr h)]
  · intro h; unfold dictFreeKey; rw [if_pos h]
  · intro h; unfold dictFreeVal; rw [if_neg (not_not.mpr h)]
  · intro h; unfold dictFreeVal; rw [if_pos h]

theorem C23_type_descriptor_fallback_witness :
    (dictCompareKeys exampleCallbacks exampleDict 13 23 =
        exampleCallbacks.compare exampleDict.type.keyCompare exampleDict.privdata 13 23 ∧
      dictSetKey exampleCallbacks exampleDict ⟨7, 8, 9⟩ 13 =
        { (⟨7, 8, 9⟩ : dictEntry) with
          key := exampleCallbacks.dup exampleDict.type.keyDup exampleDict.privdata 13 } ∧
      dictFreeVal exampleDict ⟨7, 8, 9⟩ =
        [⟨exampleDict.type.valDestructor, exampleDict.privdata, (⟨7, 8, 9⟩ : dictEntry).val⟩]) ∧
    (dictCompareKeys exampleCallbacks { exampleDict with type := ⟨1, 0, 0, 0, 0, 0⟩ } 13 23 ≠ 0 ↔
      (13 : Adlist.Ptr) = 23) ∧
    dictSetVal exampleCallbacks { exampleDict with type := ⟨1, 0, 0, 0, 0, 0⟩ } ⟨7, 8, 9⟩ 13 =
      { (⟨7, 8, 9⟩ : dictEntry) with val := 13 } ∧
    dictFreeKey { exampleDict with type := ⟨1, 0, 0, 0, 0, 0⟩ } ⟨7, 8, 9⟩ = [] :=
  ⟨⟨(C23_type_descriptor_fallback exampleCallbacks exampleDict ⟨7, 8, 9⟩ 13 23).2.1 (by decide),
    (C23_type_descriptor_fallback exampleCallbacks exampleDict ⟨7, 8, 9⟩ 13 23).2.2.2.1
      (by decide),
    (C23_type_descriptor_fallback exampleCallbacks exampleDict ⟨7, 8, 9⟩ 13 23).2.2.2.2.2.2.2.2.2
      (by decide)⟩,
   (C23_type_descriptor_fallback exampleCallbacks
      { exampleDict with type := ⟨1, 0, 0, 0, 0, 0⟩ } ⟨7, 8, 9⟩ 13 23).1 (by decide),
   (C23_type_descriptor_fallback exampleCallbacks
      { exampleDict with type := ⟨1, 0, 0, 0, 0, 0⟩ } ⟨7, 8, 9⟩ 13 23).2.2.2.2.1 (by decide),
   (C23_type_descriptor_fallback exampleCallbacks
      { exampleDict with type := ⟨1, 0, 0, 0, 0, 0⟩ } ⟨7, 8, 9⟩ 13 23).2.2.2.2.2.2.1
      (by decide)⟩

end Dict
